import Mathlib

/-! RAJA hybrid index sets: a verification development.

Shallow embedding of `IndexSet`, `RangeISet`, `ListISet`, `buildIndexSet`
(app/raja/sources, app/raja/includes) and of the LULESH lock-free partition
generators (app/raja/test/LULESH).

Conventions of the embedding:
* `Index_type` and `int` values are integers (`Int`). The lane loops of the
  geometric partitioner, which multiply a dimension by a loop counter, compute
  in 32-bit two's-complement `int` arithmetic (`wrapInt`); elsewhere the
  arithmetic is exact (`Index_type` is declared in a header that is not part
  of the sources at hand).
* `%` and `/` of the source are the truncating `Int.tmod` and `Int.tdiv`.
* An array argument is the list of the values it holds; `rd a i` reads `a[i]`.
* The configuration constants `RANGE_ALIGN` and `RANGE_MIN_LENGTH`
  (`config.hxx`, not part of the sources at hand) are parameters.
-/

set_option autoImplicit false

namespace RAJA

/-! ## Data model -/

/-- Ownership mode of the index data of a segment. -/
inductive IndexOwnership where
  | Unowned
  | Owned
  deriving DecidableEq, Repr

/-- Type tag of a segment of a hybrid index set. -/
inductive SegmentType where
  | _Range_
  | _List_
  | _Unknown_
  deriving DecidableEq, Repr

/-- Array read `a[i]`. -/
def rd (a : List Int) (i : Nat) : Int := a.getD i 0

/-- Class `RangeISet`: the contiguous range `[m_begin, m_end)`. -/
structure RangeISet where
  m_begin : Int
  m_end : Int
  deriving DecidableEq, Repr

namespace RangeISet

/-- `RangeISet::getBegin`. -/
def getBegin (r : RangeISet) : Int := r.m_begin

/-- `RangeISet::getEnd`. -/
def getEnd (r : RangeISet) : Int := r.m_end

/-- `RangeISet::getLength`: `m_end - m_begin`. -/
def getLength (r : RangeISet) : Int := r.m_end - r.m_begin

/-- `RangeISet::indexOwnership`: always `Owned`. -/
def indexOwnership (_r : RangeISet) : IndexOwnership := IndexOwnership.Owned

end RangeISet

/-- Class `ListISet`. `m_indx` is the index buffer the object points to
(`none` is the null pointer); `m_len` the number of indices. -/
structure ListISet where
  m_indx : Option (List Int)
  m_len : Int
  m_indx_own : IndexOwnership
  deriving DecidableEq, Repr

namespace ListISet

/-- `ListISet::initIndexData`. With `len <= 0` the object is empty, null and
`Unowned`. Otherwise an `Owned` object holds a copy of the first `len` values
of the buffer and an `Unowned` one holds the caller's buffer itself. -/
def initIndexData (indx : List Int) (len : Int) (indx_own : IndexOwnership) : ListISet :=
  if len ≤ 0 then
    { m_indx := none, m_len := 0, m_indx_own := IndexOwnership.Unowned }
  else if indx_own = IndexOwnership.Owned then
    { m_indx := some (indx.take len.toNat), m_len := len, m_indx_own := indx_own }
  else
    { m_indx := some indx, m_len := len, m_indx_own := indx_own }

/-- Constructor `ListISet(indx, len, indx_own)`. -/
def mk3 (indx : List Int) (len : Int) (indx_own : IndexOwnership) : ListISet :=
  initIndexData indx len indx_own

/-- `ListISet::getLength`. -/
def getLength (l : ListISet) : Int := l.m_len

/-- `ListISet::getIndex`. -/
def getIndex (l : ListISet) : Option (List Int) := l.m_indx

/-- `ListISet::indexOwnership`. -/
def indexOwnership (l : ListISet) : IndexOwnership := l.m_indx_own

end ListISet

/-- The `const void* m_iset` payload of a segment: null, or a pointer to a
`RangeISet` or to a `ListISet` object. -/
inductive ISetPtr where
  | null
  | range (r : RangeISet)
  | list (l : ListISet)
  deriving DecidableEq, Repr

/-- Nested class `IndexSet::Segment`. `semaphore_value` is the integer stored
in `*semaphore_slot`; `semaphore_notify` holds the four notify slots. -/
structure Segment where
  m_type : SegmentType
  m_iset : ISetPtr
  m_indx_own : IndexOwnership
  num_semaphore_notify : Int
  semaphore_reload : Int
  semaphore_value : Int
  semaphore_notify : List Int
  deriving DecidableEq, Repr

namespace Segment

/-- Constructor `Segment(type, iset)` for a `RangeISet` payload. -/
def ofRange (type : SegmentType) (iset : RangeISet) : Segment :=
  { m_type := type, m_iset := ISetPtr.range iset, m_indx_own := iset.indexOwnership,
    num_semaphore_notify := 0, semaphore_reload := 0, semaphore_value := 0,
    semaphore_notify := [0, 0, 0, 0] }

/-- Constructor `Segment(type, iset)` for a `ListISet` payload. -/
def ofList (type : SegmentType) (iset : ListISet) : Segment :=
  { m_type := type, m_iset := ISetPtr.list iset, m_indx_own := iset.indexOwnership,
    num_semaphore_notify := 0, semaphore_reload := 0, semaphore_value := 0,
    semaphore_notify := [0, 0, 0, 0] }

/-- The payload's own `getLength()`. -/
def getLength (s : Segment) : Int :=
  match s.m_iset with
  | ISetPtr.null => 0
  | ISetPtr.range r => r.getLength
  | ISetPtr.list l => l.getLength

end Segment

/-- Class `IndexSet`: running length and ordered segments. -/
structure IndexSet where
  m_len : Int
  m_segments : List Segment
  deriving DecidableEq, Repr

namespace IndexSet

/-- Default constructor `IndexSet()`. -/
def empty : IndexSet := { m_len := 0, m_segments := [] }

/-- `IndexSet::getLength`. -/
def getLength (s : IndexSet) : Int := s.m_len

/-- `IndexSet::getNumSegments`. -/
def getNumSegments (s : IndexSet) : Int := (s.m_segments.length : Int)

/-- `IndexSet::addSegment` instantiated at `RangeISet`. -/
def addSegmentRange (s : IndexSet) (seg_type : SegmentType) (seg : RangeISet) : IndexSet :=
  { m_len := s.m_len + seg.getLength,
    m_segments := s.m_segments ++ [Segment.ofRange seg_type seg] }

/-- `IndexSet::addSegment` instantiated at `ListISet`. -/
def addSegmentList (s : IndexSet) (seg_type : SegmentType) (seg : ListISet) : IndexSet :=
  { m_len := s.m_len + seg.getLength,
    m_segments := s.m_segments ++ [Segment.ofList seg_type seg] }

/-- `IndexSet::addRange(begin, end)`. -/
def addRange (s : IndexSet) (begin_ end_ : Int) : IndexSet :=
  s.addSegmentRange SegmentType._Range_ { m_begin := begin_, m_end := end_ }

/-- `IndexSet::addISet(const RangeISet&)`. -/
def addISetRange (s : IndexSet) (iset : RangeISet) : IndexSet :=
  s.addSegmentRange SegmentType._Range_ { m_begin := iset.m_begin, m_end := iset.m_end }

/-- `IndexSet::addList(indx, len, indx_own)`. -/
def addList (s : IndexSet) (indx : List Int) (len : Int)
    (indx_own : IndexOwnership) : IndexSet :=
  s.addSegmentList SegmentType._List_ (ListISet.mk3 indx len indx_own)

/-- `IndexSet::addISet(const ListISet&, indx_own)`; a null index pointer is
passed on as an empty buffer (the length is then 0 and nothing is read). -/
def addISetList (s : IndexSet) (iset : ListISet) (indx_own : IndexOwnership) : IndexSet :=
  s.addSegmentList SegmentType._List_
    (ListISet.mk3 (iset.getIndex.getD []) iset.getLength indx_own)

end IndexSet

/-! ## Sequential traversal (`forall_seq_any.hxx`) -/

/-- `forall(seq_exec, begin, end, body)`: the indices visited, in order. -/
def forallRange (begin_ end_ : Int) : List Int :=
  (List.range (end_ - begin_).toNat).map (fun (k : Nat) => begin_ + (k : Int))

/-- `forall(seq_exec, const ListISet&, body)`: visits `idx[k]` for `k < len`. -/
def forallList (is : ListISet) : List Int :=
  (List.range is.getLength.toNat).map (fun (k : Nat) => rd (is.getIndex.getD []) k)

/-- One iteration of the segment loop of
`forall(IndexSet::ExecPolicy<seq_segit, _>, is, body)`. -/
def forallSegment (seg : Segment) : List Int :=
  match seg.m_type, seg.m_iset with
  | SegmentType._Range_, ISetPtr.range r => forallRange r.getBegin r.getEnd
  | SegmentType._List_, ISetPtr.list l => forallList l
  | _, _ => []

/-- `forall(IndexSet::ExecPolicy<seq_segit, _>, is, body)`: the indices the
loop body is called with, in order. -/
def forallIndexSet (is : IndexSet) : List Int :=
  is.m_segments.flatMap forallSegment

/-! ## Segment builder (`buildIndexSet`, IndexSet.cxx) -/

/-- The loop `for (ii = lo; ii < lo + n; ++ii) body`, threading the state. -/
def forLoop {σ : Type} (body : Nat → σ → σ) : Nat → Nat → σ → σ
  | 0, _, st => st
  | n + 1, ii, st => forLoop body n (ii + 1) (body ii st)

/-- Local variables of the statistics scan of `buildIndexSet`. -/
structure StatState where
  docount : Int
  inrange : Int
  scanVal : Int
  sliceCount : Int
  deriving DecidableEq, Repr

/-- Body of the statistics loop (IndexSet.cxx, lines 275-318). -/
def statBody (RANGE_ALIGN : Int) (indices_in : List Int) (ii : Nat)
    (st : StatState) : StatState :=
  let lookAhead := rd indices_in ii
  let st1 : StatState :=
    if st.inrange = -1 then
      if lookAhead = st.scanVal + 1 ∧ st.scanVal.tmod RANGE_ALIGN = 0 then
        { st with inrange := 1 }
      else
        { st with inrange := 0 }
    else st
  let st2 : StatState :=
    if lookAhead = st1.scanVal + 1 then
      let st3 : StatState :=
        if st1.inrange = 0 ∧ st1.scanVal.tmod RANGE_ALIGN = 0 then
          let st4 : StatState :=
            if st1.sliceCount ≠ 0 then
              { st1 with docount := st1.docount + (1 + st1.sliceCount) }
            else st1
          { st4 with inrange := 1, sliceCount := 0 }
        else st1
      { st3 with sliceCount := st3.sliceCount + 1 }
    else
      if st1.inrange = 1 then
        { st1 with docount := st1.docount + 2, inrange := 0, sliceCount := 0 }
      else
        { st1 with sliceCount := st1.sliceCount + 1 }
  { st2 with scanVal := lookAhead }

/-- Statements after the statistics loop (lines 320-334): the final value of
`docount`. -/
def statFinish (st : StatState) : Int :=
  let docount :=
    if st.inrange ≠ -1 then
      if st.inrange ≠ 0 then st.docount + 2
      else st.docount + (1 + (st.sliceCount + 1))
    else if st.scanVal ≠ -1 then st.docount + 2
    else st.docount
  docount + 1

/-- The statistics scan (lines 266-334): the value of `docount` that is
compared with the cutoff. -/
def statScan (RANGE_ALIGN : Int) (indices_in : List Int) (length : Int) : Int :=
  statFinish
    (forLoop (statBody RANGE_ALIGN indices_in) (length - 1).toNat 1
      { docount := 0, inrange := -1, scanVal := rd indices_in 0, sliceCount := 0 })

/-- Local variables of the emission scan of `buildIndexSet`, with the index
set being appended to. -/
structure EmitState where
  hiset : IndexSet
  inrange : Int
  scanVal : Int
  sliceCount : Int
  dobegin : Int
  deriving DecidableEq, Repr

/-- Body of the emission loop (IndexSet.cxx, lines 354-401). -/
def emitBody (RANGE_ALIGN : Int) (indices_in : List Int) (ii : Nat)
    (st : EmitState) : EmitState :=
  let lookAhead := rd indices_in ii
  let st1 : EmitState :=
    if st.inrange = -1 then
      if lookAhead = st.scanVal + 1 ∧ st.scanVal.tmod RANGE_ALIGN = 0 then
        { st with inrange := 1 }
      else
        { st with inrange := 0, dobegin := (ii : Int) - 1 }
    else st
  let st2 : EmitState :=
    if lookAhead = st1.scanVal + 1 then
      let st3 : EmitState :=
        if st1.inrange = 0 ∧ st1.scanVal.tmod RANGE_ALIGN = 0 then
          let st4 : EmitState :=
            if st1.sliceCount ≠ 0 then
              { st1 with hiset := st1.hiset.addList (indices_in.drop st1.dobegin.toNat)
                                    st1.sliceCount IndexOwnership.Owned }
            else st1
          { st4 with inrange := 1, dobegin := st4.scanVal, sliceCount := 0 }
        else st1
      { st3 with sliceCount := st3.sliceCount + 1 }
    else
      if st1.inrange = 1 then
        { st1 with hiset := st1.hiset.addRange st1.dobegin (st1.dobegin + (st1.sliceCount + 1)),
                   inrange := 0, sliceCount := 0, dobegin := (ii : Int) }
      else
        { st1 with sliceCount := st1.sliceCount + 1 }
  { st2 with scanVal := lookAhead }

/-- Statements after the emission loop (lines 403-415). -/
def emitFinish (indices_in : List Int) (st : EmitState) : IndexSet :=
  if st.inrange ≠ -1 then
    if st.inrange ≠ 0 then
      st.hiset.addRange st.dobegin (st.dobegin + (st.sliceCount + 1))
    else
      st.hiset.addList (indices_in.drop st.dobegin.toNat) (st.sliceCount + 1)
        IndexOwnership.Owned
  else if st.scanVal ≠ -1 then
    st.hiset.addList [st.scanVal] 1 IndexOwnership.Owned
  else st.hiset

/-- The emission scan (lines 348-415). -/
def emitScan (RANGE_ALIGN : Int) (hiset : IndexSet) (indices_in : List Int)
    (length : Int) : IndexSet :=
  emitFinish indices_in
    (forLoop (emitBody RANGE_ALIGN indices_in) (length - 1).toNat 1
      { hiset := hiset, inrange := -1, scanVal := rd indices_in 0, sliceCount := 0,
        dobegin := rd indices_in 0 })

/-- `buildIndexSet(hiset, indices_in, length)`. -/
def buildIndexSet (RANGE_ALIGN RANGE_MIN_LENGTH : Int) (hiset : IndexSet)
    (indices_in : List Int) (length : Int) : IndexSet :=
  if length = 0 then hiset
  else if length > RANGE_MIN_LENGTH then
    if statScan RANGE_ALIGN indices_in length
        < (length * (RANGE_ALIGN - 1)).tdiv RANGE_ALIGN then
      emitScan RANGE_ALIGN hiset indices_in length
    else
      hiset.addList indices_in length IndexOwnership.Owned
  else
    hiset.addList indices_in length IndexOwnership.Owned


/-! ## Sequences of add operations -/

/-- One call that appends a segment to a hybrid index set. -/
inductive AddOp where
  | addRange (begin_ end_ : Int)
  | addISetRange (iset : RangeISet)
  | addList (indx : List Int) (len : Int) (indx_own : IndexOwnership)
  | addISetList (iset : ListISet) (indx_own : IndexOwnership)

/-- Effect of one add call. -/
def AddOp.apply (s : IndexSet) : AddOp → IndexSet
  | AddOp.addRange b e => s.addRange b e
  | AddOp.addISetRange iset => s.addISetRange iset
  | AddOp.addList indx len own => s.addList indx len own
  | AddOp.addISetList iset own => s.addISetList iset own

/-- The index set reached from the default-constructed one by a sequence of
add calls. -/
def runOps (ops : List AddOp) : IndexSet :=
  ops.foldl AddOp.apply IndexSet.empty

/-- Sum over all segments, in order, of the segment's own `getLength()`. -/
def segLengthSum (s : IndexSet) : Int :=
  (s.m_segments.map Segment.getLength).sum

/-! ## Invariants of the segment builder -/

/-- Invariant of the emission loop before iteration `ii`: what has been
appended, followed by the pending run, is the input read so far. -/
def EmitInv (A pre : List Int) (ii : Nat) (st : EmitState) : Prop :=
  1 ≤ ii ∧ ii ≤ A.length ∧ st.scanVal = rd A (ii - 1) ∧
  ((st.inrange = -1 ∧ ii = 1 ∧ st.sliceCount = 0 ∧ st.dobegin = st.scanVal
      ∧ forallIndexSet st.hiset = pre)
   ∨ (st.inrange = 0 ∧ 0 ≤ st.dobegin ∧ 0 ≤ st.sliceCount
      ∧ st.dobegin + st.sliceCount = (ii : Int) - 1
      ∧ forallIndexSet st.hiset = pre ++ A.take st.dobegin.toNat)
   ∨ (st.inrange = 1 ∧ 1 ≤ st.sliceCount ∧ st.scanVal = st.dobegin + st.sliceCount
      ∧ forallIndexSet st.hiset ++ forallRange st.dobegin (st.dobegin + st.sliceCount)
          = pre ++ A.take (ii - 1)))

/-- Two emission states that differ only in the segments present before the
scan started. -/
def FrameRel (h0 : IndexSet) (e e' : EmitState) : Prop :=
  e.hiset.m_segments = h0.m_segments ++ e'.hiset.m_segments
  ∧ e.inrange = e'.inrange ∧ e.scanVal = e'.scanVal ∧ e.sliceCount = e'.sliceCount
  ∧ e.dobegin = e'.dobegin

/-- Number of Range segments of an index set. -/
def numRangeSegments (h : IndexSet) : Int :=
  ((h.m_segments.filter (fun s => decide (s.m_type = SegmentType._Range_))).length : Int)

/-- Sum over the List segments of `1 + length of the list`. -/
def listCostSum (h : IndexSet) : Int :=
  ((h.m_segments.filter (fun s => decide (s.m_type = SegmentType._List_))).map
    (fun s => 1 + s.getLength)).sum

/-- Cost of an encoding: `1 + 2 * (number of Range segments) + sum over List
segments of (1 + list length)`. -/
def encodingCost (h : IndexSet) : Int :=
  1 + 2 * numRangeSegments h + listCostSum h

/-- The statistics scan and the emission scan run in lockstep: same scan
variables, and `docount` is the cost of what has been emitted. -/
def CostRel (s : StatState) (e : EmitState) : Prop :=
  s.inrange = e.inrange ∧ s.scanVal = e.scanVal ∧ s.sliceCount = e.sliceCount
  ∧ 0 ≤ s.sliceCount ∧ s.docount + 1 = encodingCost e.hiset

/-- A value at which the emission scan may start a Range: it is divisible by
`RANGE_ALIGN` and is an element of the input whose successor in the input is
the next integer. -/
def GoodStart (al : Int) (A : List Int) (n : Int) (b : Int) : Prop :=
  b.tmod al = 0 ∧ ∃ i : Nat, (i : Int) + 1 < n ∧ rd A i = b ∧ rd A (i + 1) = b + 1

/-- Every Range segment of the index set starts at a `GoodStart` value. -/
def RangesAligned (al : Int) (A : List Int) (n : Int) (h : IndexSet) : Prop :=
  ∀ seg ∈ h.m_segments, ∀ r : RangeISet, seg.m_iset = ISetPtr.range r →
    GoodStart al A n r.m_begin

/-- Invariant of the emission loop used for the alignment rule. -/
def AlignInv (al : Int) (A : List Int) (n : Int) (ii : Nat) (st : EmitState) : Prop :=
  1 ≤ ii ∧ st.scanVal = rd A (ii - 1)
  ∧ (st.inrange = -1 ∨ st.inrange = 0 ∨ st.inrange = 1)
  ∧ (st.inrange = -1 → st.dobegin = st.scanVal)
  ∧ (st.inrange = 1 → GoodStart al A n st.dobegin)
  ∧ RangesAligned al A n st.hiset

/-- A 14-element input: the misaligned ascending run 2..13 between 100 and 200. -/
def sampleInput : List Int := [100, 2, 3, 4, 5, 6, 7, 8, 9, 10, 11, 12, 13, 200]

/-! ## Geometric partitioner (`CreateLockFreeBlockIndexset`, LockFree.cxx)

The dimensions, the worker count and every local of the function are `int`s.
The lane loops, which multiply a dimension by a loop counter, compute in `int`
arithmetic: `wrapInt` gives the value of a product, sum or difference whose
exact value leaves the range of `int`. The branch tests and the single-Range
cases multiply the dimensions (or the worker count by 2 or 3) once; these
products are written exactly, and `BlockProductsFit` bounds them where a
statement depends on them being the `int` values. -/

/-- How a generator returns: normally, or through `exit(-1)`; either way with
the index set as it is at that point. -/
inductive Outcome where
  | done (retVal : IndexSet)
  | exited (retVal : IndexSet)
  deriving DecidableEq, Repr

/-- Applies `f` to element `i` of a list (no effect when `i` is out of bounds). -/
def modifyAt {α : Type} (f : α → α) : Nat → List α → List α
  | _, [] => []
  | 0, x :: xs => f x :: xs
  | i + 1, x :: xs => x :: modifyAt f i xs

/-- Assignment through the reference `segmentSemaphoreValue(i)`. -/
def IndexSet.setSemaphoreValue (s : IndexSet) (i : Int) (v : Int) : IndexSet :=
  { s with m_segments :=
      modifyAt (fun seg => { seg with semaphore_value := v }) i.toNat s.m_segments }

/-- Assignment through the reference `segmentSemaphoreReloadValue(i)`. -/
def IndexSet.setSemaphoreReloadValue (s : IndexSet) (i : Int) (v : Int) : IndexSet :=
  { s with m_segments :=
      modifyAt (fun seg => { seg with semaphore_reload := v }) i.toNat s.m_segments }

/-- Assignment through the reference `segmentSemaphoreNumDepTasks(i)`. -/
def IndexSet.setSemaphoreNumDepTasks (s : IndexSet) (i : Int) (v : Int) : IndexSet :=
  { s with m_segments :=
      modifyAt (fun seg => { seg with num_semaphore_notify := v }) i.toNat s.m_segments }

/-- Assignment through the reference `segmentSemaphoreDepTask(i, t)`. -/
def IndexSet.setSemaphoreDepTask (s : IndexSet) (i : Int) (t : Nat) (v : Int) : IndexSet :=
  let upd : Segment → Segment :=
    fun seg => { seg with semaphore_notify := List.set seg.semaphore_notify t v }
  { s with m_segments := modifyAt upd i.toNat s.m_segments }

/-- `INT_MAX` of the 32-bit `int` in which LockFree.cxx computes. -/
def INT_MAX : Int := 2147483647

/-- The value an `int` expression takes when its exact value is `x`: the
32-bit two's-complement representative of `x`, that is `x` itself when `x`
lies in `[-2^31, 2^31)` and otherwise the number of that interval that differs
from `x` by a multiple of `2^32`. -/
def wrapInt (x : Int) : Int :=
  let r := (x % 4294967296).toNat
  if r < 2147483648 then (r : Int) else (r : Int) - 4294967296

/-- The loop `for (int i = lo; i < hi; i += step) body` with the `int`
addition `i += step`; `fuel` bounds the number of iterations. -/
def forStep {σ : Type} (body : Int → σ → σ) (step hi : Int) : Nat → Int → σ → σ
  | 0, _, st => st
  | fuel + 1, i, st =>
    if i < hi then forStep body step hi fuel (wrapInt (i + step)) (body i st) else st

/-- `PROFITABLE_ENTITY_THRESHOLD` of LockFree.cxx. -/
def PROFITABLE_ENTITY_THRESHOLD : Int := 100

/-- The local constant `segmentsPerThread` of the 3-D branch. -/
def segmentsPerThread : Int := 2

/-- 1-D branch, partitioned case (LockFree.cxx, lines 74-83). Every product
and sum is an `int` operation of the source. -/
def blockLanes1D (numThreads fastDim : Int) (retVal : IndexSet) : IndexSet :=
  let numSegments := wrapInt (numThreads * 3)
  forLoop (fun lane rv =>
    forStep (fun i rv1 =>
        let start := (wrapInt (i * fastDim)).tdiv numSegments
        let end_ := (wrapInt (wrapInt (i + 1) * fastDim)).tdiv numSegments
        rv1.addRange start end_)
      3 numSegments numSegments.toNat (lane : Int) rv)
    3 0 retVal

/-- 2-D branch, partitioned case (lines 101-117). -/
def blockLanes2D (numThreads fastDim midDim : Int) (retVal : IndexSet) : IndexSet :=
  forLoop (fun lane rv =>
    forLoop (fun i rv1 =>
        let startRow := (wrapInt ((i : Int) * midDim)).tdiv numThreads
        let endRow := (wrapInt (wrapInt ((i : Int) + 1) * midDim)).tdiv numThreads
        let start := wrapInt (startRow * fastDim)
        let end_ := wrapInt (endRow * fastDim)
        let len := wrapInt (end_ - start)
        rv1.addRange (wrapInt (start + (wrapInt ((lane : Int) * len)).tdiv 3))
          (wrapInt (start + (wrapInt (wrapInt ((lane : Int) + 1) * len)).tdiv 3)))
      numThreads.toNat 0 rv)
    3 0 retVal

/-- 3-D branch, the segment loops (lines 139-155). -/
def blockLanes3D (numThreads fastDim midDim slowDim : Int) (retVal : IndexSet) : IndexSet :=
  forLoop (fun lane rv =>
    forLoop (fun i rv1 =>
        let startPlane := (wrapInt ((i : Int) * slowDim)).tdiv numThreads
        let endPlane := (wrapInt (wrapInt ((i : Int) + 1) * slowDim)).tdiv numThreads
        let start := wrapInt (wrapInt (startPlane * fastDim) * midDim)
        let end_ := wrapInt (wrapInt (endPlane * fastDim) * midDim)
        let len := wrapInt (end_ - start)
        rv1.addRange
          (wrapInt (start + (wrapInt ((lane : Int) * len)).tdiv segmentsPerThread))
          (wrapInt (start + (wrapInt (wrapInt ((lane : Int) + 1) * len)).tdiv segmentsPerThread)))
      numThreads.toNat 0 rv)
    segmentsPerThread.toNat 0 retVal

/-- 3-D branch, the dependency graph (lines 159-185). -/
def blockDependencies (numThreads : Int) (retVal : IndexSet) : IndexSet :=
  if segmentsPerThread = 1 then
    forLoop (fun i rv =>
        let rv1 := rv.setSemaphoreValue i (if (i : Int) = 0 then 0 else 1)
        let rv2 := rv1.setSemaphoreReloadValue i (if (i : Int) = 0 then 0 else 1)
        if (i : Int) ≠ numThreads - 1 then
          (rv2.setSemaphoreNumDepTasks i 1).setSemaphoreDepTask i 0 ((i : Int) + 1)
        else rv2)
      numThreads.toNat 0 retVal
  else
    let borderSeg := numThreads * (segmentsPerThread - 1)
    forLoop (fun i rv =>
        let rv1 := rv.setSemaphoreReloadValue i 1
        let rv2 := rv1.setSemaphoreNumDepTasks i 1
        let rv3 := rv2.setSemaphoreDepTask i 0 (borderSeg + (i : Int) - 1)
        let rv4 := rv3.setSemaphoreValue (borderSeg + (i : Int) - 1) 1
        let rv5 := rv4.setSemaphoreReloadValue (borderSeg + (i : Int) - 1) 1
        let rv6 := rv5.setSemaphoreNumDepTasks (borderSeg + (i : Int) - 1) 1
        rv6.setSemaphoreDepTask (borderSeg + (i : Int) - 1) 0 (i : Int))
      (numThreads - 1).toNat 1 retVal

/-- `CreateLockFreeBlockIndexset(retVal, fastDim, midDim, slowDim)`;
`numThreads` is the value of `omp_get_max_threads()`. -/
def CreateLockFreeBlockIndexset (numThreads : Int) (retVal : IndexSet)
    (fastDim midDim slowDim : Int) : Outcome :=
  if Int.lor midDim slowDim = 0 then
    if fastDim.tdiv PROFITABLE_ENTITY_THRESHOLD ≤ 1 then
      Outcome.done (retVal.addRange 0 fastDim)
    else
      Outcome.done (blockLanes1D numThreads fastDim retVal)
  else if slowDim = 0 then
    let rowsPerSegment := midDim.tdiv (3 * numThreads)
    if rowsPerSegment = 0 then
      Outcome.done (retVal.addRange 0 (fastDim * midDim))
    else
      Outcome.done (blockLanes2D numThreads fastDim midDim retVal)
  else
    let rowsPerSegment := slowDim.tdiv (segmentsPerThread * numThreads)
    if rowsPerSegment = 0 then
      Outcome.exited (retVal.addRange 0 (fastDim * midDim * slowDim))
    else
      Outcome.done
        (blockDependencies numThreads (blockLanes3D numThreads fastDim midDim slowDim retVal))

/-! ## Coverage of the geometric partition -/

/-- Number of segments of the index set whose traversal visits `x`. -/
def coverCount (hs : IndexSet) (x : Int) : Nat :=
  hs.m_segments.countP (fun seg => decide (x ∈ forallSegment seg))

/-- The Range segment `[b, e)` as `addRange` appends it. -/
def rangeSeg (b e : Int) : Segment :=
  Segment.ofRange SegmentType._Range_ { m_begin := b, m_end := e }

/-- The part of a segment that the traversal depends on. -/
def Segment.shape (seg : Segment) : SegmentType × ISetPtr := (seg.m_type, seg.m_iset)

/-- The extent the geometric partitioner covers: `fastDim * max(midDim, 1)`
in the 1-D and 2-D branches (`slowDim = 0`) and `fastDim * midDim * slowDim`
in the 3-D branch. -/
def blockExtent (fastDim midDim slowDim : Int) : Int :=
  if slowDim = 0 then fastDim * max midDim 1 else fastDim * midDim * slowDim

/-- No `int` product that `CreateLockFreeBlockIndexset` evaluates on
non-negative dimensions exceeds `INT_MAX`; each conjunct bounds the largest
value one product of the branch takes.
3-D branch: `segmentsPerThread*numThreads`, `(i+1)*slowDim`, `endPlane*fastDim`,
`endPlane*fastDim*midDim` and `(lane+1)*len`, where a worker holds at most
`ceil(slowDim/numThreads)` planes.
2-D branch: `3*numThreads` and `fastDim*midDim`, and in the partitioned case
`(i+1)*midDim` and `(lane+1)*len`, where a worker holds at most
`ceil(midDim/numThreads)` rows.
1-D branch: `(i+1)*fastDim` in the partitioned case. -/
def BlockProductsFit (numThreads fastDim midDim slowDim : Int) : Prop :=
  if slowDim ≠ 0 then
    segmentsPerThread * numThreads ≤ INT_MAX
      ∧ numThreads * slowDim ≤ INT_MAX
      ∧ slowDim * fastDim ≤ INT_MAX
      ∧ slowDim * fastDim * midDim ≤ INT_MAX
      ∧ 2 * ((slowDim + numThreads - 1).tdiv numThreads * fastDim * midDim) ≤ INT_MAX
  else if midDim ≠ 0 then
    3 * numThreads ≤ INT_MAX
      ∧ midDim * fastDim ≤ INT_MAX
      ∧ (midDim.tdiv (3 * numThreads) ≠ 0 →
          numThreads * midDim ≤ INT_MAX
          ∧ 3 * ((midDim + numThreads - 1).tdiv numThreads * fastDim) ≤ INT_MAX)
  else
    1 < fastDim.tdiv PROFITABLE_ENTITY_THRESHOLD → 3 * numThreads * fastDim ≤ INT_MAX

instance (numThreads fastDim midDim slowDim : Int) :
    Decidable (BlockProductsFit numThreads fastDim midDim slowDim) := by
  unfold BlockProductsFit
  infer_instance

/-- Every segment of the index set has type tag `_Range_`. -/
def AllRange (hs : IndexSet) : Prop :=
  ∀ p ∈ hs.m_segments.map Segment.shape, p.1 = SegmentType._Range_

/-! ## Graph-coloring partitioner (`CreateLockFreeColorIndexset`, LockFreeColor.cxx)

Sizes, indices and array entries of this function are natural numbers: a
negative size or index is undefined behaviour in the source. The arrays
`workset` and `worksetDelim` are written only at their current size
(`workset[worksetSize++] = i`), so each is the list of the entries written so
far and its size counter is the length of that list. -/

/-- Array read `a[i]` of an array of naturals. -/
def rdN (a : List Nat) (i : Nat) : Nat := a.getD i 0

/-- The arrays `rangeToDomain` and `rangeToDomainCount`. -/
structure InvMap where
  rangeToDomain : List Nat
  rangeToDomainCount : List Nat
  deriving DecidableEq, Repr

/-- Body of the inner loop that creates the inverse mapping (lines 83-90);
`none` is `exit(-1)`. -/
def inverseBody (domainToRange : List Nat) (numRangePerDomain numEntityRange : Nat)
    (i j : Nat) (st : Option InvMap) : Option InvMap :=
  st.bind fun m =>
    let id := rdN domainToRange (i * numRangePerDomain + j)
    let idx := id * numRangePerDomain + rdN m.rangeToDomainCount id
    let count := m.rangeToDomainCount.set id (rdN m.rangeToDomainCount id + 1)
    if idx > numEntityRange * numRangePerDomain ∨ rdN count id > numRangePerDomain then
      none
    else
      some { rangeToDomain := m.rangeToDomain.set idx i, rangeToDomainCount := count }

/-- Creation of the inverse mapping (lines 75-92); `none` is `exit(-1)`. -/
def inverseMap (domainToRange : List Nat)
    (numEntity numRangePerDomain numEntityRange : Nat) : Option InvMap :=
  forLoop (fun i st =>
      forLoop (inverseBody domainToRange numRangePerDomain numEntityRange i)
        numRangePerDomain 0 st)
    numEntity 0
    (some { rangeToDomain := List.replicate (numEntityRange * numRangePerDomain) 0,
            rangeToDomainCount := List.replicate numEntityRange 0 })

/-- Variables of the peeling loop. -/
structure PeelState where
  done : Bool
  isMarked : List Bool
  worksetDelim : List Nat
  workset : List Nat
  deriving DecidableEq, Repr

/-- `PeelState.worksetSize`: the counter `worksetSize`. -/
def PeelState.worksetSize (s : PeelState) : Nat := s.workset.length

/-- `PeelState.numWorkset`: the counter `numWorkset`. -/
def PeelState.numWorkset (s : PeelState) : Nat := s.worksetDelim.length

/-- Body of the innermost loop (lines 117-122): marks one domain element of
the inverse map; `none` is `exit(-1)`. -/
def markBody (m : InvMap) (numEntity numRangePerDomain id : Nat) (k : Nat)
    (st : Option (List Bool)) : Option (List Bool) :=
  st.bind fun isMarked =>
    let idx := rdN m.rangeToDomain (id * numRangePerDomain + k)
    if idx ≥ numEntity then none else some (isMarked.set idx true)

/-- The loops over `j` and `k` (lines 114-124): marks every domain element
that shares a range element with `i`. -/
def markConflicts (m : InvMap) (domainToRange : List Nat)
    (numEntity numRangePerDomain : Nat) (i : Nat) (isMarked : List Bool) :
    Option (List Bool) :=
  forLoop (fun j st =>
      let id := rdN domainToRange (i * numRangePerDomain + j)
      forLoop (markBody m numEntity numRangePerDomain id) (rdN m.rangeToDomainCount id) 0 st)
    numRangePerDomain 0 (some isMarked)

/-- Body of the scan over the domain elements (lines 105-126). -/
def scanBody (m : InvMap) (domainToRange : List Nat) (numEntity numRangePerDomain : Nat)
    (i : Nat) (st : Option PeelState) : Option PeelState :=
  st.bind fun s =>
    if s.isMarked.getD i false = false then
      if s.worksetSize ≥ numEntity then none
      else
        (markConflicts m domainToRange numEntity numRangePerDomain i s.isMarked).map
          fun isMarked =>
            { s with done := false, workset := s.workset ++ [i], isMarked := isMarked }
    else some s

/-- One iteration of `while (!done)` (lines 95-129). -/
def peelPass (m : InvMap) (domainToRange : List Nat) (numEntity numRangePerDomain : Nat)
    (s : PeelState) : Option PeelState :=
  let cleared := forLoop (fun i (mk : List Bool) => mk.set i false) numEntity 0 s.isMarked
  let marked :=
    forLoop (fun i (mk : List Bool) => mk.set (rdN s.workset i) true) s.worksetSize 0 cleared
  (forLoop (scanBody m domainToRange numEntity numRangePerDomain) numEntity 0
      (some { s with done := true, isMarked := marked })).map
    fun s1 =>
      if s1.done = false then
        { s1 with worksetDelim := s1.worksetDelim ++ [s1.worksetSize] }
      else s1

/-- How the peeling loop ends. -/
inductive PeelResult where
  | finished (s : PeelState)
  | exited
  | outOfFuel
  deriving DecidableEq, Repr

/-- The loop `while (!done)` (lines 94-130), with a bound on the iterations. -/
def peelLoop (m : InvMap) (domainToRange : List Nat) (numEntity numRangePerDomain : Nat) :
    Nat → PeelState → PeelResult
  | 0, _ => PeelResult.outOfFuel
  | fuel + 1, s =>
    if s.done then PeelResult.finished s
    else
      match peelPass m domainToRange numEntity numRangePerDomain s with
      | none => PeelResult.exited
      | some s1 => peelLoop m domainToRange numEntity numRangePerDomain fuel s1

/-- The peeling loop from its initial state (lines 66-73 and 94-130); the
loop body runs at most `numEntity + 1` times. -/
def peel (m : InvMap) (domainToRange : List Nat) (numEntity numRangePerDomain : Nat) :
    PeelResult :=
  peelLoop m domainToRange numEntity numRangePerDomain (numEntity + 2)
    { done := false, isMarked := List.replicate numEntity false, worksetDelim := [],
      workset := [] }

/-- What a completed call hands back: the index set and the contents of the
two optional permutation arrays (`none` is a null pointer). -/
structure ColorResult where
  retVal : IndexSet
  elemPermutation : Option (List Int)
  ielemPermutation : Option (List Int)
  deriving DecidableEq, Repr

/-- How `CreateLockFreeColorIndexset` ends. -/
inductive ColorOutcome where
  | done (r : ColorResult)
  | exited
  | outOfFuel
  deriving DecidableEq, Repr

/-- The segment loop of the permutation branch (lines 150-155): one Range
`[begin, end)` per color. The state is `(end, retVal)`. -/
def emitColorRanges (worksetDelim : List Nat) (retVal : IndexSet) : IndexSet :=
  (forLoop (fun i (st : Nat × IndexSet) =>
      let begin_ := st.1
      let end_ := rdN worksetDelim i
      (end_, st.2.addRange (begin_ : Int) (end_ : Int)))
    worksetDelim.length 0 (0, retVal)).2

/-- The test `isRange` of lines 162-168: the slice `workset[begin, end)` is a
run of consecutive integers. -/
def isRangeSlice (workset : List Nat) (begin_ end_ : Nat) : Bool :=
  forLoop (fun j (isRange : Bool) =>
      isRange && decide (rdN workset (j - 1) + 1 = rdN workset j))
    (end_ - (begin_ + 1)) (begin_ + 1) true

/-- The segment loop of the branch without permutation (lines 158-179). -/
def emitColorSegments (workset worksetDelim : List Nat) (retVal : IndexSet) : IndexSet :=
  (forLoop (fun i (st : Nat × IndexSet) =>
      let begin_ := st.1
      let end_ := rdN worksetDelim i
      if isRangeSlice workset begin_ end_ then
        (end_, st.2.addRange (rdN workset begin_ : Int) ((rdN workset (end_ - 1) : Int) + 1))
      else
        (end_, st.2.addList ((workset.drop begin_).map Int.ofNat) ((end_ : Int) - (begin_ : Int))
                IndexOwnership.Owned))
    worksetDelim.length 0 (0, retVal)).2

/-- `CreateLockFreeColorIndexset(retVal, domainToRange, numEntity,
numRangePerDomain, numEntityRange, elemPermutation, ielemPermutation)`. -/
def CreateLockFreeColorIndexset (retVal : IndexSet) (domainToRange : List Nat)
    (numEntity numRangePerDomain numEntityRange : Nat)
    (elemPermutation ielemPermutation : Option (List Int)) : ColorOutcome :=
  match inverseMap domainToRange numEntity numRangePerDomain numEntityRange with
  | none => ColorOutcome.exited
  | some m =>
    match peel m domainToRange numEntity numRangePerDomain with
    | PeelResult.exited => ColorOutcome.exited
    | PeelResult.outOfFuel => ColorOutcome.outOfFuel
    | PeelResult.finished s =>
      if s.worksetSize ≠ numEntity then ColorOutcome.exited
      else
        match elemPermutation with
        | some buf =>
          ColorOutcome.done
            { retVal := emitColorRanges s.worksetDelim retVal,
              elemPermutation := some (s.workset.map Int.ofNat ++ buf.drop numEntity),
              ielemPermutation := ielemPermutation.map fun ibuf =>
                forLoop (fun i (b : List Int) => b.set (rdN s.workset i) (i : Int))
                  numEntity 0 ibuf }
        | none =>
          ColorOutcome.done
            { retVal := emitColorSegments s.workset s.worksetDelim retVal,
              elemPermutation := none,
              ielemPermutation := ielemPermutation }

/-! ## Invariants of the graph-coloring partitioner -/

/-- Range elements referenced by domain element `i`. -/
def refsOf (domainToRange : List Nat) (numRangePerDomain i : Nat) : List Nat :=
  (List.range numRangePerDomain).map (fun j => rdN domainToRange (i * numRangePerDomain + j))

/-- Domain elements that the inverse map lists for range element `id`. -/
def domsOf (m : InvMap) (numRangePerDomain id : Nat) : List Nat :=
  (List.range (rdN m.rangeToDomainCount id)).map
    (fun k => rdN m.rangeToDomain (id * numRangePerDomain + k))

/-- Two domain elements reference a common range element. -/
def Conflict (domainToRange : List Nat) (numRangePerDomain a b : Nat) : Prop :=
  ∃ id, id ∈ refsOf domainToRange numRangePerDomain a
    ∧ id ∈ refsOf domainToRange numRangePerDomain b

/-- The incidence array is well formed: it holds `numRangePerDomain` entries for
each domain element and every entry names a range element. -/
def WellFormed (domainToRange : List Nat)
    (numEntity numRangePerDomain numEntityRange : Nat) : Prop :=
  domainToRange.length = numEntity * numRangePerDomain
  ∧ ∀ p, p < numEntity * numRangePerDomain → rdN domainToRange p < numEntityRange

/-- What the peeling loop needs of the inverse map: it lists every domain
element under each range element it references, and lists domain elements only. -/
def InvOK (m : InvMap) (domainToRange : List Nat) (numEntity numRangePerDomain : Nat) : Prop :=
  (∀ i, i < numEntity → ∀ id ∈ refsOf domainToRange numRangePerDomain i,
      i ∈ domsOf m numRangePerDomain id)
  ∧ (∀ id, ∀ x ∈ domsOf m numRangePerDomain id, x < numEntity)

/-- Invariant of the loops that create the inverse mapping, before the
iteration `(i, j)`. -/
def InvInv (domainToRange : List Nat) (numEntity numRangePerDomain numEntityRange : Nat)
    (i j : Nat) (m : InvMap) : Prop :=
  m.rangeToDomainCount.length = numEntityRange
  ∧ m.rangeToDomain.length = numEntityRange * numRangePerDomain
  ∧ (∀ id, rdN m.rangeToDomainCount id ≤ numRangePerDomain)
  ∧ (∀ i1 j1, j1 < numRangePerDomain → (i1 < i ∨ (i1 = i ∧ j1 < j)) →
      i1 ∈ domsOf m numRangePerDomain (rdN domainToRange (i1 * numRangePerDomain + j1)))
  ∧ (∀ id, ∀ x ∈ domsOf m numRangePerDomain id, x < numEntity)

/-- Entry `x` of `isMarked` is set. -/
def Marked (isMarked : List Bool) (x : Nat) : Prop := isMarked.getD x false = true

/-- Invariant of the scan over the domain elements, before index `i`, in a
pass that began with workset `W0` and delimiters `D0`. -/
def ScanInv (d2r : List Nat) (nE n : Nat) (W0 D0 : List Nat) (i : Nat) (s : PeelState) : Prop :=
  s.isMarked.length = nE ∧ s.worksetDelim = D0
  ∧ ∃ new, s.workset = W0 ++ new
    ∧ (∀ w ∈ W0, Marked s.isMarked w)
    ∧ (∀ w ∈ new, w < i)
    ∧ new.Pairwise (fun a b => a < b)
    ∧ (∀ w ∈ new, ∀ x, x < nE → Conflict d2r n w x → Marked s.isMarked x)
    ∧ new.Pairwise (fun a b => ¬ Conflict d2r n a b)
    ∧ (∀ w ∈ new, w ∉ W0)
    ∧ (∀ x, x < i → Marked s.isMarked x ∨ x ∈ new)
    ∧ (new = [] → ∀ x, Marked s.isMarked x → x ∈ W0)
    ∧ (s.done = true ↔ new = [])

/-- The colors: the workset slices `workset[begin, end)` between consecutive
delimiters, as the output loops read them (`begin = end; end = worksetDelim[i]`). -/
def sliceColorsFrom (workset : List Nat) : Nat → List Nat → List (List Nat)
  | _, [] => []
  | begin_, end_ :: rest =>
    (workset.drop begin_).take (end_ - begin_) :: sliceColorsFrom workset end_ rest

/-- The colors of the final workset. -/
def sliceColors (workset worksetDelim : List Nat) : List (List Nat) :=
  sliceColorsFrom workset 0 worksetDelim

/-- Invariant of the peeling loop between two passes. -/
def PeelInv (d2r : List Nat) (nE n : Nat) (s : PeelState) : Prop :=
  s.isMarked.length = nE ∧ s.workset.Nodup ∧ (∀ w ∈ s.workset, w < nE)
  ∧ (∀ d ∈ s.worksetDelim, d ≤ s.workset.length)
  ∧ s.worksetDelim.getLast?.getD 0 = s.workset.length
  ∧ (∀ c ∈ sliceColors s.workset s.worksetDelim,
      c.Pairwise (fun a b => ¬ Conflict d2r n a b))
  ∧ (sliceColors s.workset s.worksetDelim).flatten = s.workset
  ∧ (s.done = true → ∀ x, x < nE → x ∈ s.workset)

/-- An incidence array of six domain elements on a cycle of six range
elements: element `i` references range elements `i` and `i + 1 mod 6`. -/
def cycleIncidence : List Nat := [0, 1, 1, 2, 2, 3, 3, 4, 4, 5, 5, 0]

/-- The inverse map of `cycleIncidence`. -/
def cycleInvMap : InvMap :=
  { rangeToDomain := [0, 5, 0, 1, 1, 2, 2, 3, 3, 4, 4, 5],
    rangeToDomainCount := [2, 2, 2, 2, 2, 2] }

/-! ## Runs of the input during the emission scan -/

/-- The List segment holding `l`, as `addList` appends it in Owned mode. -/
def listSeg (l : List Int) : Segment :=
  Segment.ofList SegmentType._List_
    { m_indx := some l, m_len := (l.length : Int), m_indx_own := IndexOwnership.Owned }

/-- Initial state of the emission scan on an empty index set. -/
def emitInit (A : List Int) : EmitState :=
  { hiset := IndexSet.empty, inrange := -1, scanVal := rd A 0, sliceCount := 0,
    dobegin := rd A 0 }

/-- State of the emission scan before iteration `T` (for `T ≥ 1`). -/
def emitAt (al : Int) (A : List Int) (T : Nat) : EmitState :=
  forLoop (emitBody al A) (T - 1) 1 (emitInit A)

/-- Positions `P .. P+m-1` of the input hold the ascending run
`k, k+1, ..., k+m-1`, and the elements at positions `P-1` and `P+m` exist and
break the `+1` ascent. -/
def IsBoundedRun (A : List Int) (P m : Nat) (k : Int) : Prop :=
  1 ≤ P ∧ 1 ≤ m ∧ P + m < A.length
  ∧ (∀ t, t < m → rd A (P + t) = k + (t : Int))
  ∧ rd A (P - 1) + 1 ≠ k
  ∧ rd A (P + m) ≠ k + (m : Int)

/-- Every Range segment of the index set holds at least two indices. -/
def RangesLong (h : IndexSet) : Prop :=
  ∀ seg ∈ h.m_segments, ∀ r : RangeISet, seg.m_iset = ISetPtr.range r → r.m_begin + 2 ≤ r.m_end

/-- Invariant of the emission loop for the length of the emitted Ranges. -/
def LenInv (st : EmitState) : Prop :=
  (st.inrange = -1 ∨ st.inrange = 0 ∨ st.inrange = 1)
  ∧ (st.inrange = -1 → st.sliceCount = 0)
  ∧ (st.inrange = 1 → 1 ≤ st.sliceCount)
  ∧ RangesLong st.hiset

/-! ## Copy construction (`IndexSet.cxx`, lines 46-50, 215-245) -/

/-- `IndexSet::getSegmentType(i)`; there is no check of the segment index in
the source, an index out of bounds gives `none` here. -/
def IndexSet.getSegmentType (s : IndexSet) (i : Nat) : Option SegmentType :=
  (s.m_segments[i]?).map (fun seg => seg.m_type)

/-- `IndexSet::getSegmentISet(i)`. -/
def IndexSet.getSegmentISet (s : IndexSet) (i : Nat) : Option ISetPtr :=
  (s.m_segments[i]?).map (fun seg => seg.m_iset)

/-- `IndexSet::segmentIndexOwnership(i)`. -/
def IndexSet.segmentIndexOwnership (s : IndexSet) (i : Nat) : Option IndexOwnership :=
  (s.m_segments[i]?).map (fun seg => seg.m_indx_own)

/-- Body of the loop of `IndexSet::copy` for one segment of `other`: a null
payload is skipped, a Range is added through `addISet(const RangeISet&)`, a
List through `addISet(const ListISet&)` with the default `Owned`; any other
type tag only prints a message. A payload that does not match its type tag
(an invalid `static_cast` in the source) adds nothing. -/
def IndexSet.copySegment (s : IndexSet) (seg : Segment) : IndexSet :=
  match seg.m_iset, seg.m_type with
  | ISetPtr.null, _ => s
  | ISetPtr.range r, SegmentType._Range_ => s.addISetRange r
  | ISetPtr.list l, SegmentType._List_ => s.addISetList l IndexOwnership.Owned
  | _, _ => s

/-- `IndexSet::copy(other)`: the loop over the segments of `other`, in order. -/
def IndexSet.copy (s other : IndexSet) : IndexSet :=
  other.m_segments.foldl IndexSet.copySegment s

/-- Copy constructor `IndexSet(const IndexSet& other)`: `m_len(0)`, then
`copy(other)`. -/
def IndexSet.copyCtor (other : IndexSet) : IndexSet :=
  IndexSet.copy IndexSet.empty other

/-- A segment as the add operations create it: the payload matches the type
tag and a List payload has a non-negative length. -/
def Segment.Valid (seg : Segment) : Prop :=
  (seg.m_type = SegmentType._Range_ ∧ ∃ r, seg.m_iset = ISetPtr.range r)
  ∨ (seg.m_type = SegmentType._List_ ∧ ∃ l, seg.m_iset = ISetPtr.list l ∧ 0 ≤ l.m_len)

/-- An index set as the add operations build it: valid segments and a running
length equal to the sum of the segment lengths. -/
def IndexSet.Valid (s : IndexSet) : Prop :=
  s.getLength = segLengthSum s ∧ ∀ seg ∈ s.m_segments, seg.Valid

/-! ## Reading the dependency data of a segment (`IndexSet.hxx`, lines 195-209) -/

/-- Read through `segmentSemaphoreValue(i)`: the integer in `*semaphore_slot`
(`none` when there is no segment `i`). -/
def IndexSet.segmentSemaphoreValue (s : IndexSet) (i : Nat) : Option Int :=
  (s.m_segments[i]?).map (fun seg => seg.semaphore_value)

/-- Read through `segmentSemaphoreReloadValue(i)`. -/
def IndexSet.segmentSemaphoreReloadValue (s : IndexSet) (i : Nat) : Option Int :=
  (s.m_segments[i]?).map (fun seg => seg.semaphore_reload)

/-- Read through `segmentSemaphoreNumDepTasks(i)`. -/
def IndexSet.segmentSemaphoreNumDepTasks (s : IndexSet) (i : Nat) : Option Int :=
  (s.m_segments[i]?).map (fun seg => seg.num_semaphore_notify)

/-- Read through `segmentSemaphoreDepTask(i, t)`. -/
def IndexSet.segmentSemaphoreDepTask (s : IndexSet) (i t : Nat) : Option Int :=
  (s.m_segments[i]?).map (fun seg => rd seg.semaphore_notify t)

/-- What the dependency loop of the 3-D branch has done to segment `j` of
`W` workers before iteration `k`: segments `1 .. k-1` name `W + j - 1` as
their dependent, segments `W .. W + k - 2` name `j - W + 1` and start with
semaphore 1. -/
def wiredSegment (W k j : Nat) (seg : Segment) : Segment :=
  if 1 ≤ j ∧ j < k then
    { seg with semaphore_reload := 1, num_semaphore_notify := 1,
               semaphore_notify := List.set seg.semaphore_notify 0 ((W : Int) + (j : Int) - 1) }
  else if W ≤ j ∧ j + 1 < W + k then
    { seg with semaphore_value := 1, semaphore_reload := 1, num_semaphore_notify := 1,
               semaphore_notify := List.set seg.semaphore_notify 0 ((j : Int) - (W : Int) + 1) }
  else seg

/-- Invariant of the loops that create the inverse mapping, before the
iteration at flat position `p = i * numRangePerDomain + j`: the counters hold
the number of references read so far, none exceeds `numRangePerDomain`, and
the inverse map lists, for every range element, the domain elements of the
positions read so far that reference it, in order. -/
def InvExact (domainToRange : List Nat) (numRangePerDomain numEntityRange : Nat)
    (p : Nat) (m : InvMap) : Prop :=
  m.rangeToDomainCount.length = numEntityRange
  ∧ m.rangeToDomain.length = numEntityRange * numRangePerDomain
  ∧ (∀ id, rdN m.rangeToDomainCount id = (domainToRange.take p).count id)
  ∧ (∀ id, rdN m.rangeToDomainCount id ≤ numRangePerDomain)
  ∧ (∀ id, domsOf m numRangePerDomain id
      = ((List.range p).filter (fun q => decide (rdN domainToRange q = id))).map
          (fun q => q / numRangePerDomain))

/-- The Range segments `[begin, end)` between consecutive delimiters
(`begin = end; end = worksetDelim[i]`), starting from `begin_`. -/
def colorRangesFrom : Nat → List Nat → List Segment
  | _, [] => []
  | begin_, end_ :: rest => rangeSeg (begin_ : Int) (end_ : Int) :: colorRangesFrom end_ rest

/-- Total size of the first `c` colors. -/
def colorOffset (colors : List (List Nat)) (c : Nat) : Nat :=
  ((colors.take c).map List.length).sum

/-! ## Storage of list indices (`ListISet.cxx`)

The index arrays as cells of a heap: an address is the position of a cell, and
a cell holds the contents of a live array or `none` once it is deleted. The
definitions above stand for a list by the contents of its buffer at the time it
is read; the ones below keep the buffer's address. -/

/-- The index arrays in memory. -/
abbrev Heap : Type := List (Option (List Int))

/-- Contents of the array at address `a` (`none`: no live array there). -/
def Heap.read (h : Heap) (a : Nat) : Option (List Int) := (h[a]?).bind id

/-- The store `p[i] = v` into the array at address `a`. -/
def Heap.write (h : Heap) (a i : Nat) (v : Int) : Heap :=
  modifyAt (Option.map (fun buf => List.set buf i v)) a h

/-- The `new Index_type[len]` of `initIndexData` together with the copy that
fills it: a fresh array, at an address not in use before. -/
def Heap.alloc (h : Heap) (contents : List Int) : Nat × Heap :=
  (h.length, h ++ [some contents])

/-- The statement `delete[] p`. -/
def Heap.free (h : Heap) (a : Nat) : Heap := modifyAt (fun _ => none) a h

/-- Data members of a `ListISet` object, with `m_indx` as an address (`none`
is the null pointer). -/
structure ListISetMem where
  m_indx : Option Nat
  m_len : Int
  m_indx_own : IndexOwnership
  deriving DecidableEq, Repr

/-- `ListISet::initIndexData(indx, len, indx_own)` on the heap: the heap after
the call and the object. In `Owned` mode the first `len` values of the caller's
array are copied into a fresh array; in `Unowned` mode the object keeps the
caller's pointer. -/
def ListISetMem.initIndexData (h : Heap) (indx : Option Nat) (len : Int)
    (indx_own : IndexOwnership) : Heap × ListISetMem :=
  if len ≤ 0 then
    (h, { m_indx := none, m_len := 0, m_indx_own := IndexOwnership.Unowned })
  else if indx_own = IndexOwnership.Owned then
    let src := (indx.bind h.read).getD []
    let fresh := h.alloc (src.take len.toNat)
    (fresh.2, { m_indx := some fresh.1, m_len := len, m_indx_own := indx_own })
  else
    (h, { m_indx := indx, m_len := len, m_indx_own := indx_own })

/-- Constructor `ListISet(indx, len, indx_own)` on the heap. -/
def ListISetMem.mk3 (h : Heap) (indx : Option Nat) (len : Int)
    (indx_own : IndexOwnership) : Heap × ListISetMem :=
  ListISetMem.initIndexData h indx len indx_own

/-- Destructor `~ListISet`: the heap after it. -/
def ListISetMem.destroy (h : Heap) (l : ListISetMem) : Heap :=
  match l.m_indx with
  | some a => if l.m_indx_own = IndexOwnership.Owned then h.free a else h
  | none => h

/-- The object as the definitions above see it in heap `h`: the pointer
replaced by the contents of the array it points to. -/
def ListISetMem.view (h : Heap) (l : ListISetMem) : ListISet :=
  { m_indx := l.m_indx.map (fun a => (h.read a).getD []), m_len := l.m_len,
    m_indx_own := l.m_indx_own }

/-- The indices the object reports in heap `h`: `getIndex()[k]` for
`k < getLength()`. -/
def ListISetMem.indices (h : Heap) (l : ListISetMem) : List Int :=
  forallList (l.view h)

/-- `IndexSet::addList(indx, len, indx_own)` on the heap: the heap after the
call, the new `ListISet` object, and the index set with the segment for it. -/
def IndexSet.addListMem (h : Heap) (s : IndexSet) (indx : Option Nat) (len : Int)
    (indx_own : IndexOwnership) : Heap × ListISetMem × IndexSet :=
  let new_is := ListISetMem.mk3 h indx len indx_own
  (new_is.1, new_is.2, s.addSegmentList SegmentType._List_ (new_is.2.view new_is.1))

/-- A segment list in which no two neighbouring segments are both List
segments, every segment is a Range or a List, and every List segment holds at
least one index. -/
def ListsSeparated (segs : List Segment) : Prop :=
  List.Chain' (fun a b => ¬ (a.m_type = SegmentType._List_ ∧ b.m_type = SegmentType._List_)) segs
  ∧ ∀ seg ∈ segs, (seg.m_type = SegmentType._Range_ ∨ seg.m_type = SegmentType._List_)
      ∧ (seg.m_type = SegmentType._List_ → 1 ≤ seg.getLength)

/-- Invariant of the emission loop for the alternation of List segments: a List
segment is the last one emitted only while a Range is open. -/
def AltInv (st : EmitState) : Prop :=
  (st.inrange = -1 ∨ st.inrange = 0 ∨ st.inrange = 1)
  ∧ 0 ≤ st.sliceCount
  ∧ ListsSeparated st.hiset.m_segments
  ∧ (st.inrange ≠ 1 → ∀ last, st.hiset.m_segments.getLast? = some last →
      last.m_type = SegmentType._Range_)
  ∧ (st.inrange = -1 → st.hiset.m_segments = [])

/-- The peeling loop run for `k` scans, whatever `done` says (`none`: a scan
reaches `exit(-1)`). -/
def peelPasses (m : InvMap) (domainToRange : List Nat) (numEntity numRangePerDomain : Nat) :
    Nat → PeelState → Option PeelState
  | 0, s => some s
  | k + 1, s =>
    (peelPass m domainToRange numEntity numRangePerDomain s).bind
      (peelPasses m domainToRange numEntity numRangePerDomain k)

/-- Initial state of the peeling loop (lines 66-73). -/
def peelInit (numEntity : Nat) : PeelState :=
  { done := false, isMarked := List.replicate numEntity false, worksetDelim := [],
    workset := [] }

/-- The segment the loop of the branch without permutation appends for the
slice `workset[begin, end)`: the Range `[workset[begin], workset[end-1]+1)`
when the slice passes the `isRange` test, else the List of the slice. -/
def colorSegment (workset : List Nat) (begin_ end_ : Nat) : Segment :=
  if isRangeSlice workset begin_ end_ then
    rangeSeg (rdN workset begin_ : Int) ((rdN workset (end_ - 1) : Int) + 1)
  else
    Segment.ofList SegmentType._List_
      (ListISet.mk3 ((workset.drop begin_).map Int.ofNat) ((end_ : Int) - (begin_ : Int))
        IndexOwnership.Owned)

/-- The segments the loop of the branch without permutation appends, from
`begin_` on (`begin = end; end = worksetDelim[i]`). -/
def colorSegmentsFrom (workset : List Nat) : Nat → List Nat → List Segment
  | _, [] => []
  | begin_, end_ :: rest => colorSegment workset begin_ end_ :: colorSegmentsFrom workset end_ rest

/-- The members of a color, in workset order, are consecutive ascending
integers. -/
def IsAscendingRun (l : List Nat) : Prop :=
  ∀ k, k + 1 < l.length → rdN l k + 1 = rdN l (k + 1)

/-! ## Thread-parallel segment loop (`forall_omp_any.hxx`, lines 570-639)

One iteration of the loop leaves its spin loop only when the semaphore of its
segment is 0, runs the segment, reloads its own semaphore and decrements the
semaphore of every dependent task. A step of the definitions below is one
iteration run from the end of its spin loop to its end. -/

/-- The exit test of the spin loop `while (*semMem != 0)` of iteration `isi`. -/
def segmentReady (iss : IndexSet) (isi : Nat) : Bool :=
  decide (iss.segmentSemaphoreValue isi = some 0)

/-- The statements after the segment body (lines 621-636): the reload of the
segment's own semaphore, then `__sync_fetch_and_sub(.., 1)` on the semaphore of
each dependent task. -/
def segmentComplete (iss : IndexSet) (isi : Nat) : IndexSet :=
  let reload := (iss.segmentSemaphoreReloadValue isi).getD 0
  let is1 := if reload ≠ 0 then iss.setSemaphoreValue (isi : Int) reload else iss
  let numDep := (is1.segmentSemaphoreNumDepTasks isi).getD 0
  forLoop (fun ii (is2 : IndexSet) =>
      let seg := (is2.segmentSemaphoreDepTask isi ii).getD 0
      is2.setSemaphoreValue seg ((is2.segmentSemaphoreValue seg.toNat).getD 0 - 1))
    numDep.toNat 0 is1

/-- A pass over the index set in progress: the index set and the iterations
that have completed in this pass (latest first). -/
structure PassState where
  iset : IndexSet
  ran : List Nat
  deriving DecidableEq, Repr

/-- Iteration `isi` of the loop runs: it is an iteration of the loop, has not
run in this pass, and its semaphore is 0 (`none` otherwise). -/
def runSegment (st : PassState) (isi : Nat) : Option PassState :=
  if isi < st.iset.m_segments.length ∧ isi ∉ st.ran ∧ segmentReady st.iset isi = true then
    some { iset := segmentComplete st.iset isi, ran := isi :: st.ran }
  else none

/-- The iterations run one after the other in the given order (`none`: one of
them cannot run when its turn comes). -/
def runOrder : List Nat → PassState → Option PassState
  | [], st => some st
  | isi :: rest, st => (runSegment st isi).bind (runOrder rest)

/-- The next iteration of worker `w` of `W` under `schedule(static, 1)` with
`2 * W` iterations: `w`, then `W + w`, then none. -/
def workerNext (W : Nat) (ran : List Nat) (w : Nat) : Option Nat :=
  if w ∉ ran then some w else if W + w ∉ ran then some (W + w) else none

/-- The states the `W` workers can reach from index set `is0`: a worker runs
its next iteration when that one can run, and when every worker is through the
next pass starts on the index set as it is. -/
inductive ScheduleReachable (W : Nat) (is0 : IndexSet) : PassState → Prop
  | start : ScheduleReachable W is0 { iset := is0, ran := [] }
  | step (st st1 : PassState) (w isi : Nat) :
      ScheduleReachable W is0 st → w < W → workerNext W st.ran w = some isi →
      runSegment st isi = some st1 → ScheduleReachable W is0 st1
  | nextPass (st : PassState) :
      ScheduleReachable W is0 st → (∀ w, w < W → workerNext W st.ran w = none) →
      ScheduleReachable W is0 { iset := st.iset, ran := [] }

/-- The segment with its semaphore set to `v`. -/
def Segment.withValue (seg : Segment) (v : Int) : Segment :=
  { seg with semaphore_value := v }

/-- The semaphore of segment `j` of the 3-D dependency graph of `W` workers
when the iterations in `ran` have completed: a segment `1 .. W-1` holds 1
between its own completion and that of its partner `W + j - 1`; a segment
`W .. 2W-2` holds 0 between the completion of its partner `j - W + 1` and its
own; segments 0 and `2W - 1` always hold 0. -/
def passValue (W : Nat) (ran : List Nat) (j : Nat) : Int :=
  if 1 ≤ j ∧ j < W then
    if j ∈ ran ∧ W + j - 1 ∉ ran then 1 else 0
  else if W ≤ j ∧ j + 1 < W + W then
    if j ∉ ran ∧ j - W + 1 ∈ ran then 0 else 1
  else 0

/-- Invariant of a pass over the index set of a 3-D call with `W` workers:
every segment is the wired segment with the semaphore value of `passValue`,
and a segment `W + i - 1` has completed only after its partner `i`. -/
def PassInv (W : Nat) (st : PassState) : Prop :=
  st.iset.m_segments.length = 2 * W
  ∧ (∀ i, 1 ≤ i → i < W → W + i - 1 ∈ st.ran → i ∈ st.ran)
  ∧ ∀ j, j < 2 * W → ∃ b e, st.iset.m_segments[j]?
      = some ((wiredSegment W W j (rangeSeg b e)).withValue (passValue W st.ran j))

/-! ## Copy assignment on the free store (`IndexSet.cxx`, lines 46-110)

The payload objects of the segments (`new RangeISet`, `new ListISet`) as cells
of a free store: an address is the position of a cell, and a cell holds the
object or `none` once the object is deleted. A `Segment` keeps the address of
its payload, so that a copied `Segment` points to the same object. `RAJAVec`
(RAJAVec.hxx is not among the sources) is a vector of `Segment` values: its
assignment copies the elements and `std::swap` exchanges two vectors. -/

/-- A payload object on the free store. -/
inductive ISetObj where
  | range (r : RangeISet)
  | list (l : ListISet)
  deriving DecidableEq, Repr

/-- `getLength()` of the payload object. -/
def ISetObj.getLength : ISetObj → Int
  | ISetObj.range r => r.getLength
  | ISetObj.list l => l.getLength

/-- `indexOwnership()` of the payload object. -/
def ISetObj.indexOwnership : ISetObj → IndexOwnership
  | ISetObj.range r => r.indexOwnership
  | ISetObj.list l => l.indexOwnership

/-- The pointer to the object as the definitions above hold it. -/
def ISetObj.toPtr : ISetObj → ISetPtr
  | ISetObj.range r => ISetPtr.range r
  | ISetObj.list l => ISetPtr.list l

/-- The free store of payload objects. -/
abbrev ObjStore : Type := List (Option ISetObj)

/-- The object at address `a` (`none`: no live object there). -/
def ObjStore.deref (st : ObjStore) (a : Nat) : Option ISetObj := (st[a]?).bind id

/-- The expression `new T(...)`: the address of the new object, which was not
in use before, and the store holding it. -/
def ObjStore.new (st : ObjStore) (o : ISetObj) : Nat × ObjStore :=
  (st.length, st ++ [some o])

/-- The statement `delete p`. -/
def ObjStore.delete (st : ObjStore) (a : Nat) : ObjStore := modifyAt (fun _ => none) a st

/-- Data members of a `Segment`, with `m_iset` as an address (`none` is the
null pointer). -/
structure SegmentMem where
  m_type : SegmentType
  m_iset : Option Nat
  m_indx_own : IndexOwnership
  num_semaphore_notify : Int
  semaphore_reload : Int
  semaphore_value : Int
  semaphore_notify : List Int
  deriving DecidableEq, Repr

/-- Data members of an `IndexSet` whose segments point into the free store. -/
structure IndexSetMem where
  m_len : Int
  m_segments : List SegmentMem
  deriving DecidableEq, Repr

/-- Default constructor `IndexSet()`. -/
def IndexSetMem.empty : IndexSetMem := { m_len := 0, m_segments := [] }

/-- `addSegment(seg_type, seg)` for the payload `seg` that the caller has just
created with `new`: the store holding the object and the index set with the
segment `Segment(seg_type, seg)` pushed back. -/
def IndexSetMem.addSegment (st : ObjStore) (s : IndexSetMem) (seg_type : SegmentType)
    (o : ISetObj) : ObjStore × IndexSetMem :=
  let new_is := st.new o
  (new_is.2,
    { m_len := s.m_len + o.getLength,
      m_segments := s.m_segments ++
        [{ m_type := seg_type, m_iset := some new_is.1, m_indx_own := o.indexOwnership,
           num_semaphore_notify := 0, semaphore_reload := 0, semaphore_value := 0,
           semaphore_notify := [0, 0, 0, 0] }] })

/-- `IndexSet::addRange(begin, end)` on the free store. -/
def IndexSetMem.addRange (st : ObjStore) (s : IndexSetMem) (begin_ end_ : Int) :
    ObjStore × IndexSetMem :=
  IndexSetMem.addSegment st s SegmentType._Range_
    (ISetObj.range { m_begin := begin_, m_end := end_ })

/-- `IndexSet::addList(indx, len, indx_own)` on the free store. -/
def IndexSetMem.addList (st : ObjStore) (s : IndexSetMem) (indx : List Int) (len : Int)
    (indx_own : IndexOwnership) : ObjStore × IndexSetMem :=
  IndexSetMem.addSegment st s SegmentType._List_ (ISetObj.list (ListISet.mk3 indx len indx_own))

/-- `IndexSet::addISet(const RangeISet&)` on the free store. -/
def IndexSetMem.addISetRange (st : ObjStore) (s : IndexSetMem) (iset : RangeISet) :
    ObjStore × IndexSetMem :=
  IndexSetMem.addSegment st s SegmentType._Range_
    (ISetObj.range { m_begin := iset.m_begin, m_end := iset.m_end })

/-- `IndexSet::addISet(const ListISet&, indx_own)` on the free store. -/
def IndexSetMem.addISetList (st : ObjStore) (s : IndexSetMem) (iset : ListISet)
    (indx_own : IndexOwnership) : ObjStore × IndexSetMem :=
  IndexSetMem.addSegment st s SegmentType._List_
    (ISetObj.list (ListISet.mk3 (iset.getIndex.getD []) iset.getLength indx_own))

/-- Body of the loop of `IndexSet::copy` for one segment of `other`, on the
free store. The casts `*static_cast<const RangeISet*>(iset)` and
`*static_cast<const ListISet*>(iset)` read the payload object; the result is
`none` when there is no live object of that class at the address (undefined
behaviour in the source). -/
def IndexSetMem.copySegment (p : ObjStore × IndexSetMem) (seg : SegmentMem) :
    Option (ObjStore × IndexSetMem) :=
  match seg.m_iset with
  | none => some p
  | some a =>
    match seg.m_type with
    | SegmentType._Range_ =>
      match p.1.deref a with
      | some (ISetObj.range r) => some (IndexSetMem.addISetRange p.1 p.2 r)
      | _ => none
    | SegmentType._List_ =>
      match p.1.deref a with
      | some (ISetObj.list l) => some (IndexSetMem.addISetList p.1 p.2 l IndexOwnership.Owned)
      | _ => none
    | SegmentType._Unknown_ => some p

/-- The loop of `IndexSet::copy` over a list of segments. -/
def IndexSetMem.copySegments : List SegmentMem → ObjStore × IndexSetMem →
    Option (ObjStore × IndexSetMem)
  | [], p => some p
  | seg :: rest, p => (IndexSetMem.copySegment p seg).bind (IndexSetMem.copySegments rest)

/-- `IndexSet::copy(other)` on the free store. -/
def IndexSetMem.copy (st : ObjStore) (s other : IndexSetMem) : Option (ObjStore × IndexSetMem) :=
  IndexSetMem.copySegments other.m_segments (st, s)

/-- Copy constructor `IndexSet(const IndexSet& other)` on the free store:
`m_len(0)`, then `copy(other)`. -/
def IndexSetMem.copyCtor (st : ObjStore) (other : IndexSetMem) :
    Option (ObjStore × IndexSetMem) :=
  IndexSetMem.copy st IndexSetMem.empty other

/-- Destructor `~IndexSet`: the store after every segment with a non-null
payload of type `_Range_` or `_List_` has had its payload deleted. -/
def IndexSetMem.destroy (st : ObjStore) (s : IndexSetMem) : ObjStore :=
  s.m_segments.foldl (fun st1 seg =>
    match seg.m_iset with
    | none => st1
    | some a =>
      match seg.m_type with
      | SegmentType._Range_ => st1.delete a
      | SegmentType._List_ => st1.delete a
      | SegmentType._Unknown_ => st1) st

/-- `IndexSet::swap(other)`: the pair `(*this, other)` after the call. With
`RAJA_USE_STL` both members are swapped; without it `*this` only takes over
the members of `other`, which keeps them. -/
def IndexSetMem.swap (RAJA_USE_STL : Bool) (s other : IndexSetMem) :
    IndexSetMem × IndexSetMem :=
  if RAJA_USE_STL then (other, s) else (other, other)

/-- Copy assignment `operator=(rhs)`: the store and `*this` after the call.
`rhsIsThis` is the test `&rhs == this`. The local `copy` is constructed from
`rhs`, swapped with `*this`, and destroyed when the block is left. -/
def IndexSetMem.assign (RAJA_USE_STL : Bool) (st : ObjStore) (s rhs : IndexSetMem)
    (rhsIsThis : Bool) : Option (ObjStore × IndexSetMem) :=
  if rhsIsThis then some (st, s)
  else
    (IndexSetMem.copyCtor st rhs).map (fun p =>
      let swapped := IndexSetMem.swap RAJA_USE_STL s p.2
      (IndexSetMem.destroy p.1 swapped.2, swapped.1))

/-- The segment as the definitions above hold it, with the payload read from
the store (`none` when the payload pointer is not null and there is no live
object at its address). -/
def SegmentMem.view (st : ObjStore) (seg : SegmentMem) : Option Segment :=
  match seg.m_iset with
  | none =>
    some { m_type := seg.m_type, m_iset := ISetPtr.null, m_indx_own := seg.m_indx_own,
           num_semaphore_notify := seg.num_semaphore_notify,
           semaphore_reload := seg.semaphore_reload, semaphore_value := seg.semaphore_value,
           semaphore_notify := seg.semaphore_notify }
  | some a =>
    (st.deref a).map (fun o =>
      { m_type := seg.m_type, m_iset := o.toPtr, m_indx_own := seg.m_indx_own,
        num_semaphore_notify := seg.num_semaphore_notify,
        semaphore_reload := seg.semaphore_reload, semaphore_value := seg.semaphore_value,
        semaphore_notify := seg.semaphore_notify })

/-- The index set as the definitions above hold it, with every payload read
from the store (`none` when some segment points to a deleted object). -/
def IndexSetMem.view (st : ObjStore) (s : IndexSetMem) : Option IndexSet :=
  (s.m_segments.mapM (SegmentMem.view st)).map (fun segs =>
    { m_len := s.m_len, m_segments := segs })

/-- A source for the assignment `a = s`: the store and the index set `s` after
`s.addRange(3, 7)` and `s.addList(p, 2)` with `p` pointing to `{9, 4}`. -/
def assignSample : ObjStore × IndexSetMem :=
  IndexSetMem.addList (IndexSetMem.addRange [] IndexSetMem.empty 3 7).1
    (IndexSetMem.addRange [] IndexSetMem.empty 3 7).2 [9, 4] 2 IndexOwnership.Owned

/-! Theorems -/

/-! ## Append operations -/

theorem addSegmentRange_sum (s : IndexSet) (t : SegmentType) (r : RangeISet) :
    segLengthSum (s.addSegmentRange t r) = segLengthSum s + r.getLength := by
  simp [segLengthSum, IndexSet.addSegmentRange, Segment.getLength, Segment.ofRange]

theorem addSegmentList_sum (s : IndexSet) (t : SegmentType) (l : ListISet) :
    segLengthSum (s.addSegmentList t l) = segLengthSum s + l.getLength := by
  simp [segLengthSum, IndexSet.addSegmentList, Segment.getLength, Segment.ofList]

theorem apply_preserves (s : IndexSet) (op : AddOp)
    (h : s.getLength = segLengthSum s) :
    (op.apply s).getLength = segLengthSum (op.apply s) := by
  cases op with
  | addRange b e =>
    simp only [AddOp.apply, IndexSet.addRange, addSegmentRange_sum]
    simp only [IndexSet.getLength, IndexSet.addSegmentRange] at h ⊢
    rw [h]
  | addISetRange iset =>
    simp only [AddOp.apply, IndexSet.addISetRange, addSegmentRange_sum]
    simp only [IndexSet.getLength, IndexSet.addSegmentRange] at h ⊢
    rw [h]
  | addList indx len own =>
    simp only [AddOp.apply, IndexSet.addList, addSegmentList_sum]
    simp only [IndexSet.getLength, IndexSet.addSegmentList] at h ⊢
    rw [h]
  | addISetList iset own =>
    simp only [AddOp.apply, IndexSet.addISetList, addSegmentList_sum]
    simp only [IndexSet.getLength, IndexSet.addSegmentList] at h ⊢
    rw [h]

theorem foldl_preserves (ops : List AddOp) :
    ∀ s : IndexSet, s.getLength = segLengthSum s →
      (ops.foldl AddOp.apply s).getLength = segLengthSum (ops.foldl AddOp.apply s) := by
  induction ops with
  | nil => intro s h; exact h
  | cons op rest ih =>
    intro s h
    exact ih (op.apply s) (apply_preserves s op h)

/-- C2. Length invariant: every index set built from the empty one by any
sequence of addRange, addList and addISet calls, with arbitrary arguments, has
getLength() equal to the sum of its segments' own lengths. -/
theorem length_invariant (ops : List AddOp) :
    (runOps ops).getLength = segLengthSum (runOps ops) :=
  foldl_preserves ops IndexSet.empty (by simp [IndexSet.getLength, IndexSet.empty, segLengthSum])

/-- C9. addRange(begin, end), for any index set and any integers, adds exactly
one segment at the end, a Range with exactly these bounds, changes the length
by end - begin and keeps the earlier segments. -/
theorem addRange_effect (s : IndexSet) (begin_ end_ : Int) :
    (s.addRange begin_ end_).getNumSegments = s.getNumSegments + 1
    ∧ (s.addRange begin_ end_).m_segments
        = s.m_segments ++ [Segment.ofRange SegmentType._Range_
                            { m_begin := begin_, m_end := end_ }]
    ∧ (∃ last, (s.addRange begin_ end_).m_segments.getLast? = some last
        ∧ last.m_type = SegmentType._Range_
        ∧ last.m_iset = ISetPtr.range { m_begin := begin_, m_end := end_ }
        ∧ forallSegment last = forallRange begin_ end_)
    ∧ (s.addRange begin_ end_).getLength = s.getLength + (end_ - begin_)
    ∧ (∀ i, i < s.m_segments.length →
        (s.addRange begin_ end_).m_segments[i]? = s.m_segments[i]?) := by
  refine ⟨?_, rfl, ?_, rfl, ?_⟩
  · simp [IndexSet.addRange, IndexSet.addSegmentRange, IndexSet.getNumSegments]
  · refine ⟨Segment.ofRange SegmentType._Range_ { m_begin := begin_, m_end := end_ }, ?_,
      rfl, rfl, rfl⟩
    simp [IndexSet.addRange, IndexSet.addSegmentRange]
  · intro i hi
    simp only [IndexSet.addRange, IndexSet.addSegmentRange]
    exact List.getElem?_append_left hi


/-! ## Segment builder: round trip -/

theorem forLoop_induct {σ : Type} (body : Nat → σ → σ) (P : Nat → σ → Prop) (hi : Nat)
    (hstep : ∀ ii st, ii < hi → P ii st → P (ii + 1) (body ii st)) :
    ∀ n ii st, ii + n = hi → P ii st → P hi (forLoop body n ii st) := by
  intro n
  induction n with
  | zero => intro ii st h hp; simp only [forLoop]; rw [← h]; exact hp
  | succ n ih =>
    intro ii st h hp
    simp only [forLoop]
    exact ih (ii + 1) (body ii st) (by omega) (hstep ii st (by omega) hp)

theorem emitBody_start_range (al : Int) (A : List Int) (ii : Nat) (st : EmitState)
    (h : st.inrange = -1) (hl : rd A ii = st.scanVal + 1) (ha : st.scanVal.tmod al = 0) :
    emitBody al A ii st = { st with inrange := 1, scanVal := rd A ii, sliceCount := st.sliceCount + 1 } := by
  simp [emitBody, h, hl, ha]

theorem emitBody_start_list (al : Int) (A : List Int) (ii : Nat) (st : EmitState)
    (h : st.inrange = -1) (hl : ¬ (rd A ii = st.scanVal + 1 ∧ st.scanVal.tmod al = 0)) :
    emitBody al A ii st = { st with inrange := 0, scanVal := rd A ii, sliceCount := st.sliceCount + 1,
                                    dobegin := (ii : Int) - 1 } := by
  by_cases h1 : rd A ii = st.scanVal + 1
  · have h2 : ¬ st.scanVal.tmod al = 0 := fun h2 => hl ⟨h1, h2⟩
    simp [emitBody, h, h1, h2]
  · simp [emitBody, h, h1]

theorem emitBody_list_to_range (al : Int) (A : List Int) (ii : Nat) (st : EmitState)
    (h : st.inrange = 0) (hl : rd A ii = st.scanVal + 1) (ha : st.scanVal.tmod al = 0) :
    emitBody al A ii st =
      { hiset := if st.sliceCount ≠ 0 then
                   st.hiset.addList (A.drop st.dobegin.toNat) st.sliceCount IndexOwnership.Owned
                 else st.hiset,
        inrange := 1, scanVal := rd A ii, sliceCount := 1, dobegin := st.scanVal } := by
  by_cases h1 : st.sliceCount = 0 <;> simp [emitBody, h, hl, ha, h1]

theorem emitBody_list_stay (al : Int) (A : List Int) (ii : Nat) (st : EmitState)
    (h : st.inrange = 0) (hl : ¬ (rd A ii = st.scanVal + 1 ∧ st.scanVal.tmod al = 0)) :
    emitBody al A ii st = { st with scanVal := rd A ii, sliceCount := st.sliceCount + 1 } := by
  by_cases h1 : rd A ii = st.scanVal + 1
  · have h2 : ¬ st.scanVal.tmod al = 0 := fun h2 => hl ⟨h1, h2⟩
    simp [emitBody, h, h1, h2]
  · simp [emitBody, h, h1]

theorem emitBody_range_stay (al : Int) (A : List Int) (ii : Nat) (st : EmitState)
    (h : st.inrange = 1) (hl : rd A ii = st.scanVal + 1) :
    emitBody al A ii st = { st with scanVal := rd A ii, sliceCount := st.sliceCount + 1 } := by
  simp [emitBody, h, hl]

theorem emitBody_range_end (al : Int) (A : List Int) (ii : Nat) (st : EmitState)
    (h : st.inrange = 1) (hl : ¬ rd A ii = st.scanVal + 1) :
    emitBody al A ii st =
      { hiset := st.hiset.addRange st.dobegin (st.dobegin + (st.sliceCount + 1)),
        inrange := 0, scanVal := rd A ii, sliceCount := 0, dobegin := (ii : Int) } := by
  simp [emitBody, h, hl]

theorem range_map_rd (l : List Int) (n : Nat) (h : n ≤ l.length) :
    (List.range n).map (fun k => rd l k) = l.take n := by
  apply List.ext_getElem
  · simp [h]
  · intro i h1 h2
    simp at h1 h2
    simp [rd, List.getD_eq_getElem?_getD, List.getElem?_eq_getElem (by omega : i < l.length)]

theorem forallRange_succ (b c : Int) (hc : 0 ≤ c) :
    forallRange b (b + (c + 1)) = forallRange b (b + c) ++ [b + c] := by
  unfold forallRange
  have h1 : (b + (c + 1) - b).toNat = c.toNat + 1 := by omega
  have h2 : (b + c - b).toNat = c.toNat := by omega
  rw [h1, h2, List.range_succ, List.map_append]
  simp
  omega

theorem forallRange_empty (b : Int) : forallRange b b = [] := by
  simp [forallRange]

theorem forall_addRange (h : IndexSet) (b e : Int) :
    forallIndexSet (h.addRange b e) = forallIndexSet h ++ forallRange b e := by
  simp [forallIndexSet, IndexSet.addRange, IndexSet.addSegmentRange, forallSegment,
    Segment.ofRange, RangeISet.getBegin, RangeISet.getEnd]

theorem forall_addList (h : IndexSet) (indx : List Int) (len : Int) (hl : 0 < len)
    (hb : len.toNat ≤ indx.length) :
    forallIndexSet (h.addList indx len IndexOwnership.Owned)
      = forallIndexSet h ++ indx.take len.toNat := by
  have hn : ¬ len ≤ 0 := by omega
  simp [forallIndexSet, IndexSet.addList, IndexSet.addSegmentList, forallSegment,
    Segment.ofList, ListISet.mk3, ListISet.initIndexData, hn, forallList, ListISet.getLength,
    ListISet.getIndex]
  rw [range_map_rd _ _ (by simp [hb])]
  simp

theorem take_succ_rd (A : List Int) (n : Nat) (h : n < A.length) :
    A.take (n + 1) = A.take n ++ [rd A n] := by
  rw [List.take_succ]
  simp [rd, List.getD_eq_getElem?_getD, List.getElem?_eq_getElem h]

theorem take_take_drop (A : List Int) (d c : Nat) :
    A.take d ++ (A.drop d).take c = A.take (d + c) := by
  rw [List.take_add]

theorem forallRange_one (b : Int) : forallRange b (b + 1) = [b] := by
  have h : (b + 1 - b).toNat = 1 := by omega
  simp [forallRange, h, List.range_succ]

theorem emitInv_step (al : Int) (A pre : List Int) (ii : Nat) (st : EmitState)
    (hlt : ii < A.length) (h : EmitInv A pre ii st) :
    EmitInv A pre (ii + 1) (emitBody al A ii st) := by
  obtain ⟨h1, h2, hsv, hc⟩ := h
  have hsv' : rd A (ii + 1 - 1) = rd A ii := by simp
  have e1 : ii + 1 - 1 = ii := by omega
  have htk : A.take ii = A.take (ii - 1) ++ [rd A (ii - 1)] := by
    have := take_succ_rd A (ii - 1) (by omega)
    rwa [show ii - 1 + 1 = ii by omega] at this
  rcases hc with ⟨hr, hii, hs, hd, hf⟩ | ⟨hr, hd, hs, hds, hf⟩ | ⟨hr, hs, hv, hf⟩
  · by_cases hl : rd A ii = st.scanVal + 1 ∧ st.scanVal.tmod al = 0
    · rw [emitBody_start_range al A ii st hr hl.1 hl.2]
      refine ⟨by omega, by omega, by simp, Or.inr (Or.inr ⟨rfl, by simp [hs], ?_, ?_⟩)⟩
      · simp [hs, hd, hl.1]
      · subst hii
        simp only [hs, hd, zero_add, forallRange_one, hf]
        rw [show 1 + 1 - 1 = 1 from rfl, htk, hsv]
        simp
    · rw [emitBody_start_list al A ii st hr hl]
      refine ⟨by omega, by omega, by simp, Or.inr (Or.inl ⟨rfl, ?_, ?_, ?_, ?_⟩)⟩
      · simp; omega
      · simp; omega
      · simp; omega
      · simp [hf, hii]
  · by_cases hl : rd A ii = st.scanVal + 1 ∧ st.scanVal.tmod al = 0
    · rw [emitBody_list_to_range al A ii st hr hl.1 hl.2]
      refine ⟨by omega, by omega, by simp, Or.inr (Or.inr ⟨rfl, by simp, ?_, ?_⟩)⟩
      · simp [hl.1]
      · simp only [forallRange_one]
        have hii : ii - 1 = st.dobegin.toNat + st.sliceCount.toNat := by omega
        by_cases h0 : st.sliceCount = 0
        · simp only [h0, ne_eq, not_true_eq_false, if_false]
          rw [e1, hf, htk, hsv, hii, h0]
          simp
        · simp only [h0, ne_eq, not_false_eq_true, if_true]
          rw [e1, forall_addList _ _ _ (by omega) (by simp; omega), hf, htk, hsv, hii,
            ← take_take_drop]
          simp
    · rw [emitBody_list_stay al A ii st hr hl]
      refine ⟨by omega, by omega, by simp, Or.inr (Or.inl ⟨hr, hd, ?_, ?_, hf⟩)⟩
      · simp; omega
      · simp; omega
  · by_cases hl : rd A ii = st.scanVal + 1
    · rw [emitBody_range_stay al A ii st hr hl]
      refine ⟨by omega, by omega, by simp, Or.inr (Or.inr ⟨hr, ?_, ?_, ?_⟩)⟩
      · simp; omega
      · simp; omega
      · simp only [Nat.add_sub_cancel]
        rw [forallRange_succ _ _ (by omega), ← List.append_assoc, hf, htk, ← hv, hsv]
        simp
    · rw [emitBody_range_end al A ii st hr hl]
      refine ⟨by omega, by omega, by simp, Or.inr (Or.inl ⟨rfl, by simp, by simp, by simp, ?_⟩)⟩
      simp only [Int.toNat_ofNat]
      rw [forall_addRange, forallRange_succ _ _ (by omega), ← List.append_assoc, hf, htk,
        ← hv, hsv]
      simp

theorem emitInv_init (A pre : List Int) (h0 : IndexSet) (hn : 1 ≤ A.length)
    (hp : forallIndexSet h0 = pre) :
    EmitInv A pre 1
      { hiset := h0, inrange := -1, scanVal := rd A 0, sliceCount := 0, dobegin := rd A 0 } :=
  ⟨le_refl 1, hn, rfl, Or.inl ⟨rfl, rfl, rfl, rfl, hp⟩⟩

theorem emitInv_loop (al : Int) (A pre : List Int) (h0 : IndexSet) (hn : 1 ≤ A.length)
    (hp : forallIndexSet h0 = pre) :
    EmitInv A pre A.length
      (forLoop (emitBody al A) ((A.length : Int) - 1).toNat 1
        { hiset := h0, inrange := -1, scanVal := rd A 0, sliceCount := 0, dobegin := rd A 0 }) :=
  forLoop_induct (emitBody al A) (EmitInv A pre) A.length
    (fun ii st hlt h => emitInv_step al A pre ii st hlt h) _ 1 _ (by omega)
    (emitInv_init A pre h0 hn hp)

theorem emitScan_forall (al : Int) (h0 : IndexSet) (A : List Int) (hn : 1 ≤ A.length)
    (hne : 2 ≤ A.length ∨ rd A 0 ≠ -1) :
    forallIndexSet (emitScan al h0 A A.length) = forallIndexSet h0 ++ A := by
  have hinv := emitInv_loop al A (forallIndexSet h0) h0 hn rfl
  unfold emitScan
  generalize forLoop (emitBody al A) ((A.length : Int) - 1).toNat 1
    { hiset := h0, inrange := -1, scanVal := rd A 0, sliceCount := 0, dobegin := rd A 0 } = st
    at hinv
  obtain ⟨h1, h2, hsv, hc⟩ := hinv
  have htk : A = A.take (A.length - 1) ++ [rd A (A.length - 1)] := by
    have := take_succ_rd A (A.length - 1) (by omega)
    rw [show A.length - 1 + 1 = A.length by omega, List.take_length] at this
    exact this
  rcases hc with ⟨hr, hii, hs, hd, hf⟩ | ⟨hr, hd, hs, hds, hf⟩ | ⟨hr, hs, hv, hf⟩
  · have hsv0 : st.scanVal ≠ -1 := by
      rcases hne with h | h
      · omega
      · rw [hsv, hii]; exact h
    simp only [emitFinish, hr, ne_eq, not_true_eq_false, if_false, hsv0, not_false_eq_true,
      if_true]
    rw [forall_addList _ _ _ (by omega) (by simp), hf]
    have hl : A.length = 1 := hii
    rw [hsv, hl]
    conv_rhs => rw [htk, hl]
    simp
  · have hne1 : (0 : Int) ≠ -1 := by decide
    simp only [emitFinish, hr, ne_eq, hne1, not_false_eq_true, if_true, not_true_eq_false,
      if_false]
    rw [forall_addList _ _ _ (by omega) (by simp; omega), hf]
    have e : (st.sliceCount + 1).toNat = A.length - st.dobegin.toNat := by omega
    rw [List.append_assoc, e, take_take_drop,
      show st.dobegin.toNat + (A.length - st.dobegin.toNat) = A.length by omega,
      List.take_length]
  · have hne1 : (1 : Int) ≠ -1 := by decide
    have hne2 : (1 : Int) ≠ 0 := by decide
    simp only [emitFinish, hr, ne_eq, hne1, hne2, not_false_eq_true, if_true]
    rw [forall_addRange, forallRange_succ _ _ (by omega), ← List.append_assoc, hf, ← hv, hsv,
      List.append_assoc, ← htk]

theorem statScan_one (al : Int) (A : List Int) : 1 ≤ statScan al A 1 := by
  simp only [statScan, statFinish]
  simp [forLoop]
  split_ifs <;> omega

theorem cutoff_one (al : Int) (hal : 1 ≤ al) : (1 * (al - 1)).tdiv al = 0 := by
  rw [one_mul, Int.tdiv_eq_ediv (by omega) (by omega)]
  exact Int.ediv_eq_zero_of_lt (by omega) (by omega)

theorem forall_empty : forallIndexSet IndexSet.empty = [] := by
  simp [forallIndexSet, IndexSet.empty]

/-- C1. Builder round trip: for every index array A (RANGE_ALIGN >= 1; values
are mathematical integers, so scanVal+1 never overflows), buildIndexSet on an
empty index set with (A, length of A) produces segments whose in-order
traversal is exactly A, on every path of the builder. -/
theorem buildIndexSet_round_trip (RANGE_ALIGN RANGE_MIN_LENGTH : Int)
    (hal : 1 ≤ RANGE_ALIGN) (A : List Int) :
    forallIndexSet (buildIndexSet RANGE_ALIGN RANGE_MIN_LENGTH IndexSet.empty A A.length)
      = A := by
  unfold buildIndexSet
  by_cases h0 : (A.length : Int) = 0
  · have : A = [] := by
      apply List.eq_nil_of_length_eq_zero
      omega
    simp [h0, forall_empty, this]
  · have hpos : 0 < (A.length : Int) := by omega
    have hwhole : forallIndexSet (IndexSet.empty.addList A A.length IndexOwnership.Owned)
        = A := by
      rw [forall_addList _ _ _ hpos (by simp), forall_empty]
      simp
    simp only [h0, if_false]
    split_ifs with h1 h2
    · have hn : 1 ≤ A.length := by omega
      have hne : 2 ≤ A.length ∨ rd A 0 ≠ -1 := by
        by_cases h3 : 2 ≤ A.length
        · exact Or.inl h3
        · exfalso
          have hl : A.length = 1 := by omega
          rw [hl] at h2
          have := statScan_one RANGE_ALIGN A
          have := cutoff_one RANGE_ALIGN hal
          simp only [Nat.cast_one] at h2
          omega
      rw [emitScan_forall RANGE_ALIGN IndexSet.empty A hn hne, forall_empty]
      simp
    · exact hwhole
    · exact hwhole

/-! ## Segment builder: cutoff, alignment, small inputs -/

theorem frameRel_step (al : Int) (A : List Int) (h0 : IndexSet) (ii : Nat) (e e' : EmitState)
    (h : FrameRel h0 e e') : FrameRel h0 (emitBody al A ii e) (emitBody al A ii e') := by
  obtain ⟨hs, hi, hv, hc, hd⟩ := h
  obtain ⟨eh, ei, ev, ec, ed⟩ := e
  obtain ⟨eh', ei', ev', ec', ed'⟩ := e'
  simp only at hs hi hv hc hd
  subst hi hv hc hd
  simp only [FrameRel, emitBody]
  split_ifs <;>
    simp_all [IndexSet.addList, IndexSet.addRange, IndexSet.addSegmentList,
      IndexSet.addSegmentRange]

theorem forLoop_rel {σ τ : Type} (f : Nat → σ → σ) (g : Nat → τ → τ) (R : σ → τ → Prop)
    (hstep : ∀ ii s t, R s t → R (f ii s) (g ii t)) :
    ∀ n ii s t, R s t → R (forLoop f n ii s) (forLoop g n ii t) := by
  intro n
  induction n with
  | zero => intro ii s t h; exact h
  | succ n ih => intro ii s t h; exact ih (ii + 1) _ _ (hstep ii s t h)

theorem emitScan_frame (al : Int) (h0 : IndexSet) (A : List Int) (n : Int) :
    (emitScan al h0 A n).m_segments
      = h0.m_segments ++ (emitScan al IndexSet.empty A n).m_segments := by
  have hrel := forLoop_rel (emitBody al A) (emitBody al A) (FrameRel h0)
    (fun ii s t h => frameRel_step al A h0 ii s t h) (n - 1).toNat 1
    { hiset := h0, inrange := -1, scanVal := rd A 0, sliceCount := 0, dobegin := rd A 0 }
    { hiset := IndexSet.empty, inrange := -1, scanVal := rd A 0, sliceCount := 0,
      dobegin := rd A 0 }
    ⟨by simp [IndexSet.empty], rfl, rfl, rfl, rfl⟩
  unfold emitScan
  generalize forLoop (emitBody al A) (n - 1).toNat 1
    { hiset := h0, inrange := -1, scanVal := rd A 0, sliceCount := 0, dobegin := rd A 0 } = e
    at hrel
  generalize forLoop (emitBody al A) (n - 1).toNat 1
    { hiset := IndexSet.empty, inrange := -1, scanVal := rd A 0, sliceCount := 0,
      dobegin := rd A 0 } = e' at hrel
  obtain ⟨hs, hi, hv, hc, hd⟩ := hrel
  simp only [emitFinish, hi, hv, hc, hd]
  split_ifs <;>
    simp [IndexSet.addList, IndexSet.addRange, IndexSet.addSegmentList,
      IndexSet.addSegmentRange, hs]

theorem encodingCost_addRange (h : IndexSet) (b e : Int) :
    encodingCost (h.addRange b e) = encodingCost h + 2 := by
  simp [encodingCost, numRangeSegments, listCostSum, IndexSet.addRange,
    IndexSet.addSegmentRange, Segment.ofRange, List.filter_append]
  omega

theorem encodingCost_addList (h : IndexSet) (indx : List Int) (len : Int) (hl : 0 < len) :
    encodingCost (h.addList indx len IndexOwnership.Owned) = encodingCost h + (1 + len) := by
  have hn : ¬ len ≤ 0 := by omega
  simp [encodingCost, numRangeSegments, listCostSum, IndexSet.addList,
    IndexSet.addSegmentList, Segment.ofList, List.filter_append, Segment.getLength,
    ListISet.mk3, ListISet.initIndexData, hn, ListISet.getLength]
  omega

theorem costRel_step (al : Int) (A : List Int) (ii : Nat) (s : StatState) (e : EmitState)
    (h : CostRel s e) : CostRel (statBody al A ii s) (emitBody al A ii e) := by
  obtain ⟨hi, hv, hc, h0, hd⟩ := h
  obtain ⟨sd, si, sv, sc⟩ := s
  obtain ⟨eh, ei, ev, ec, ed⟩ := e
  simp only at hi hv hc h0 hd
  subst hi hv hc
  simp only [CostRel, statBody, emitBody]
  split_ifs <;> simp_all [encodingCost_addRange] <;> first
    | omega
    | (rw [encodingCost_addList _ _ _ (by omega)]; omega)

theorem encodingCost_empty : encodingCost IndexSet.empty = 1 := by
  simp [encodingCost, numRangeSegments, listCostSum, IndexSet.empty]

theorem statScan_eq_cost (al : Int) (A : List Int) (n : Int) :
    statScan al A n = encodingCost (emitScan al IndexSet.empty A n) := by
  have hrel := forLoop_rel (statBody al A) (emitBody al A) CostRel
    (fun ii s t h => costRel_step al A ii s t h) (n - 1).toNat 1
    { docount := 0, inrange := -1, scanVal := rd A 0, sliceCount := 0 }
    { hiset := IndexSet.empty, inrange := -1, scanVal := rd A 0, sliceCount := 0,
      dobegin := rd A 0 }
    ⟨rfl, rfl, rfl, le_refl 0, by simp [encodingCost_empty]⟩
  unfold statScan emitScan
  generalize forLoop (statBody al A) (n - 1).toNat 1
    { docount := 0, inrange := -1, scanVal := rd A 0, sliceCount := 0 } = s at hrel
  generalize forLoop (emitBody al A) (n - 1).toNat 1
    { hiset := IndexSet.empty, inrange := -1, scanVal := rd A 0, sliceCount := 0,
      dobegin := rd A 0 } = e at hrel
  obtain ⟨hi, hv, hc, h0, hd⟩ := hrel
  simp only [statFinish, emitFinish, hi, hv, hc]
  rw [hc] at h0
  split_ifs
  · rw [encodingCost_addRange]; omega
  · rw [encodingCost_addList _ _ _ (by omega)]; omega
  · rw [encodingCost_addList _ _ _ (by omega)]; omega
  · omega

theorem rangesAligned_addList (al : Int) (A : List Int) (n : Int) (h : IndexSet)
    (indx : List Int) (len : Int) (own : IndexOwnership) (hr : RangesAligned al A n h) :
    RangesAligned al A n (h.addList indx len own) := by
  intro seg hseg r hsr
  simp only [IndexSet.addList, IndexSet.addSegmentList, List.mem_append,
    List.mem_singleton] at hseg
  rcases hseg with hseg | hseg
  · exact hr seg hseg r hsr
  · subst hseg
    simp [Segment.ofList] at hsr

theorem rangesAligned_addRange (al : Int) (A : List Int) (n : Int) (h : IndexSet)
    (b e : Int) (hr : RangesAligned al A n h) (hb : GoodStart al A n b) :
    RangesAligned al A n (h.addRange b e) := by
  intro seg hseg r hsr
  simp only [IndexSet.addRange, IndexSet.addSegmentRange, List.mem_append,
    List.mem_singleton] at hseg
  rcases hseg with hseg | hseg
  · exact hr seg hseg r hsr
  · subst hseg
    simp only [Segment.ofRange, ISetPtr.range.injEq] at hsr
    subst hsr
    exact hb

theorem alignInv_step (al : Int) (A : List Int) (n : Int) (ii : Nat) (st : EmitState)
    (hlt : (ii : Int) < n) (h : AlignInv al A n ii st) :
    AlignInv al A n (ii + 1) (emitBody al A ii st) := by
  obtain ⟨h1, hsv, hc, hdb, hd, hr⟩ := h
  have hgood : rd A ii = st.scanVal + 1 → st.scanVal.tmod al = 0 →
      GoodStart al A n st.scanVal := by
    intro hl ha
    refine ⟨ha, ii - 1, by omega, hsv.symm, ?_⟩
    rw [show ii - 1 + 1 = ii by omega]; exact hl
  have hne : ((0 : Int) = -1) = False := by simp
  rcases hc with hc | hc | hc
  · by_cases hl : rd A ii = st.scanVal + 1 ∧ st.scanVal.tmod al = 0
    · rw [emitBody_start_range al A ii st hc hl.1 hl.2]
      refine ⟨by omega, by simp, Or.inr (Or.inr rfl), by simp, ?_, hr⟩
      intro _
      rw [show st.dobegin = st.scanVal from hdb hc]
      exact hgood hl.1 hl.2
    · rw [emitBody_start_list al A ii st hc hl]
      exact ⟨by omega, by simp, Or.inr (Or.inl rfl), by simp, by simp, hr⟩
  · by_cases hl : rd A ii = st.scanVal + 1 ∧ st.scanVal.tmod al = 0
    · rw [emitBody_list_to_range al A ii st hc hl.1 hl.2]
      refine ⟨by omega, by simp, Or.inr (Or.inr rfl), by simp, fun _ => hgood hl.1 hl.2, ?_⟩
      simp only
      split_ifs
      · exact rangesAligned_addList al A n _ _ _ _ hr
      · exact hr
    · rw [emitBody_list_stay al A ii st hc hl]
      exact ⟨by omega, by simp, Or.inr (Or.inl hc), by simp [hc], by simp [hc], hr⟩
  · by_cases hl : rd A ii = st.scanVal + 1
    · rw [emitBody_range_stay al A ii st hc hl]
      exact ⟨by omega, by simp, Or.inr (Or.inr hc), by simp [hc], fun _ => hd hc, hr⟩
    · rw [emitBody_range_end al A ii st hc hl]
      exact ⟨by omega, by simp, Or.inr (Or.inl rfl), by simp, by simp,
        rangesAligned_addRange al A n _ _ _ hr (hd hc)⟩

theorem emitScan_aligned (al : Int) (h0 : IndexSet) (A : List Int) (n : Int)
    (hr0 : RangesAligned al A n h0) : RangesAligned al A n (emitScan al h0 A n) := by
  have hinv : AlignInv al A n (1 + (n - 1).toNat)
      (forLoop (emitBody al A) (n - 1).toNat 1
        { hiset := h0, inrange := -1, scanVal := rd A 0, sliceCount := 0,
          dobegin := rd A 0 }) :=
    forLoop_induct (emitBody al A) (AlignInv al A n) (1 + (n - 1).toNat)
      (fun ii st hlt h => alignInv_step al A n ii st (by have := h.1; omega) h) _ 1 _ rfl
      ⟨le_refl 1, rfl, Or.inl rfl, fun _ => rfl, by simp, hr0⟩
  unfold emitScan
  generalize forLoop (emitBody al A) (n - 1).toNat 1
    { hiset := h0, inrange := -1, scanVal := rd A 0, sliceCount := 0, dobegin := rd A 0 } = st
    at hinv
  obtain ⟨h1, hsv, hc, hdb, hd, hr⟩ := hinv
  simp only [emitFinish]
  rcases hc with hc | hc | hc
  · simp only [hc, ne_eq, not_true_eq_false, if_false]
    split_ifs
    · exact hr
    · exact rangesAligned_addList al A n _ _ _ _ hr
  · simp only [hc, ne_eq, not_true_eq_false, if_false]
    simp only [show ¬ (0 : Int) = -1 by decide, not_false_eq_true, if_true]
    exact rangesAligned_addList al A n _ _ _ _ hr
  · simp only [hc, ne_eq, show ¬ (1 : Int) = -1 by decide, show ¬ (1 : Int) = 0 by decide,
      not_false_eq_true, if_true]
    exact rangesAligned_addRange al A n _ _ _ hr (hd hc)

theorem rangesAligned_empty (al : Int) (A : List Int) (n : Int) :
    RangesAligned al A n IndexSet.empty := by
  intro seg hseg
  simp [IndexSet.empty] at hseg

/-- C8. Alignment rule: every Range segment that buildIndexSet emits, for any
input, begins at a value divisible by RANGE_ALIGN; that value is an element of
the input whose successor in the input is the next integer. -/
theorem range_begin_aligned (RANGE_ALIGN RANGE_MIN_LENGTH : Int) (A : List Int) (n : Int)
    (seg : Segment) (r : RangeISet)
    (hseg : seg ∈ (buildIndexSet RANGE_ALIGN RANGE_MIN_LENGTH IndexSet.empty A n).m_segments)
    (hr : seg.m_iset = ISetPtr.range r) :
    r.getBegin.tmod RANGE_ALIGN = 0
    ∧ ∃ i : Nat, (i : Int) + 1 < n ∧ rd A i = r.getBegin ∧ rd A (i + 1) = r.getBegin + 1 := by
  have hall : RangesAligned RANGE_ALIGN A n
      (buildIndexSet RANGE_ALIGN RANGE_MIN_LENGTH IndexSet.empty A n) := by
    unfold buildIndexSet
    split_ifs
    · exact rangesAligned_empty _ _ _
    · exact emitScan_aligned _ _ _ _ (rangesAligned_empty _ _ _)
    · exact rangesAligned_addList _ _ _ _ _ _ _ (rangesAligned_empty _ _ _)
    · exact rangesAligned_addList _ _ _ _ _ _ _ (rangesAligned_empty _ _ _)
  exact hall seg hseg r hr

theorem buildIndexSet_round_trip_witness :
    (1 : Int) ≤ 4
    ∧ forallIndexSet (buildIndexSet 4 4 IndexSet.empty sampleInput sampleInput.length)
        = sampleInput :=
  ⟨by decide, buildIndexSet_round_trip 4 4 (by decide) sampleInput⟩

theorem range_begin_aligned_witness :
    Segment.ofRange SegmentType._Range_ { m_begin := 4, m_end := 14 }
        ∈ (buildIndexSet 4 4 IndexSet.empty sampleInput 14).m_segments
    ∧ (4 : Int).tmod 4 = 0 :=
  ⟨by decide,
    (range_begin_aligned 4 4 sampleInput 14
      (Segment.ofRange SegmentType._Range_ { m_begin := 4, m_end := 14 })
      { m_begin := 4, m_end := 14 } (by decide) rfl).1⟩

/-- C10. Small inputs are not analysed: for 0 < length <= RANGE_MIN_LENGTH,
buildIndexSet appends exactly one segment, a List segment with ownership Owned
whose indices are the whole input in order (never a Range). -/
theorem small_input_single_list (RANGE_ALIGN RANGE_MIN_LENGTH : Int) (hiset : IndexSet)
    (A : List Int) (hpos : 0 < A.length) (hsmall : (A.length : Int) ≤ RANGE_MIN_LENGTH) :
    ∃ seg : Segment,
      (buildIndexSet RANGE_ALIGN RANGE_MIN_LENGTH hiset A A.length).m_segments
        = hiset.m_segments ++ [seg]
      ∧ seg.m_type = SegmentType._List_
      ∧ seg.m_indx_own = IndexOwnership.Owned
      ∧ seg.m_iset = ISetPtr.list
          { m_indx := some A, m_len := A.length, m_indx_own := IndexOwnership.Owned }
      ∧ forallSegment seg = A := by
  have h0 : ¬ (A.length : Int) = 0 := by omega
  have hgt : ¬ (A.length : Int) > RANGE_MIN_LENGTH := by omega
  have hnle : ¬ (A.length : Int) ≤ 0 := by omega
  refine ⟨Segment.ofList SegmentType._List_
    { m_indx := some A, m_len := A.length, m_indx_own := IndexOwnership.Owned }, ?_, rfl, rfl,
    rfl, ?_⟩
  · simp [buildIndexSet, h0, hgt, IndexSet.addList, IndexSet.addSegmentList,
      ListISet.mk3, ListISet.initIndexData, hnle]
  · simp only [forallSegment, Segment.ofList, forallList, ListISet.getLength,
      ListISet.getIndex, Option.getD_some, Int.toNat_ofNat]
    rw [range_map_rd A A.length (le_refl _), List.take_length]

theorem small_input_single_list_witness :
    ∃ seg : Segment,
      (buildIndexSet 4 4 IndexSet.empty [8, 9, 10] ([8, 9, 10] : List Int).length).m_segments
        = IndexSet.empty.m_segments ++ [seg]
      ∧ seg.m_type = SegmentType._List_
      ∧ seg.m_indx_own = IndexOwnership.Owned
      ∧ seg.m_iset = ISetPtr.list
          { m_indx := some [8, 9, 10], m_len := ([8, 9, 10] : List Int).length,
            m_indx_own := IndexOwnership.Owned }
      ∧ forallSegment seg = [8, 9, 10] :=
  small_input_single_list 4 4 IndexSet.empty [8, 9, 10] (by decide) (by decide)

/-! ## Geometric partitioner: coverage -/

theorem mem_forallRange (b e x : Int) : x ∈ forallRange b e ↔ b ≤ x ∧ x < e := by
  simp only [forallRange, List.mem_map, List.mem_range]
  constructor
  · rintro ⟨k, hk, rfl⟩
    omega
  · intro h
    exact ⟨(x - b).toNat, by omega, by omega⟩

theorem mem_forall_rangeSeg (b e x : Int) :
    x ∈ forallSegment (rangeSeg b e) ↔ b ≤ x ∧ x < e := by
  simp [rangeSeg, forallSegment, Segment.ofRange, RangeISet.getBegin, RangeISet.getEnd,
    mem_forallRange]

theorem forLoop_addRange (f g : Nat → Int) :
    ∀ (n lo : Nat) (rv : IndexSet),
      (forLoop (fun i rv1 => rv1.addRange (f i) (g i)) n lo rv).m_segments
        = rv.m_segments ++ (List.range n).map (fun k => rangeSeg (f (lo + k)) (g (lo + k))) := by
  intro n
  induction n with
  | zero => intro lo rv; simp [forLoop]
  | succ n ih =>
    intro lo rv
    simp only [forLoop]
    rw [ih, List.range_succ_eq_map, List.map_cons, List.map_map]
    simp only [IndexSet.addRange, IndexSet.addSegmentRange, List.append_assoc,
      List.singleton_append, Nat.add_zero]
    congr 2
    apply List.map_congr_left
    intro k _
    simp only [Function.comp, Nat.succ_eq_add_one]
    rw [show lo + 1 + k = lo + (k + 1) by omega]

theorem wrapInt_eq (x : Int) (h1 : -2147483648 ≤ x) (h2 : x ≤ 2147483647) : wrapInt x = x := by
  unfold wrapInt
  simp only
  split_ifs <;> omega

theorem forStep_addRange (f g : Int → Int) (hi : Int) (hhi : hi ≤ 2147483645) :
    ∀ (fuel : Nat) (i : Int) (rv : IndexSet), -2147483648 ≤ i →
      ((hi - i + 2) / 3).toNat ≤ fuel →
      (forStep (fun j rv1 => rv1.addRange (f j) (g j)) 3 hi fuel i rv).m_segments
        = rv.m_segments ++ (List.range ((hi - i + 2) / 3).toNat).map
            (fun (k : Nat) => rangeSeg (f (i + 3 * (k : Int))) (g (i + 3 * (k : Int)))) := by
  intro fuel
  induction fuel with
  | zero =>
    intro i rv _ h
    have h0 : ((hi - i + 2) / 3).toNat = 0 := by omega
    simp [forStep, h0]
  | succ fuel ih =>
    intro i rv hlo h
    simp only [forStep]
    by_cases hlt : i < hi
    · have hn : ((hi - i + 2) / 3).toNat = ((hi - (i + 3) + 2) / 3).toNat + 1 := by omega
      simp only [hlt, if_true]
      rw [wrapInt_eq (i + 3) (by omega) (by omega)]
      rw [ih _ _ (by omega) (by omega), hn, List.range_succ_eq_map, List.map_cons, List.map_map]
      simp only [IndexSet.addRange, IndexSet.addSegmentRange, List.append_assoc,
        List.singleton_append]
      congr 2
      · simp [rangeSeg]
      · apply List.map_congr_left
        intro k _
        simp only [Function.comp, Nat.succ_eq_add_one, Nat.cast_add, Nat.cast_one]
        rw [show i + 3 + 3 * (k : Int) = i + 3 * ((k : Int) + 1) by ring]
    · have h0 : ((hi - i + 2) / 3).toNat = 0 := by omega
      simp [hlt, h0]

theorem countP_lanes3 (p0 p1 p2 q : Nat → Bool) (T : Nat)
    (h : ∀ k, k < T →
      (if p0 k then 1 else 0) + (if p1 k then 1 else 0) + (if p2 k then 1 else 0)
        = (if q k then 1 else 0)) :
    (List.range T).countP p0 + (List.range T).countP p1 + (List.range T).countP p2
      = (List.range T).countP q := by
  induction T with
  | zero => simp
  | succ T ih =>
    have h1 := ih (fun k hk => h k (by omega))
    have h2 := h T (by omega)
    simp only [List.range_succ, List.countP_append, List.countP_singleton]
    omega

theorem countP_lanes2 (p0 p1 q : Nat → Bool) (T : Nat)
    (h : ∀ k, k < T →
      (if p0 k then 1 else 0) + (if p1 k then 1 else 0) = (if q k then 1 else 0)) :
    (List.range T).countP p0 + (List.range T).countP p1 = (List.range T).countP q := by
  induction T with
  | zero => simp
  | succ T ih =>
    have h1 := ih (fun k hk => h k (by omega))
    have h2 := h T (by omega)
    simp only [List.range_succ, List.countP_append, List.countP_singleton]
    omega

theorem countP_chain (s : Nat → Int) (x : Int) (T : Nat)
    (hmono : ∀ k, k < T → s k ≤ s (k + 1)) :
    (List.range T).countP (fun k => decide (s k ≤ x ∧ x < s (k + 1)))
      = if s 0 ≤ x ∧ x < s T then 1 else 0 := by
  induction T with
  | zero =>
    have : ¬ (s 0 ≤ x ∧ x < s 0) := by omega
    simp [this]
  | succ T ih =>
    have h1 := ih (fun k hk => hmono k (by omega))
    have h2 := hmono T (by omega)
    have hle : s 0 ≤ s T := by
      clear h1 h2 ih
      induction T with
      | zero => exact le_refl _
      | succ T ih2 =>
        exact le_trans (ih2 (fun k hk => hmono k (by omega))) (hmono T (by omega))
    simp only [List.range_succ, List.countP_append, List.countP_singleton, h1]
    simp only [decide_eq_true_eq]
    split_ifs <;> omega

theorem cover_lanes3 (b : Nat → Nat → Int) (x : Int) (T : Nat)
    (hm : ∀ i, i < T → b 0 i ≤ b 1 i ∧ b 1 i ≤ b 2 i ∧ b 2 i ≤ b 3 i)
    (hl : ∀ i, b 3 i = b 0 (i + 1)) :
    ((List.range T).map (fun i => rangeSeg (b 0 i) (b 1 i))
      ++ (List.range T).map (fun i => rangeSeg (b 1 i) (b 2 i))
      ++ (List.range T).map (fun i => rangeSeg (b 2 i) (b 3 i))).countP
        (fun seg => decide (x ∈ forallSegment seg))
      = if b 0 0 ≤ x ∧ x < b 0 T then 1 else 0 := by
  rw [List.countP_append, List.countP_append, List.countP_map, List.countP_map,
    List.countP_map]
  rw [countP_lanes3 _ _ _ (fun k => decide (b 0 k ≤ x ∧ x < b 0 (k + 1))) T]
  · exact countP_chain (b 0) x T (fun k hk => by
      have := hm k hk
      have := hl k
      omega)
  · intro k hk
    have h1 := hm k hk
    have h2 := hl k
    simp only [Function.comp, mem_forall_rangeSeg, decide_eq_true_eq]
    split_ifs <;> omega

theorem cover_lanes2 (b : Nat → Nat → Int) (x : Int) (T : Nat)
    (hm : ∀ i, i < T → b 0 i ≤ b 1 i ∧ b 1 i ≤ b 2 i)
    (hl : ∀ i, b 2 i = b 0 (i + 1)) :
    ((List.range T).map (fun i => rangeSeg (b 0 i) (b 1 i))
      ++ (List.range T).map (fun i => rangeSeg (b 1 i) (b 2 i))).countP
        (fun seg => decide (x ∈ forallSegment seg))
      = if b 0 0 ≤ x ∧ x < b 0 T then 1 else 0 := by
  rw [List.countP_append, List.countP_map, List.countP_map]
  rw [countP_lanes2 _ _ (fun k => decide (b 0 k ≤ x ∧ x < b 0 (k + 1))) T]
  · exact countP_chain (b 0) x T (fun k hk => by
      have := hm k hk
      have := hl k
      omega)
  · intro k hk
    have h1 := hm k hk
    have h2 := hl k
    simp only [Function.comp, mem_forall_rangeSeg, decide_eq_true_eq]
    split_ifs <;> omega

theorem tdiv_mono (a b c : Int) (ha : 0 ≤ a) (hab : a ≤ b) (hc : 0 < c) :
    a.tdiv c ≤ b.tdiv c := by
  rw [Int.tdiv_eq_ediv ha (le_of_lt hc), Int.tdiv_eq_ediv (le_trans ha hab) (le_of_lt hc)]
  exact Int.ediv_le_ediv hc hab

theorem tdiv_nonneg (a c : Int) (ha : 0 ≤ a) (hc : 0 < c) : 0 ≤ a.tdiv c := by
  rw [Int.tdiv_eq_ediv ha (le_of_lt hc)]
  exact Int.ediv_nonneg ha (le_of_lt hc)

theorem tdiv_mul_cancel (a c : Int) (ha : 0 ≤ a) (hc : 0 < c) : (c * a).tdiv c = a := by
  rw [Int.tdiv_eq_ediv (mul_nonneg (le_of_lt hc) ha) (le_of_lt hc)]
  exact Int.mul_ediv_cancel_left a (ne_of_gt hc)

/-- One slice of the 1-D partition: when `3 * T * fastDim` fits in an `int`
the products of the loop body are exact. -/
theorem lane1D_exact (T : Nat) (fastDim : Int) (lane k : Nat) (hl : lane < 3) (hk : k < T)
    (hf : 0 ≤ fastDim) (hfit : 3 * (T : Int) * fastDim ≤ INT_MAX) (hseg : 3 * (T : Int) ≤ INT_MAX) :
    rangeSeg ((wrapInt (((lane : Int) + 3 * (k : Int)) * fastDim)).tdiv ((T : Int) * 3))
        ((wrapInt (wrapInt ((lane : Int) + 3 * (k : Int) + 1) * fastDim)).tdiv ((T : Int) * 3))
      = rangeSeg ((((lane : Int) + 3 * (k : Int)) * fastDim).tdiv ((T : Int) * 3))
          ((((lane : Int) + 3 * (k : Int) + 1) * fastDim).tdiv ((T : Int) * 3)) := by
  simp only [INT_MAX] at hfit hseg
  have h1 : ((lane : Int) + 3 * (k : Int) + 1) * fastDim ≤ 3 * (T : Int) * fastDim :=
    mul_le_mul_of_nonneg_right (by omega) hf
  have h0 : ((lane : Int) + 3 * (k : Int)) * fastDim ≤ 3 * (T : Int) * fastDim :=
    mul_le_mul_of_nonneg_right (by omega) hf
  have p0 : 0 ≤ ((lane : Int) + 3 * (k : Int)) * fastDim := mul_nonneg (by omega) hf
  have p1 : 0 ≤ ((lane : Int) + 3 * (k : Int) + 1) * fastDim := mul_nonneg (by omega) hf
  rw [wrapInt_eq ((lane : Int) + 3 * (k : Int) + 1) (by omega) (by omega),
    wrapInt_eq _ (by omega) (by omega), wrapInt_eq _ (by omega) (by omega)]

theorem blockLanes1D_segments_from (T : Nat) (fastDim : Int) (retVal : IndexSet)
    (hf : 0 ≤ fastDim) (hfit : 3 * (T : Int) * fastDim ≤ INT_MAX)
    (hseg : 3 * (T : Int) + 2 ≤ INT_MAX) :
    (blockLanes1D (T : Int) fastDim retVal).m_segments
      = retVal.m_segments
        ++ ((List.range T).map (fun (k : Nat) =>
            rangeSeg (((0 + 3 * (k : Int)) * fastDim).tdiv ((T : Int) * 3))
              (((0 + 3 * (k : Int) + 1) * fastDim).tdiv ((T : Int) * 3)))
        ++ ((List.range T).map (fun (k : Nat) =>
            rangeSeg (((1 + 3 * (k : Int)) * fastDim).tdiv ((T : Int) * 3))
              (((1 + 3 * (k : Int) + 1) * fastDim).tdiv ((T : Int) * 3)))
        ++ (List.range T).map (fun (k : Nat) =>
            rangeSeg (((2 + 3 * (k : Int)) * fastDim).tdiv ((T : Int) * 3))
              (((2 + 3 * (k : Int) + 1) * fastDim).tdiv ((T : Int) * 3))))) := by
  have hseg1 : 3 * (T : Int) + 2 ≤ 2147483647 := hseg
  have hN : wrapInt ((T : Int) * 3) = (T : Int) * 3 := wrapInt_eq _ (by omega) (by omega)
  simp only [blockLanes1D, forLoop, hN]
  rw [forStep_addRange _ _ _ (by omega) _ _ _ (by omega) (by simp; omega),
    forStep_addRange _ _ _ (by omega) _ _ _ (by omega) (by simp; omega),
    forStep_addRange _ _ _ (by omega) _ _ _ (by omega) (by simp; omega)]
  have e0 : (((T : Int) * 3 - ((0 : Nat) : Int) + 2) / 3).toNat = T := by omega
  have e1 : (((T : Int) * 3 - ((0 + 1 : Nat) : Int) + 2) / 3).toNat = T := by omega
  have e2 : (((T : Int) * 3 - ((0 + 1 + 1 : Nat) : Int) + 2) / 3).toNat = T := by omega
  rw [e0, e1, e2]
  have hs : 3 * (T : Int) ≤ INT_MAX := by simp only [INT_MAX]; omega
  have m0 := List.map_congr_left (fun k hk =>
    lane1D_exact T fastDim 0 k (by omega) (List.mem_range.mp hk) hf hfit hs)
  have m1 := List.map_congr_left (fun k hk =>
    lane1D_exact T fastDim 1 k (by omega) (List.mem_range.mp hk) hf hfit hs)
  have m2 := List.map_congr_left (fun k hk =>
    lane1D_exact T fastDim 2 k (by omega) (List.mem_range.mp hk) hf hfit hs)
  simp only [Nat.cast_zero, Nat.cast_one, Nat.cast_ofNat, Nat.cast_add, zero_add] at m0 m1 m2 ⊢
  rw [m0, show ((1 : Int) + 1) = 2 by norm_num, m1, m2]
  simp

theorem tdiv_le_of_le_mul (a c q : Int) (ha : 0 ≤ a) (hc : 0 < c) (hq : 0 ≤ q)
    (h : a ≤ c * q) : a.tdiv c ≤ q := by
  have := tdiv_mono a (c * q) c ha h hc
  rwa [tdiv_mul_cancel q c hq hc] at this

/-- The rows (or planes) of one worker: consecutive cut points `k*m/T` and
`(k+1)*m/T` lie in `[0, m]`, ascend, and are at most `ceil(m/T)` apart. -/
theorem cut_points (T k : Nat) (m : Int) (hk : k < T) (hm : 0 ≤ m) :
    0 ≤ ((k : Int) * m).tdiv T
    ∧ ((k : Int) * m).tdiv T ≤ (((k : Int) + 1) * m).tdiv T
    ∧ (((k : Int) + 1) * m).tdiv T ≤ m
    ∧ (((k : Int) + 1) * m).tdiv T - ((k : Int) * m).tdiv T ≤ (m + (T : Int) - 1).tdiv T := by
  have hT : (0 : Int) < (T : Int) := by omega
  have h0 : 0 ≤ (k : Int) * m := mul_nonneg (by omega) hm
  have h1 : (k : Int) * m ≤ ((k : Int) + 1) * m := mul_le_mul_of_nonneg_right (by omega) hm
  have h2 : ((k : Int) + 1) * m ≤ (T : Int) * m := mul_le_mul_of_nonneg_right (by omega) hm
  refine ⟨tdiv_nonneg _ _ h0 hT, tdiv_mono _ _ _ h0 h1 hT,
    tdiv_le_of_le_mul _ _ _ (by omega) hT hm h2, ?_⟩
  rw [Int.tdiv_eq_ediv (by omega) (le_of_lt hT), Int.tdiv_eq_ediv h0 (le_of_lt hT),
    Int.tdiv_eq_ediv (by omega) (le_of_lt hT)]
  have hq : m + (T : Int) - 1 < ((m + (T : Int) - 1) / (T : Int) + 1) * (T : Int) :=
    Int.lt_ediv_add_one_mul_self _ hT
  have hle : ((k : Int) + 1) * m
      ≤ (k : Int) * m + ((m + (T : Int) - 1) / (T : Int)) * (T : Int) := by
    have : ((k : Int) + 1) * m = (k : Int) * m + m := by ring
    have : ((m + (T : Int) - 1) / (T : Int) + 1) * (T : Int)
        = ((m + (T : Int) - 1) / (T : Int)) * (T : Int) + (T : Int) := by ring
    omega
  have := Int.ediv_le_ediv hT hle
  rw [Int.add_mul_ediv_right _ _ (ne_of_gt hT)] at this
  omega

/-- One cut of the 2-D partition: when the products fit in an `int`, the
bound the loop body computes for lane multiple `c` is the exact one. -/
theorem lane2D_point (T k : Nat) (f m c : Int) (hk : k < T) (hc0 : 0 ≤ c) (hc3 : c ≤ 3)
    (hf : 0 ≤ f) (hm : 0 ≤ m) (hT : (T : Int) ≤ INT_MAX) (h1 : (T : Int) * m ≤ INT_MAX)
    (h2 : m * f ≤ INT_MAX) (h3 : 3 * ((m + (T : Int) - 1).tdiv T * f) ≤ INT_MAX) :
    wrapInt (wrapInt ((wrapInt ((k : Int) * m)).tdiv T * f)
        + (wrapInt (c * wrapInt (wrapInt ((wrapInt (wrapInt ((k : Int) + 1) * m)).tdiv T * f)
            - wrapInt ((wrapInt ((k : Int) * m)).tdiv T * f)))).tdiv 3)
      = ((k : Int) * m).tdiv T * f
        + (c * ((((k : Int) + 1) * m).tdiv T * f - ((k : Int) * m).tdiv T * f)).tdiv 3 := by
  simp only [INT_MAX] at hT h1 h2 h3
  obtain ⟨ha0, hab, hbm, hq⟩ := cut_points T k m hk hm
  have k0 : 0 ≤ (k : Int) * m := mul_nonneg (by omega) hm
  have k1 : (k : Int) * m ≤ (T : Int) * m := mul_le_mul_of_nonneg_right (by omega) hm
  have k2 : 0 ≤ ((k : Int) + 1) * m := mul_nonneg (by omega) hm
  have k3 : ((k : Int) + 1) * m ≤ (T : Int) * m := mul_le_mul_of_nonneg_right (by omega) hm
  have e1 : wrapInt ((k : Int) * m) = (k : Int) * m := wrapInt_eq _ (by omega) (by omega)
  have e2 : wrapInt ((k : Int) + 1) = (k : Int) + 1 := wrapInt_eq _ (by omega) (by omega)
  have e3 : wrapInt (((k : Int) + 1) * m) = ((k : Int) + 1) * m :=
    wrapInt_eq _ (by omega) (by omega)
  rw [e1, e2, e3]
  generalize ((k : Int) * m).tdiv T = a at *
  generalize (((k : Int) + 1) * m).tdiv T = b at *
  have a0 : 0 ≤ a * f := mul_nonneg ha0 hf
  have ab : a * f ≤ b * f := mul_le_mul_of_nonneg_right hab hf
  have bm : b * f ≤ m * f := mul_le_mul_of_nonneg_right hbm hf
  have e4 : wrapInt (a * f) = a * f := wrapInt_eq _ (by omega) (by omega)
  have e5 : wrapInt (b * f) = b * f := wrapInt_eq _ (by omega) (by omega)
  have e6 : wrapInt (b * f - a * f) = b * f - a * f := wrapInt_eq _ (by omega) (by omega)
  rw [e4, e5, e6]
  have hL : b * f - a * f ≤ (m + (T : Int) - 1).tdiv T * f := by
    have : (b - a) * f ≤ (m + (T : Int) - 1).tdiv T * f := mul_le_mul_of_nonneg_right hq hf
    have : (b - a) * f = b * f - a * f := by ring
    omega
  have hL0 : 0 ≤ b * f - a * f := by omega
  have hLb : a * f + (b * f - a * f) ≤ 2147483647 := by omega
  generalize b * f - a * f = L at *
  have c0 : 0 ≤ c * L := mul_nonneg hc0 hL0
  have c3 : c * L ≤ 3 * L := mul_le_mul_of_nonneg_right hc3 hL0
  have e7 : wrapInt (c * L) = c * L := wrapInt_eq _ (by omega) (by omega)
  rw [e7]
  have d0 : 0 ≤ (c * L).tdiv 3 := tdiv_nonneg _ _ c0 (by norm_num)
  have d1 : (c * L).tdiv 3 ≤ L := tdiv_le_of_le_mul _ _ _ c0 (by norm_num) hL0 c3
  exact wrapInt_eq _ (by omega) (by omega)

/-- One cut of the 3-D partition: when the products fit in an `int`, the
bound the loop body computes for lane multiple `c` is the exact one. -/
theorem lane3D_point (T k : Nat) (f m s c : Int) (hk : k < T) (hc0 : 0 ≤ c) (hc2 : c ≤ 2)
    (hf : 0 ≤ f) (hm : 0 ≤ m) (hs : 0 ≤ s) (hT : (T : Int) ≤ INT_MAX)
    (h1 : (T : Int) * s ≤ INT_MAX) (h2 : s * f ≤ INT_MAX) (h3 : s * f * m ≤ INT_MAX)
    (h4 : 2 * ((s + (T : Int) - 1).tdiv T * f * m) ≤ INT_MAX) :
    wrapInt (wrapInt (wrapInt ((wrapInt ((k : Int) * s)).tdiv T * f) * m)
        + (wrapInt (c * wrapInt
            (wrapInt (wrapInt ((wrapInt (wrapInt ((k : Int) + 1) * s)).tdiv T * f) * m)
              - wrapInt (wrapInt ((wrapInt ((k : Int) * s)).tdiv T * f) * m)))).tdiv 2)
      = ((k : Int) * s).tdiv T * f * m
        + (c * ((((k : Int) + 1) * s).tdiv T * f * m - ((k : Int) * s).tdiv T * f * m)).tdiv 2 := by
  simp only [INT_MAX] at hT h1 h2 h3 h4
  obtain ⟨ha0, hab, hbm, hq⟩ := cut_points T k s hk hs
  have k0 : 0 ≤ (k : Int) * s := mul_nonneg (by omega) hs
  have k1 : (k : Int) * s ≤ (T : Int) * s := mul_le_mul_of_nonneg_right (by omega) hs
  have k2 : 0 ≤ ((k : Int) + 1) * s := mul_nonneg (by omega) hs
  have k3 : ((k : Int) + 1) * s ≤ (T : Int) * s := mul_le_mul_of_nonneg_right (by omega) hs
  have e1 : wrapInt ((k : Int) * s) = (k : Int) * s := wrapInt_eq _ (by omega) (by omega)
  have e2 : wrapInt ((k : Int) + 1) = (k : Int) + 1 := wrapInt_eq _ (by omega) (by omega)
  have e3 : wrapInt (((k : Int) + 1) * s) = ((k : Int) + 1) * s :=
    wrapInt_eq _ (by omega) (by omega)
  rw [e1, e2, e3]
  generalize ((k : Int) * s).tdiv T = a at *
  generalize (((k : Int) + 1) * s).tdiv T = b at *
  have a0 : 0 ≤ a * f := mul_nonneg ha0 hf
  have ab : a * f ≤ b * f := mul_le_mul_of_nonneg_right hab hf
  have bm : b * f ≤ s * f := mul_le_mul_of_nonneg_right hbm hf
  have e4 : wrapInt (a * f) = a * f := wrapInt_eq _ (by omega) (by omega)
  have e5 : wrapInt (b * f) = b * f := wrapInt_eq _ (by omega) (by omega)
  rw [e4, e5]
  have a0m : 0 ≤ a * f * m := mul_nonneg a0 hm
  have abm : a * f * m ≤ b * f * m := mul_le_mul_of_nonneg_right ab hm
  have bmm : b * f * m ≤ s * f * m := mul_le_mul_of_nonneg_right bm hm
  have e6 : wrapInt (a * f * m) = a * f * m := wrapInt_eq _ (by omega) (by omega)
  have e7 : wrapInt (b * f * m) = b * f * m := wrapInt_eq _ (by omega) (by omega)
  have e8 : wrapInt (b * f * m - a * f * m) = b * f * m - a * f * m :=
    wrapInt_eq _ (by omega) (by omega)
  rw [e6, e7, e8]
  have hL : b * f * m - a * f * m ≤ (s + (T : Int) - 1).tdiv T * f * m := by
    have : (b - a) * f * m ≤ (s + (T : Int) - 1).tdiv T * f * m :=
      mul_le_mul_of_nonneg_right (mul_le_mul_of_nonneg_right hq hf) hm
    have : (b - a) * f * m = b * f * m - a * f * m := by ring
    omega
  have hL0 : 0 ≤ b * f * m - a * f * m := by omega
  have hLb : a * f * m + (b * f * m - a * f * m) ≤ 2147483647 := by omega
  generalize b * f * m - a * f * m = L at *
  have c0 : 0 ≤ c * L := mul_nonneg hc0 hL0
  have c2 : c * L ≤ 2 * L := mul_le_mul_of_nonneg_right hc2 hL0
  have e9 : wrapInt (c * L) = c * L := wrapInt_eq _ (by omega) (by omega)
  rw [e9]
  have d0 : 0 ≤ (c * L).tdiv 2 := tdiv_nonneg _ _ c0 (by norm_num)
  have d1 : (c * L).tdiv 2 ≤ L := tdiv_le_of_le_mul _ _ _ c0 (by norm_num) hL0 c2
  exact wrapInt_eq _ (by omega) (by omega)

theorem lanes2D_map (T lane : Nat) (f m : Int) (hl : lane < 3)
    (hf : 0 ≤ f) (hm : 0 ≤ m) (hT : (T : Int) ≤ INT_MAX) (h1 : (T : Int) * m ≤ INT_MAX)
    (h2 : m * f ≤ INT_MAX) (h3 : 3 * ((m + (T : Int) - 1).tdiv T * f) ≤ INT_MAX) :
    (List.range T).map (fun (k : Nat) =>
        rangeSeg
          (wrapInt (wrapInt ((wrapInt ((k : Int) * m)).tdiv T * f)
            + (wrapInt ((lane : Int)
                * wrapInt (wrapInt ((wrapInt (wrapInt ((k : Int) + 1) * m)).tdiv T * f)
                    - wrapInt ((wrapInt ((k : Int) * m)).tdiv T * f)))).tdiv 3))
          (wrapInt (wrapInt ((wrapInt ((k : Int) * m)).tdiv T * f)
            + (wrapInt (wrapInt ((lane : Int) + 1)
                * wrapInt (wrapInt ((wrapInt (wrapInt ((k : Int) + 1) * m)).tdiv T * f)
                    - wrapInt ((wrapInt ((k : Int) * m)).tdiv T * f)))).tdiv 3)))
      = (List.range T).map (fun (k : Nat) =>
        rangeSeg
          (((k : Int) * m).tdiv T * f
            + ((lane : Int) * ((((k : Int) + 1) * m).tdiv T * f - ((k : Int) * m).tdiv T * f)).tdiv 3)
          (((k : Int) * m).tdiv T * f
            + (((lane + 1 : Nat) : Int)
                * ((((k : Int) + 1) * m).tdiv T * f - ((k : Int) * m).tdiv T * f)).tdiv 3)) := by
  apply List.map_congr_left
  intro k hk
  have hk1 := List.mem_range.mp hk
  rw [wrapInt_eq ((lane : Int) + 1) (by omega) (by omega),
    lane2D_point T k f m (lane : Int) hk1 (by omega) (by omega) hf hm hT h1 h2 h3,
    lane2D_point T k f m ((lane : Int) + 1) hk1 (by omega) (by omega) hf hm hT h1 h2 h3]
  push_cast
  rfl

theorem lanes3D_map (T lane : Nat) (f m s : Int) (hl : lane < 2)
    (hf : 0 ≤ f) (hm : 0 ≤ m) (hs : 0 ≤ s) (hT : (T : Int) ≤ INT_MAX)
    (h1 : (T : Int) * s ≤ INT_MAX) (h2 : s * f ≤ INT_MAX) (h3 : s * f * m ≤ INT_MAX)
    (h4 : 2 * ((s + (T : Int) - 1).tdiv T * f * m) ≤ INT_MAX) :
    (List.range T).map (fun (k : Nat) =>
        rangeSeg
          (wrapInt (wrapInt (wrapInt ((wrapInt ((k : Int) * s)).tdiv T * f) * m)
            + (wrapInt ((lane : Int) * wrapInt
                (wrapInt (wrapInt ((wrapInt (wrapInt ((k : Int) + 1) * s)).tdiv T * f) * m)
                  - wrapInt (wrapInt ((wrapInt ((k : Int) * s)).tdiv T * f) * m)))).tdiv 2))
          (wrapInt (wrapInt (wrapInt ((wrapInt ((k : Int) * s)).tdiv T * f) * m)
            + (wrapInt (wrapInt ((lane : Int) + 1) * wrapInt
                (wrapInt (wrapInt ((wrapInt (wrapInt ((k : Int) + 1) * s)).tdiv T * f) * m)
                  - wrapInt (wrapInt ((wrapInt ((k : Int) * s)).tdiv T * f) * m)))).tdiv 2)))
      = (List.range T).map (fun (k : Nat) =>
        rangeSeg
          (((k : Int) * s).tdiv T * f * m
            + ((lane : Int) * ((((k : Int) + 1) * s).tdiv T * f * m
                - ((k : Int) * s).tdiv T * f * m)).tdiv 2)
          (((k : Int) * s).tdiv T * f * m
            + (((lane + 1 : Nat) : Int) * ((((k : Int) + 1) * s).tdiv T * f * m
                - ((k : Int) * s).tdiv T * f * m)).tdiv 2)) := by
  apply List.map_congr_left
  intro k hk
  have hk1 := List.mem_range.mp hk
  rw [wrapInt_eq ((lane : Int) + 1) (by omega) (by omega),
    lane3D_point T k f m s (lane : Int) hk1 (by omega) (by omega) hf hm hs hT h1 h2 h3 h4,
    lane3D_point T k f m s ((lane : Int) + 1) hk1 (by omega) (by omega) hf hm hs hT h1 h2 h3 h4]
  push_cast
  rfl

theorem blockLanes1D_cover (T : Nat) (fastDim x : Int) (hT : 1 ≤ T) (hf : 0 ≤ fastDim)
    (hfit : 3 * (T : Int) * fastDim ≤ INT_MAX) (hseg : 3 * (T : Int) + 2 ≤ INT_MAX) :
    coverCount (blockLanes1D (T : Int) fastDim IndexSet.empty) x
      = if 0 ≤ x ∧ x < fastDim then 1 else 0 := by
  have hN : (0 : Int) < (T : Int) * 3 := by omega
  have hcov := cover_lanes3
    (fun lane k => ((((lane : Nat) : Int) + 3 * ((k : Nat) : Int)) * fastDim).tdiv ((T : Int) * 3))
    x T
    (fun i _ => by
      refine ⟨tdiv_mono _ _ _ ?_ ?_ hN, tdiv_mono _ _ _ ?_ ?_ hN, tdiv_mono _ _ _ ?_ ?_ hN⟩
      all_goals first
        | exact mul_nonneg (by omega) hf
        | exact mul_le_mul_of_nonneg_right (by push_cast; omega) hf)
    (fun i => by
      simp only
      congr 1
      push_cast
      ring)
  have h0 : (((((0 : Nat) : Int) + 3 * ((0 : Nat) : Int)) * fastDim).tdiv ((T : Int) * 3)) = 0 := by
    simp
  have hTT : (((((0 : Nat) : Int) + 3 * ((T : Nat) : Int)) * fastDim).tdiv ((T : Int) * 3))
      = fastDim := by
    rw [show (((0 : Nat) : Int) + 3 * (T : Int)) * fastDim = (T : Int) * 3 * fastDim by
      push_cast; ring]
    exact tdiv_mul_cancel _ _ hf hN
  simp only [h0, hTT] at hcov
  rw [← hcov, coverCount, blockLanes1D_segments_from T fastDim IndexSet.empty hf hfit hseg]
  simp only [IndexSet.empty, List.nil_append, ← List.append_assoc]
  congr 3
  all_goals
    congr 1
    funext k
    congr 2
    all_goals (push_cast; ring)

theorem blockLanes2D_cover (T : Nat) (fastDim midDim x : Int) (hT : 1 ≤ T) (hf : 0 ≤ fastDim)
    (hm : 0 ≤ midDim) (hTM : (T : Int) ≤ INT_MAX) (h1 : (T : Int) * midDim ≤ INT_MAX)
    (h2 : midDim * fastDim ≤ INT_MAX)
    (h3 : 3 * ((midDim + (T : Int) - 1).tdiv T * fastDim) ≤ INT_MAX) :
    coverCount (blockLanes2D (T : Int) fastDim midDim IndexSet.empty) x
      = if 0 ≤ x ∧ x < fastDim * midDim then 1 else 0 := by
  have hN : (0 : Int) < (T : Int) := by omega
  have hrow : ∀ i : Nat, ((i : Int) * midDim).tdiv T * fastDim
      ≤ (((i : Int) + 1) * midDim).tdiv T * fastDim := fun i =>
    mul_le_mul_of_nonneg_right
      (tdiv_mono _ _ _ (mul_nonneg (by omega) hm)
        (mul_le_mul_of_nonneg_right (by omega) hm) hN) hf
  have hcov := cover_lanes3
    (fun lane i => ((i : Int) * midDim).tdiv T * fastDim
      + (((lane : Nat) : Int) * ((((i : Int) + 1) * midDim).tdiv T * fastDim
          - ((i : Int) * midDim).tdiv T * fastDim)).tdiv 3)
    x T
    (fun i _ => by
      have hlen := hrow i
      simp only [add_le_add_iff_left]
      refine ⟨tdiv_mono _ _ _ ?_ ?_ (by omega), tdiv_mono _ _ _ ?_ ?_ (by omega),
        tdiv_mono _ _ _ ?_ ?_ (by omega)⟩
      all_goals first
        | exact mul_nonneg (by omega) (by omega)
        | exact mul_le_mul_of_nonneg_right (by norm_num) (by omega))
    (fun i => by
      have hlen := hrow i
      simp only [Nat.cast_ofNat, Nat.cast_zero, zero_mul, Nat.cast_add, Nat.cast_one]
      rw [tdiv_mul_cancel _ _ (by omega) (by omega)]
      simp)
  have h0 : ((((0 : Nat) : Int) * midDim).tdiv T * fastDim
      + ((((0 : Nat) : Nat) : Int) * (((((0 : Nat) : Int) + 1) * midDim).tdiv T * fastDim
          - (((0 : Nat) : Int) * midDim).tdiv T * fastDim)).tdiv 3) = 0 := by
    simp
  have hTT : (((T : Int) * midDim).tdiv T * fastDim
      + ((((0 : Nat) : Nat) : Int) * ((((T : Int) + 1) * midDim).tdiv T * fastDim
          - ((T : Int) * midDim).tdiv T * fastDim)).tdiv 3) = fastDim * midDim := by
    rw [tdiv_mul_cancel _ _ hm hN]
    simp [mul_comm]
  simp only [h0, hTT] at hcov
  rw [← hcov, coverCount]
  simp only [blockLanes2D, forLoop, Int.toNat_ofNat]
  rw [forLoop_addRange, forLoop_addRange, forLoop_addRange]
  simp only [IndexSet.empty, List.nil_append, Nat.zero_add]
  rw [lanes2D_map T 0 fastDim midDim (by omega) hf hm hTM h1 h2 h3,
    lanes2D_map T 1 fastDim midDim (by omega) hf hm hTM h1 h2 h3,
    lanes2D_map T (1 + 1) fastDim midDim (by omega) hf hm hTM h1 h2 h3]

theorem blockLanes3D_cover (T : Nat) (fastDim midDim slowDim x : Int) (hT : 1 ≤ T)
    (hf : 0 ≤ fastDim) (hm : 0 ≤ midDim) (hs : 0 ≤ slowDim) (hTM : (T : Int) ≤ INT_MAX)
    (h1 : (T : Int) * slowDim ≤ INT_MAX) (h2 : slowDim * fastDim ≤ INT_MAX)
    (h3 : slowDim * fastDim * midDim ≤ INT_MAX)
    (h4 : 2 * ((slowDim + (T : Int) - 1).tdiv T * fastDim * midDim) ≤ INT_MAX) :
    coverCount (blockLanes3D (T : Int) fastDim midDim slowDim IndexSet.empty) x
      = if 0 ≤ x ∧ x < fastDim * midDim * slowDim then 1 else 0 := by
  have hN : (0 : Int) < (T : Int) := by omega
  have hrow : ∀ i : Nat, ((i : Int) * slowDim).tdiv T * fastDim * midDim
      ≤ (((i : Int) + 1) * slowDim).tdiv T * fastDim * midDim := fun i =>
    mul_le_mul_of_nonneg_right (mul_le_mul_of_nonneg_right
      (tdiv_mono _ _ _ (mul_nonneg (by omega) hs)
        (mul_le_mul_of_nonneg_right (by omega) hs) hN) hf) hm
  have hcov := cover_lanes2
    (fun lane i => ((i : Int) * slowDim).tdiv T * fastDim * midDim
      + (((lane : Nat) : Int) * ((((i : Int) + 1) * slowDim).tdiv T * fastDim * midDim
          - ((i : Int) * slowDim).tdiv T * fastDim * midDim)).tdiv 2)
    x T
    (fun i _ => by
      have hlen := hrow i
      simp only [add_le_add_iff_left]
      refine ⟨tdiv_mono _ _ _ ?_ ?_ (by omega), tdiv_mono _ _ _ ?_ ?_ (by omega)⟩
      all_goals first
        | exact mul_nonneg (by omega) (by omega)
        | exact mul_le_mul_of_nonneg_right (by norm_num) (by omega))
    (fun i => by
      have hlen := hrow i
      simp only [Nat.cast_ofNat, Nat.cast_zero, zero_mul, Nat.cast_add, Nat.cast_one]
      rw [tdiv_mul_cancel _ _ (by omega) (by omega)]
      simp)
  have h0 : ((((0 : Nat) : Int) * slowDim).tdiv T * fastDim * midDim
      + ((((0 : Nat) : Nat) : Int) * (((((0 : Nat) : Int) + 1) * slowDim).tdiv T * fastDim * midDim
          - (((0 : Nat) : Int) * slowDim).tdiv T * fastDim * midDim)).tdiv 2) = 0 := by
    simp
  have hTT : (((T : Int) * slowDim).tdiv T * fastDim * midDim
      + ((((0 : Nat) : Nat) : Int) * ((((T : Int) + 1) * slowDim).tdiv T * fastDim * midDim
          - ((T : Int) * slowDim).tdiv T * fastDim * midDim)).tdiv 2)
      = fastDim * midDim * slowDim := by
    rw [tdiv_mul_cancel _ _ hs hN]
    simp
    ring
  simp only [h0, hTT] at hcov
  rw [← hcov, coverCount]
  simp only [blockLanes3D, segmentsPerThread, forLoop, Int.toNat_ofNat]
  rw [forLoop_addRange, forLoop_addRange]
  simp only [IndexSet.empty, List.nil_append, Nat.zero_add]
  rw [lanes3D_map T 0 fastDim midDim slowDim (by omega) hf hm hs hTM h1 h2 h3 h4,
    lanes3D_map T 1 fastDim midDim slowDim (by omega) hf hm hs hTM h1 h2 h3 h4]

theorem nat_lor_eq_zero (m n : Nat) (h : m ||| n = 0) : m = 0 ∧ n = 0 := by
  have hb : ∀ i, (m.testBit i || n.testBit i) = false := by
    intro i
    rw [← Nat.testBit_or, h]
    simp
  constructor
  · apply Nat.eq_of_testBit_eq
    intro i
    have := hb i
    simp only [Bool.or_eq_false_iff] at this
    simp [this.1]
  · apply Nat.eq_of_testBit_eq
    intro i
    have := hb i
    simp only [Bool.or_eq_false_iff] at this
    simp [this.2]

theorem int_lor_eq_zero (a b : Int) (ha : 0 ≤ a) (hb : 0 ≤ b) :
    Int.lor a b = 0 ↔ a = 0 ∧ b = 0 := by
  obtain ⟨m, rfl⟩ := Int.eq_ofNat_of_zero_le ha
  obtain ⟨n, rfl⟩ := Int.eq_ofNat_of_zero_le hb
  constructor
  · intro h
    have h1 : ((m ||| n : Nat) : Int) = 0 := h
    have h2 := nat_lor_eq_zero m n (by exact_mod_cast h1)
    simp [h2.1, h2.2]
  · rintro ⟨h1, h2⟩
    have h1' : m = 0 := by exact_mod_cast h1
    have h2' : n = 0 := by exact_mod_cast h2
    subst h1' h2'
    rfl

theorem modifyAt_map {α β : Type} (f : α → α) (g : α → β) (hfg : ∀ a, g (f a) = g a) :
    ∀ (i : Nat) (l : List α), (modifyAt f i l).map g = l.map g := by
  intro i l
  induction l generalizing i with
  | nil => cases i <;> rfl
  | cons a l ih =>
    cases i with
    | zero => simp [modifyAt, hfg]
    | succ i => simp [modifyAt, ih]

theorem forallSegment_shape (s t : Segment) (h : s.shape = t.shape) :
    forallSegment s = forallSegment t := by
  simp only [Segment.shape, Prod.mk.injEq] at h
  simp only [forallSegment, h.1, h.2]

theorem coverCount_shape (hs ht : IndexSet) (x : Int)
    (h : hs.m_segments.map Segment.shape = ht.m_segments.map Segment.shape) :
    coverCount hs x = coverCount ht x := by
  have hcp : ∀ l : List Segment,
      l.countP (fun seg => decide (x ∈ forallSegment seg))
        = (l.map Segment.shape).countP (fun p =>
            decide (x ∈ forallSegment
              { m_type := p.1, m_iset := p.2, m_indx_own := IndexOwnership.Owned,
                num_semaphore_notify := 0, semaphore_reload := 0, semaphore_value := 0,
                semaphore_notify := [] })) := by
    intro l
    rw [List.countP_map]
    congr 1
  simp only [coverCount]
  rw [hcp, hcp, h]

theorem setters_shape (s : IndexSet) (i v : Int) (t : Nat) :
    (s.setSemaphoreValue i v).m_segments.map Segment.shape = s.m_segments.map Segment.shape
    ∧ (s.setSemaphoreReloadValue i v).m_segments.map Segment.shape
        = s.m_segments.map Segment.shape
    ∧ (s.setSemaphoreNumDepTasks i v).m_segments.map Segment.shape
        = s.m_segments.map Segment.shape
    ∧ (s.setSemaphoreDepTask i t v).m_segments.map Segment.shape
        = s.m_segments.map Segment.shape := by
  refine ⟨?_, ?_, ?_, ?_⟩
  · simp only [IndexSet.setSemaphoreValue]
    apply modifyAt_map
    intro a
    rfl
  · simp only [IndexSet.setSemaphoreReloadValue]
    apply modifyAt_map
    intro a
    rfl
  · simp only [IndexSet.setSemaphoreNumDepTasks]
    apply modifyAt_map
    intro a
    rfl
  · simp only [IndexSet.setSemaphoreDepTask]
    apply modifyAt_map
    intro a
    rfl

theorem forLoop_shape (body : Nat → IndexSet → IndexSet)
    (hb : ∀ i s, (body i s).m_segments.map Segment.shape = s.m_segments.map Segment.shape) :
    ∀ (n lo : Nat) (s : IndexSet),
      (forLoop body n lo s).m_segments.map Segment.shape = s.m_segments.map Segment.shape := by
  intro n
  induction n with
  | zero => intro lo s; rfl
  | succ n ih => intro lo s; simp only [forLoop]; rw [ih, hb]

theorem blockDependencies_shape (numThreads : Int) (s : IndexSet) :
    (blockDependencies numThreads s).m_segments.map Segment.shape
      = s.m_segments.map Segment.shape := by
  unfold blockDependencies
  split_ifs
  · apply forLoop_shape
    intro i s
    simp only
    split_ifs <;>
      simp only [(setters_shape _ _ _ 0).1, (setters_shape _ _ _ 0).2.1,
        (setters_shape _ _ _ 0).2.2.1, (setters_shape _ _ _ 0).2.2.2]
  · apply forLoop_shape
    intro i s
    simp only [(setters_shape _ _ _ 0).1, (setters_shape _ _ _ 0).2.1,
      (setters_shape _ _ _ 0).2.2.1, (setters_shape _ _ _ 0).2.2.2]

theorem forLoop_preserves {σ : Type} (body : Nat → σ → σ) (P : σ → Prop)
    (h : ∀ i s, P s → P (body i s)) :
    ∀ (n lo : Nat) (s : σ), P s → P (forLoop body n lo s) := by
  intro n
  induction n with
  | zero => intro lo s hs; exact hs
  | succ n ih => intro lo s hs; exact ih _ _ (h lo s hs)

theorem forStep_preserves {σ : Type} (body : Int → σ → σ) (step hi : Int) (P : σ → Prop)
    (h : ∀ i s, P s → P (body i s)) :
    ∀ (fuel : Nat) (i : Int) (s : σ), P s → P (forStep body step hi fuel i s) := by
  intro fuel
  induction fuel with
  | zero => intro i s hs; exact hs
  | succ fuel ih =>
    intro i s hs
    simp only [forStep]
    split_ifs
    · exact ih _ _ (h i s hs)
    · exact hs

theorem allRange_addRange (hs : IndexSet) (b e : Int) (h : AllRange hs) :
    AllRange (hs.addRange b e) := by
  intro p hp
  simp only [IndexSet.addRange, IndexSet.addSegmentRange, List.map_append, List.mem_append,
    List.map_cons, List.map_nil, List.mem_singleton] at hp
  rcases hp with hp | hp
  · exact h p hp
  · subst hp
    rfl

theorem allRange_empty : AllRange IndexSet.empty := by
  intro p hp
  simp [IndexSet.empty] at hp

theorem allRange_mem (hs : IndexSet) (h : AllRange hs) :
    ∀ seg ∈ hs.m_segments, seg.m_type = SegmentType._Range_ := by
  intro seg hseg
  exact h seg.shape (List.mem_map_of_mem _ hseg)

theorem coverCount_addRange_empty (b e x : Int) :
    coverCount (IndexSet.empty.addRange b e) x = if b ≤ x ∧ x < e then 1 else 0 := by
  have h := mem_forall_rangeSeg b e x
  simp only [coverCount, IndexSet.addRange, IndexSet.addSegmentRange, IndexSet.empty,
    List.nil_append, List.countP_singleton]
  simp only [rangeSeg] at h
  simp only [h, decide_eq_true_eq]

theorem coverCount_addRange (s : IndexSet) (b e x : Int) :
    coverCount (s.addRange b e) x = coverCount s x + (if b ≤ x ∧ x < e then 1 else 0) := by
  have h := mem_forall_rangeSeg b e x
  simp only [rangeSeg] at h
  simp only [coverCount, IndexSet.addRange, IndexSet.addSegmentRange, List.countP_append,
    List.countP_singleton, h, decide_eq_true_eq]

/-- C5 (amended). Geometric partition coverage: for non-negative dimensions
and at least one worker such that no `int` product of the function overflows,
whenever CreateLockFreeBlockIndexset returns without exiting, every emitted
segment is a Range, every index of [0, E) lies in exactly one emitted segment
and no emitted segment holds an index outside [0, E), where
E = fastDim*max(midDim,1) when slowDim = 0 and E = fastDim*midDim*slowDim in
the 3-D branch. E is fastDim*max(midDim,1)*max(slowDim,1) unless slowDim > 0
and midDim = 0. -/
theorem geometric_coverage (numThreads fastDim midDim slowDim : Int) (rv : IndexSet)
    (hT : 1 ≤ numThreads) (hf : 0 ≤ fastDim) (hm : 0 ≤ midDim) (hs : 0 ≤ slowDim)
    (hfit : BlockProductsFit numThreads fastDim midDim slowDim)
    (hdone : CreateLockFreeBlockIndexset numThreads IndexSet.empty fastDim midDim slowDim
      = Outcome.done rv) (x : Int) :
    (∀ seg ∈ rv.m_segments, seg.m_type = SegmentType._Range_)
    ∧ coverCount rv x = (if 0 ≤ x ∧ x < blockExtent fastDim midDim slowDim then 1 else 0)
    ∧ (slowDim = 0 ∨ 1 ≤ midDim →
        blockExtent fastDim midDim slowDim = fastDim * max midDim 1 * max slowDim 1) := by
  obtain ⟨T, rfl⟩ := Int.eq_ofNat_of_zero_le (by omega : 0 ≤ numThreads)
  have hT' : 1 ≤ T := by omega
  have hlanes : ∀ (n m : Nat) (f g : Nat → Nat → Int),
      AllRange (forLoop (fun lane rv0 =>
        forLoop (fun i rv1 => rv1.addRange (f lane i) (g lane i)) m 0 rv0) n 0
          IndexSet.empty) := fun n m f g =>
    forLoop_preserves _ AllRange (fun _ s hs' =>
      forLoop_preserves _ AllRange (fun _ s1 hs1 => allRange_addRange _ _ _ hs1) _ _ s hs')
      _ _ _ allRange_empty
  simp only [CreateLockFreeBlockIndexset, int_lor_eq_zero _ _ hm hs] at hdone
  by_cases h1 : midDim = 0 ∧ slowDim = 0
  · obtain ⟨hm0, hs0⟩ := h1
    subst hm0 hs0
    have hE : blockExtent fastDim 0 0 = fastDim := by simp [blockExtent]
    rw [hE]
    simp only [and_self, if_true] at hdone
    simp only [BlockProductsFit, ne_eq, not_true_eq_false, if_false] at hfit
    split_ifs at hdone with hc
    · injection hdone with hdone
      subst hdone
      exact ⟨allRange_mem _ (allRange_addRange _ _ _ allRange_empty),
        coverCount_addRange_empty _ _ _, fun _ => by simp⟩
    · injection hdone with hdone
      subst hdone
      simp only [PROFITABLE_ENTITY_THRESHOLD] at hc hfit
      have hfit1 := hfit (by omega)
      have hf200 : 200 ≤ fastDim := by
        rw [Int.tdiv_eq_ediv hf (by norm_num)] at hc
        omega
      have hseg : 3 * (T : Int) + 2 ≤ INT_MAX := by
        have : 3 * (T : Int) * 200 ≤ 3 * (T : Int) * fastDim :=
          mul_le_mul_of_nonneg_left hf200 (by omega)
        simp only [INT_MAX] at hfit1 ⊢
        omega
      refine ⟨allRange_mem _ ?_, blockLanes1D_cover T fastDim x hT' hf hfit1 hseg,
        fun _ => by simp⟩
      exact forLoop_preserves _ AllRange (fun _ s hs' =>
        forStep_preserves _ _ _ AllRange (fun _ s1 hs1 => allRange_addRange _ _ _ hs1)
          _ _ s hs') _ _ _ allRange_empty
  · simp only [h1, if_false] at hdone
    by_cases h2 : slowDim = 0
    · subst h2
      have hm1 : 1 ≤ midDim := by
        by_contra hc
        exact h1 ⟨by omega, rfl⟩
      have hE : blockExtent fastDim midDim 0 = fastDim * midDim := by
        simp [blockExtent, max_eq_left hm1]
      rw [hE]
      simp only [if_true] at hdone
      have hm0 : midDim ≠ 0 := by omega
      simp only [BlockProductsFit, ne_eq, not_true_eq_false, if_false, hm0, not_false_eq_true,
        if_true] at hfit
      obtain ⟨_, hext, hpart⟩ := hfit
      split_ifs at hdone with hc
      · injection hdone with hdone
        subst hdone
        exact ⟨allRange_mem _ (allRange_addRange _ _ _ allRange_empty),
          coverCount_addRange_empty _ _ _, fun _ => by simp [max_eq_left hm1]⟩
      · injection hdone with hdone
        subst hdone
        obtain ⟨hrows, hlen⟩ := hpart hc
        have hTM : (T : Int) ≤ INT_MAX := by
          have : (T : Int) * 1 ≤ (T : Int) * midDim := mul_le_mul_of_nonneg_left hm1 (by omega)
          simp only [INT_MAX] at hrows ⊢
          omega
        exact ⟨allRange_mem _ (hlanes _ _ _ _),
          blockLanes2D_cover T fastDim midDim x hT' hf hm hTM hrows hext hlen,
          fun _ => by simp [max_eq_left hm1]⟩
    · have hE : blockExtent fastDim midDim slowDim = fastDim * midDim * slowDim := by
        simp [blockExtent, h2]
      rw [hE]
      simp only [h2, if_false] at hdone
      simp only [BlockProductsFit, ne_eq, h2, not_false_eq_true, if_true] at hfit
      obtain ⟨_, hplanes, hsf, hext, hlen⟩ := hfit
      split_ifs at hdone
      injection hdone with hdone
      subst hdone
      have hTM : (T : Int) ≤ INT_MAX := by
        have : (T : Int) * 1 ≤ (T : Int) * slowDim :=
          mul_le_mul_of_nonneg_left (by omega) (by omega)
        simp only [INT_MAX] at hplanes ⊢
        omega
      refine ⟨allRange_mem _ ?_, ?_, ?_⟩
      · rw [AllRange, blockDependencies_shape]
        exact hlanes _ _ _ _
      · rw [coverCount_shape _ _ x (blockDependencies_shape _ _)]
        exact blockLanes3D_cover T fastDim midDim slowDim x hT' hf hm hs hTM hplanes hsf hext hlen
      · intro h
        rcases h with h | h
        · exact absurd h h2
        · rw [max_eq_left h, max_eq_left (by omega : (1 : Int) ≤ slowDim)]

theorem geometric_coverage_witness :
    (1 : Int) ≤ 1 ∧ (0 : Int) ≤ 2 ∧ (0 : Int) ≤ 3 ∧ (0 : Int) ≤ 2
    ∧ BlockProductsFit 1 2 3 2
    ∧ CreateLockFreeBlockIndexset 1 IndexSet.empty 2 3 2
        = Outcome.done (blockDependencies 1 (blockLanes3D 1 2 3 2 IndexSet.empty))
    ∧ coverCount (blockDependencies 1 (blockLanes3D 1 2 3 2 IndexSet.empty)) 7
        = (if (0 : Int) ≤ 7 ∧ (7 : Int) < blockExtent 2 3 2 then 1 else 0) :=
  ⟨by decide, by decide, by decide, by decide, by decide, by decide,
    (geometric_coverage 1 2 3 2 (blockDependencies 1 (blockLanes3D 1 2 3 2 IndexSet.empty))
      (by decide) (by decide) (by decide) (by decide) (by decide) (by decide) 7).2.1⟩

/-- C5 as stated fails in two ways. With fastDim = 3, midDim = 0, slowDim = 4
and one worker the 3-D branch is taken without exiting and emits two empty
Ranges [0, 0), so index 0 of [0, 3*max(0,1)*max(4,1)) = [0, 12) lies in no
segment. With fastDim = 1000000000, midDim = slowDim = 0 and one worker the
1-D branch computes the last bound as the `int` product 3*1000000000, which
overflows: the third Range is [666666666, -431655765), and index 999999999 of
[0, 1000000000) lies in no segment. -/
theorem geometric_coverage_counterexample :
    (CreateLockFreeBlockIndexset 1 IndexSet.empty 3 0 4
        = Outcome.done ((IndexSet.empty.addRange 0 0).addRange 0 0)
      ∧ (0 : Int) ≤ 0 ∧ (0 : Int) < 3 * max 0 1 * max 4 1
      ∧ coverCount ((IndexSet.empty.addRange 0 0).addRange 0 0) 0 = 0)
    ∧ (CreateLockFreeBlockIndexset 1 IndexSet.empty 1000000000 0 0
        = Outcome.done (((IndexSet.empty.addRange 0 333333333).addRange 333333333 666666666).addRange
            666666666 (-431655765))
      ∧ (0 : Int) ≤ 999999999 ∧ (999999999 : Int) < 1000000000 * max 0 1 * max 0 1
      ∧ coverCount (((IndexSet.empty.addRange 0 333333333).addRange 333333333 666666666).addRange
            666666666 (-431655765)) 999999999 = 0) := by
  refine ⟨by decide, by decide, by decide, by decide, ?_⟩
  rw [coverCount_addRange, coverCount_addRange, coverCount_addRange]
  decide

/-! ## Graph-coloring partitioner: independence and completeness -/

theorem rdN_set_eq (l : List Nat) (i v : Nat) (h : i < l.length) : rdN (l.set i v) i = v := by
  simp [rdN, List.getD_eq_getElem?_getD, List.getElem?_set, h]

theorem rdN_set_ne (l : List Nat) (i j v : Nat) (h : i ≠ j) :
    rdN (l.set i v) j = rdN l j := by
  simp [rdN, List.getD_eq_getElem?_getD, List.getElem?_set, h]

theorem getD_set_eq (l : List Bool) (i : Nat) (v : Bool) (h : i < l.length) :
    (l.set i v).getD i false = v := by
  simp [List.getD_eq_getElem?_getD, List.getElem?_set, h]

theorem getD_set_ne (l : List Bool) (i j : Nat) (v : Bool) (h : i ≠ j) :
    (l.set i v).getD j false = l.getD j false := by
  simp [List.getD_eq_getElem?_getD, List.getElem?_set, h]

theorem flat_index_lt (i j n N : Nat) (hi : i < N) (hj : j < n) : i * n + j < N * n := by
  have h1 : (i + 1) * n ≤ N * n := Nat.mul_le_mul_right n hi
  have h2 : (i + 1) * n = i * n + n := by ring
  omega

theorem flat_index_inj (a b c k n : Nat) (hc : c < n) (hk : k < n)
    (h : a * n + c = b * n + k) : a = b ∧ c = k := by
  have hn : 0 < n := by omega
  have h1 : (a * n + c) / n = a := by
    rw [Nat.add_comm, Nat.add_mul_div_right _ _ hn, Nat.div_eq_of_lt hc, Nat.zero_add]
  have h2 : (b * n + k) / n = b := by
    rw [Nat.add_comm, Nat.add_mul_div_right _ _ hn, Nat.div_eq_of_lt hk, Nat.zero_add]
  have hab : a = b := by rw [← h1, ← h2, h]
  subst hab
  exact ⟨rfl, by omega⟩

theorem domsOf_update_same (m : InvMap) (n id v : Nat)
    (hid : id < m.rangeToDomainCount.length)
    (hlen : id * n + rdN m.rangeToDomainCount id < m.rangeToDomain.length) :
    domsOf { rangeToDomain := m.rangeToDomain.set (id * n + rdN m.rangeToDomainCount id) v,
             rangeToDomainCount :=
               m.rangeToDomainCount.set id (rdN m.rangeToDomainCount id + 1) } n id
      = domsOf m n id ++ [v] := by
  simp only [domsOf]
  rw [rdN_set_eq _ _ _ hid, List.range_succ, List.map_append, List.map_singleton,
    rdN_set_eq _ _ _ hlen]
  congr 1
  apply List.map_congr_left
  intro k hk
  rw [List.mem_range] at hk
  exact rdN_set_ne _ _ _ _ (by omega)

theorem domsOf_update_other (m : InvMap) (n id id' v : Nat) (hne : id' ≠ id)
    (hc : rdN m.rangeToDomainCount id < n) (hcnt : rdN m.rangeToDomainCount id' ≤ n) :
    domsOf { rangeToDomain := m.rangeToDomain.set (id * n + rdN m.rangeToDomainCount id) v,
             rangeToDomainCount :=
               m.rangeToDomainCount.set id (rdN m.rangeToDomainCount id + 1) } n id'
      = domsOf m n id' := by
  simp only [domsOf]
  rw [rdN_set_ne _ _ _ _ (Ne.symm hne)]
  apply List.map_congr_left
  intro k hk
  rw [List.mem_range] at hk
  apply rdN_set_ne
  intro heq
  exact hne (flat_index_inj _ _ _ _ _ hc (by omega) heq).1.symm

theorem inverseBody_step (d2r : List Nat) (nE n nER : Nat) (hwf : WellFormed d2r nE n nER)
    (i j : Nat) (hi : i < nE) (hj : j < n) (m m1 : InvMap)
    (hinv : InvInv d2r nE n nER i j m)
    (h : inverseBody d2r n nER i j (some m) = some m1) :
    InvInv d2r nE n nER i (j + 1) m1 := by
  obtain ⟨hl1, hl2, hcnt, hmem, hbd⟩ := hinv
  have hid : rdN d2r (i * n + j) < nER := hwf.2 _ (flat_index_lt i j n nE hi hj)
  have hidl : rdN d2r (i * n + j) < m.rangeToDomainCount.length := by omega
  simp only [inverseBody, Option.some_bind, rdN_set_eq _ _ _ hidl] at h
  split_ifs at h with hab
  have hc : rdN m.rangeToDomainCount (rdN d2r (i * n + j)) < n := by omega
  have hlen : rdN d2r (i * n + j) * n + rdN m.rangeToDomainCount (rdN d2r (i * n + j))
      < m.rangeToDomain.length := by
    rw [hl2]; exact flat_index_lt _ _ _ _ hid hc
  injection h with h
  subst h
  have hsame := domsOf_update_same m n _ i hidl hlen
  have hother := fun id' hne => domsOf_update_other m n (rdN d2r (i * n + j)) id' i hne hc
    (hcnt id')
  refine ⟨by simp [hl1], by simp [hl2], ?_, ?_, ?_⟩
  · intro id
    by_cases he : id = rdN d2r (i * n + j)
    · subst he
      rw [rdN_set_eq _ _ _ hidl]; omega
    · rw [rdN_set_ne _ _ _ _ (Ne.symm he)]; exact hcnt id
  · intro i1 j1 hj1 hlt
    by_cases hnew : i1 = i ∧ j1 = j
    · obtain ⟨rfl, rfl⟩ := hnew
      rw [hsame]
      simp
    · have hold : i1 < i ∨ (i1 = i ∧ j1 < j) := by omega
      have := hmem i1 j1 hj1 hold
      by_cases he : rdN d2r (i1 * n + j1) = rdN d2r (i * n + j)
      · rw [he, hsame]
        rw [he] at this
        exact List.mem_append_left _ this
      · rw [hother _ he]; exact this
  · intro id x hx
    by_cases he : id = rdN d2r (i * n + j)
    · subst he
      rw [hsame, List.mem_append, List.mem_singleton] at hx
      rcases hx with hx | hx
      · exact hbd _ x hx
      · omega
    · rw [hother _ he] at hx
      exact hbd _ x hx

theorem forLoop_none {σ : Type} (body : Nat → Option σ → Option σ)
    (hnone : ∀ ii, body ii none = none) :
    ∀ n ii, forLoop body n ii none = none := by
  intro n
  induction n with
  | zero => intro ii; rfl
  | succ n ih => intro ii; simp only [forLoop, hnone, ih]

theorem forLoop_option_inv {σ : Type} (body : Nat → Option σ → Option σ)
    (P : Nat → σ → Prop) (hi : Nat) (hnone : ∀ ii, body ii none = none)
    (hstep : ∀ ii s s1, ii < hi → P ii s → body ii (some s) = some s1 → P (ii + 1) s1) :
    ∀ n ii s r, ii + n = hi → P ii s → forLoop body n ii (some s) = some r → P hi r := by
  intro n
  induction n with
  | zero =>
    intro ii s r h hp hr
    simp only [forLoop, Option.some.injEq] at hr
    subst hr
    rw [← h]; exact hp
  | succ n ih =>
    intro ii s r h hp hr
    simp only [forLoop] at hr
    cases hb : body ii (some s) with
    | none => rw [hb, forLoop_none body hnone] at hr; exact absurd hr (by simp)
    | some s1 =>
      rw [hb] at hr
      exact ih (ii + 1) s1 r (by omega) (hstep ii s s1 (by omega) hp hb) hr

theorem rdN_replicate_zero (n i : Nat) : rdN (List.replicate n 0) i = 0 := by
  simp only [rdN, List.getD_eq_getElem?_getD, List.getElem?_replicate]
  split_ifs <;> rfl

theorem inverseMap_ok (d2r : List Nat) (nE n nER : Nat) (hwf : WellFormed d2r nE n nER)
    (m : InvMap) (h : inverseMap d2r nE n nER = some m) : InvOK m d2r nE n := by
  have hinner : ∀ i, i < nE → ∀ s s1, InvInv d2r nE n nER i 0 s →
      forLoop (inverseBody d2r n nER i) n 0 (some s) = some s1 →
      InvInv d2r nE n nER (i + 1) 0 s1 := by
    intro i hi s s1 hs hrun
    have h1 := forLoop_option_inv (inverseBody d2r n nER i)
      (fun j m => InvInv d2r nE n nER i j m) n (fun _ => rfl)
      (fun j s s1 hj hp hb => inverseBody_step d2r nE n nER hwf i j hi hj s s1 hp hb)
      n 0 s s1 (by omega) hs hrun
    obtain ⟨hl1, hl2, hcnt, hmem, hbd⟩ := h1
    refine ⟨hl1, hl2, hcnt, ?_, hbd⟩
    intro i1 j1 hj1 hlt
    exact hmem i1 j1 hj1 (by omega)
  have hfin := forLoop_option_inv
    (fun i st => forLoop (inverseBody d2r n nER i) n 0 st)
    (fun i m => InvInv d2r nE n nER i 0 m) nE
    (fun i => forLoop_none _ (fun _ => rfl) _ _)
    (fun i s s1 hi hp hb => hinner i hi s s1 hp hb)
    nE 0 _ m (by omega)
    ⟨by simp, by simp, fun id => by simp [rdN_replicate_zero],
      fun i1 j1 _ hlt => by omega,
      fun id x hx => by simp [domsOf, rdN_replicate_zero] at hx⟩ h
  obtain ⟨hl1, hl2, hcnt, hmem, hbd⟩ := hfin
  refine ⟨?_, hbd⟩
  intro i hi id hid
  simp only [refsOf, List.mem_map, List.mem_range] at hid
  obtain ⟨j, hj, rfl⟩ := hid
  exact hmem i j hj (Or.inl hi)

theorem forLoop_option_total {σ : Type} (body : Nat → Option σ → Option σ)
    (P : Nat → σ → Prop) (hi : Nat)
    (hstep : ∀ ii s, ii < hi → P ii s → ∃ s1, body ii (some s) = some s1 ∧ P (ii + 1) s1) :
    ∀ n ii s, ii + n = hi → P ii s → ∃ r, forLoop body n ii (some s) = some r ∧ P hi r := by
  intro n
  induction n with
  | zero =>
    intro ii s h hp
    exact ⟨s, rfl, by rw [← h]; exact hp⟩
  | succ n ih =>
    intro ii s h hp
    obtain ⟨s1, hb, hp1⟩ := hstep ii s (by omega) hp
    obtain ⟨r, hr, hpr⟩ := ih (ii + 1) s1 (by omega) hp1
    exact ⟨r, by simp only [forLoop, hb, hr], hpr⟩

theorem marked_set_true (mk : List Bool) (idx x : Nat) (h : idx < mk.length) :
    Marked (mk.set idx true) x ↔ x = idx ∨ Marked mk x := by
  unfold Marked
  by_cases hx : idx = x
  · subst hx
    rw [getD_set_eq _ _ _ h]
    simp
  · rw [getD_set_ne _ _ _ _ hx]
    constructor
    · intro h1; exact Or.inr h1
    · rintro (h1 | h1)
      · exact absurd h1.symm hx
      · exact h1

theorem markLoop_spec (m : InvMap) (nE n id : Nat) (mk : List Bool) (hlen : mk.length = nE)
    (hb : ∀ x ∈ domsOf m n id, x < nE) :
    ∃ mk1, forLoop (markBody m nE n id) (rdN m.rangeToDomainCount id) 0 (some mk) = some mk1
      ∧ mk1.length = nE ∧ (∀ x, Marked mk x → Marked mk1 x)
      ∧ ∀ x ∈ domsOf m n id, Marked mk1 x := by
  have h := forLoop_option_total (markBody m nE n id)
    (fun k mk1 => mk1.length = nE ∧ (∀ x, Marked mk x → Marked mk1 x)
      ∧ ∀ k1, k1 < k → Marked mk1 (rdN m.rangeToDomain (id * n + k1)))
    (rdN m.rangeToDomainCount id)
    (fun k s hk hp => by
      obtain ⟨hl, hmono, hdone⟩ := hp
      have hidx : rdN m.rangeToDomain (id * n + k) < nE :=
        hb _ (by
          simp only [domsOf, List.mem_map, List.mem_range]
          exact ⟨k, hk, rfl⟩)
      refine ⟨s.set (rdN m.rangeToDomain (id * n + k)) true, ?_, by simp [hl], ?_, ?_⟩
      · simp only [markBody, Option.some_bind]
        rw [if_neg (by omega)]
      · intro x hx
        rw [marked_set_true _ _ _ (by omega)]
        exact Or.inr (hmono x hx)
      · intro k1 hk1
        rw [marked_set_true _ _ _ (by omega)]
        by_cases he : k1 = k
        · subst he; exact Or.inl rfl
        · exact Or.inr (hdone k1 (by omega)))
    (rdN m.rangeToDomainCount id) 0 mk (by omega)
    ⟨hlen, fun x hx => hx, fun k1 hk1 => by omega⟩
  obtain ⟨mk1, hrun, hl, hmono, hdone⟩ := h
  refine ⟨mk1, hrun, hl, hmono, ?_⟩
  intro x hx
  simp only [domsOf, List.mem_map, List.mem_range] at hx
  obtain ⟨k, hk, rfl⟩ := hx
  exact hdone k hk

theorem markConflicts_spec (m : InvMap) (d2r : List Nat) (nE n i : Nat) (mk : List Bool)
    (hlen : mk.length = nE) (hb : ∀ id, ∀ x ∈ domsOf m n id, x < nE) :
    ∃ mk1, markConflicts m d2r nE n i mk = some mk1
      ∧ mk1.length = nE ∧ (∀ x, Marked mk x → Marked mk1 x)
      ∧ ∀ id ∈ refsOf d2r n i, ∀ x ∈ domsOf m n id, Marked mk1 x := by
  have h := forLoop_option_total
    (fun j st =>
      forLoop (markBody m nE n (rdN d2r (i * n + j)))
        (rdN m.rangeToDomainCount (rdN d2r (i * n + j))) 0 st)
    (fun j mk1 => mk1.length = nE ∧ (∀ x, Marked mk x → Marked mk1 x)
      ∧ ∀ j1, j1 < j → ∀ x ∈ domsOf m n (rdN d2r (i * n + j1)), Marked mk1 x)
    n
    (fun j s hj hp => by
      obtain ⟨hl, hmono, hdone⟩ := hp
      obtain ⟨s1, hrun, hl1, hmono1, hnew⟩ :=
        markLoop_spec m nE n (rdN d2r (i * n + j)) s hl (hb _)
      refine ⟨s1, hrun, hl1, fun x hx => hmono1 x (hmono x hx), ?_⟩
      intro j1 hj1 x hx
      by_cases he : j1 = j
      · subst he; exact hnew x hx
      · exact hmono1 x (hdone j1 (by omega) x hx))
    n 0 mk (by omega) ⟨hlen, fun x hx => hx, fun j1 hj1 => by omega⟩
  obtain ⟨mk1, hrun, hl, hmono, hdone⟩ := h
  refine ⟨mk1, hrun, hl, hmono, ?_⟩
  intro id hid x hx
  simp only [refsOf, List.mem_map, List.mem_range] at hid
  obtain ⟨j, hj, rfl⟩ := hid
  exact hdone j hj x hx

theorem length_lt_of_nodup_not_mem (l : List Nat) (N i : Nat) (hnd : l.Nodup)
    (hb : ∀ w ∈ l, w < N) (hi : i < N) (hni : i ∉ l) : l.length < N := by
  have hnd2 : (i :: l).Nodup := List.nodup_cons.mpr ⟨hni, hnd⟩
  have hsub : (i :: l) ⊆ List.range N := by
    intro x hx
    rw [List.mem_range]
    rcases List.mem_cons.mp hx with h | h
    · omega
    · exact hb x h
  have := (List.subperm_of_subset hnd2 hsub).length_le
  simp at this
  omega

theorem scanBody_step (m : InvMap) (d2r : List Nat) (nE n : Nat) (W0 D0 : List Nat)
    (hok : InvOK m d2r nE n) (hW0nd : W0.Nodup) (hW0b : ∀ w ∈ W0, w < nE)
    (i : Nat) (s : PeelState) (hi : i < nE) (hinv : ScanInv d2r nE n W0 D0 i s) :
    ∃ s1, scanBody m d2r nE n i (some s) = some s1 ∧ ScanInv d2r nE n W0 D0 (i + 1) s1 := by
  obtain ⟨hlen, hD, new, hws, hW0m, hlt, hsorted, hconf, hindep, hdisj, hcover, hempty, hdone⟩ :=
    hinv
  by_cases hmi : Marked s.isMarked i
  · refine ⟨s, ?_, hlen, hD, new, hws, hW0m, fun w hw => by have := hlt w hw; omega, hsorted,
      hconf, hindep, hdisj, ?_, hempty, hdone⟩
    · have hm' : s.isMarked.getD i false = true := hmi
      simp only [scanBody, Option.some_bind, hm']
      simp
    · intro x hx
      by_cases he : x = i
      · subst he; exact Or.inl hmi
      · exact hcover x (by omega)
  · have hm' : s.isMarked.getD i false = false := by
      unfold Marked at hmi
      simpa using hmi
    have hiW0 : i ∉ W0 := fun h => hmi (hW0m i h)
    have hinew : i ∉ new := fun h => by have := hlt i h; omega
    have hnewnd : new.Nodup := hsorted.imp (fun h => Nat.ne_of_lt h)
    have hnd : s.workset.Nodup := by
      rw [hws]
      exact List.Nodup.append hW0nd hnewnd (fun x hx hx' => hdisj x hx' hx)
    have hsize : ¬ s.worksetSize ≥ nE := by
      have := length_lt_of_nodup_not_mem s.workset nE i hnd
        (by
          intro w hw
          rw [hws, List.mem_append] at hw
          rcases hw with h | h
          · exact hW0b w h
          · have := hlt w h; omega)
        hi
        (by rw [hws, List.mem_append]; exact fun h => h.elim hiW0 hinew)
      unfold PeelState.worksetSize
      omega
    obtain ⟨mk1, hrun, hl1, hmono, hnewm⟩ :=
      markConflicts_spec m d2r nE n i s.isMarked hlen hok.2
    refine ⟨{ s with done := false, workset := s.workset ++ [i], isMarked := mk1 }, ?_, hl1, hD,
      new ++ [i], by simp [hws], fun w hw => hmono w (hW0m w hw), ?_, ?_, ?_, ?_, ?_, ?_, ?_, ?_⟩
    · simp only [scanBody, Option.some_bind, hm', if_true, if_neg hsize, hrun, Option.map_some']
    · intro w hw
      rw [List.mem_append, List.mem_singleton] at hw
      rcases hw with h | h
      · have := hlt w h; omega
      · omega
    · rw [List.pairwise_append]
      refine ⟨hsorted, List.pairwise_singleton _ _, ?_⟩
      intro a ha b hb
      rw [List.mem_singleton] at hb
      subst hb
      exact hlt a ha
    · intro w hw x hx hc
      rw [List.mem_append, List.mem_singleton] at hw
      rcases hw with h | h
      · exact hmono x (hconf w h x hx hc)
      · subst h
        obtain ⟨id, hid1, hid2⟩ := hc
        exact hnewm id hid1 x (hok.1 x hx id hid2)
    · rw [List.pairwise_append]
      refine ⟨hindep, List.pairwise_singleton _ _, ?_⟩
      intro a ha b hb hc
      rw [List.mem_singleton] at hb
      subst hb
      exact hmi (hconf a ha b hi hc)
    · intro w hw
      rw [List.mem_append, List.mem_singleton] at hw
      rcases hw with h | h
      · exact hdisj w h
      · subst h; exact hiW0
    · intro x hx
      by_cases he : x = i
      · subst he; exact Or.inr (by simp)
      · rcases hcover x (by omega) with h | h
        · exact Or.inl (hmono x h)
        · exact Or.inr (List.mem_append_left _ h)
    · intro h
      simp at h
    · simp

theorem marked_set_false (mk : List Bool) (idx x : Nat) :
    Marked (mk.set idx false) x ↔ x ≠ idx ∧ Marked mk x := by
  unfold Marked
  by_cases hx : idx = x
  · subst hx
    by_cases h : idx < mk.length
    · rw [getD_set_eq _ _ _ h]; simp
    · simp [List.getD_eq_getElem?_getD, List.getElem?_set, h]
  · rw [getD_set_ne _ _ _ _ hx]
    constructor
    · intro h1; exact ⟨fun h => hx h.symm, h1⟩
    · intro h1; exact h1.2

theorem not_marked_of_length_le (mk : List Bool) (x : Nat) (h : mk.length ≤ x) :
    ¬ Marked mk x := by
  unfold Marked
  simp [List.getD_eq_getElem?_getD, List.getElem?_eq_none h]

theorem clearLoop_spec (nE : Nat) (mk : List Bool) (hlen : mk.length = nE) :
    (forLoop (fun i (mk1 : List Bool) => mk1.set i false) nE 0 mk).length = nE
    ∧ ∀ x, ¬ Marked (forLoop (fun i (mk1 : List Bool) => mk1.set i false) nE 0 mk) x := by
  have h := forLoop_induct (fun i (mk1 : List Bool) => mk1.set i false)
    (fun k mk1 => mk1.length = nE ∧ ∀ x, x < k → ¬ Marked mk1 x) nE
    (fun k s _ hp => by
      refine ⟨by simp [hp.1], ?_⟩
      intro x hx
      rw [marked_set_false]
      intro hc
      exact hp.2 x (by have := hc.1; omega) hc.2)
    nE 0 mk (by omega) ⟨hlen, fun x hx => by omega⟩
  refine ⟨h.1, ?_⟩
  intro x
  by_cases hx : x < nE
  · exact h.2 x hx
  · exact not_marked_of_length_le _ _ (by rw [h.1]; omega)

theorem take_succ_rdN (A : List Nat) (k : Nat) (h : k < A.length) :
    A.take (k + 1) = A.take k ++ [rdN A k] := by
  rw [List.take_succ]
  simp [rdN, List.getD_eq_getElem?_getD, List.getElem?_eq_getElem h]

theorem markWorkset_spec (nE : Nat) (W0 : List Nat) (mk : List Bool) (hlen : mk.length = nE)
    (hclear : ∀ x, ¬ Marked mk x) (hb : ∀ w ∈ W0, w < nE) :
    (forLoop (fun i (mk1 : List Bool) => mk1.set (rdN W0 i) true) W0.length 0 mk).length = nE
    ∧ ∀ x, Marked (forLoop (fun i (mk1 : List Bool) => mk1.set (rdN W0 i) true) W0.length 0 mk) x
        ↔ x ∈ W0 := by
  have h := forLoop_induct (fun i (mk1 : List Bool) => mk1.set (rdN W0 i) true)
    (fun k mk1 => mk1.length = nE ∧ ∀ x, Marked mk1 x ↔ x ∈ W0.take k) W0.length
    (fun k s hk hp => by
      have hmem : rdN W0 k ∈ W0 := by
        have := take_succ_rdN W0 k hk
        have h2 : rdN W0 k ∈ W0.take (k + 1) := by rw [this]; simp
        exact List.mem_of_mem_take h2
      refine ⟨by simp [hp.1], ?_⟩
      intro x
      rw [marked_set_true _ _ _ (by rw [hp.1]; exact hb _ hmem), take_succ_rdN W0 k hk,
        List.mem_append, List.mem_singleton, hp.2 x]
      tauto)
    W0.length 0 mk (by omega) ⟨hlen, fun x => by simp [hclear x]⟩
  refine ⟨h.1, ?_⟩
  intro x
  rw [h.2 x, List.take_length]

theorem peelPass_spec (m : InvMap) (d2r : List Nat) (nE n : Nat) (hok : InvOK m d2r nE n)
    (s : PeelState) (hlen : s.isMarked.length = nE) (hnd : s.workset.Nodup)
    (hb : ∀ w ∈ s.workset, w < nE) :
    ∃ s1 new, peelPass m d2r nE n s = some s1
      ∧ s1.isMarked.length = nE
      ∧ s1.workset = s.workset ++ new
      ∧ new.Pairwise (fun a b => a < b)
      ∧ (∀ w ∈ new, w < nE)
      ∧ new.Pairwise (fun a b => ¬ Conflict d2r n a b)
      ∧ (∀ w ∈ new, w ∉ s.workset)
      ∧ (new = [] → s1.done = true ∧ s1.worksetDelim = s.worksetDelim
            ∧ ∀ x, x < nE → x ∈ s.workset)
      ∧ (new ≠ [] → s1.done = false
            ∧ s1.worksetDelim = s.worksetDelim ++ [s1.workset.length]) := by
  obtain ⟨hcl1, hcl2⟩ := clearLoop_spec nE s.isMarked hlen
  obtain ⟨hmk1, hmk2⟩ := markWorkset_spec nE s.workset _ hcl1 hcl2 hb
  have hscan := forLoop_option_total (scanBody m d2r nE n)
    (fun i s1 => ScanInv d2r nE n s.workset s.worksetDelim i s1) nE
    (fun i s1 hi hp => scanBody_step m d2r nE n s.workset s.worksetDelim hok hnd hb i s1 hi hp)
    nE 0
    { s with done := true,
             isMarked := forLoop (fun i (mk1 : List Bool) => mk1.set (rdN s.workset i) true)
               s.workset.length 0
               (forLoop (fun i (mk1 : List Bool) => mk1.set i false) nE 0 s.isMarked) }
    (by omega)
    ⟨hmk1, rfl, [], by simp, fun w hw => (hmk2 w).2 hw, by simp, List.Pairwise.nil,
      by simp, List.Pairwise.nil, by simp, fun x hx => by omega,
      fun _ x hx => (hmk2 x).1 hx, by simp⟩
  obtain ⟨s3, hrun, hl3, hD3, new, hws, hW0m, hlt, hsorted, hconf, hindep, hdisj, hcover,
    hempty, hdone⟩ := hscan
  by_cases hnew : new = []
  · have hd : s3.done = true := hdone.2 hnew
    refine ⟨s3, new, ?_, hl3, hws, hsorted, hlt, hindep, hdisj, ?_, fun h => absurd hnew h⟩
    · simp only [peelPass, PeelState.worksetSize, hrun, Option.map_some', hd]
      simp
    · intro _
      refine ⟨hd, hD3, ?_⟩
      intro x hx
      rcases hcover x hx with h | h
      · exact hempty hnew x h
      · rw [hnew] at h; simp at h
  · have hd : s3.done = false := by
      cases hdd : s3.done with
      | false => rfl
      | true => exact absurd (hdone.1 hdd) hnew
    refine ⟨{ s3 with worksetDelim := s3.worksetDelim ++ [s3.worksetSize] }, new, ?_, hl3, hws,
      hsorted, hlt, hindep, hdisj, fun h => absurd h hnew, ?_⟩
    · simp only [peelPass, PeelState.worksetSize, hrun, Option.map_some', hd]
      simp
    · intro _
      exact ⟨hd, by simp [hD3, PeelState.worksetSize]⟩

theorem slice_append_left (W new : List Nat) (b d : Nat) (hd : d ≤ W.length) :
    ((W ++ new).drop b).take (d - b) = (W.drop b).take (d - b) := by
  by_cases hb : b ≤ W.length
  · rw [List.drop_append_of_le_length hb, List.take_append_of_le_length]
    rw [List.length_drop]; omega
  · have h0 : d - b = 0 := by omega
    rw [h0]; simp

theorem sliceColorsFrom_append (W new : List Nat) :
    ∀ (D : List Nat) (b : Nat), (∀ d ∈ D, d ≤ W.length) → D.getLast?.getD b = W.length →
      sliceColorsFrom (W ++ new) b (D ++ [W.length + new.length])
        = sliceColorsFrom W b D ++ [new] := by
  intro D
  induction D with
  | nil =>
    intro b _ hlast
    simp only [List.getLast?_nil, Option.getD_none] at hlast
    subst hlast
    simp [sliceColorsFrom]
  | cons d D ih =>
    intro b hle hlast
    simp only [List.cons_append, sliceColorsFrom, List.append_eq]
    have hlast1 : D.getLast?.getD d = W.length := by
      cases D with
      | nil => simpa using hlast
      | cons e D1 =>
        rw [List.getLast?_cons_cons] at hlast
        cases hl : (e :: D1).getLast? with
        | none => simp at hl
        | some v => rw [hl] at hlast; simpa using hlast
    rw [slice_append_left W new b d (hle d (by simp)),
      ih d (fun x hx => hle x (by simp [hx])) hlast1]

theorem peelInv_pass (m : InvMap) (d2r : List Nat) (nE n : Nat) (hok : InvOK m d2r nE n)
    (s : PeelState) (hinv : PeelInv d2r nE n s) :
    ∃ s1, peelPass m d2r nE n s = some s1 ∧ PeelInv d2r nE n s1
      ∧ (s1.done = true ∨ s.workset.length < s1.workset.length) := by
  obtain ⟨hlen, hnd, hb, hdle, hlast, hcol, hflat, _⟩ := hinv
  obtain ⟨s1, new, hrun, hl1, hws, hsorted, hlt, hindep, hdisj, hnil, hcons⟩ :=
    peelPass_spec m d2r nE n hok s hlen hnd hb
  have hnd1 : s1.workset.Nodup := by
    rw [hws]
    exact List.Nodup.append hnd (hsorted.imp (fun h => Nat.ne_of_lt h))
      (fun x hx hx' => hdisj x hx' hx)
  have hb1 : ∀ w ∈ s1.workset, w < nE := by
    intro w hw
    rw [hws, List.mem_append] at hw
    exact hw.elim (hb w) (hlt w)
  by_cases hnew : new = []
  · obtain ⟨hd, hD, hall⟩ := hnil hnew
    have hws' : s1.workset = s.workset := by rw [hws, hnew, List.append_nil]
    refine ⟨s1, hrun, ⟨hl1, hnd1, hb1, ?_, ?_, ?_, ?_, ?_⟩, Or.inl hd⟩
    · rw [hD, hws']; exact hdle
    · rw [hD, hws']; exact hlast
    · rw [hD, hws']; exact hcol
    · rw [hD, hws']; exact hflat
    · intro _ x hx
      rw [hws']; exact hall x hx
  · obtain ⟨hd, hD⟩ := hcons hnew
    have hlenpos : 0 < new.length := List.length_pos.mpr hnew
    have hsl : sliceColors s1.workset s1.worksetDelim
        = sliceColors s.workset s.worksetDelim ++ [new] := by
      unfold sliceColors
      rw [hD, hws, List.length_append]
      exact sliceColorsFrom_append s.workset new s.worksetDelim 0 hdle hlast
    refine ⟨s1, hrun, ⟨hl1, hnd1, hb1, ?_, ?_, ?_, ?_, ?_⟩, Or.inr (by rw [hws]; simp; omega)⟩
    · intro d hdm
      rw [hD, List.mem_append, List.mem_singleton] at hdm
      rcases hdm with h | h
      · have := hdle d h
        rw [hws, List.length_append]; omega
      · omega
    · rw [hD, List.getLast?_concat]; rfl
    · intro c hc
      rw [hsl, List.mem_append, List.mem_singleton] at hc
      rcases hc with h | h
      · exact hcol c h
      · subst h; exact hindep
    · rw [hsl, hws]
      simp [hflat]
    · intro h
      rw [hd] at h
      exact absurd h (by simp)

theorem peelLoop_spec (m : InvMap) (d2r : List Nat) (nE n : Nat) (hok : InvOK m d2r nE n) :
    ∀ (fuel : Nat) (s : PeelState), PeelInv d2r nE n s →
      ((s.done = true ∧ 1 ≤ fuel) ∨ nE - s.workset.length + 2 ≤ fuel) →
      ∃ s1, peelLoop m d2r nE n fuel s = PeelResult.finished s1 ∧ PeelInv d2r nE n s1
        ∧ s1.done = true := by
  intro fuel
  induction fuel with
  | zero => intro s _ h; omega
  | succ fuel ih =>
    intro s hinv hfuel
    by_cases hd : s.done = true
    · exact ⟨s, by simp [peelLoop, hd], hinv, hd⟩
    · have hfuel' : nE - s.workset.length + 2 ≤ fuel + 1 := by
        rcases hfuel with h | h
        · exact absurd h.1 hd
        · exact h
      obtain ⟨s1, hrun, hinv1, hprog⟩ := peelInv_pass m d2r nE n hok s hinv
      have hle1 : s1.workset.length ≤ nE := by
        have := (List.subperm_of_subset hinv1.2.1
          (fun x hx => List.mem_range.mpr (hinv1.2.2.1 x hx))).length_le
        simpa using this
      obtain ⟨s2, hrun2, hinv2, hd2⟩ := ih s1 hinv1 (by
        rcases hprog with h | h
        · exact Or.inl ⟨h, by omega⟩
        · exact Or.inr (by omega))
      refine ⟨s2, ?_, hinv2, hd2⟩
      simp only [peelLoop, hd, hrun]
      exact hrun2

theorem peel_spec (m : InvMap) (d2r : List Nat) (nE n : Nat) (hok : InvOK m d2r nE n) :
    ∃ s, peel m d2r nE n = PeelResult.finished s ∧ PeelInv d2r nE n s ∧ s.done = true :=
  peelLoop_spec m d2r nE n hok (nE + 2) _
    ⟨by simp, List.nodup_nil, by simp, by simp, by simp, by simp [sliceColors, sliceColorsFrom],
      by simp [sliceColors, sliceColorsFrom], by simp⟩
    (Or.inr (by simp))

theorem conflict_symm (d2r : List Nat) (n : Nat) :
    Symmetric (fun a b => ¬ Conflict d2r n a b) := by
  intro a b h hc
  obtain ⟨id, h1, h2⟩ := hc
  exact h ⟨id, h2, h1⟩

theorem color_call_stages (retVal : IndexSet) (d2r : List Nat) (nE n nER : Nat)
    (ep iep : Option (List Int)) (r : ColorResult)
    (hdone : CreateLockFreeColorIndexset retVal d2r nE n nER ep iep = ColorOutcome.done r) :
    ∃ m s, inverseMap d2r nE n nER = some m ∧ peel m d2r nE n = PeelResult.finished s := by
  unfold CreateLockFreeColorIndexset at hdone
  cases hm : inverseMap d2r nE n nER with
  | none => rw [hm] at hdone; exact absurd hdone (by simp)
  | some m =>
    rw [hm] at hdone
    cases hp : peel m d2r nE n with
    | exited => simp [hp] at hdone
    | outOfFuel => simp [hp] at hdone
    | finished s => exact ⟨m, s, rfl, hp⟩

/-- C3. Coloring independence: for every incidence array with entries in
[0, numEntityRange) on which CreateLockFreeColorIndexset completes, two
distinct domain elements of the same color (the same workset slice between
consecutive worksetDelim entries; the slices concatenate to the workset)
reference no common range element. -/
theorem coloring_independence (retVal : IndexSet) (domainToRange : List Nat)
    (numEntity numRangePerDomain numEntityRange : Nat)
    (elemPermutation ielemPermutation : Option (List Int)) (r : ColorResult)
    (hwf : WellFormed domainToRange numEntity numRangePerDomain numEntityRange)
    (hdone : CreateLockFreeColorIndexset retVal domainToRange numEntity numRangePerDomain
      numEntityRange elemPermutation ielemPermutation = ColorOutcome.done r) :
    ∃ m s, inverseMap domainToRange numEntity numRangePerDomain numEntityRange = some m
      ∧ peel m domainToRange numEntity numRangePerDomain = PeelResult.finished s
      ∧ (sliceColors s.workset s.worksetDelim).flatten = s.workset
      ∧ ∀ c ∈ sliceColors s.workset s.worksetDelim, ∀ a ∈ c, ∀ b ∈ c, a ≠ b →
          ∀ j j1, j < numRangePerDomain → j1 < numRangePerDomain →
            rdN domainToRange (a * numRangePerDomain + j)
              ≠ rdN domainToRange (b * numRangePerDomain + j1) := by
  obtain ⟨m, s, hm, hp⟩ := color_call_stages _ _ _ _ _ _ _ _ hdone
  obtain ⟨s1, hp1, hinv, _⟩ := peel_spec m domainToRange numEntity numRangePerDomain
    (inverseMap_ok _ _ _ _ hwf m hm)
  rw [hp] at hp1
  injection hp1 with hp1
  subst hp1
  refine ⟨m, s, hm, hp, hinv.2.2.2.2.2.2.1, ?_⟩
  intro c hc a ha b hb hab j j1 hj hj1 heq
  have hpw := hinv.2.2.2.2.2.1 c hc
  refine (hpw.forall (conflict_symm domainToRange numRangePerDomain) ha hb hab)
    ⟨rdN domainToRange (a * numRangePerDomain + j), ?_, ?_⟩
  · simp only [refsOf, List.mem_map, List.mem_range]
    exact ⟨j, hj, rfl⟩
  · simp only [refsOf, List.mem_map, List.mem_range]
    exact ⟨j1, hj1, heq.symm⟩

/-- C4. Coloring completeness: for every incidence array with entries in
[0, numEntityRange) that passes the inverse-map bound check, the peeling loop
ends without exiting with a workset that is a permutation of
0..numEntity-1, so worksetSize = numEntity and the whole call completes. -/
theorem coloring_completeness (retVal : IndexSet) (domainToRange : List Nat)
    (numEntity numRangePerDomain numEntityRange : Nat) (m : InvMap)
    (hwf : WellFormed domainToRange numEntity numRangePerDomain numEntityRange)
    (hm : inverseMap domainToRange numEntity numRangePerDomain numEntityRange = some m) :
    ∃ s, peel m domainToRange numEntity numRangePerDomain = PeelResult.finished s
      ∧ s.workset.Perm (List.range numEntity)
      ∧ s.worksetSize = numEntity
      ∧ ∀ elemPermutation ielemPermutation, ∃ r,
          CreateLockFreeColorIndexset retVal domainToRange numEntity numRangePerDomain
            numEntityRange elemPermutation ielemPermutation = ColorOutcome.done r := by
  obtain ⟨s, hp, hinv, hd⟩ := peel_spec m domainToRange numEntity numRangePerDomain
    (inverseMap_ok _ _ _ _ hwf m hm)
  obtain ⟨_, hnd, hb, _, _, _, _, hall⟩ := hinv
  have hperm : s.workset.Perm (List.range numEntity) := by
    rw [List.perm_ext_iff_of_nodup hnd (List.nodup_range numEntity)]
    intro a
    rw [List.mem_range]
    exact ⟨hb a, hall hd a⟩
  have hsize : s.worksetSize = numEntity := by
    have := hperm.length_eq
    simpa [PeelState.worksetSize] using this
  refine ⟨s, hp, hperm, hsize, ?_⟩
  intro ep iep
  unfold CreateLockFreeColorIndexset
  rw [hm]
  simp only [hp, hsize, ne_eq, not_true_eq_false, if_false]
  cases ep with
  | none => exact ⟨_, rfl⟩
  | some buf => exact ⟨_, rfl⟩

theorem coloring_completeness_witness :
    WellFormed cycleIncidence 6 2 6
    ∧ inverseMap cycleIncidence 6 2 6 = some cycleInvMap
    ∧ ∃ s, peel cycleInvMap cycleIncidence 6 2 = PeelResult.finished s
        ∧ s.workset.Perm (List.range 6)
        ∧ s.worksetSize = 6
        ∧ ∀ elemPermutation ielemPermutation, ∃ r,
            CreateLockFreeColorIndexset IndexSet.empty cycleIncidence 6 2 6
              elemPermutation ielemPermutation = ColorOutcome.done r :=
  ⟨by unfold WellFormed; decide, by decide,
    coloring_completeness IndexSet.empty cycleIncidence 6 2 6 cycleInvMap
      (by unfold WellFormed; decide) (by decide)⟩

theorem coloring_independence_witness :
    WellFormed cycleIncidence 6 2 6
    ∧ CreateLockFreeColorIndexset IndexSet.empty cycleIncidence 6 2 6 none none
        = ColorOutcome.done
            { retVal := (IndexSet.empty.addList [0, 2, 4] 3 IndexOwnership.Owned).addList
                          [1, 3, 5] 3 IndexOwnership.Owned,
              elemPermutation := none, ielemPermutation := none }
    ∧ ∃ m s, inverseMap cycleIncidence 6 2 6 = some m
        ∧ peel m cycleIncidence 6 2 = PeelResult.finished s
        ∧ (sliceColors s.workset s.worksetDelim).flatten = s.workset
        ∧ ∀ c ∈ sliceColors s.workset s.worksetDelim, ∀ a ∈ c, ∀ b ∈ c, a ≠ b →
            ∀ j j1, j < 2 → j1 < 2 →
              rdN cycleIncidence (a * 2 + j) ≠ rdN cycleIncidence (b * 2 + j1) :=
  ⟨by unfold WellFormed; decide, by decide,
    coloring_independence IndexSet.empty cycleIncidence 6 2 6 none none
      { retVal := (IndexSet.empty.addList [0, 2, 4] 3 IndexOwnership.Owned).addList
                    [1, 3, 5] 3 IndexOwnership.Owned,
        elemPermutation := none, ielemPermutation := none }
      (by unfold WellFormed; decide) (by decide)⟩

/-! ## Segment builder: alignment-gated compaction of runs -/

theorem forLoop_add {σ : Type} (body : Nat → σ → σ) :
    ∀ (a b lo : Nat) (st : σ),
      forLoop body (a + b) lo st = forLoop body b (lo + a) (forLoop body a lo st) := by
  intro a
  induction a with
  | zero => intro b lo st; simp [forLoop]
  | succ a ih =>
    intro b lo st
    rw [show a + 1 + b = (a + b) + 1 by omega]
    simp only [forLoop]
    rw [ih, show lo + 1 + a = lo + (a + 1) by omega]

theorem emitAt_succ (al : Int) (A : List Int) (T : Nat) (hT : 1 ≤ T) :
    emitAt al A (T + 1) = emitBody al A T (emitAt al A T) := by
  unfold emitAt
  rw [show T + 1 - 1 = (T - 1) + 1 by omega, forLoop_add]
  simp only [forLoop]
  rw [show 1 + (T - 1) = T by omega]

theorem emitAt_add (al : Int) (A : List Int) (T len : Nat) (hT : 1 ≤ T) :
    emitAt al A (T + len) = forLoop (emitBody al A) len T (emitAt al A T) := by
  unfold emitAt
  rw [show T + len - 1 = (T - 1) + len by omega, forLoop_add,
    show 1 + (T - 1) = T by omega]

theorem emitScan_eq_finish (al : Int) (A : List Int) (hn : 1 ≤ A.length) :
    emitScan al IndexSet.empty A A.length = emitFinish A (emitAt al A A.length) := by
  unfold emitScan emitAt emitInit
  rw [show ((A.length : Int) - 1).toNat = A.length - 1 by omega]

theorem emitAt_inv (al : Int) (A : List Int) (T : Nat) (hT : 1 ≤ T) (hTn : T ≤ A.length) :
    EmitInv A [] T (emitAt al A T) := by
  have h := forLoop_induct (emitBody al A) (fun ii st => ii ≤ A.length → EmitInv A [] ii st) T
    (fun ii st hlt h hle =>
      emitInv_step al A [] ii st (by omega) (h (by omega)))
    (T - 1) 1 (emitInit A) (by omega)
    (fun _ => emitInv_init A [] IndexSet.empty (by omega) forall_empty)
  exact h hTn

theorem emitBody_extends (al : Int) (A : List Int) (ii : Nat) (st : EmitState) :
    st.hiset.m_segments <+: (emitBody al A ii st).hiset.m_segments := by
  obtain ⟨eh, ei, ev, ec, ed⟩ := st
  simp only [emitBody]
  split_ifs <;>
    simp [IndexSet.addList, IndexSet.addRange, IndexSet.addSegmentList,
      IndexSet.addSegmentRange]

theorem forLoop_emit_extends (al : Int) (A : List Int) :
    ∀ (len ii : Nat) (st : EmitState),
      st.hiset.m_segments <+: (forLoop (emitBody al A) len ii st).hiset.m_segments := by
  intro len
  induction len with
  | zero => intro ii st; exact List.prefix_refl _
  | succ len ih =>
    intro ii st
    simp only [forLoop]
    exact List.IsPrefix.trans (emitBody_extends al A ii st) (ih _ _)

theorem emitFinish_extends (A : List Int) (st : EmitState) :
    st.hiset.m_segments <+: (emitFinish A st).m_segments := by
  simp only [emitFinish]
  split_ifs <;>
    simp [IndexSet.addList, IndexSet.addRange, IndexSet.addSegmentList,
      IndexSet.addSegmentRange]

theorem emitAt_extends_final (al : Int) (A : List Int) (T : Nat) (hT : 1 ≤ T)
    (hTn : T ≤ A.length) :
    (emitAt al A T).hiset.m_segments <+: (emitScan al IndexSet.empty A A.length).m_segments := by
  rw [emitScan_eq_finish al A (by omega),
    show A.length = T + (A.length - T) by omega, emitAt_add al A T _ hT]
  exact List.IsPrefix.trans (forLoop_emit_extends al A _ _ _) (emitFinish_extends A _)

theorem list_phase (al : Int) (A : List Int) :
    ∀ (len ii : Nat) (st : EmitState), 1 ≤ ii → st.inrange = 0 → st.scanVal = rd A (ii - 1) →
      (∀ t, t < len →
        ¬ (rd A (ii + t) = rd A (ii + t - 1) + 1 ∧ (rd A (ii + t - 1)).tmod al = 0)) →
      forLoop (emitBody al A) len ii st
        = { st with scanVal := rd A (ii + len - 1), sliceCount := st.sliceCount + (len : Int) } := by
  intro len
  induction len with
  | zero =>
    intro ii st _ _ hsv _
    obtain ⟨eh, ei, ev, ec, ed⟩ := st
    simp only at hsv
    simp [forLoop, hsv]
  | succ len ih =>
    intro ii st hii hr hsv hno
    simp only [forLoop]
    have h0 := hno 0 (by omega)
    simp only [Nat.add_zero] at h0
    rw [← hsv] at h0
    rw [emitBody_list_stay al A ii st hr h0]
    rw [ih (ii + 1) { st with scanVal := rd A ii, sliceCount := st.sliceCount + 1 }
      (by omega) hr (by simp) (fun t ht => by
      have := hno (t + 1) (by omega)
      rw [show ii + (t + 1) = ii + 1 + t by omega] at this
      exact this)]
    have e1 : ii + 1 + len - 1 = ii + (len + 1) - 1 := by omega
    have e2 : st.sliceCount + 1 + (len : Int) = st.sliceCount + ((len + 1 : Nat) : Int) := by
      push_cast; ring
    simp only [e1, e2]

theorem range_phase (al : Int) (A : List Int) :
    ∀ (len ii : Nat) (st : EmitState), 1 ≤ ii → st.inrange = 1 → st.scanVal = rd A (ii - 1) →
      (∀ t, t < len → rd A (ii + t) = rd A (ii + t - 1) + 1) →
      forLoop (emitBody al A) len ii st
        = { st with scanVal := rd A (ii + len - 1), sliceCount := st.sliceCount + (len : Int) } := by
  intro len
  induction len with
  | zero =>
    intro ii st _ _ hsv _
    obtain ⟨eh, ei, ev, ec, ed⟩ := st
    simp only at hsv
    simp [forLoop, hsv]
  | succ len ih =>
    intro ii st hii hr hsv hno
    simp only [forLoop]
    have h0 := hno 0 (by omega)
    simp only [Nat.add_zero] at h0
    rw [← hsv] at h0
    rw [emitBody_range_stay al A ii st hr h0]
    rw [ih (ii + 1) { st with scanVal := rd A ii, sliceCount := st.sliceCount + 1 }
      (by omega) hr (by simp) (fun t ht => by
      have := hno (t + 1) (by omega)
      rw [show ii + (t + 1) = ii + 1 + t by omega] at this
      exact this)]
    have e1 : ii + 1 + len - 1 = ii + (len + 1) - 1 := by omega
    have e2 : st.sliceCount + 1 + (len : Int) = st.sliceCount + ((len + 1 : Nat) : Int) := by
      push_cast; ring
    simp only [e1, e2]

theorem run_entry (al : Int) (A : List Int) (P m : Nat) (k : Int)
    (hrun : IsBoundedRun A P m k) :
    (emitAt al A (P + 1)).inrange = 0
    ∧ (emitAt al A (P + 1)).scanVal = rd A P
    ∧ 0 ≤ (emitAt al A (P + 1)).dobegin
    ∧ 0 ≤ (emitAt al A (P + 1)).sliceCount
    ∧ (emitAt al A (P + 1)).dobegin + (emitAt al A (P + 1)).sliceCount = (P : Int)
    ∧ forallIndexSet (emitAt al A (P + 1)).hiset
        = A.take (emitAt al A (P + 1)).dobegin.toNat := by
  obtain ⟨hP, hm, hlen, hvals, hpre, hpost⟩ := hrun
  have hk : rd A P = k := by simpa using hvals 0 (by omega)
  have h0 := emitAt_inv al A P hP (by omega)
  have h1 := emitAt_inv al A (P + 1) (by omega) (by omega)
  have hstep := emitAt_succ al A P hP
  obtain ⟨_, _, hsv0, hc0⟩ := h0
  have hne : ¬ rd A P = (emitAt al A P).scanVal + 1 := by
    rw [hsv0, hk]; exact fun h => hpre h.symm
  have hir : (emitAt al A (P + 1)).inrange = 0 := by
    rw [hstep]
    rcases hc0 with ⟨hr, _⟩ | ⟨hr, _⟩ | ⟨hr, _⟩
    · rw [emitBody_start_list al A P _ hr (fun h => hne h.1)]
    · rw [emitBody_list_stay al A P _ hr (fun h => hne h.1)]; exact hr
    · rw [emitBody_range_end al A P _ hr hne]
  obtain ⟨_, _, hsv1, hc1⟩ := h1
  rcases hc1 with ⟨hr, _⟩ | ⟨hr, hd, hs, hds, hf⟩ | ⟨hr, _⟩
  · rw [hir] at hr; exact absurd hr (by decide)
  · refine ⟨hr, by simpa using hsv1, hd, hs, by simpa using hds, by simpa using hf⟩
  · rw [hir] at hr; exact absurd hr (by decide)

theorem run_range (al : Int) (A : List Int) (P m : Nat) (k : Int)
    (hrun : IsBoundedRun A P m k) (j : Nat) (hj : j + 2 ≤ m)
    (haj : (k + (j : Int)).tmod al = 0) (hna : ∀ t, t < j → ¬ (k + (t : Int)).tmod al = 0) :
    (emitAt al A (P + m + 1)).hiset
      = (if (emitAt al A (P + 1)).sliceCount + (j : Int) ≠ 0 then
            (emitAt al A (P + 1)).hiset.addList
              (A.drop (emitAt al A (P + 1)).dobegin.toNat)
              ((emitAt al A (P + 1)).sliceCount + (j : Int)) IndexOwnership.Owned
          else (emitAt al A (P + 1)).hiset).addRange (k + (j : Int)) (k + (m : Int)) := by
  obtain ⟨hir, hsv, -, -, -, -⟩ := run_entry al A P m k hrun
  obtain ⟨hP, hm, hlen, hvals, hpre, hpost⟩ := hrun
  generalize hS1 : emitAt al A (P + 1) = S1 at hir hsv ⊢
  obtain ⟨H1, ir, sv, sc, db⟩ := S1
  simp only at hir hsv ⊢
  subst hir hsv
  have hS2 : emitAt al A (P + 1 + j)
      = { hiset := H1, inrange := 0, scanVal := rd A (P + j), sliceCount := sc + (j : Int),
          dobegin := db } := by
    rw [emitAt_add al A (P + 1) j (by omega), hS1,
      list_phase al A j (P + 1) _ (by omega) rfl (by simp) (fun t ht => by
        rw [show P + 1 + t - 1 = P + t by omega, hvals t (by omega)]
        exact fun h => hna t ht h.2)]
    rw [show P + 1 + j - 1 = P + j by omega]
  have hS3 : emitAt al A (P + 1 + j + 1)
      = { hiset := if sc + (j : Int) ≠ 0 then
                     H1.addList (A.drop db.toNat) (sc + (j : Int)) IndexOwnership.Owned
                   else H1,
          inrange := 1, scanVal := rd A (P + 1 + j), sliceCount := 1,
          dobegin := rd A (P + j) } := by
    rw [emitAt_succ al A (P + 1 + j) (by omega), hS2,
      emitBody_list_to_range al A (P + 1 + j) _ rfl
        (by
          simp only
          rw [show P + 1 + j = P + (j + 1) by omega, hvals (j + 1) (by omega),
            hvals j (by omega)]
          push_cast; ring)
        (by simp only; rw [hvals j (by omega)]; exact haj)]
  have hS4 : emitAt al A (P + 1 + j + 1 + (m - 2 - j))
      = { hiset := if sc + (j : Int) ≠ 0 then
                     H1.addList (A.drop db.toNat) (sc + (j : Int)) IndexOwnership.Owned
                   else H1,
          inrange := 1, scanVal := rd A (P + m - 1),
          sliceCount := 1 + ((m - 2 - j : Nat) : Int),
          dobegin := rd A (P + j) } := by
    rw [emitAt_add al A (P + 1 + j + 1) (m - 2 - j) (by omega), hS3,
      range_phase al A (m - 2 - j) (P + 1 + j + 1) _ (by omega) rfl
        (by simp) (fun t ht => by
          rw [show P + 1 + j + 1 + t - 1 = P + (j + 1 + t) by omega,
            show P + 1 + j + 1 + t = P + (j + 2 + t) by omega,
            hvals _ (by omega), hvals _ (by omega)]
          push_cast; ring)]
    rw [show P + 1 + j + 1 + (m - 2 - j) - 1 = P + m - 1 by omega]
  have hTm : P + 1 + j + 1 + (m - 2 - j) = P + m := by omega
  rw [hTm] at hS4
  rw [emitAt_succ al A (P + m) (by omega), hS4,
    emitBody_range_end al A (P + m) _ rfl (by
      simp only
      rw [show P + m - 1 = P + (m - 1) by omega, hvals (m - 1) (by omega)]
      intro h
      apply hpost
      rw [h]
      have : ((m - 1 : Nat) : Int) = (m : Int) - 1 := by omega
      rw [this]; ring)]
  simp only
  rw [hvals j (by omega)]
  congr 1
  have : ((m - 2 - j : Nat) : Int) = (m : Int) - 2 - (j : Int) := by omega
  rw [this]; ring

theorem pending_list_flushed (al : Int) (A : List Int) :
    ∀ (r ii : Nat) (st : EmitState), ii + r = A.length → 1 ≤ ii → st.inrange = 0 →
      st.scanVal = rd A (ii - 1) → 1 ≤ st.sliceCount →
      st.dobegin + st.sliceCount = (ii : Int) - 1 →
      ∃ (c : Int) (Y : List Segment), st.sliceCount ≤ c ∧ st.dobegin + c ≤ (A.length : Int)
        ∧ (emitFinish A (forLoop (emitBody al A) r ii st)).m_segments
            = st.hiset.m_segments
              ++ [Segment.ofList SegmentType._List_
                    (ListISet.mk3 (A.drop st.dobegin.toNat) c IndexOwnership.Owned)] ++ Y := by
  intro r
  induction r with
  | zero =>
    intro ii st hn hii hr hsv hs hds
    refine ⟨st.sliceCount + 1, [], by omega, by omega, ?_⟩
    have hne1 : (0 : Int) ≠ -1 := by decide
    simp [forLoop, emitFinish, hr, IndexSet.addList, IndexSet.addSegmentList]
  | succ r ih =>
    intro ii st hn hii hr hsv hs hds
    simp only [forLoop]
    by_cases hl : rd A ii = st.scanVal + 1 ∧ st.scanVal.tmod al = 0
    · rw [emitBody_list_to_range al A ii st hr hl.1 hl.2]
      have hne : st.sliceCount ≠ 0 := by omega
      simp only [hne, ne_eq, not_false_eq_true, if_true]
      obtain ⟨Y, hY⟩ := List.IsPrefix.trans
        (forLoop_emit_extends al A r (ii + 1)
          { hiset := st.hiset.addList (A.drop st.dobegin.toNat) st.sliceCount
                      IndexOwnership.Owned,
            inrange := 1, scanVal := rd A ii, sliceCount := 1, dobegin := st.scanVal })
        (emitFinish_extends A _)
      refine ⟨st.sliceCount, Y, le_refl _, by omega, ?_⟩
      rw [← hY]
      simp [IndexSet.addList, IndexSet.addSegmentList]
    · rw [emitBody_list_stay al A ii st hr hl]
      obtain ⟨c, Y, hc1, hc2, hseg⟩ := ih (ii + 1)
        { st with scanVal := rd A ii, sliceCount := st.sliceCount + 1 }
        (by omega) (by omega) hr (by simp) (by simp; omega) (by simp; omega)
      exact ⟨c, Y, by simp at hc1; omega, hc2, hseg⟩

theorem run_slice (A : List Int) (P m : Nat) (k : Int) (hrun : IsBoundedRun A P m k)
    (j : Nat) (hj : j ≤ m) : (A.drop P).take j = forallRange k (k + (j : Int)) := by
  obtain ⟨hP, hm, hlen, hvals, hpre, hpost⟩ := hrun
  apply List.ext_getElem
  · simp [forallRange]; omega
  · intro i h1 h2
    simp only [List.length_take, List.length_drop] at h1
    have hv := hvals i (by omega)
    simp only [rd, List.getD_eq_getElem?_getD,
      List.getElem?_eq_getElem (by omega : P + i < A.length), Option.getD_some] at hv
    simp [forallRange, hv]

theorem mk3_owned_eq (l : List Int) (c : Int) (hc : 0 < c) (hle : c.toNat ≤ l.length) :
    Segment.ofList SegmentType._List_ (ListISet.mk3 l c IndexOwnership.Owned)
      = listSeg (l.take c.toNat) := by
  have hn : ¬ c ≤ 0 := by omega
  simp only [ListISet.mk3, ListISet.initIndexData, hn, if_false, if_true, listSeg,
    List.length_take]
  congr 2
  omega

theorem rangesLong_addList (h : IndexSet) (indx : List Int) (len : Int) (own : IndexOwnership)
    (hr : RangesLong h) : RangesLong (h.addList indx len own) := by
  intro seg hseg r hsr
  simp only [IndexSet.addList, IndexSet.addSegmentList, List.mem_append,
    List.mem_singleton] at hseg
  rcases hseg with hseg | hseg
  · exact hr seg hseg r hsr
  · subst hseg
    simp [Segment.ofList] at hsr

theorem rangesLong_addRange (h : IndexSet) (b e : Int) (hr : RangesLong h) (hbe : b + 2 ≤ e) :
    RangesLong (h.addRange b e) := by
  intro seg hseg r hsr
  simp only [IndexSet.addRange, IndexSet.addSegmentRange, List.mem_append,
    List.mem_singleton] at hseg
  rcases hseg with hseg | hseg
  · exact hr seg hseg r hsr
  · subst hseg
    simp only [Segment.ofRange, ISetPtr.range.injEq] at hsr
    subst hsr
    exact hbe

theorem lenInv_step (al : Int) (A : List Int) (ii : Nat) (st : EmitState) (h : LenInv st) :
    LenInv (emitBody al A ii st) := by
  obtain ⟨hc, hz, hs, hr⟩ := h
  rcases hc with hc | hc | hc
  · by_cases hl : rd A ii = st.scanVal + 1 ∧ st.scanVal.tmod al = 0
    · rw [emitBody_start_range al A ii st hc hl.1 hl.2]
      exact ⟨Or.inr (Or.inr rfl), by simp, by simp [hz hc], hr⟩
    · rw [emitBody_start_list al A ii st hc hl]
      exact ⟨Or.inr (Or.inl rfl), by simp, by simp, hr⟩
  · by_cases hl : rd A ii = st.scanVal + 1 ∧ st.scanVal.tmod al = 0
    · rw [emitBody_list_to_range al A ii st hc hl.1 hl.2]
      refine ⟨Or.inr (Or.inr rfl), by simp, by simp, ?_⟩
      simp only
      split_ifs
      · exact rangesLong_addList _ _ _ _ hr
      · exact hr
    · rw [emitBody_list_stay al A ii st hc hl]
      exact ⟨Or.inr (Or.inl hc), by simp [hc], by simp [hc], hr⟩
  · by_cases hl : rd A ii = st.scanVal + 1
    · rw [emitBody_range_stay al A ii st hc hl]
      exact ⟨Or.inr (Or.inr hc), by simp [hc], by have := hs hc; simp; omega, hr⟩
    · rw [emitBody_range_end al A ii st hc hl]
      exact ⟨Or.inr (Or.inl rfl), by simp, by simp,
        rangesLong_addRange _ _ _ hr (by have := hs hc; omega)⟩

theorem emitScan_rangesLong (al : Int) (A : List Int) (n : Int) :
    RangesLong (emitScan al IndexSet.empty A n) := by
  have hinv : LenInv (forLoop (emitBody al A) (n - 1).toNat 1
      { hiset := IndexSet.empty, inrange := -1, scanVal := rd A 0, sliceCount := 0,
        dobegin := rd A 0 }) :=
    forLoop_preserves (emitBody al A) LenInv (fun ii st h => lenInv_step al A ii st h) _ _ _
      ⟨Or.inl rfl, by simp, by simp, fun seg hseg => by simp [IndexSet.empty] at hseg⟩
  unfold emitScan
  generalize forLoop (emitBody al A) (n - 1).toNat 1
    { hiset := IndexSet.empty, inrange := -1, scanVal := rd A 0, sliceCount := 0,
      dobegin := rd A 0 } = st at hinv
  obtain ⟨hc, hz, hs, hr⟩ := hinv
  simp only [emitFinish]
  rcases hc with hc | hc | hc
  · simp only [hc, ne_eq, not_true_eq_false, if_false]
    split_ifs
    · exact hr
    · exact rangesLong_addList _ _ _ _ hr
  · simp only [hc, ne_eq, not_true_eq_false, if_false]
    simp only [show ¬ (0 : Int) = -1 by decide, not_false_eq_true, if_true]
    exact rangesLong_addList _ _ _ _ hr
  · simp only [hc, ne_eq, show ¬ (1 : Int) = -1 by decide, show ¬ (1 : Int) = 0 by decide,
      not_false_eq_true, if_true]
    exact rangesLong_addRange _ _ _ hr (by have := hs hc; omega)

theorem segs_of_emitAt (al : Int) (A : List Int) (T : Nat) (hT : 1 ≤ T) (hTn : T ≤ A.length) :
    ∃ Y, (emitScan al IndexSet.empty A A.length).m_segments
      = (emitAt al A T).hiset.m_segments ++ Y := by
  obtain ⟨Y, hY⟩ := emitAt_extends_final al A T hT hTn
  exact ⟨Y, hY.symm⟩

theorem run_range_segments (al : Int) (A : List Int) (P m : Nat) (k : Int)
    (hrun : IsBoundedRun A P m k) (j : Nat) (hj : j + 2 ≤ m)
    (haj : (k + (j : Int)).tmod al = 0) (hna : ∀ t, t < j → ¬ (k + (t : Int)).tmod al = 0) :
    ∃ (X : List Segment) (l1 : List Int) (Y : List Segment),
      X.flatMap forallSegment ++ l1 = A.take P
      ∧ (emitScan al IndexSet.empty A A.length).m_segments
          = X ++ (if l1 ++ forallRange k (k + (j : Int)) = [] then []
                  else [listSeg (l1 ++ forallRange k (k + (j : Int)))])
              ++ [rangeSeg (k + (j : Int)) (k + (m : Int))] ++ Y := by
  have hrange := run_range al A P m k hrun j hj haj hna
  obtain ⟨hir, hsv, hd, hs, hds, hf⟩ := run_entry al A P m k hrun
  have hslice := run_slice A P m k hrun j (by omega)
  obtain ⟨hP, hm, hlen, hvals, hpre, hpost⟩ := hrun
  obtain ⟨Y, hY⟩ := segs_of_emitAt al A (P + m + 1) (by omega) (by omega)
  generalize emitAt al A (P + 1) = S1 at hir hsv hd hs hds hf hrange
  obtain ⟨H1, ir, sv, sc, db⟩ := S1
  simp only at hir hsv hd hs hds hf hrange
  obtain ⟨dn, rfl⟩ := Int.eq_ofNat_of_zero_le hd
  obtain ⟨sn, rfl⟩ := Int.eq_ofNat_of_zero_le hs
  have hdsn : dn + sn = P := by omega
  simp only [Int.toNat_ofNat] at hf hrange
  have htake : (A.drop dn).take (sn + j) = (A.drop dn).take sn ++ forallRange k (k + (j : Int)) := by
    rw [List.take_add, List.drop_drop, show dn + sn = P by omega, hslice]
  have hlenl : ((A.drop dn).take (sn + j)).length = sn + j := by
    simp only [List.length_take, List.length_drop]; omega
  refine ⟨H1.m_segments, (A.drop dn).take sn, Y, ?_, ?_⟩
  · have : H1.m_segments.flatMap forallSegment = forallIndexSet H1 := rfl
    rw [this, hf, take_take_drop, hdsn]
  · rw [hY, hrange]
    by_cases h0 : (sn : Int) + (j : Int) = 0
    · have hsn : sn = 0 := by omega
      have hj0 : j = 0 := by omega
      subst hsn hj0
      simp [h0, forallRange_empty, IndexSet.addRange, IndexSet.addSegmentRange, rangeSeg]
    · have hne : (A.drop dn).take sn ++ forallRange k (k + (j : Int)) ≠ [] := by
        rw [← htake]
        intro h
        have := congrArg List.length h
        rw [hlenl] at this
        simp at this
        omega
      simp only [h0, ne_eq, not_false_eq_true, if_true, hne, if_false]
      simp only [IndexSet.addRange, IndexSet.addSegmentRange, IndexSet.addList,
        IndexSet.addSegmentList, rangeSeg]
      rw [mk3_owned_eq _ _ (by omega) (by
        simp only [List.length_drop]
        omega)]
      rw [show ((sn : Int) + (j : Int)).toNat = sn + j by omega, htake]

theorem run_list_segments (al : Int) (A : List Int) (P m : Nat) (k : Int)
    (hrun : IsBoundedRun A P m k)
    (hna : ∀ t : Nat, t + 2 ≤ m → ¬ (k + (t : Int)).tmod al = 0) :
    ∃ (X : List Segment) (l1 l2 : List Int) (Y : List Segment),
      X.flatMap forallSegment ++ l1 = A.take P
      ∧ (emitScan al IndexSet.empty A A.length).m_segments
          = X ++ [listSeg (l1 ++ forallRange k (k + (m : Int)) ++ l2)] ++ Y := by
  obtain ⟨hir, hsv, hd, hs, hds, hf⟩ := run_entry al A P m k hrun
  have hslice := run_slice A P m k hrun m (le_refl m)
  obtain ⟨hP, hm, hlen, hvals, hpre, hpost⟩ := hrun
  have hfin : emitScan al IndexSet.empty A A.length
      = emitFinish A (forLoop (emitBody al A) (A.length - (P + m + 1)) (P + m + 1)
          (emitAt al A (P + m + 1))) := by
    rw [emitScan_eq_finish al A (by omega)]
    congr 1
    rw [← emitAt_add al A (P + m + 1) _ (by omega)]
    congr 1
    omega
  have hS : emitAt al A (P + 1 + m)
      = forLoop (emitBody al A) m (P + 1) (emitAt al A (P + 1)) :=
    emitAt_add al A (P + 1) m (by omega)
  rw [show P + 1 + m = P + m + 1 by omega] at hS
  generalize emitAt al A (P + 1) = S1 at hir hsv hd hs hds hf hS
  obtain ⟨H1, ir, sv, sc, db⟩ := S1
  simp only at hir hsv hd hs hds hf
  subst hir hsv
  rw [list_phase al A m (P + 1) _ (by omega) rfl (by simp) (fun t ht => by
      rw [show P + 1 + t - 1 = P + t by omega, hvals t (by omega)]
      by_cases htm : t + 2 ≤ m
      · exact fun h => hna t htm h.2
      · have htm1 : t = m - 1 := by omega
        subst htm1
        rw [show P + 1 + (m - 1) = P + m by omega]
        intro h
        apply hpost
        rw [h.1]
        have : ((m - 1 : Nat) : Int) = (m : Int) - 1 := by omega
        rw [this]; ring)] at hS
  simp only at hS
  obtain ⟨dn, rfl⟩ := Int.eq_ofNat_of_zero_le hd
  obtain ⟨sn, rfl⟩ := Int.eq_ofNat_of_zero_le hs
  have hdsn : dn + sn = P := by omega
  obtain ⟨c, Y, hc1, hc2, hseg⟩ := pending_list_flushed al A (A.length - (P + m + 1))
    (P + m + 1)
    { hiset := H1, inrange := 0, scanVal := rd A (P + 1 + m - 1),
      sliceCount := (sn : Int) + (m : Int), dobegin := (dn : Int) }
    (by omega) (by omega) rfl (by simp) (by simp only; omega) (by simp only; omega)
  simp only [Int.toNat_ofNat] at hseg hf hc1 hc2
  obtain ⟨cn, rfl⟩ := Int.eq_ofNat_of_zero_le (by omega : 0 ≤ c)
  have hcn : cn = sn + m + (cn - sn - m) := by omega
  refine ⟨H1.m_segments, (A.drop dn).take sn, (A.drop (P + m)).take (cn - sn - m), Y, ?_, ?_⟩
  · have : H1.m_segments.flatMap forallSegment = forallIndexSet H1 := rfl
    rw [this, hf, take_take_drop, hdsn]
  · rw [hfin, hS, hseg, mk3_owned_eq _ _ (by omega) (by
      simp only [List.length_drop, Int.toNat_ofNat]
      omega)]
    congr 3
    rw [Int.toNat_ofNat, ← hslice]
    conv_lhs => rw [hcn]
    rw [List.take_add, List.take_add, List.drop_drop, List.drop_drop, hdsn,
      show dn + (sn + m) = P + m by omega]

theorem forallSegment_listSeg (l : List Int) : forallSegment (listSeg l) = l := by
  simp only [listSeg, forallSegment, Segment.ofList, forallList, ListISet.getLength,
    ListISet.getIndex, Option.getD_some, Int.toNat_ofNat]
  rw [range_map_rd l l.length (le_refl _), List.take_length]

theorem buildIndexSet_compacts (al ml : Int) (A : List Int)
    (hlen : ml < (A.length : Int)) (hpos : 1 ≤ A.length)
    (hcut : statScan al A A.length < ((A.length : Int) * (al - 1)).tdiv al) :
    buildIndexSet al ml IndexSet.empty A A.length = emitScan al IndexSet.empty A A.length := by
  have h0 : ¬ (A.length : Int) = 0 := by omega
  have hgt : (A.length : Int) > ml := hlen
  simp only [buildIndexSet, h0, hgt, hcut, if_true, if_false]

/-- C7 (amended). Alignment-gated compaction: when buildIndexSet compacts an
input, an ascending run k, ..., k+m-1 at positions P..P+m-1 that is bounded on
both sides by elements breaking the +1 ascent is encoded as one Range segment
[k, k+m) if and only if k is divisible by RANGE_ALIGN and m >= 2. If no
element of the run other than its last is divisible by RANGE_ALIGN, every
element of the run is folded into one List segment. Otherwise the elements of
the run before its first divisible element k+j (j >= 1) are folded into a
List segment, directly followed by the Range [k+j, k+m). -/
theorem aligned_run_compaction (RANGE_ALIGN RANGE_MIN_LENGTH : Int) (A : List Int)
    (P m : Nat) (k : Int)
    (hlen : RANGE_MIN_LENGTH < (A.length : Int))
    (hcut : statScan RANGE_ALIGN A A.length
      < ((A.length : Int) * (RANGE_ALIGN - 1)).tdiv RANGE_ALIGN)
    (hrun : IsBoundedRun A P m k) :
    ((∃ X Y, (buildIndexSet RANGE_ALIGN RANGE_MIN_LENGTH IndexSet.empty A A.length).m_segments
          = X ++ [rangeSeg k (k + (m : Int))] ++ Y
        ∧ X.flatMap forallSegment = A.take P)
      ↔ (k.tmod RANGE_ALIGN = 0 ∧ 2 ≤ m))
    ∧ ((∀ t : Nat, t + 2 ≤ m → ¬ (k + (t : Int)).tmod RANGE_ALIGN = 0) →
        ∃ X l1 l2 Y,
          (buildIndexSet RANGE_ALIGN RANGE_MIN_LENGTH IndexSet.empty A A.length).m_segments
            = X ++ [listSeg (l1 ++ forallRange k (k + (m : Int)) ++ l2)] ++ Y
          ∧ X.flatMap forallSegment ++ l1 = A.take P)
    ∧ (∀ j : Nat, 1 ≤ j → j + 2 ≤ m → (k + (j : Int)).tmod RANGE_ALIGN = 0 →
        (∀ t : Nat, t < j → ¬ (k + (t : Int)).tmod RANGE_ALIGN = 0) →
        ∃ X l1 Y,
          (buildIndexSet RANGE_ALIGN RANGE_MIN_LENGTH IndexSet.empty A A.length).m_segments
            = X ++ [listSeg (l1 ++ forallRange k (k + (j : Int))),
                    rangeSeg (k + (j : Int)) (k + (m : Int))] ++ Y
          ∧ X.flatMap forallSegment ++ l1 = A.take P) := by
  have hpos : 1 ≤ A.length := by
    have := hrun.2.2.1
    omega
  rw [buildIndexSet_compacts RANGE_ALIGN RANGE_MIN_LENGTH A hlen hpos hcut]
  refine ⟨⟨?_, ?_⟩, ?_, ?_⟩
  · rintro ⟨X, Y, hseg, -⟩
    have hmem : rangeSeg k (k + (m : Int))
        ∈ (emitScan RANGE_ALIGN IndexSet.empty A A.length).m_segments := by
      rw [hseg]; simp
    have h1 := emitScan_aligned RANGE_ALIGN IndexSet.empty A A.length
      (rangesAligned_empty _ _ _) _ hmem { m_begin := k, m_end := k + (m : Int) } rfl
    have h2 := emitScan_rangesLong RANGE_ALIGN A A.length _ hmem
      { m_begin := k, m_end := k + (m : Int) } rfl
    simp only at h2
    exact ⟨h1.1, by omega⟩
  · rintro ⟨hk, hm2⟩
    obtain ⟨X, l1, Y, hfl, hseg⟩ := run_range_segments RANGE_ALIGN A P m k hrun 0 (by omega)
      (by simpa using hk) (fun t ht => by omega)
    simp only [Nat.cast_zero, add_zero, forallRange_empty, List.append_nil] at hseg
    refine ⟨X ++ (if l1 = [] then [] else [listSeg l1]), Y, hseg, ?_⟩
    rw [← hfl]
    by_cases hl : l1 = []
    · simp [hl]
    · simp [hl, forallSegment_listSeg]
  · intro hna
    obtain ⟨X, l1, l2, Y, hfl, hseg⟩ := run_list_segments RANGE_ALIGN A P m k hrun hna
    exact ⟨X, l1, l2, Y, hseg, hfl⟩
  · intro j hj1 hj2 haj hna
    obtain ⟨X, l1, Y, hfl, hseg⟩ := run_range_segments RANGE_ALIGN A P m k hrun j hj2 haj hna
    have hne : l1 ++ forallRange k (k + (j : Int)) ≠ [] := by
      intro h
      have h2 := (List.append_eq_nil.mp h).2
      have h3 := congrArg List.length h2
      simp [forallRange] at h3
      omega
    simp only [hne, if_false] at hseg
    refine ⟨X, l1, Y, ?_, hfl⟩
    rw [hseg]
    simp

theorem aligned_run_compaction_witness :
    (4 : Int) < (sampleInput.length : Int)
    ∧ statScan 4 sampleInput sampleInput.length
        < ((sampleInput.length : Int) * (4 - 1)).tdiv 4
    ∧ IsBoundedRun sampleInput 1 12 2
    ∧ ((∃ X Y, (buildIndexSet 4 4 IndexSet.empty sampleInput sampleInput.length).m_segments
            = X ++ [rangeSeg 2 (2 + ((12 : Nat) : Int))] ++ Y
          ∧ X.flatMap forallSegment = sampleInput.take 1)
        ↔ ((2 : Int).tmod 4 = 0 ∧ 2 ≤ 12)) :=
  ⟨by decide, by decide, by unfold IsBoundedRun; decide,
    (aligned_run_compaction 4 4 sampleInput 1 12 2 (by decide) (by decide)
      (by unfold IsBoundedRun; decide)).1⟩

/-- C7 as stated fails: with RANGE_ALIGN = 4 and RANGE_MIN_LENGTH = 4 the input
100, 2, 3, ..., 13, 200 is compacted; its run 2..13 starts at a value that is not
divisible by 4, yet its elements 4..13 are emitted as the Range [4, 14) and lie
in no List segment. -/
theorem aligned_run_counterexample :
    IsBoundedRun sampleInput 1 12 2
    ∧ statScan 4 sampleInput 14 < ((14 : Int) * (4 - 1)).tdiv 4
    ∧ ¬ (2 : Int).tmod 4 = 0
    ∧ (buildIndexSet 4 4 IndexSet.empty sampleInput 14).m_segments
        = [listSeg [100, 2, 3], rangeSeg 4 14, listSeg [200]]
    ∧ ∀ seg ∈ (buildIndexSet 4 4 IndexSet.empty sampleInput 14).m_segments,
        seg.m_type = SegmentType._List_ → (4 : Int) ∉ forallSegment seg := by
  refine ⟨by unfold IsBoundedRun; decide, by decide, by decide, by decide, by decide⟩

/-! ## Builder with length 0, empty lists -/

/-- C11. buildIndexSet with length == 0 is a no-op: whatever the index array
holds (it is not read), the target index set is returned as it was, so its
segment count and total length are unchanged and an empty set stays empty. -/
theorem buildIndexSet_zero_length (RANGE_ALIGN RANGE_MIN_LENGTH : Int) (hiset : IndexSet)
    (indices_in : List Int) :
    buildIndexSet RANGE_ALIGN RANGE_MIN_LENGTH hiset indices_in 0 = hiset
    ∧ (buildIndexSet RANGE_ALIGN RANGE_MIN_LENGTH hiset indices_in 0).getNumSegments
        = hiset.getNumSegments
    ∧ (buildIndexSet RANGE_ALIGN RANGE_MIN_LENGTH hiset indices_in 0).getLength
        = hiset.getLength
    ∧ buildIndexSet RANGE_ALIGN RANGE_MIN_LENGTH IndexSet.empty indices_in 0
        = IndexSet.empty := by
  simp [buildIndexSet]

/-- C14. Empty-list invariant: a ListISet constructed with len <= 0, for any
buffer and any requested ownership, has getLength() = 0, a null getIndex() and
indexOwnership() = Unowned; addList with such arguments appends a List segment
with that payload and ownership and leaves the length of the index set as it was. -/
theorem empty_list_invariant (indx : List Int) (len : Int) (indx_own : IndexOwnership)
    (s : IndexSet) (hlen : len ≤ 0) :
    (ListISet.mk3 indx len indx_own).getLength = 0
    ∧ (ListISet.mk3 indx len indx_own).getIndex = none
    ∧ (ListISet.mk3 indx len indx_own).indexOwnership = IndexOwnership.Unowned
    ∧ (s.addList indx len indx_own).m_segments
        = s.m_segments ++ [Segment.ofList SegmentType._List_
            { m_indx := none, m_len := 0, m_indx_own := IndexOwnership.Unowned }]
    ∧ (s.addList indx len indx_own).segmentIndexOwnership s.m_segments.length
        = some IndexOwnership.Unowned
    ∧ (s.addList indx len indx_own).getLength = s.getLength + 0 := by
  simp [ListISet.mk3, ListISet.initIndexData, hlen, ListISet.getLength, ListISet.getIndex,
    ListISet.indexOwnership, IndexSet.addList, IndexSet.addSegmentList, IndexSet.getLength,
    IndexSet.segmentIndexOwnership, Segment.ofList]

theorem empty_list_invariant_witness :
    (-3 : Int) ≤ 0
    ∧ (ListISet.mk3 [5, 6] (-3) IndexOwnership.Owned).getLength = 0
    ∧ (ListISet.mk3 [5, 6] (-3) IndexOwnership.Owned).getIndex = none
    ∧ (ListISet.mk3 [5, 6] (-3) IndexOwnership.Owned).indexOwnership = IndexOwnership.Unowned :=
  ⟨by decide,
    (empty_list_invariant [5, 6] (-3) IndexOwnership.Owned IndexSet.empty (by decide)).1,
    (empty_list_invariant [5, 6] (-3) IndexOwnership.Owned IndexSet.empty (by decide)).2.1,
    (empty_list_invariant [5, 6] (-3) IndexOwnership.Owned IndexSet.empty (by decide)).2.2.1⟩

/-! ## Geometric partitioner: failure condition and lane layout -/

/-- C16. Geometric partitioner failure condition: with non-negative
dimensions and at least one worker, CreateLockFreeBlockIndexset reaches
`exit(-1)` if and only if slowDim is not 0 and slowDim / (2 * workers) is 0; in
that case the index set it leaves behind is the target with the single Range
`[0, fastDim*midDim*slowDim)` appended. With slowDim = 0 (the 1-D and 2-D
cases) the call always completes. -/
theorem block_failure_condition (W : Nat) (retVal : IndexSet) (fastDim midDim slowDim : Int)
    (_hW : 1 ≤ W) (_hf : 0 ≤ fastDim) (hm : 0 ≤ midDim) (hs : 0 ≤ slowDim) :
    ((∃ rv, CreateLockFreeBlockIndexset (W : Int) retVal fastDim midDim slowDim
          = Outcome.exited rv)
        ↔ (slowDim ≠ 0 ∧ slowDim.tdiv (2 * (W : Int)) = 0))
    ∧ (∀ rv, CreateLockFreeBlockIndexset (W : Int) retVal fastDim midDim slowDim
          = Outcome.exited rv →
        rv = retVal.addRange 0 (fastDim * midDim * slowDim)
        ∧ rv.m_segments = retVal.m_segments ++ [rangeSeg 0 (fastDim * midDim * slowDim)])
    ∧ (slowDim = 0 →
        ∃ rv, CreateLockFreeBlockIndexset (W : Int) retVal fastDim midDim slowDim
          = Outcome.done rv) := by
  have hlor := int_lor_eq_zero midDim slowDim hm hs
  by_cases h0 : slowDim = 0
  · subst h0
    by_cases hm0 : midDim = 0
    · subst hm0
      have z : Int.lor 0 0 = 0 := rfl
      by_cases h1 : fastDim.tdiv PROFITABLE_ENTITY_THRESHOLD ≤ 1
      · simp [CreateLockFreeBlockIndexset, h1, z]
      · simp [CreateLockFreeBlockIndexset, h1, z]
    · by_cases h1 : midDim.tdiv (3 * (W : Int)) = 0
      · simp [CreateLockFreeBlockIndexset, hlor, hm0, h1]
      · simp [CreateLockFreeBlockIndexset, hlor, hm0, h1]
  · by_cases h1 : slowDim.tdiv (2 * (W : Int)) = 0
    · simp [CreateLockFreeBlockIndexset, hlor, h0, h1, segmentsPerThread,
        IndexSet.addRange, IndexSet.addSegmentRange, rangeSeg]
    · simp [CreateLockFreeBlockIndexset, hlor, h0, h1, segmentsPerThread]

theorem block_failure_condition_witness :
    (∃ rv, CreateLockFreeBlockIndexset ((2 : Nat) : Int) IndexSet.empty 5 4 3 = Outcome.exited rv)
      ↔ ((3 : Int) ≠ 0 ∧ (3 : Int).tdiv (2 * ((2 : Nat) : Int)) = 0) :=
  (block_failure_condition 2 IndexSet.empty 5 4 3 (by decide) (by decide) (by decide)
    (by decide)).1

/-- C19, as stated, fails: with one worker and fastDim = 1000000000 (midDim =
slowDim = 0) the slice i = 2 is computed with the `int` product
3*1000000000, which overflows, and the segment at position 2 is the Range
[666666666, -431655765) instead of [2*fastDim/3, 3*fastDim/3) =
[666666666, 1000000000). With 64 workers and fastDim = 12000000 the products
179*12000000 and 180*12000000 overflow, and the segment at position
2*64 + 59 is the Range [-11182121, -11119621) instead of
[179*fastDim/192, 180*fastDim/192) = [11187500, 11250000). -/
theorem lane_layout_1D_counterexample :
    (1 < (1000000000 : Int).tdiv 100
      ∧ CreateLockFreeBlockIndexset ((1 : Nat) : Int) IndexSet.empty 1000000000 0 0
          = Outcome.done (((IndexSet.empty.addRange 0 333333333).addRange 333333333
              666666666).addRange 666666666 (-431655765))
      ∧ (((IndexSet.empty.addRange 0 333333333).addRange 333333333 666666666).addRange
            666666666 (-431655765)).m_segments[2 * 1 + 0]?
          = some (rangeSeg 666666666 (-431655765))
      ∧ rangeSeg 666666666 (-431655765)
          ≠ rangeSeg ((((3 * 0 + 2 : Nat) : Int) * 1000000000).tdiv (3 * ((1 : Nat) : Int)))
              (((((3 * 0 + 2 : Nat) : Int) + 1) * 1000000000).tdiv (3 * ((1 : Nat) : Int))))
    ∧ (1 < (12000000 : Int).tdiv 100
      ∧ CreateLockFreeBlockIndexset ((64 : Nat) : Int) IndexSet.empty 12000000 0 0
          = Outcome.done (blockLanes1D ((64 : Nat) : Int) 12000000 IndexSet.empty)
      ∧ (blockLanes1D ((64 : Nat) : Int) 12000000 IndexSet.empty).m_segments[2 * 64 + 59]?
          = some (rangeSeg (-11182121) (-11119621))
      ∧ rangeSeg (-11182121) (-11119621)
          ≠ rangeSeg ((((3 * 59 + 2 : Nat) : Int) * 12000000).tdiv (3 * ((64 : Nat) : Int)))
              (((((3 * 59 + 2 : Nat) : Int) + 1) * 12000000).tdiv (3 * ((64 : Nat) : Int)))
      ∧ (((3 * 59 + 2 : Nat) : Int) * 12000000).tdiv (3 * ((64 : Nat) : Int)) = 11187500
      ∧ ((((3 * 59 + 2 : Nat) : Int) + 1) * 12000000).tdiv (3 * ((64 : Nat) : Int))
          = 11250000) := by
  refine ⟨by decide, ?_⟩
  set_option maxRecDepth 100000 in decide

/-- C19 (amended). 1-D lane layout: in the 1-D case (midDim = slowDim = 0)
with fastDim / 100 > 1 and 3 * workers * fastDim <= INT_MAX (no `int` product
of the loop overflows) the call completes and appends exactly 3 * workers Range
segments to the target, grouped by lane: for lane in 0, 1, 2 and j below
workers, the appended segment at position lane * workers + j is the Range
`[i*fastDim/(3*workers), (i+1)*fastDim/(3*workers))` with i = 3*j + lane and
truncating division. -/
theorem lane_layout_1D (W : Nat) (retVal : IndexSet) (fastDim : Int)
    (hf : 1 < fastDim.tdiv 100) (hfit : 3 * (W : Int) * fastDim ≤ INT_MAX) :
    ∃ rv, CreateLockFreeBlockIndexset (W : Int) retVal fastDim 0 0 = Outcome.done rv
      ∧ rv.m_segments.length = retVal.m_segments.length + 3 * W
      ∧ rv.m_segments.take retVal.m_segments.length = retVal.m_segments
      ∧ ∀ lane j : Nat, lane < 3 → j < W →
          rv.m_segments[retVal.m_segments.length + (lane * W + j)]?
            = some (rangeSeg
                ((((3 * j + lane : Nat) : Int) * fastDim).tdiv (3 * (W : Int)))
                (((((3 * j + lane : Nat) : Int) + 1) * fastDim).tdiv (3 * (W : Int)))) := by
  have hf0 : 0 ≤ fastDim := by
    by_contra hneg
    have h3 := tdiv_nonneg (-fastDim) 100 (by omega) (by norm_num)
    rw [Int.neg_tdiv] at h3
    omega
  have hf200 : 200 ≤ fastDim := by
    rw [Int.tdiv_eq_ediv hf0 (by norm_num)] at hf
    omega
  have hseg : 3 * (W : Int) + 2 ≤ INT_MAX := by
    have : 3 * (W : Int) * 200 ≤ 3 * (W : Int) * fastDim :=
      mul_le_mul_of_nonneg_left hf200 (by omega)
    simp only [INT_MAX] at hfit ⊢
    omega
  have hsegs := blockLanes1D_segments_from W fastDim retVal hf0 hfit hseg
  refine ⟨blockLanes1D (W : Int) fastDim retVal, ?_, ?_, ?_, ?_⟩
  · have h1 : ¬ fastDim.tdiv PROFITABLE_ENTITY_THRESHOLD ≤ 1 := by
      simp only [PROFITABLE_ENTITY_THRESHOLD]; omega
    have z : Int.lor 0 0 = 0 := rfl
    simp [CreateLockFreeBlockIndexset, h1, z]
  · rw [hsegs]
    simp
    omega
  · rw [hsegs]
    simp
  · intro lane j hl hj
    rw [hsegs, List.getElem?_append_right (by omega)]
    simp only [Nat.add_sub_cancel_left]
    have hc : (3 : Int) * (W : Int) = (W : Int) * 3 := by ring
    rw [hc]
    interval_cases lane
    · rw [List.getElem?_append_left (by simp; omega)]
      simp [hj]
    · rw [List.getElem?_append_right (by simp), List.getElem?_append_left (by simp; omega)]
      simp [hj]
      rw [show (1 : Int) + 3 * (j : Int) = 3 * (j : Int) + 1 by ring]
    · rw [List.getElem?_append_right (by simp; omega),
        List.getElem?_append_right (by simp; omega)]
      have e : 2 * W + j - W - W = j := by omega
      simp [hj, e]
      rw [show (2 : Int) + 3 * (j : Int) = 3 * (j : Int) + 2 by ring]

theorem lane_layout_1D_witness :
    1 < (300 : Int).tdiv 100 ∧ 3 * ((2 : Nat) : Int) * 300 ≤ INT_MAX
    ∧ ∃ rv, CreateLockFreeBlockIndexset ((2 : Nat) : Int) IndexSet.empty 300 0 0
          = Outcome.done rv
      ∧ rv.m_segments.length = IndexSet.empty.m_segments.length + 3 * 2
      ∧ rv.m_segments.take IndexSet.empty.m_segments.length = IndexSet.empty.m_segments
      ∧ ∀ lane j : Nat, lane < 3 → j < 2 →
          rv.m_segments[IndexSet.empty.m_segments.length + (lane * 2 + j)]?
            = some (rangeSeg
                ((((3 * j + lane : Nat) : Int) * 300).tdiv (3 * ((2 : Nat) : Int)))
                (((((3 * j + lane : Nat) : Int) + 1) * 300).tdiv (3 * ((2 : Nat) : Int)))) :=
  ⟨by decide, by decide, lane_layout_1D 2 IndexSet.empty 300 (by decide) (by decide)⟩

/-! ## Copy construction and assignment -/

theorem mk3_len_nonneg (indx : List Int) (len : Int) (own : IndexOwnership) :
    0 ≤ (ListISet.mk3 indx len own).m_len := by
  simp only [ListISet.mk3, ListISet.initIndexData]
  split_ifs <;> simp <;> omega

theorem valid_apply (s : IndexSet) (op : AddOp) (h : s.Valid) : (op.apply s).Valid := by
  refine ⟨apply_preserves s op h.1, ?_⟩
  have hv := h.2
  cases op with
  | addRange b e =>
    intro seg hseg
    simp only [AddOp.apply, IndexSet.addRange, IndexSet.addSegmentRange, List.mem_append,
      List.mem_singleton] at hseg
    rcases hseg with hseg | rfl
    · exact hv seg hseg
    · exact Or.inl ⟨rfl, _, rfl⟩
  | addISetRange iset =>
    intro seg hseg
    simp only [AddOp.apply, IndexSet.addISetRange, IndexSet.addSegmentRange, List.mem_append,
      List.mem_singleton] at hseg
    rcases hseg with hseg | rfl
    · exact hv seg hseg
    · exact Or.inl ⟨rfl, _, rfl⟩
  | addList indx len own =>
    intro seg hseg
    simp only [AddOp.apply, IndexSet.addList, IndexSet.addSegmentList, List.mem_append,
      List.mem_singleton] at hseg
    rcases hseg with hseg | rfl
    · exact hv seg hseg
    · exact Or.inr ⟨rfl, _, rfl, mk3_len_nonneg _ _ _⟩
  | addISetList iset own =>
    intro seg hseg
    simp only [AddOp.apply, IndexSet.addISetList, IndexSet.addSegmentList, List.mem_append,
      List.mem_singleton] at hseg
    rcases hseg with hseg | rfl
    · exact hv seg hseg
    · exact Or.inr ⟨rfl, _, rfl, mk3_len_nonneg _ _ _⟩

theorem valid_empty : IndexSet.empty.Valid := by
  refine ⟨by simp [IndexSet.getLength, IndexSet.empty, segLengthSum], ?_⟩
  intro seg hseg
  simp [IndexSet.empty] at hseg

theorem valid_foldl (ops : List AddOp) :
    ∀ s : IndexSet, s.Valid → (ops.foldl AddOp.apply s).Valid := by
  induction ops with
  | nil => intro s h; exact h
  | cons op rest ih => intro s h; exact ih (op.apply s) (valid_apply s op h)

theorem valid_runOps (ops : List AddOp) : (runOps ops).Valid :=
  valid_foldl ops IndexSet.empty valid_empty

theorem valid_addRange (s : IndexSet) (b e : Int) (h : s.Valid) : (s.addRange b e).Valid :=
  valid_apply s (AddOp.addRange b e) h

theorem valid_addList (s : IndexSet) (indx : List Int) (len : Int) (own : IndexOwnership)
    (h : s.Valid) : (s.addList indx len own).Valid :=
  valid_apply s (AddOp.addList indx len own) h

theorem valid_emitBody (al : Int) (A : List Int) (ii : Nat) (st : EmitState)
    (h : st.hiset.Valid) : (emitBody al A ii st).hiset.Valid := by
  obtain ⟨eh, ei, ev, ec, ed⟩ := st
  simp only at h
  simp only [emitBody]
  split_ifs <;> simp_all [valid_addRange, valid_addList]

/-- The builder keeps an index set valid. -/
theorem valid_buildIndexSet (al ml : Int) (hiset : IndexSet) (A : List Int) (length : Int)
    (h : hiset.Valid) : (buildIndexSet al ml hiset A length).Valid := by
  have hscan : (emitScan al hiset A length).Valid := by
    simp only [emitScan]
    have hloop := forLoop_preserves (emitBody al A) (fun st => st.hiset.Valid)
      (fun i st hst => valid_emitBody al A i st hst) (length - 1).toNat 1
      { hiset := hiset, inrange := -1, scanVal := rd A 0, sliceCount := 0, dobegin := rd A 0 } h
    simp only [emitFinish]
    split_ifs
    · exact valid_addRange _ _ _ hloop
    · exact valid_addList _ _ _ _ hloop
    · exact valid_addList _ _ _ _ hloop
    · exact hloop
  simp only [buildIndexSet]
  split_ifs
  · exact h
  · exact hscan
  · exact valid_addList _ _ _ _ h
  · exact valid_addList _ _ _ _ h

/-- A copy is again valid. -/
theorem valid_copyCtor (s : IndexSet) : (IndexSet.copyCtor s).Valid := by
  have hfold : ∀ (segs : List Segment) (acc : IndexSet), acc.Valid →
      (segs.foldl IndexSet.copySegment acc).Valid := by
    intro segs
    induction segs with
    | nil => intro acc hacc; exact hacc
    | cons seg rest ih =>
      intro acc hacc
      apply ih
      simp only [IndexSet.copySegment]
      split
      · exact hacc
      · exact valid_apply acc (AddOp.addISetRange _) hacc
      · exact valid_apply acc (AddOp.addISetList _ _) hacc
      · exact hacc
  exact hfold _ _ valid_empty

theorem forallList_copy (l : ListISet) (hl : 0 ≤ l.m_len) :
    forallList (ListISet.mk3 (l.getIndex.getD []) l.getLength IndexOwnership.Owned)
      = forallList l := by
  simp only [ListISet.mk3, ListISet.initIndexData, ListISet.getLength]
  by_cases h0 : l.m_len ≤ 0
  · have : l.m_len = 0 := by omega
    simp [forallList, ListISet.getLength, this]
  · simp only [h0, if_false, if_true, forallList, ListISet.getLength, ListISet.getIndex]
    apply List.map_congr_left
    intro k hk
    simp only [List.mem_range] at hk
    simp only [rd, Option.getD_some, List.getD_eq_getElem?_getD]
    rw [List.getElem?_take_of_lt hk]

/-- The segment `copy` appends for a valid segment of the source. -/
theorem copySegment_valid (acc : IndexSet) (seg : Segment) (hv : seg.Valid) :
    ∃ c, (acc.copySegment seg).m_segments = acc.m_segments ++ [c]
      ∧ (acc.copySegment seg).m_len = acc.m_len + seg.getLength
      ∧ c.m_type = seg.m_type
      ∧ forallSegment c = forallSegment seg
      ∧ c.getLength = seg.getLength
      ∧ (∀ r, seg.m_iset = ISetPtr.range r → c.m_iset = ISetPtr.range r)
      ∧ (∀ l, seg.m_iset = ISetPtr.list l →
          c.m_iset = ISetPtr.list
              (ListISet.mk3 (l.getIndex.getD []) l.getLength IndexOwnership.Owned)
          ∧ c.m_indx_own = if 0 < l.getLength then IndexOwnership.Owned
              else IndexOwnership.Unowned) := by
  rcases hv with ⟨ht, r, hr⟩ | ⟨ht, l, hl, hlen⟩
  · refine ⟨Segment.ofRange SegmentType._Range_ { m_begin := r.m_begin, m_end := r.m_end },
      ?_, ?_, ?_, ?_, ?_, ?_, ?_⟩
    · simp [IndexSet.copySegment, ht, hr, IndexSet.addISetRange, IndexSet.addSegmentRange]
    · simp [IndexSet.copySegment, ht, hr, IndexSet.addISetRange, IndexSet.addSegmentRange,
        Segment.getLength, RangeISet.getLength]
    · simp [Segment.ofRange, ht]
    · simp [Segment.ofRange, forallSegment, ht, hr, RangeISet.getBegin, RangeISet.getEnd]
    · simp [Segment.ofRange, Segment.getLength, hr, RangeISet.getLength]
    · intro r2 h2
      rw [hr] at h2
      cases h2
      rfl
    · intro l2 h2
      rw [hr] at h2
      cases h2
  · refine ⟨Segment.ofList SegmentType._List_
        (ListISet.mk3 (l.getIndex.getD []) l.getLength IndexOwnership.Owned),
      ?_, ?_, ?_, ?_, ?_, ?_, ?_⟩
    · simp [IndexSet.copySegment, ht, hl, IndexSet.addISetList, IndexSet.addSegmentList]
    · simp only [IndexSet.copySegment, ht, hl, IndexSet.addISetList, IndexSet.addSegmentList,
        Segment.getLength, ListISet.getLength, ListISet.mk3, ListISet.initIndexData]
      split_ifs <;> simp; omega
    · simp [Segment.ofList, ht]
    · simp only [Segment.ofList, forallSegment, ht, hl]
      exact forallList_copy l hlen
    · simp only [Segment.ofList, Segment.getLength, hl, ListISet.getLength, ListISet.mk3,
        ListISet.initIndexData]
      split_ifs <;> simp; omega
    · intro r2 h2
      rw [hl] at h2
      cases h2
    · intro l2 h2
      rw [hl] at h2
      cases h2
      refine ⟨rfl, ?_⟩
      simp only [Segment.ofList, ListISet.indexOwnership, ListISet.mk3,
        ListISet.initIndexData, ListISet.getLength]
      by_cases h0 : l.m_len ≤ 0
      · have : ¬ 0 < l.m_len := by omega
        simp [h0, this]
      · have : 0 < l.m_len := by omega
        simp [h0, this]

/-- Position by position description of `copy` into an accumulator. -/
theorem copy_fold (segs : List Segment) :
    ∀ acc : IndexSet, (∀ seg ∈ segs, seg.Valid) →
      ∃ cs : List Segment,
        (segs.foldl IndexSet.copySegment acc).m_segments = acc.m_segments ++ cs
        ∧ (segs.foldl IndexSet.copySegment acc).m_len
            = acc.m_len + (segs.map Segment.getLength).sum
        ∧ List.Forall₂ (fun c seg =>
            c.m_type = seg.m_type
            ∧ forallSegment c = forallSegment seg
            ∧ (∀ r, seg.m_iset = ISetPtr.range r → c.m_iset = ISetPtr.range r)
            ∧ (∀ l, seg.m_iset = ISetPtr.list l →
                c.m_iset = ISetPtr.list
                    (ListISet.mk3 (l.getIndex.getD []) l.getLength IndexOwnership.Owned)
                ∧ c.m_indx_own = if 0 < l.getLength then IndexOwnership.Owned
                    else IndexOwnership.Unowned)) cs segs := by
  induction segs with
  | nil =>
    intro acc _
    exact ⟨[], by simp, by simp, List.Forall₂.nil⟩
  | cons seg rest ih =>
    intro acc hv
    obtain ⟨c, hc1, hc2, hc3, hc4, _, hc6, hc7⟩ :=
      copySegment_valid acc seg (hv seg (List.mem_cons_self _ _))
    obtain ⟨cs, h1, h2, h3⟩ := ih (acc.copySegment seg)
      (fun s hs => hv s (List.mem_cons_of_mem _ hs))
    refine ⟨c :: cs, ?_, ?_, List.Forall₂.cons ⟨hc3, hc4, hc6, hc7⟩ h3⟩
    · simp only [List.foldl_cons]
      rw [h1, hc1]
      simp
    · simp only [List.foldl_cons, List.map_cons, List.sum_cons]
      rw [h2, hc2]
      ring

theorem copyCtor_spec (s : IndexSet) (hv : s.Valid) :
    (IndexSet.copyCtor s).m_len = s.m_len
    ∧ List.Forall₂ (fun c seg =>
        c.m_type = seg.m_type
        ∧ forallSegment c = forallSegment seg
        ∧ (∀ r, seg.m_iset = ISetPtr.range r → c.m_iset = ISetPtr.range r)
        ∧ (∀ l, seg.m_iset = ISetPtr.list l →
            c.m_iset = ISetPtr.list
                (ListISet.mk3 (l.getIndex.getD []) l.getLength IndexOwnership.Owned)
            ∧ c.m_indx_own = if 0 < l.getLength then IndexOwnership.Owned
                else IndexOwnership.Unowned))
      (IndexSet.copyCtor s).m_segments s.m_segments := by
  obtain ⟨cs, h1, h2, h3⟩ := copy_fold s.m_segments IndexSet.empty hv.2
  have hlen := hv.1
  simp only [IndexSet.getLength, segLengthSum] at hlen
  refine ⟨?_, ?_⟩
  · simp only [IndexSet.copyCtor, IndexSet.copy]
    rw [h2, hlen]
    simp [IndexSet.empty]
  · simp only [IndexSet.copyCtor, IndexSet.copy]
    rw [h1]
    simpa [IndexSet.empty] using h3

theorem forall₂_getElem? {α β : Type} (R : α → β → Prop) :
    ∀ (l₁ : List α) (l₂ : List β), List.Forall₂ R l₁ l₂ →
      ∀ (i : Nat) (b : β), l₂[i]? = some b → ∃ a, l₁[i]? = some a ∧ R a b := by
  intro l₁ l₂ h
  induction h with
  | nil => intro i b hb; simp at hb
  | cons hab _ ih =>
    intro i b hb
    cases i with
    | zero =>
      simp only [List.getElem?_cons_zero, Option.some.injEq] at hb
      subst hb
      exact ⟨_, by simp, hab⟩
    | succ i =>
      simp only [List.getElem?_cons_succ] at hb ⊢
      exact ih i b hb

/-- The copy constructor preserves content and order: for every index set s
as the add operations, the builder and copying build it, the copy constructor
yields an index set with the same number of segments, the same segment type at
every position, the same index sequence in every segment (the same Range
payload for a Range; for a List the same length and the same indices in the
same order), the same getLength() and the same traversal as s. The source is
only read (a const reference). -/
theorem copy_preserves_content (s : IndexSet) (hv : s.Valid) :
    (IndexSet.copyCtor s).getNumSegments = s.getNumSegments
    ∧ (∀ i : Nat, (IndexSet.copyCtor s).getSegmentType i = s.getSegmentType i)
    ∧ (∀ i : Nat, ((IndexSet.copyCtor s).m_segments[i]?).map forallSegment
          = (s.m_segments[i]?).map forallSegment)
    ∧ (∀ (i : Nat) (r : RangeISet), s.getSegmentISet i = some (ISetPtr.range r) →
          (IndexSet.copyCtor s).getSegmentISet i = some (ISetPtr.range r))
    ∧ (∀ (i : Nat) (l : ListISet), s.getSegmentISet i = some (ISetPtr.list l) →
          ∃ c, (IndexSet.copyCtor s).getSegmentISet i = some (ISetPtr.list c)
            ∧ c.getLength = l.getLength ∧ forallList c = forallList l)
    ∧ (IndexSet.copyCtor s).getLength = s.getLength
    ∧ forallIndexSet (IndexSet.copyCtor s) = forallIndexSet s := by
  obtain ⟨hlen, hall⟩ := copyCtor_spec s hv
  have hl := hall.length_eq
  have hget := forall₂_getElem? _ _ _ hall
  have hnone : ∀ i : Nat, s.m_segments[i]? = none → (IndexSet.copyCtor s).m_segments[i]? = none := by
    intro i hi
    rw [List.getElem?_eq_none_iff] at hi ⊢
    omega
  refine ⟨?_, ?_, ?_, ?_, ?_, ?_, ?_⟩
  · simp [IndexSet.getNumSegments, hl]
  · intro i
    simp only [IndexSet.getSegmentType]
    cases hsi : s.m_segments[i]? with
    | none => simp [hnone i hsi]
    | some b =>
      obtain ⟨a, ha, h1, _⟩ := hget i b hsi
      simp [ha, h1]
  · intro i
    cases hsi : s.m_segments[i]? with
    | none => simp [hnone i hsi]
    | some b =>
      obtain ⟨a, ha, _, h2, _⟩ := hget i b hsi
      simp [ha, h2]
  · intro i r hr
    simp only [IndexSet.getSegmentISet] at hr ⊢
    cases hsi : s.m_segments[i]? with
    | none => simp [hsi] at hr
    | some b =>
      obtain ⟨a, ha, _, _, h3, _⟩ := hget i b hsi
      simp only [hsi, Option.map_some', Option.some.injEq] at hr
      simp [ha, h3 r hr]
  · intro i l hlst
    simp only [IndexSet.getSegmentISet] at hlst ⊢
    cases hsi : s.m_segments[i]? with
    | none => simp [hsi] at hlst
    | some b =>
      obtain ⟨a, ha, _, _, _, h4⟩ := hget i b hsi
      simp only [hsi, Option.map_some', Option.some.injEq] at hlst
      have hbv := hv.2 b (List.getElem?_mem hsi)
      have hl0 : 0 ≤ l.m_len := by
        rcases hbv with ⟨_, r, hr⟩ | ⟨_, l2, hl2, hlen2⟩
        · rw [hr] at hlst; cases hlst
        · rw [hl2] at hlst; cases hlst; exact hlen2
      refine ⟨_, by simp [ha, (h4 l hlst).1], ?_, forallList_copy l hl0⟩
      simp only [ListISet.mk3, ListISet.initIndexData, ListISet.getLength]
      split_ifs <;> simp; omega
  · simp [IndexSet.getLength, hlen]
  · simp only [forallIndexSet]
    have : ∀ (cs segs : List Segment),
        List.Forall₂ (fun c seg => forallSegment c = forallSegment seg) cs segs →
        cs.flatMap forallSegment = segs.flatMap forallSegment := by
      intro cs segs h
      induction h with
      | nil => rfl
      | cons hab _ ih => simp [List.flatMap_cons, hab, ih]
    exact this _ _ (hall.imp (fun _ _ h => h.2.1))

theorem copy_preserves_content_witness :
    (IndexSet.copyCtor ((IndexSet.empty.addRange 3 7).addList [9, 4, 1] 2
        IndexOwnership.Unowned)).getLength
      = ((IndexSet.empty.addRange 3 7).addList [9, 4, 1] 2 IndexOwnership.Unowned).getLength
    ∧ forallIndexSet (IndexSet.copyCtor ((IndexSet.empty.addRange 3 7).addList [9, 4, 1] 2
        IndexOwnership.Unowned))
      = forallIndexSet ((IndexSet.empty.addRange 3 7).addList [9, 4, 1] 2
          IndexOwnership.Unowned) :=
  ⟨(copy_preserves_content ((IndexSet.empty.addRange 3 7).addList [9, 4, 1] 2
      IndexOwnership.Unowned)
      (valid_runOps [AddOp.addRange 3 7, AddOp.addList [9, 4, 1] 2
        IndexOwnership.Unowned])).2.2.2.2.2.1,
   (copy_preserves_content ((IndexSet.empty.addRange 3 7).addList [9, 4, 1] 2
      IndexOwnership.Unowned)
      (valid_runOps [AddOp.addRange 3 7, AddOp.addList [9, 4, 1] 2
        IndexOwnership.Unowned])).2.2.2.2.2.2⟩

/-- C12. Copy assignment on the free store, evaluated for `a = s` with `a`
empty and `s` holding the Range [3, 7) and the List {9, 4}. The store and `s`
stand for the index set `s` of the value-level definitions. With RAJA_USE_STL
the assigned object reads back as the copy of `s`. Without RAJA_USE_STL the
assigned object has two segments that point to the addresses 2 and 3 of the
temporary's payloads, both deleted by the temporary's destructor, so it cannot
be read back, while `s` itself is unchanged. -/
theorem assign_without_swap_dangles :
    IndexSetMem.view assignSample.1 assignSample.2
        = some ((IndexSet.empty.addRange 3 7).addList [9, 4] 2 IndexOwnership.Owned)
    ∧ (IndexSetMem.assign true assignSample.1 IndexSetMem.empty assignSample.2 false).bind
          (fun p => IndexSetMem.view p.1 p.2)
        = some (IndexSet.copyCtor
            ((IndexSet.empty.addRange 3 7).addList [9, 4] 2 IndexOwnership.Owned))
    ∧ (IndexSetMem.assign false assignSample.1 IndexSetMem.empty assignSample.2 false).map
          (fun p => p.2.m_segments.map (fun seg => seg.m_iset))
        = some [some 2, some 3]
    ∧ (IndexSetMem.assign false assignSample.1 IndexSetMem.empty assignSample.2 false).map
          (fun p => (p.1.deref 2, p.1.deref 3))
        = some (none, none)
    ∧ (IndexSetMem.assign false assignSample.1 IndexSetMem.empty assignSample.2 false).bind
          (fun p => IndexSetMem.view p.1 p.2)
        = none
    ∧ (IndexSetMem.assign false assignSample.1 IndexSetMem.empty assignSample.2 false).bind
          (fun p => IndexSetMem.view p.1 assignSample.2)
        = some ((IndexSet.empty.addRange 3 7).addList [9, 4] 2 IndexOwnership.Owned) := by
  decide

/-- C13, as stated, fails: the copy of an index set holding an empty List
segment (added in the default Owned mode) has a List segment at position 0
that reports Unowned. -/
theorem copy_ownership_counterexample :
    (IndexSet.empty.addList [] 0 IndexOwnership.Owned).Valid
    ∧ (IndexSet.copyCtor (IndexSet.empty.addList [] 0 IndexOwnership.Owned)).getSegmentType 0
        = some SegmentType._List_
    ∧ (IndexSet.copyCtor
          (IndexSet.empty.addList [] 0 IndexOwnership.Owned)).segmentIndexOwnership 0
        = some IndexOwnership.Unowned := by
  refine ⟨valid_runOps [AddOp.addList [] 0 IndexOwnership.Owned], by decide, by decide⟩

/-- C13 (amended). Copy discards Unowned status of non-empty lists: for every
index set s as the add operations build it, whatever the ownership modes of
its List segments, every position i that holds a List segment in s holds a
List segment in the copy, and the copy reports Owned there when the list has
length > 0 and Unowned when the list is empty. -/
theorem copy_ownership (s : IndexSet) (hv : s.Valid) (i : Nat) (l : ListISet)
    (hl : s.getSegmentISet i = some (ISetPtr.list l)) :
    (IndexSet.copyCtor s).getSegmentType i = some SegmentType._List_
    ∧ (IndexSet.copyCtor s).segmentIndexOwnership i
        = some (if 0 < l.getLength then IndexOwnership.Owned else IndexOwnership.Unowned) := by
  obtain ⟨_, hall⟩ := copyCtor_spec s hv
  have hget := forall₂_getElem? _ _ _ hall
  simp only [IndexSet.getSegmentISet] at hl
  cases hsi : s.m_segments[i]? with
  | none => simp [hsi] at hl
  | some b =>
    obtain ⟨a, ha, h1, _, _, h4⟩ := hget i b hsi
    simp only [hsi, Option.map_some', Option.some.injEq] at hl
    have hbv := hv.2 b (List.getElem?_mem hsi)
    have hty : b.m_type = SegmentType._List_ := by
      rcases hbv with ⟨_, r, hr⟩ | ⟨ht, _⟩
      · rw [hr] at hl; cases hl
      · exact ht
    refine ⟨by simp [IndexSet.getSegmentType, ha, h1, hty], ?_⟩
    simp [IndexSet.segmentIndexOwnership, ha, (h4 l hl).2]

theorem copy_ownership_witness :
    (IndexSet.copyCtor
        (IndexSet.empty.addList [4, 5] 2 IndexOwnership.Unowned)).getSegmentType 0
      = some SegmentType._List_
    ∧ (IndexSet.copyCtor
        (IndexSet.empty.addList [4, 5] 2 IndexOwnership.Unowned)).segmentIndexOwnership 0
      = some (if 0 < (ListISet.mk3 [4, 5] 2 IndexOwnership.Unowned).getLength
          then IndexOwnership.Owned else IndexOwnership.Unowned) :=
  copy_ownership (IndexSet.empty.addList [4, 5] 2 IndexOwnership.Unowned)
    (valid_runOps [AddOp.addList [4, 5] 2 IndexOwnership.Unowned]) 0
    (ListISet.mk3 [4, 5] 2 IndexOwnership.Unowned) (by decide)

/-! ## Geometric partitioner: dependency graph of the 3-D branch -/

theorem modifyAt_length {α : Type} (f : α → α) :
    ∀ (i : Nat) (l : List α), (modifyAt f i l).length = l.length := by
  intro i l
  induction l generalizing i with
  | nil => cases i <;> rfl
  | cons a l ih =>
    cases i with
    | zero => simp [modifyAt]
    | succ i => simp [modifyAt, ih]

theorem modifyAt_getElem? {α : Type} (f : α → α) :
    ∀ (i : Nat) (l : List α) (j : Nat),
      (modifyAt f i l)[j]? = (l[j]?).map (fun a => if j = i then f a else a) := by
  intro i l
  induction l generalizing i with
  | nil => intro j; cases i <;> simp [modifyAt]
  | cons a l ih =>
    intro j
    cases i with
    | zero =>
      cases j with
      | zero => simp [modifyAt]
      | succ j => simp [modifyAt]
    | succ i =>
      cases j with
      | zero => simp [modifyAt]
      | succ j => simp [modifyAt, ih]

theorem blockLanes3D_segments (T : Nat) (fastDim midDim slowDim : Int) (retVal : IndexSet) :
    ∃ l : List Segment,
      (blockLanes3D (T : Int) fastDim midDim slowDim retVal).m_segments = retVal.m_segments ++ l
      ∧ l.length = 2 * T ∧ ∀ seg ∈ l, ∃ b e, seg = rangeSeg b e := by
  simp only [blockLanes3D, segmentsPerThread]
  rw [show (2 : Int).toNat = 2 from rfl]
  simp only [forLoop]
  rw [forLoop_addRange, forLoop_addRange, List.append_assoc, Int.toNat_ofNat]
  refine ⟨_, rfl, ?_, ?_⟩
  · simp
    omega
  · intro seg hseg
    simp only [List.mem_append, List.mem_map, List.mem_range] at hseg
    rcases hseg with ⟨k, _, rfl⟩ | ⟨k, _, rfl⟩
    · exact ⟨_, _, rfl⟩
    · exact ⟨_, _, rfl⟩

theorem wired_low (W k j : Nat) (seg : Segment) (h : 1 ≤ j ∧ j < k) :
    wiredSegment W k j seg
      = { seg with semaphore_reload := 1, num_semaphore_notify := 1,
                   semaphore_notify :=
                     List.set seg.semaphore_notify 0 ((W : Int) + (j : Int) - 1) } := by
  rw [wiredSegment, if_pos h]

theorem wired_high (W k j : Nat) (seg : Segment) (h1 : ¬ (1 ≤ j ∧ j < k))
    (h : W ≤ j ∧ j + 1 < W + k) :
    wiredSegment W k j seg
      = { seg with semaphore_value := 1, semaphore_reload := 1, num_semaphore_notify := 1,
                   semaphore_notify :=
                     List.set seg.semaphore_notify 0 ((j : Int) - (W : Int) + 1) } := by
  rw [wiredSegment, if_neg h1, if_pos h]

theorem wired_none (W k j : Nat) (seg : Segment) (h1 : ¬ (1 ≤ j ∧ j < k))
    (h2 : ¬ (W ≤ j ∧ j + 1 < W + k)) :
    wiredSegment W k j seg = seg := by
  rw [wiredSegment, if_neg h1, if_neg h2]

/-- One iteration of the dependency loop of the 3-D branch. -/
theorem wiring_step (W k : Nat) (hk1 : 1 ≤ k) (hkW : k < W) (s0 s : IndexSet)
    (h : ∀ j : Nat, s.m_segments[j]? = (s0.m_segments[j]?).map (wiredSegment W k j)) (j : Nat) :
    (((((((s.setSemaphoreReloadValue k 1).setSemaphoreNumDepTasks k 1).setSemaphoreDepTask k 0
        ((W : Int) * (segmentsPerThread - 1) + (k : Int) - 1)).setSemaphoreValue
        ((W : Int) * (segmentsPerThread - 1) + (k : Int) - 1) 1).setSemaphoreReloadValue
        ((W : Int) * (segmentsPerThread - 1) + (k : Int) - 1) 1).setSemaphoreNumDepTasks
        ((W : Int) * (segmentsPerThread - 1) + (k : Int) - 1) 1).setSemaphoreDepTask
        ((W : Int) * (segmentsPerThread - 1) + (k : Int) - 1) 0 (k : Int)).m_segments[j]?
      = (s0.m_segments[j]?).map (wiredSegment W (k + 1) j) := by
  have hbi : (W : Int) * (segmentsPerThread - 1) + (k : Int) - 1 = (W : Int) + (k : Int) - 1 := by
    simp [segmentsPerThread]
  have hb : ((W : Int) + (k : Int) - 1).toNat = W + k - 1 := by omega
  cases hs0 : s0.m_segments[j]? with
  | none =>
    simp only [hbi, IndexSet.setSemaphoreReloadValue, IndexSet.setSemaphoreNumDepTasks,
      IndexSet.setSemaphoreDepTask, IndexSet.setSemaphoreValue, hb, Int.toNat_ofNat,
      modifyAt_getElem?, h, hs0, Option.map_none']
  | some seg =>
    by_cases hjk : j = k
    · subst hjk
      have h1 : ¬ j = W + j - 1 := by omega
      have hw1 := wired_low W (j + 1) j seg (by omega)
      have hw2 := wired_none W j j seg (by omega) (by omega)
      simp only [hbi, IndexSet.setSemaphoreReloadValue, IndexSet.setSemaphoreNumDepTasks,
        IndexSet.setSemaphoreDepTask, IndexSet.setSemaphoreValue, hb, Int.toNat_ofNat,
        modifyAt_getElem?, h, hs0, Option.map_some', hw1, hw2, h1, if_true, if_false]
    · by_cases hjb : j = W + k - 1
      · subst hjb
        have h6 : (((W + k - 1 : Nat) : Int)) - (W : Int) + 1 = (k : Int) := by omega
        have hw1 := wired_high W (k + 1) (W + k - 1) seg (by omega) (by omega)
        have hw2 := wired_none W k (W + k - 1) seg (by omega) (by omega)
        rw [h6] at hw1
        simp only [hbi, IndexSet.setSemaphoreReloadValue, IndexSet.setSemaphoreNumDepTasks,
          IndexSet.setSemaphoreDepTask, IndexSet.setSemaphoreValue, hb, Int.toNat_ofNat,
          modifyAt_getElem?, h, hs0, Option.map_some', hw1, hw2, hjk, if_true, if_false]
      · have e1 : (1 ≤ j ∧ j < k + 1) ↔ (1 ≤ j ∧ j < k) := by omega
        have e2 : (W ≤ j ∧ j + 1 < W + (k + 1)) ↔ (W ≤ j ∧ j + 1 < W + k) := by omega
        have hw : wiredSegment W (k + 1) j seg = wiredSegment W k j seg := by
          simp only [wiredSegment, e1, e2]
        simp only [hbi, IndexSet.setSemaphoreReloadValue, IndexSet.setSemaphoreNumDepTasks,
          IndexSet.setSemaphoreDepTask, IndexSet.setSemaphoreValue, hb, Int.toNat_ofNat,
          modifyAt_getElem?, h, hs0, Option.map_some', hw, hjk, hjb, if_true, if_false]

theorem wiring_loop (W : Nat) (s0 : IndexSet) :
    ∀ (n k : Nat) (s : IndexSet), 1 ≤ k → k + n ≤ W →
      (∀ j : Nat, s.m_segments[j]? = (s0.m_segments[j]?).map (wiredSegment W k j)) →
      ∀ j : Nat, (forLoop (fun i rv =>
          let rv1 := rv.setSemaphoreReloadValue i 1
          let rv2 := rv1.setSemaphoreNumDepTasks i 1
          let rv3 := rv2.setSemaphoreDepTask i 0
            ((W : Int) * (segmentsPerThread - 1) + (i : Int) - 1)
          let rv4 := rv3.setSemaphoreValue
            ((W : Int) * (segmentsPerThread - 1) + (i : Int) - 1) 1
          let rv5 := rv4.setSemaphoreReloadValue
            ((W : Int) * (segmentsPerThread - 1) + (i : Int) - 1) 1
          let rv6 := rv5.setSemaphoreNumDepTasks
            ((W : Int) * (segmentsPerThread - 1) + (i : Int) - 1) 1
          rv6.setSemaphoreDepTask ((W : Int) * (segmentsPerThread - 1) + (i : Int) - 1) 0
            (i : Int)) n k s).m_segments[j]?
        = (s0.m_segments[j]?).map (wiredSegment W (k + n) j) := by
  intro n
  induction n with
  | zero => intro k s _ _ h j; simpa [forLoop] using h j
  | succ n ih =>
    intro k s hk hkn h j
    simp only [forLoop]
    rw [ih (k + 1) _ (by omega) (by omega) (fun j => wiring_step W k hk (by omega) s0 s h j) j]
    rw [show k + 1 + n = k + (n + 1) by omega]

theorem blockDependencies_wired (W : Nat) (hW : 1 ≤ W) (s0 : IndexSet) (j : Nat) :
    (blockDependencies (W : Int) s0).m_segments[j]?
      = (s0.m_segments[j]?).map (wiredSegment W W j) := by
  have hne : ¬ segmentsPerThread = 1 := by decide
  simp only [blockDependencies, hne, if_false]
  have hn : ((W : Int) - 1).toNat = W - 1 := by omega
  rw [hn]
  have h := wiring_loop W s0 (W - 1) 1 s0 (by omega) (by omega) (fun j => by
    cases h0 : s0.m_segments[j]? with
    | none => simp
    | some seg =>
      rw [Option.map_some', wired_none W 1 j seg (by omega) (by omega)]) j
  rw [show 1 + (W - 1) = W by omega] at h
  exact h

/-- The segments of a completed 3-D call on an empty target: `2 * W` Range
segments as `addRange` creates them, each changed by the dependency loop
according to its position. -/
theorem block3D_result (W : Nat) (fastDim midDim slowDim : Int) (rv : IndexSet)
    (hW : 1 ≤ W) (hm : 0 ≤ midDim) (hs : 0 < slowDim)
    (hdone : CreateLockFreeBlockIndexset (W : Int) IndexSet.empty fastDim midDim slowDim
      = Outcome.done rv) :
    rv.m_segments.length = 2 * W
    ∧ ∀ j : Nat, j < 2 * W →
        ∃ b e, rv.m_segments[j]? = some (wiredSegment W W j (rangeSeg b e)) := by
  have hlor : ¬ Int.lor midDim slowDim = 0 := by
    rw [int_lor_eq_zero _ _ hm (by omega)]
    omega
  have hs0 : ¬ slowDim = 0 := by omega
  simp only [CreateLockFreeBlockIndexset, hlor, hs0, if_false] at hdone
  split_ifs at hdone
  cases hdone
  obtain ⟨l, hl, hlen, hall⟩ := blockLanes3D_segments W fastDim midDim slowDim IndexSet.empty
  rw [show IndexSet.empty.m_segments = [] from rfl, List.nil_append] at hl
  have hget := blockDependencies_wired W hW
    (blockLanes3D (W : Int) fastDim midDim slowDim IndexSet.empty)
  refine ⟨?_, ?_⟩
  · have hmap := blockDependencies_shape (W : Int)
      (blockLanes3D (W : Int) fastDim midDim slowDim IndexSet.empty)
    have := congrArg List.length hmap
    simp only [List.length_map] at this
    rw [this, hl, hlen]
  · intro j hj
    have hjl : j < l.length := by omega
    obtain ⟨b, e, hbe⟩ := hall _ (List.getElem_mem hjl)
    refine ⟨b, e, ?_⟩
    rw [hget j, hl, List.getElem?_eq_getElem hjl, Option.map_some', hbe]

/-- C18. Reduced dependency graph of the 3-D partition: after a completed
3-D call (slowDim > 0) with W workers on an empty index set there are 2W
segments; for each i in 1..W-1 segment i has exactly one dependent, segment
W+i-1, initial semaphore 0 and reload 1, and segment W+i-1 has exactly one
dependent, segment i, initial semaphore 1 and reload 1; segments 0 and 2W-1
have no dependents, semaphore 0 and reload 0; every dependent recorded for any
segment is a valid segment index. -/
theorem reduced_dependency_graph (W : Nat) (fastDim midDim slowDim : Int) (rv : IndexSet)
    (hW : 1 ≤ W) (hm : 0 ≤ midDim) (hs : 0 < slowDim)
    (hdone : CreateLockFreeBlockIndexset (W : Int) IndexSet.empty fastDim midDim slowDim
      = Outcome.done rv) :
    rv.getNumSegments = 2 * (W : Int)
    ∧ (∀ i : Nat, 1 ≤ i → i < W →
        rv.segmentSemaphoreNumDepTasks i = some 1
        ∧ rv.segmentSemaphoreDepTask i 0 = some ((W : Int) + (i : Int) - 1)
        ∧ rv.segmentSemaphoreValue i = some 0
        ∧ rv.segmentSemaphoreReloadValue i = some 1
        ∧ rv.segmentSemaphoreNumDepTasks (W + i - 1) = some 1
        ∧ rv.segmentSemaphoreDepTask (W + i - 1) 0 = some (i : Int)
        ∧ rv.segmentSemaphoreValue (W + i - 1) = some 1
        ∧ rv.segmentSemaphoreReloadValue (W + i - 1) = some 1)
    ∧ (∀ j : Nat, j = 0 ∨ j = 2 * W - 1 →
        rv.segmentSemaphoreNumDepTasks j = some 0
        ∧ rv.segmentSemaphoreValue j = some 0
        ∧ rv.segmentSemaphoreReloadValue j = some 0)
    ∧ (∀ (j : Nat) (n : Int), rv.segmentSemaphoreNumDepTasks j = some n →
        ∀ t : Nat, (t : Int) < n →
          ∃ d : Int, rv.segmentSemaphoreDepTask j t = some d ∧ 0 ≤ d ∧ d < 2 * (W : Int)) := by
  obtain ⟨hlen, hget⟩ := block3D_result W fastDim midDim slowDim rv hW hm hs hdone
  refine ⟨?_, ?_, ?_, ?_⟩
  · simp only [IndexSet.getNumSegments, hlen]
    push_cast
    rfl
  · intro i h1 h2
    obtain ⟨b, e, hi⟩ := hget i (by omega)
    obtain ⟨b2, e2, hi2⟩ := hget (W + i - 1) (by omega)
    rw [wired_low W W i _ ⟨h1, h2⟩] at hi
    rw [wired_high W W (W + i - 1) _ (by omega) (by omega)] at hi2
    have h6 : (((W + i - 1 : Nat) : Int)) - (W : Int) + 1 = (i : Int) := by omega
    simp only [IndexSet.segmentSemaphoreNumDepTasks, IndexSet.segmentSemaphoreDepTask,
      IndexSet.segmentSemaphoreValue, IndexSet.segmentSemaphoreReloadValue, hi, hi2,
      Option.map_some', h6]
    simp [rangeSeg, Segment.ofRange, rd]
  · intro j hj
    obtain ⟨b, e, hi⟩ := hget j (by omega)
    rw [wired_none W W j _ (by omega) (by omega)] at hi
    simp only [IndexSet.segmentSemaphoreNumDepTasks,
      IndexSet.segmentSemaphoreValue, IndexSet.segmentSemaphoreReloadValue, hi,
      Option.map_some']
    simp [rangeSeg, Segment.ofRange]
  · intro j n hn t ht
    have hj : j < 2 * W := by
      by_contra hcon
      have : rv.m_segments[j]? = none := by
        rw [List.getElem?_eq_none_iff]
        omega
      simp [IndexSet.segmentSemaphoreNumDepTasks, this] at hn
    obtain ⟨b, e, hi⟩ := hget j hj
    by_cases hlow : 1 ≤ j ∧ j < W
    · rw [wired_low W W j _ hlow] at hi
      simp only [IndexSet.segmentSemaphoreNumDepTasks, hi, Option.map_some',
        Option.some.injEq] at hn
      have ht0 : t = 0 := by omega
      subst ht0
      refine ⟨(W : Int) + (j : Int) - 1, ?_, by omega, by omega⟩
      simp only [IndexSet.segmentSemaphoreDepTask, hi, Option.map_some']
      simp [rangeSeg, Segment.ofRange, rd]
    · by_cases hhigh : W ≤ j ∧ j + 1 < W + W
      · rw [wired_high W W j _ hlow hhigh] at hi
        simp only [IndexSet.segmentSemaphoreNumDepTasks, hi, Option.map_some',
          Option.some.injEq] at hn
        have ht0 : t = 0 := by omega
        subst ht0
        refine ⟨(j : Int) - (W : Int) + 1, ?_, by omega, by omega⟩
        simp only [IndexSet.segmentSemaphoreDepTask, hi, Option.map_some']
        simp [rangeSeg, Segment.ofRange, rd]
      · rw [wired_none W W j _ hlow hhigh] at hi
        simp only [IndexSet.segmentSemaphoreNumDepTasks, hi, Option.map_some',
          Option.some.injEq] at hn
        simp only [rangeSeg, Segment.ofRange] at hn
        omega

theorem reduced_dependency_graph_witness :
    1 ≤ 3 ∧ (0 : Int) ≤ 2 ∧ (0 : Int) < 6
    ∧ CreateLockFreeBlockIndexset ((3 : Nat) : Int) IndexSet.empty 2 2 6
        = Outcome.done (blockDependencies 3 (blockLanes3D 3 2 2 6 IndexSet.empty))
    ∧ (blockDependencies 3 (blockLanes3D 3 2 2 6 IndexSet.empty)).getNumSegments
        = 2 * ((3 : Nat) : Int)
    ∧ (blockDependencies 3 (blockLanes3D 3 2 2 6 IndexSet.empty)).segmentSemaphoreDepTask 2 0
        = some (((3 : Nat) : Int) + ((2 : Nat) : Int) - 1)
    ∧ (blockDependencies 3 (blockLanes3D 3 2 2 6 IndexSet.empty)).segmentSemaphoreDepTask
        (3 + 2 - 1) 0 = some ((2 : Nat) : Int) :=
  ⟨by decide, by decide, by decide, by decide,
    (reduced_dependency_graph 3 2 2 6 (blockDependencies 3 (blockLanes3D 3 2 2 6 IndexSet.empty))
      (by decide) (by decide) (by decide) (by decide)).1,
    ((reduced_dependency_graph 3 2 2 6
      (blockDependencies 3 (blockLanes3D 3 2 2 6 IndexSet.empty))
      (by decide) (by decide) (by decide) (by decide)).2.1 2 (by decide) (by decide)).2.1,
    ((reduced_dependency_graph 3 2 2 6
      (blockDependencies 3 (blockLanes3D 3 2 2 6 IndexSet.empty))
      (by decide) (by decide) (by decide) (by decide)).2.1 2 (by decide)
      (by decide)).2.2.2.2.2.1⟩

/-! ## Graph-coloring partitioner: the incidence bound -/

theorem flat_index_div (i j n : Nat) (hj : j < n) : (i * n + j) / n = i := by
  have hn : 0 < n := by omega
  rw [Nat.add_comm, Nat.add_mul_div_right _ _ hn, Nat.div_eq_of_lt hj, Nat.zero_add]

/-- One iteration of the inverse-mapping loops: it exits exactly when the
counter of the referenced range element is already `numRangePerDomain`. -/
theorem inverseBody_exact (d2r : List Nat) (nE n nER : Nat) (hwf : WellFormed d2r nE n nER)
    (i j : Nat) (hi : i < nE) (hj : j < n) (m : InvMap)
    (hinv : InvExact d2r n nER (i * n + j) m) :
    (rdN m.rangeToDomainCount (rdN d2r (i * n + j)) < n →
      ∃ m1, inverseBody d2r n nER i j (some m) = some m1
        ∧ InvExact d2r n nER (i * n + (j + 1)) m1)
    ∧ (¬ rdN m.rangeToDomainCount (rdN d2r (i * n + j)) < n →
      inverseBody d2r n nER i j (some m) = none) := by
  obtain ⟨hl1, hl2, hcount, hcnt, hdoms⟩ := hinv
  have hp : i * n + j < nE * n := flat_index_lt i j n nE hi hj
  have hid : rdN d2r (i * n + j) < nER := hwf.2 _ hp
  have hidl : rdN d2r (i * n + j) < m.rangeToDomainCount.length := by omega
  have hpl : i * n + j < d2r.length := by rw [hwf.1]; exact hp
  constructor
  · intro hc
    have hlen : rdN d2r (i * n + j) * n + rdN m.rangeToDomainCount (rdN d2r (i * n + j))
        < m.rangeToDomain.length := by
      rw [hl2]; exact flat_index_lt _ _ _ _ hid hc
    have hcond : ¬ (rdN d2r (i * n + j) * n + rdN m.rangeToDomainCount (rdN d2r (i * n + j))
          > nER * n
        ∨ rdN m.rangeToDomainCount (rdN d2r (i * n + j)) + 1 > n) := by
      rw [hl2] at hlen
      omega
    refine ⟨{ rangeToDomain := m.rangeToDomain.set
                (rdN d2r (i * n + j) * n + rdN m.rangeToDomainCount (rdN d2r (i * n + j))) i,
              rangeToDomainCount := m.rangeToDomainCount.set (rdN d2r (i * n + j))
                (rdN m.rangeToDomainCount (rdN d2r (i * n + j)) + 1) },
      by simp only [inverseBody, Option.some_bind, rdN_set_eq _ _ _ hidl, hcond, if_false], ?_⟩
    have hsame := domsOf_update_same m n _ i hidl hlen
    have hother := fun id' hne => domsOf_update_other m n (rdN d2r (i * n + j)) id' i hne hc
      (hcnt id')
    have htake : d2r.take (i * n + (j + 1)) = d2r.take (i * n + j) ++ [rdN d2r (i * n + j)] :=
      take_succ_rdN d2r (i * n + j) hpl
    refine ⟨by simp [hl1], by simp [hl2], ?_, ?_, ?_⟩
    · intro id
      rw [htake, List.count_append]
      by_cases he : id = rdN d2r (i * n + j)
      · subst he
        rw [rdN_set_eq _ _ _ hidl, hcount]
        simp
      · rw [rdN_set_ne _ _ _ _ (Ne.symm he), hcount]
        simp [List.count_singleton, Ne.symm he]
    · intro id
      by_cases he : id = rdN d2r (i * n + j)
      · subst he
        rw [rdN_set_eq _ _ _ hidl]; omega
      · rw [rdN_set_ne _ _ _ _ (Ne.symm he)]; exact hcnt id
    · intro id
      rw [show i * n + (j + 1) = (i * n + j) + 1 by omega, List.range_succ, List.filter_append,
        List.map_append]
      by_cases he : id = rdN d2r (i * n + j)
      · subst he
        rw [hsame, hdoms]
        simp [flat_index_div i j n hj]
      · rw [hother _ he, hdoms]
        simp [Ne.symm he]
  · intro hc
    have hcond : (rdN d2r (i * n + j) * n + rdN m.rangeToDomainCount (rdN d2r (i * n + j))
          > nER * n
        ∨ rdN m.rangeToDomainCount (rdN d2r (i * n + j)) + 1 > n) := by
      right
      omega
    simp only [inverseBody, Option.some_bind, rdN_set_eq _ _ _ hidl, hcond, if_true]

theorem invExact_init (d2r : List Nat) (n nER : Nat) :
    InvExact d2r n nER 0
      { rangeToDomain := List.replicate (nER * n) 0,
        rangeToDomainCount := List.replicate nER 0 } := by
  refine ⟨by simp, by simp, ?_, ?_, ?_⟩
  · intro id; simp [rdN_replicate_zero]
  · intro id; simp [rdN_replicate_zero]
  · intro id; simp [domsOf, rdN_replicate_zero]

/-- A run of the inverse-mapping loops that does not exit ends in a state
described by the invariant at the end of the array. -/
theorem inverseMap_exact (d2r : List Nat) (nE n nER : Nat) (hwf : WellFormed d2r nE n nER)
    (m : InvMap) (h : inverseMap d2r nE n nER = some m) :
    InvExact d2r n nER (nE * n) m := by
  have hinner : ∀ i, i < nE → ∀ s s1, InvExact d2r n nER (i * n) s →
      forLoop (inverseBody d2r n nER i) n 0 (some s) = some s1 →
      InvExact d2r n nER ((i + 1) * n) s1 := by
    intro i hi s s1 hs hrun
    have h1 := forLoop_option_inv (inverseBody d2r n nER i)
      (fun j m => InvExact d2r n nER (i * n + j) m) n (fun _ => rfl)
      (fun j s s1 hj hp hb => by
        have hstep := inverseBody_exact d2r nE n nER hwf i j hi hj s hp
        by_cases hc : rdN s.rangeToDomainCount (rdN d2r (i * n + j)) < n
        · obtain ⟨m1, hm1, hinv1⟩ := hstep.1 hc
          rw [hm1] at hb
          cases hb
          exact hinv1
        · rw [hstep.2 hc] at hb
          cases hb)
      n 0 s s1 (by omega) hs hrun
    rw [show (i + 1) * n = i * n + n by ring]
    exact h1
  have hfin := forLoop_option_inv
    (fun i st => forLoop (inverseBody d2r n nER i) n 0 st)
    (fun i m => InvExact d2r n nER (i * n) m) nE
    (fun i => forLoop_none _ (fun _ => rfl) _ _)
    (fun i s s1 hi hp hb => hinner i hi s s1 hp hb)
    nE 0 _ m (by omega) (by simpa using invExact_init d2r n nER) h
  exact hfin

/-- When no range element is referenced more than `numRangePerDomain` times
the inverse-mapping loops run to the end. -/
theorem inverseMap_total (d2r : List Nat) (nE n nER : Nat) (hwf : WellFormed d2r nE n nER)
    (hbound : ∀ id, d2r.count id ≤ n) :
    ∃ m, inverseMap d2r nE n nER = some m := by
  have hinner : ∀ i, i < nE → ∀ s, InvExact d2r n nER (i * n) s →
      ∃ s1, forLoop (inverseBody d2r n nER i) n 0 (some s) = some s1
        ∧ InvExact d2r n nER ((i + 1) * n) s1 := by
    intro i hi s hs
    have h1 := forLoop_option_total (inverseBody d2r n nER i)
      (fun j m => InvExact d2r n nER (i * n + j) m) n
      (fun j s hj hp => by
        have hstep := inverseBody_exact d2r nE n nER hwf i j hi hj s hp
        apply hstep.1
        have hpl : i * n + j < d2r.length := by
          rw [hwf.1]; exact flat_index_lt i j n nE hi hj
        have hsub : (d2r.take (i * n + j + 1)).count (rdN d2r (i * n + j))
            ≤ d2r.count (rdN d2r (i * n + j)) :=
          List.Sublist.count_le (List.take_sublist _ _) _
        rw [take_succ_rdN d2r _ hpl, List.count_append] at hsub
        simp only [List.count_singleton, beq_self_eq_true, if_true] at hsub
        have := hbound (rdN d2r (i * n + j))
        rw [hp.2.2.1]
        omega)
      n 0 s (by omega) hs
    rw [show (i + 1) * n = i * n + n by ring]
    exact h1
  obtain ⟨r, hr, _⟩ := forLoop_option_total
    (fun i st => forLoop (inverseBody d2r n nER i) n 0 st)
    (fun i m => InvExact d2r n nER (i * n) m) nE
    (fun i s hi hp => hinner i hi s hp)
    nE 0 _ (by omega) (by simpa using invExact_init d2r n nER)
  exact ⟨r, hr⟩

/-- C17. Coloring partitioner incidence bound: for an incidence array of
numEntity * numRangePerDomain entries, all in [0, numEntityRange), the loops
that build the inverse map reach `exit(-1)` if and only if some range element
occurs more than numRangePerDomain times in domainToRange (repeated references
counted), and then the whole call exits; when they do not exit, the counter of
every range element is its number of occurrences, and the inverse map lists
under a range element exactly the domain elements that reference it. -/
theorem incidence_bound (retVal : IndexSet) (d2r : List Nat) (nE n nER : Nat)
    (ep iep : Option (List Int)) (hwf : WellFormed d2r nE n nER) :
    (inverseMap d2r nE n nER = none ↔ ∃ id, n < d2r.count id)
    ∧ (inverseMap d2r nE n nER = none →
        CreateLockFreeColorIndexset retVal d2r nE n nER ep iep = ColorOutcome.exited)
    ∧ (∀ m, inverseMap d2r nE n nER = some m → ∀ id,
        rdN m.rangeToDomainCount id = d2r.count id
        ∧ ∀ x, x ∈ domsOf m n id ↔ (x < nE ∧ id ∈ refsOf d2r n x)) := by
  have hfull : d2r.take (nE * n) = d2r := by
    rw [← hwf.1, List.take_length]
  refine ⟨?_, ?_, ?_⟩
  · constructor
    · intro hnone
      by_contra hcon
      push_neg at hcon
      obtain ⟨m, hm⟩ := inverseMap_total d2r nE n nER hwf hcon
      rw [hm] at hnone
      cases hnone
    · rintro ⟨id, hid⟩
      cases hm : inverseMap d2r nE n nER with
      | none => rfl
      | some m =>
        obtain ⟨_, _, hcount, hcnt, _⟩ := inverseMap_exact d2r nE n nER hwf m hm
        have h1 := hcount id
        have h2 := hcnt id
        rw [hfull] at h1
        omega
  · intro hnone
    simp [CreateLockFreeColorIndexset, hnone]
  · intro m hm id
    obtain ⟨_, _, hcount, _, hdoms⟩ := inverseMap_exact d2r nE n nER hwf m hm
    refine ⟨by rw [hcount, hfull], ?_⟩
    intro x
    rw [hdoms]
    simp only [List.mem_map, List.mem_filter, List.mem_range, decide_eq_true_eq, refsOf]
    constructor
    · rintro ⟨q, ⟨hq, hqid⟩, rfl⟩
      have hn : 0 < n := by
        rcases Nat.eq_zero_or_pos n with h0 | h0
        · subst h0; simp at hq
        · exact h0
      refine ⟨(Nat.div_lt_iff_lt_mul hn).2 hq, q % n, Nat.mod_lt _ hn, ?_⟩
      rw [show q / n * n + q % n = q by
        rw [Nat.mul_comm]; exact Nat.div_add_mod q n]
      exact hqid
    · rintro ⟨hx, j, hj, hjid⟩
      exact ⟨x * n + j, ⟨flat_index_lt x j n nE hx hj, hjid⟩, flat_index_div x j n hj⟩

theorem incidence_bound_witness :
    WellFormed cycleIncidence 6 2 6
    ∧ (inverseMap cycleIncidence 6 2 6 = none ↔ ∃ id, 2 < cycleIncidence.count id) :=
  ⟨by unfold WellFormed; decide,
    (incidence_bound IndexSet.empty cycleIncidence 6 2 6 none none
      (by unfold WellFormed; decide)).1⟩

/-! ## Graph-coloring partitioner: the permutation output -/

theorem emitColorRanges_loop (pre : List Nat) :
    ∀ (suf : List Nat) (b : Nat) (rv : IndexSet),
      (forLoop (fun i (st : Nat × IndexSet) =>
          let begin_ := st.1
          let end_ := rdN (pre ++ suf) i
          (end_, st.2.addRange (begin_ : Int) (end_ : Int)))
        suf.length pre.length (b, rv)).2.m_segments
        = rv.m_segments ++ colorRangesFrom b suf := by
  intro suf
  induction suf generalizing pre with
  | nil => intro b rv; simp [forLoop, colorRangesFrom]
  | cons e rest ih =>
    intro b rv
    simp only [List.length_cons, forLoop]
    have he : rdN (pre ++ e :: rest) pre.length = e := by
      rw [rdN, List.getD_eq_getElem?_getD, List.getElem?_append_right (le_refl _)]
      simp
    have hih := ih (pre ++ [e]) e (rv.addRange (b : Int) (e : Int))
    simp only [List.append_assoc, List.singleton_append, List.length_append, List.length_singleton]
      at hih
    rw [he, hih]
    simp [colorRangesFrom, IndexSet.addRange, IndexSet.addSegmentRange, rangeSeg]

theorem emitColorRanges_segments (D : List Nat) (retVal : IndexSet) :
    (emitColorRanges D retVal).m_segments = retVal.m_segments ++ colorRangesFrom 0 D := by
  have h := emitColorRanges_loop [] D 0 retVal
  simpa [emitColorRanges] using h

/-- The slices between delimiters have at least the total size
`last delimiter - begin`. -/
theorem slices_length_ge (W : List Nat) :
    ∀ (D : List Nat) (b : Nat), (∀ d ∈ D, d ≤ W.length) →
      D.getLast?.getD b ≤ (sliceColorsFrom W b D).flatten.length + b := by
  intro D
  induction D with
  | nil => intro b _; simp [sliceColorsFrom]
  | cons d rest ih =>
    intro b hle
    have hd : d ≤ W.length := hle d (by simp)
    have h1 := ih d (fun x hx => hle x (by simp [hx]))
    have hlast : (d :: rest).getLast?.getD b = rest.getLast?.getD d := by
      cases rest with
      | nil => simp
      | cons e r1 =>
        rw [List.getLast?_cons_cons]
        cases hl : (e :: r1).getLast? with
        | none => simp at hl
        | some v => simp
    rw [hlast]
    simp only [sliceColorsFrom, List.flatten_cons, List.length_append, List.length_take,
      List.length_drop]
    omega

/-- When the slices concatenate to exactly `last delimiter - begin` elements,
the delimiters ascend from `begin`. -/
theorem delims_ascend (W : List Nat) :
    ∀ (D : List Nat) (b : Nat), (∀ d ∈ D, d ≤ W.length) → b ≤ W.length →
      (sliceColorsFrom W b D).flatten.length + b = D.getLast?.getD b →
      List.Chain (fun x y => x ≤ y) b D := by
  intro D
  induction D with
  | nil => intro b _ _ _; exact List.Chain.nil
  | cons d rest ih =>
    intro b hle hb hlen
    have hd : d ≤ W.length := hle d (by simp)
    have hrest : ∀ x ∈ rest, x ≤ W.length := fun x hx => hle x (by simp [hx])
    have h1 := slices_length_ge W rest d hrest
    have hlast : (d :: rest).getLast?.getD b = rest.getLast?.getD d := by
      cases rest with
      | nil => simp
      | cons e r1 =>
        rw [List.getLast?_cons_cons]
        cases hl : (e :: r1).getLast? with
        | none => simp at hl
        | some v => simp
    rw [hlast] at hlen
    simp only [sliceColorsFrom, List.flatten_cons, List.length_append, List.length_take,
      List.length_drop] at hlen
    have hbd : b ≤ d := by omega
    refine List.Chain.cons hbd (ih d hrest hd ?_)
    omega

theorem colorOffset_cons (x : List Nat) (cs : List (List Nat)) (c : Nat) :
    colorOffset (x :: cs) (c + 1) = x.length + colorOffset cs c := by
  simp [colorOffset]

theorem sliceColorsFrom_length (W : List Nat) :
    ∀ (D : List Nat) (b : Nat), (sliceColorsFrom W b D).length = D.length := by
  intro D
  induction D with
  | nil => intro b; rfl
  | cons d rest ih => intro b; simp [sliceColorsFrom, ih]

/-- With ascending delimiters the total size of the first `c + 1` colors is
delimiter `c`. -/
theorem offsets_eq_delims (W : List Nat) :
    ∀ (D : List Nat) (b : Nat), List.Chain (fun x y => x ≤ y) b D →
      (∀ d ∈ D, d ≤ W.length) → ∀ c, c < D.length →
        b + colorOffset (sliceColorsFrom W b D) (c + 1) = rdN D c := by
  intro D
  induction D with
  | nil => intro b _ _ c hc; simp at hc
  | cons d rest ih =>
    intro b hch hle c hc
    have hbd : b ≤ d := (List.chain_cons.1 hch).1
    have hd : d ≤ W.length := hle d (by simp)
    simp only [sliceColorsFrom, colorOffset_cons, List.length_take, List.length_drop]
    cases c with
    | zero =>
      simp [colorOffset, rdN]
      omega
    | succ c =>
      have h1 := ih d (List.chain_cons.1 hch).2 (fun x hx => hle x (by simp [hx])) c
        (by simpa using hc)
      have h2 : rdN (d :: rest) (c + 1) = rdN rest c := by simp [rdN]
      rw [h2, ← h1]
      omega

theorem colorOffset_zero (cs : List (List Nat)) : colorOffset cs 0 = 0 := by
  simp [colorOffset]

theorem colorRanges_getElem? :
    ∀ (D : List Nat) (b c : Nat), c < D.length →
      (colorRangesFrom b D)[c]?
        = some (rangeSeg ((if c = 0 then b else rdN D (c - 1) : Nat) : Int) (rdN D c : Int)) := by
  intro D
  induction D with
  | nil => intro b c hc; simp at hc
  | cons d rest ih =>
    intro b c hc
    cases c with
    | zero => simp [colorRangesFrom, rdN]
    | succ c =>
      simp only [colorRangesFrom, List.getElem?_cons_succ]
      rw [ih d c (by simpa using hc)]
      cases c with
      | zero => simp [rdN]
      | succ c => simp [rdN]

theorem sliceColors_getD (W : List Nat) :
    ∀ (D : List Nat) (b c : Nat), c < D.length →
      (sliceColorsFrom W b D).getD c []
        = (W.drop (if c = 0 then b else rdN D (c - 1))).take
            (rdN D c - (if c = 0 then b else rdN D (c - 1))) := by
  intro D
  induction D with
  | nil => intro b c hc; simp at hc
  | cons d rest ih =>
    intro b c hc
    cases c with
    | zero => simp [sliceColorsFrom, rdN]
    | succ c =>
      simp only [sliceColorsFrom, List.getD_cons_succ]
      rw [ih d c (by simpa using hc)]
      cases c with
      | zero => simp [rdN]
      | succ c => simp [rdN]

theorem forallRange_append (b d e : Int) (h1 : b ≤ d) (h2 : d ≤ e) :
    forallRange b d ++ forallRange d e = forallRange b e := by
  simp only [forallRange]
  have hsum : (e - b).toNat = (d - b).toNat + (e - d).toNat := by omega
  rw [hsum, List.range_add, List.map_append, List.map_map]
  congr 1
  apply List.map_congr_left
  intro k _
  simp only [Function.comp, Nat.cast_add]
  omega

/-- The Ranges between ascending delimiters are traversed as one range. -/
theorem colorRanges_forall :
    ∀ (D : List Nat) (b : Nat), List.Chain (fun x y => x ≤ y) b D →
      (colorRangesFrom b D).flatMap forallSegment
        = forallRange (b : Int) ((D.getLast?.getD b : Nat) : Int) := by
  intro D
  induction D with
  | nil => intro b _; simp [colorRangesFrom, forallRange]
  | cons d rest ih =>
    intro b hch
    have hbd : b ≤ d := (List.chain_cons.1 hch).1
    have hch2 := (List.chain_cons.1 hch).2
    have hlast : (d :: rest).getLast?.getD b = rest.getLast?.getD d := by
      cases rest with
      | nil => simp
      | cons e r1 =>
        rw [List.getLast?_cons_cons]
        cases hl : (e :: r1).getLast? with
        | none => simp at hl
        | some v => simp
    have hdl : d ≤ rest.getLast?.getD d := by
      cases hl : rest.getLast? with
      | none => simp
      | some v =>
        simp only [Option.getD_some]
        have hv : v ∈ rest := List.mem_of_getLast?_eq_some hl
        have hrel := List.Chain.rel (R := fun x y => x ≤ y) hch2 hv
        exact hrel
    rw [hlast]
    simp only [colorRangesFrom, List.flatMap_cons, ih d hch2]
    have hseg : forallSegment (rangeSeg (b : Int) (d : Int)) = forallRange (b : Int) (d : Int) := by
      simp [rangeSeg, Segment.ofRange, forallSegment, RangeISet.getBegin, RangeISet.getEnd]
    rw [hseg]
    exact forallRange_append _ _ _ (by omega) (by omega)

theorem forallRange_zero (n : Nat) :
    forallRange 0 (n : Int) = (List.range n).map Int.ofNat := by
  simp [forallRange]

/-- Reading the permutation array over `[lo, hi)` gives the workset slice. -/
theorem values_slice (W : List Nat) (tail : List Int) (lo hi : Nat) (h1 : lo ≤ hi)
    (h2 : hi ≤ W.length) :
    (forallRange (lo : Int) (hi : Int)).map (fun k => rd (W.map Int.ofNat ++ tail) k.toNat)
      = ((W.drop lo).take (hi - lo)).map Int.ofNat := by
  apply List.ext_getElem?
  intro k
  simp only [forallRange, List.map_map, List.getElem?_map, List.getElem?_take,
    List.getElem?_drop, List.getElem?_range]
  have hn : ((hi : Int) - (lo : Int)).toNat = hi - lo := by omega
  rw [hn]
  by_cases hk : k < hi - lo
  · have hlt : lo + k < W.length := by omega
    simp only [List.getElem?_range hk, Option.map_some', Function.comp, hk, if_true]
    rw [List.getElem?_eq_getElem hlt, Option.map_some']
    have : ((lo : Int) + (k : Int)).toNat = lo + k := by omega
    rw [this, rd, List.getD_eq_getElem?_getD,
      List.getElem?_append_left (by simpa using hlt)]
    simp [List.getElem?_eq_getElem hlt]
  · have : (List.range (hi - lo))[k]? = none := by
      rw [List.getElem?_eq_none_iff]; simpa using hk
    simp [this, hk]

/-- What a completed call with a permutation array returns, in terms of the
final state of the peeling loop. -/
theorem color_call_permuted (retVal : IndexSet) (d2r : List Nat) (nE n nER : Nat)
    (buf : List Int) (iep : Option (List Int)) (r : ColorResult)
    (hdone : CreateLockFreeColorIndexset retVal d2r nE n nER (some buf) iep
      = ColorOutcome.done r) :
    ∃ m s, inverseMap d2r nE n nER = some m ∧ peel m d2r nE n = PeelResult.finished s
      ∧ s.workset.length = nE
      ∧ r.retVal = emitColorRanges s.worksetDelim retVal
      ∧ r.elemPermutation = some (s.workset.map Int.ofNat ++ buf.drop nE) := by
  unfold CreateLockFreeColorIndexset at hdone
  cases hm : inverseMap d2r nE n nER with
  | none => rw [hm] at hdone; exact absurd hdone (by simp)
  | some m =>
    rw [hm] at hdone
    cases hp : peel m d2r nE n with
    | exited => simp [hp] at hdone
    | outOfFuel => simp [hp] at hdone
    | finished s =>
      simp only [hp] at hdone
      by_cases hsz : s.worksetSize ≠ nE
      · simp [hsz] at hdone
      · simp only [hsz, if_false, ColorOutcome.done.injEq] at hdone
        subst hdone
        refine ⟨m, s, rfl, hp, ?_, rfl, rfl⟩
        simpa [PeelState.worksetSize] using hsz

/-- C20. Permutation output of the coloring partitioner: when a completed
call was given elemPermutation, the array receives the workset order in its
first numEntity entries; one Range per color is appended, the c-th being
`[d(c-1), d(c))` where d(c) is the total size of colors 0..c and d(-1) = 0
(colorOffset colors c is d(c-1)); the last bound is numEntity, so the Ranges are
consecutive and their traversal is 0, 1, ..., numEntity-1; and the values
elemPermutation[k] for k running over the c-th Range are the members of the
c-th color, in order. -/
theorem permutation_output (retVal : IndexSet) (d2r : List Nat) (nE n nER : Nat)
    (buf : List Int) (iep : Option (List Int)) (r : ColorResult)
    (hwf : WellFormed d2r nE n nER)
    (hdone : CreateLockFreeColorIndexset retVal d2r nE n nER (some buf) iep
      = ColorOutcome.done r) :
    ∃ m s colors perm, inverseMap d2r nE n nER = some m
      ∧ peel m d2r nE n = PeelResult.finished s
      ∧ colors = sliceColors s.workset s.worksetDelim
      ∧ r.elemPermutation = some perm
      ∧ perm = s.workset.map Int.ofNat ++ buf.drop nE
      ∧ s.workset.length = nE
      ∧ (∀ k, k < nE → rd perm k = (rdN s.workset k : Int))
      ∧ r.retVal.m_segments.length = retVal.m_segments.length + colors.length
      ∧ r.retVal.m_segments.take retVal.m_segments.length = retVal.m_segments
      ∧ (∀ c, c < colors.length →
          r.retVal.m_segments[retVal.m_segments.length + c]?
            = some (rangeSeg (colorOffset colors c : Int) (colorOffset colors (c + 1) : Int)))
      ∧ colorOffset colors 0 = 0
      ∧ colorOffset colors colors.length = nE
      ∧ (r.retVal.m_segments.drop retVal.m_segments.length).flatMap forallSegment
          = (List.range nE).map Int.ofNat
      ∧ (∀ c, c < colors.length →
          (forallRange (colorOffset colors c : Int) (colorOffset colors (c + 1) : Int)).map
              (fun k => rd perm k.toNat)
            = (colors.getD c []).map Int.ofNat) := by
  obtain ⟨m, s, hm, hp, hsz, hret, hperm⟩ := color_call_permuted _ _ _ _ _ _ _ _ hdone
  obtain ⟨s1, hp1, hinv, _⟩ := peel_spec m d2r nE n (inverseMap_ok _ _ _ _ hwf m hm)
  rw [hp] at hp1
  injection hp1 with hp1
  subst hp1
  obtain ⟨_, _, _, hdle, hlast, _, hflat, _⟩ := hinv
  have hflen : (sliceColorsFrom s.workset 0 s.worksetDelim).flatten.length + 0
      = s.worksetDelim.getLast?.getD 0 := by
    have := congrArg List.length hflat
    simp only [sliceColors] at this
    rw [hlast, Nat.add_zero, this]
  have hch := delims_ascend s.workset s.worksetDelim 0 hdle (Nat.zero_le _) hflen
  have hoff := offsets_eq_delims s.workset s.worksetDelim 0 hch hdle
  have hclen : (sliceColors s.workset s.worksetDelim).length = s.worksetDelim.length :=
    sliceColorsFrom_length _ _ _
  have hsegs := emitColorRanges_segments s.worksetDelim retVal
  have hoffc : ∀ c, c < s.worksetDelim.length →
      colorOffset (sliceColors s.workset s.worksetDelim) c
        = (if c = 0 then 0 else rdN s.worksetDelim (c - 1)) := by
    intro c hc
    cases c with
    | zero => simp [colorOffset_zero]
    | succ c =>
      have := hoff c (by omega)
      simp only [sliceColors, Nat.succ_ne_zero, if_false, Nat.add_sub_cancel]
      omega
  have hrlen : (colorRangesFrom 0 s.worksetDelim).length = s.worksetDelim.length := by
    have : ∀ (D : List Nat) (b : Nat), (colorRangesFrom b D).length = D.length := by
      intro D
      induction D with
      | nil => intro b; rfl
      | cons d rest ih => intro b; simp [colorRangesFrom, ih]
    exact this _ _
  refine ⟨m, s, sliceColors s.workset s.worksetDelim, _, hm, hp, rfl, hperm, rfl, hsz,
    ?_, ?_, ?_, ?_, colorOffset_zero _, ?_, ?_, ?_⟩
  · intro k hk
    have hk' : k < s.workset.length := by omega
    rw [rd, List.getD_eq_getElem?_getD, List.getElem?_append_left (by simpa using hk')]
    simp [rdN, List.getD_eq_getElem?_getD, List.getElem?_eq_getElem hk']
  · rw [hret, hsegs, List.length_append, hrlen, hclen]
  · rw [hret, hsegs, List.take_left']
    rfl
  · intro c hc
    rw [hclen] at hc
    rw [hret, hsegs, List.getElem?_append_right (by omega), Nat.add_sub_cancel_left,
      colorRanges_getElem? _ _ _ hc, hoffc c hc]
    have h2 := hoff c hc
    simp only [sliceColors]
    rw [← h2, Nat.zero_add]
  · have h1 : colorOffset (sliceColors s.workset s.worksetDelim)
        (sliceColors s.workset s.worksetDelim).length
        = (sliceColors s.workset s.worksetDelim).flatten.length := by
      simp [colorOffset, List.length_flatten]
    rw [h1, hflat, hsz]
  · rw [hret, hsegs, List.drop_left', colorRanges_forall _ _ hch, hlast, hsz]
    · exact forallRange_zero nE
    · rfl
  · intro c hc
    rw [hclen] at hc
    have h2 := hoff c hc
    have hlo := hoffc c hc
    have hhi : colorOffset (sliceColors s.workset s.worksetDelim) (c + 1)
        = rdN s.worksetDelim c := by
      simp only [sliceColors]; omega
    have hmem : rdN s.worksetDelim c ≤ s.workset.length := by
      apply hdle
      rw [rdN, List.getD_eq_getElem?_getD, List.getElem?_eq_getElem hc]
      exact List.getElem_mem hc
    have hle : colorOffset (sliceColors s.workset s.worksetDelim) c
        ≤ colorOffset (sliceColors s.workset s.worksetDelim) (c + 1) := by
      simp only [colorOffset]
      rw [List.take_succ, List.map_append, List.sum_append]
      omega
    rw [values_slice _ _ _ _ hle (by rw [hhi]; exact hmem)]
    simp only [sliceColors]
    rw [sliceColors_getD _ _ _ _ hc]
    simp only [sliceColors] at hlo hhi
    rw [hlo, hhi]

theorem permutation_output_witness :
    WellFormed cycleIncidence 6 2 6
    ∧ CreateLockFreeColorIndexset IndexSet.empty cycleIncidence 6 2 6
        (some [0, 0, 0, 0, 0, 0]) none
        = ColorOutcome.done
            { retVal := (IndexSet.empty.addRange 0 3).addRange 3 6,
              elemPermutation := some [0, 2, 4, 1, 3, 5], ielemPermutation := none }
    ∧ ∃ (colors : List (List Nat)) (perm : List Int),
        some [0, 2, 4, 1, 3, 5] = some perm
        ∧ colorOffset colors colors.length = 6
        ∧ ∀ c, c < colors.length →
            (forallRange (colorOffset colors c : Int) (colorOffset colors (c + 1) : Int)).map
                (fun k => rd perm k.toNat)
              = (colors.getD c []).map Int.ofNat := by
  refine ⟨by unfold WellFormed; decide, by decide, ?_⟩
  obtain ⟨_, _, colors, perm, _, _, _, h4, _, _, _, _, _, _, _, h12, _, h14⟩ :=
    permutation_output IndexSet.empty cycleIncidence 6 2 6 [0, 0, 0, 0, 0, 0] none
      { retVal := (IndexSet.empty.addRange 0 3).addRange 3 6,
        elemPermutation := some [0, 2, 4, 1, 3, 5], ielemPermutation := none }
      (by unfold WellFormed; decide) (by decide)
  exact ⟨colors, perm, h4, h12, h14⟩

/-! ## Ownership of list indices -/

theorem heap_read_append (h : Heap) (c : Option (List Int)) (a : Nat) (ha : a < h.length) :
    Heap.read (h ++ [c]) a = Heap.read h a := by
  simp only [Heap.read]
  rw [List.getElem?_append_left ha]

theorem heap_read_fresh (h : Heap) (c : List Int) :
    Heap.read (h ++ [some c]) h.length = some c := by
  simp [Heap.read]

theorem heap_read_live (h : Heap) (a : Nat) (buf : List Int) (ha : Heap.read h a = some buf) :
    a < h.length := by
  by_contra hcon
  have : h[a]? = none := by
    rw [List.getElem?_eq_none_iff]; omega
  simp [Heap.read, this] at ha

theorem heap_read_write_other (h : Heap) (a b i : Nat) (v : Int) (hab : b ≠ a) :
    Heap.read (Heap.write h a i v) b = Heap.read h b := by
  simp only [Heap.read, Heap.write]
  rw [modifyAt_getElem?]
  cases h[b]? with
  | none => rfl
  | some x => simp [hab]

/-- C15. Owned lists are deep copies: for every live caller buffer and
len > 0 within it, addList in Owned mode puts the first len values the buffer
holds at the time of the call into a fresh array that the new segment points
to; the segment reports exactly these values, the caller's buffer is left as
it was, and after any later store into the caller's buffer the segment still
reports the same values. In Unowned mode the heap is unchanged, the segment
points to the caller's buffer itself, and its destructor frees nothing in any
heap. In both modes the segment is the one addList appends in the model by
buffer contents. -/
theorem owned_lists_are_deep_copies (h : Heap) (s : IndexSet) (a : Nat) (buf : List Int)
    (len : Int) (ha : Heap.read h a = some buf) (hlen : 0 < len)
    (hbuf : len.toNat ≤ buf.length) :
    (∃ h1 l s1, IndexSet.addListMem h s (some a) len IndexOwnership.Owned = (h1, l, s1)
      ∧ l.m_indx = some h.length ∧ h.length ≠ a ∧ Heap.read h h.length = none
      ∧ l.indices h1 = buf.take len.toNat
      ∧ Heap.read h1 a = some buf
      ∧ (∀ (i : Nat) (v : Int), l.indices (Heap.write h1 a i v) = buf.take len.toNat)
      ∧ s1 = s.addList buf len IndexOwnership.Owned)
    ∧ (∃ l s1, IndexSet.addListMem h s (some a) len IndexOwnership.Unowned = (h, l, s1)
      ∧ l.m_indx = some a
      ∧ (∀ h2 : Heap, l.destroy h2 = h2)
      ∧ s1 = s.addList buf len IndexOwnership.Unowned) := by
  have hn : ¬ len ≤ 0 := by omega
  have hal : a < h.length := heap_read_live h a buf ha
  have hfresh : Heap.read h h.length = none := by
    simp [Heap.read]
  have hidx : ∀ h2 : Heap, Heap.read h2 h.length = some (buf.take len.toNat) →
      ListISetMem.indices h2
        { m_indx := some h.length, m_len := len, m_indx_own := IndexOwnership.Owned }
        = buf.take len.toNat := by
    intro h2 h2r
    simp only [ListISetMem.indices, ListISetMem.view, forallList, ListISet.getLength,
      ListISet.getIndex, Option.map_some', h2r, Option.getD_some]
    rw [range_map_rd _ _ (by simp [hbuf])]
    simp
  constructor
  · refine ⟨h ++ [some (buf.take len.toNat)],
      { m_indx := some h.length, m_len := len, m_indx_own := IndexOwnership.Owned },
      s.addList buf len IndexOwnership.Owned, ?_, rfl, by omega, hfresh, ?_, ?_, ?_, rfl⟩
    · simp [IndexSet.addListMem, ListISetMem.mk3, ListISetMem.initIndexData, hn, Heap.alloc, ha,
        IndexSet.addList, ListISet.mk3, ListISet.initIndexData, ListISetMem.view,
        heap_read_fresh]
    · exact hidx _ (heap_read_fresh h _)
    · rw [heap_read_append h _ a hal]; exact ha
    · intro i v
      apply hidx
      rw [heap_read_write_other _ _ _ _ _ (by omega)]
      exact heap_read_fresh h _
  · refine ⟨{ m_indx := some a, m_len := len, m_indx_own := IndexOwnership.Unowned },
      s.addList buf len IndexOwnership.Unowned, ?_, rfl, ?_, rfl⟩
    · simp [IndexSet.addListMem, ListISetMem.mk3, ListISetMem.initIndexData, hn,
        IndexSet.addList, ListISet.mk3, ListISet.initIndexData, ListISetMem.view, ha]
    · intro h2
      simp [ListISetMem.destroy]

theorem owned_lists_are_deep_copies_witness :
    Heap.read [some [7, 8, 9]] 0 = some [7, 8, 9] ∧ (0 : Int) < 2
    ∧ (2 : Int).toNat ≤ [(7 : Int), 8, 9].length
    ∧ ∃ h1 l s1,
        IndexSet.addListMem [some [7, 8, 9]] IndexSet.empty (some 0) 2 IndexOwnership.Owned
          = (h1, l, s1)
        ∧ l.m_indx = some 1
        ∧ ∀ (i : Nat) (v : Int), l.indices (Heap.write h1 0 i v) = [7, 8] := by
  refine ⟨by decide, by decide, by decide, ?_⟩
  obtain ⟨h1, l, s1, e1, e2, _, _, _, _, e7, _⟩ :=
    (owned_lists_are_deep_copies [some [7, 8, 9]] IndexSet.empty 0 [7, 8, 9] 2
      (by decide) (by decide) (by decide)).1
  exact ⟨h1, l, s1, e1, e2, e7⟩

/-! ## Copying and scheduling metadata -/

theorem copySegment_fresh (acc : IndexSet) (seg : Segment)
    (h : ∀ c ∈ acc.m_segments, c.semaphore_value = 0 ∧ c.semaphore_reload = 0
      ∧ c.num_semaphore_notify = 0) :
    ∀ c ∈ (acc.copySegment seg).m_segments, c.semaphore_value = 0 ∧ c.semaphore_reload = 0
      ∧ c.num_semaphore_notify = 0 := by
  simp only [IndexSet.copySegment]
  split
  · exact h
  · intro c hc
    simp only [IndexSet.addISetRange, IndexSet.addSegmentRange, List.mem_append,
      List.mem_singleton] at hc
    rcases hc with hc | rfl
    · exact h c hc
    · exact ⟨rfl, rfl, rfl⟩
  · intro c hc
    simp only [IndexSet.addISetList, IndexSet.addSegmentList, List.mem_append,
      List.mem_singleton] at hc
    rcases hc with hc | rfl
    · exact h c hc
    · exact ⟨rfl, rfl, rfl⟩
  · exact h

/-- C30. Copying drops scheduling metadata: for every index set s, whatever
its segments hold, every segment of a copy of s has semaphore value 0, reload
value 0 and zero dependent tasks (so the accessors return 0 at every position
of the copy); in particular the copy of the index set of a completed 3-D call
of the geometric partitioner with two workers has lost the dependency of
segment 1, which the original still has. -/
theorem copy_drops_scheduling (s : IndexSet) :
    (∀ c ∈ (IndexSet.copyCtor s).m_segments,
        c.semaphore_value = 0 ∧ c.semaphore_reload = 0 ∧ c.num_semaphore_notify = 0)
    ∧ (∀ i : Nat, i < (IndexSet.copyCtor s).m_segments.length →
        (IndexSet.copyCtor s).segmentSemaphoreValue i = some 0
        ∧ (IndexSet.copyCtor s).segmentSemaphoreReloadValue i = some 0
        ∧ (IndexSet.copyCtor s).segmentSemaphoreNumDepTasks i = some 0)
    ∧ (blockDependencies 2 (blockLanes3D 2 1 1 4 IndexSet.empty)).segmentSemaphoreNumDepTasks 1
        = some 1
    ∧ (IndexSet.copyCtor
        (blockDependencies 2 (blockLanes3D 2 1 1 4 IndexSet.empty))).segmentSemaphoreNumDepTasks 1
        = some 0 := by
  have hfold : ∀ (segs : List Segment) (acc : IndexSet),
      (∀ c ∈ acc.m_segments, c.semaphore_value = 0 ∧ c.semaphore_reload = 0
        ∧ c.num_semaphore_notify = 0) →
      ∀ c ∈ (segs.foldl IndexSet.copySegment acc).m_segments,
        c.semaphore_value = 0 ∧ c.semaphore_reload = 0 ∧ c.num_semaphore_notify = 0 := by
    intro segs
    induction segs with
    | nil => intro acc hacc; exact hacc
    | cons seg rest ih =>
      intro acc hacc
      exact ih _ (copySegment_fresh acc seg hacc)
  have hall := hfold s.m_segments IndexSet.empty (by simp [IndexSet.empty])
  refine ⟨hall, ?_, by decide, by decide⟩
  intro i hi
  have hmem := hall _ (List.getElem_mem hi)
  simp only [IndexSet.segmentSemaphoreValue, IndexSet.segmentSemaphoreReloadValue,
    IndexSet.segmentSemaphoreNumDepTasks, List.getElem?_eq_getElem hi, Option.map_some']
  exact ⟨by rw [hmem.1], by rw [hmem.2.1], by rw [hmem.2.2]⟩

/-! ## Graph-coloring partitioner: the 4-element synthetic case -/

theorem count_three (l : List Nat) (h : ∀ x ∈ l, x < 3) :
    l.length = l.count 0 + l.count 1 + l.count 2 := by
  induction l with
  | nil => rfl
  | cons x rest ih =>
    have hx : x < 3 := h x (by simp)
    have hr := ih (fun y hy => h y (by simp [hy]))
    interval_cases x <;> simp [List.count_cons] <;> omega

theorem wellFormed_entries (d2r : List Nat) (nE n nER : Nat) (hwf : WellFormed d2r nE n nER) :
    ∀ x ∈ d2r, x < nER := by
  intro x hx
  obtain ⟨p, hp, rfl⟩ := List.getElem_of_mem hx
  have := hwf.2 p (by rw [← hwf.1]; exact hp)
  simpa [rdN, List.getD_eq_getElem?_getD, List.getElem?_eq_getElem hp] using this

/-- C26, as stated, fails: on the incidence array in which the four domain
elements reference the range elements (0,1), (1,2), (0,2), (0,1) the call exits
in the inverse-map check (range element 0 is referenced three times). -/
theorem synthetic_case_counterexample :
    WellFormed [0, 1, 1, 2, 0, 2, 0, 1] 4 2 3
    ∧ inverseMap [0, 1, 1, 2, 0, 2, 0, 1] 4 2 3 = none
    ∧ CreateLockFreeColorIndexset IndexSet.empty [0, 1, 1, 2, 0, 2, 0, 1] 4 2 3 none none
        = ColorOutcome.exited := by
  refine ⟨by unfold WellFormed; decide, by decide, by decide⟩

/-- C26 (amended). The spec's synthetic test case is rejected: on every
incidence array with numEntity = 4, numRangePerDomain = 2 and numEntityRange = 3
(eight entries, each naming one of the 3 range elements) some range element is
referenced more than numRangePerDomain = 2 times, the inverse-map check exits,
and CreateLockFreeColorIndexset ends in `exit(-1)` without returning a coloring. -/
theorem synthetic_case_rejected (retVal : IndexSet) (d2r : List Nat)
    (ep iep : Option (List Int)) (hwf : WellFormed d2r 4 2 3) :
    (∃ id, id < 3 ∧ 2 < d2r.count id)
    ∧ inverseMap d2r 4 2 3 = none
    ∧ CreateLockFreeColorIndexset retVal d2r 4 2 3 ep iep = ColorOutcome.exited := by
  have hlen : d2r.length = 8 := hwf.1
  have hsum := count_three d2r (wellFormed_entries d2r 4 2 3 hwf)
  have hex : ∃ id, id < 3 ∧ 2 < d2r.count id := by
    by_contra hcon
    push_neg at hcon
    have h0 := hcon 0 (by omega)
    have h1 := hcon 1 (by omega)
    have h2 := hcon 2 (by omega)
    omega
  have hnone : inverseMap d2r 4 2 3 = none := by
    cases hm : inverseMap d2r 4 2 3 with
    | none => rfl
    | some m =>
      obtain ⟨_, _, hcount, hcnt, _⟩ := inverseMap_exact d2r 4 2 3 hwf m hm
      obtain ⟨id, _, hid⟩ := hex
      have h1 := hcount id
      have h2 := hcnt id
      rw [show d2r.take (4 * 2) = d2r from List.take_of_length_le (by omega)] at h1
      omega
  exact ⟨hex, hnone, by simp [CreateLockFreeColorIndexset, hnone]⟩

theorem synthetic_case_rejected_witness :
    WellFormed [0, 1, 0, 2, 1, 2, 0, 1] 4 2 3
    ∧ CreateLockFreeColorIndexset IndexSet.empty [0, 1, 0, 2, 1, 2, 0, 1] 4 2 3 none none
        = ColorOutcome.exited :=
  ⟨by unfold WellFormed; decide,
    (synthetic_case_rejected IndexSet.empty [0, 1, 0, 2, 1, 2, 0, 1] none none
      (by unfold WellFormed; decide)).2.2⟩

/-! ## Segment builder: alternation of List segments and the number of segments -/

theorem separated_addRange (h : IndexSet) (b e : Int) (hs : ListsSeparated h.m_segments) :
    ListsSeparated (h.addRange b e).m_segments
    ∧ ∀ last, (h.addRange b e).m_segments.getLast? = some last →
        last.m_type = SegmentType._Range_ := by
  simp only [IndexSet.addRange, IndexSet.addSegmentRange]
  refine ⟨⟨?_, ?_⟩, ?_⟩
  · refine List.Chain'.append hs.1 (List.chain'_singleton _) ?_
    intro x _ y hy
    simp only [List.head?_cons, Option.mem_def, Option.some.injEq] at hy
    subst hy
    simp [Segment.ofRange]
  · intro seg hseg
    simp only [List.mem_append, List.mem_singleton] at hseg
    rcases hseg with hseg | rfl
    · exact hs.2 seg hseg
    · simp [Segment.ofRange]
  · intro last hlast
    simp at hlast
    subst hlast
    rfl

theorem separated_addList (h : IndexSet) (indx : List Int) (len : Int) (hlen : 0 < len)
    (hs : ListsSeparated h.m_segments)
    (hlast : ∀ last, h.m_segments.getLast? = some last → last.m_type = SegmentType._Range_) :
    ListsSeparated (h.addList indx len IndexOwnership.Owned).m_segments := by
  have hn : ¬ len ≤ 0 := by omega
  simp only [IndexSet.addList, IndexSet.addSegmentList]
  refine ⟨?_, ?_⟩
  · refine List.Chain'.append hs.1 (List.chain'_singleton _) ?_
    intro x hx y _
    have := hlast x hx
    simp [this]
  · intro seg hseg
    simp only [List.mem_append, List.mem_singleton] at hseg
    rcases hseg with hseg | rfl
    · exact hs.2 seg hseg
    · simp [Segment.ofList, Segment.getLength, ListISet.mk3, ListISet.initIndexData, hn,
        ListISet.getLength]
      omega

theorem altInv_step (al : Int) (A : List Int) (ii : Nat) (st : EmitState) (h : AltInv st) :
    AltInv (emitBody al A ii st) ∧ (emitBody al A ii st).inrange ≠ -1 := by
  obtain ⟨hc, h0, hs, hl, he⟩ := h
  rcases hc with hc | hc | hc
  · by_cases hla : rd A ii = st.scanVal + 1 ∧ st.scanVal.tmod al = 0
    · rw [emitBody_start_range al A ii st hc hla.1 hla.2]
      refine ⟨⟨Or.inr (Or.inr rfl), by simp only; omega, hs, by simp, by simp⟩, by simp⟩
    · rw [emitBody_start_list al A ii st hc hla]
      refine ⟨⟨Or.inr (Or.inl rfl), by simp only; omega, hs, ?_, by simp⟩, by simp⟩
      intro _ last hlast
      simp only [he hc] at hlast
      simp at hlast
  · by_cases hla : rd A ii = st.scanVal + 1 ∧ st.scanVal.tmod al = 0
    · rw [emitBody_list_to_range al A ii st hc hla.1 hla.2]
      refine ⟨⟨Or.inr (Or.inr rfl), by simp, ?_, by simp, by simp⟩, by simp⟩
      simp only
      split_ifs with hsc
      · exact separated_addList _ _ _ (by omega) hs (hl (by omega))
      · exact hs
    · rw [emitBody_list_stay al A ii st hc hla]
      refine ⟨⟨Or.inr (Or.inl hc), by simp only; omega, hs, ?_, ?_⟩, by simp [hc]⟩
      · intro _
        exact hl (by omega)
      · intro h1
        simp only at h1
        omega
  · by_cases hla : rd A ii = st.scanVal + 1
    · rw [emitBody_range_stay al A ii st hc hla]
      refine ⟨⟨Or.inr (Or.inr hc), by simp only; omega, hs, ?_, ?_⟩, by simp [hc]⟩
      · intro h1
        simp only at h1
        exact absurd hc h1
      · intro h1
        simp only at h1
        omega
    · rw [emitBody_range_end al A ii st hc hla]
      have hadd := separated_addRange st.hiset st.dobegin (st.dobegin + (st.sliceCount + 1)) hs
      refine ⟨⟨Or.inr (Or.inl rfl), by simp, hadd.1, fun _ => hadd.2, by simp⟩, by simp⟩

/-- The segments the emission scan produces on an empty index set. -/
theorem emitScan_separated (al : Int) (A : List Int) (n : Int) :
    ListsSeparated (emitScan al IndexSet.empty A n).m_segments
    ∧ (2 ≤ n → (emitScan al IndexSet.empty A n).m_segments ≠ []) := by
  have hinit : AltInv
      { hiset := IndexSet.empty, inrange := -1, scanVal := rd A 0, sliceCount := 0,
        dobegin := rd A 0 } :=
    ⟨Or.inl rfl, by simp, ⟨by simp [IndexSet.empty], by simp [IndexSet.empty]⟩,
      by simp [IndexSet.empty], by simp [IndexSet.empty]⟩
  have hinv : AltInv (forLoop (emitBody al A) (n - 1).toNat 1
      { hiset := IndexSet.empty, inrange := -1, scanVal := rd A 0, sliceCount := 0,
        dobegin := rd A 0 }) :=
    forLoop_preserves (emitBody al A) AltInv (fun ii st h => (altInv_step al A ii st h).1) _ _ _
      hinit
  have hne : 2 ≤ n → (forLoop (emitBody al A) (n - 1).toNat 1
      { hiset := IndexSet.empty, inrange := -1, scanVal := rd A 0, sliceCount := 0,
        dobegin := rd A 0 }).inrange ≠ -1 := by
    intro hn
    obtain ⟨k, hk⟩ : ∃ k, (n - 1).toNat = k + 1 := ⟨(n - 1).toNat - 1, by omega⟩
    rw [hk, forLoop_add]
    simp only [forLoop]
    exact (altInv_step al A _ _
      (forLoop_preserves (emitBody al A) AltInv (fun ii st h => (altInv_step al A ii st h).1)
        _ _ _ hinit)).2
  unfold emitScan
  generalize forLoop (emitBody al A) (n - 1).toNat 1
    { hiset := IndexSet.empty, inrange := -1, scanVal := rd A 0, sliceCount := 0,
      dobegin := rd A 0 } = st at hinv hne
  obtain ⟨hc, h0, hs, hl, he⟩ := hinv
  simp only [emitFinish]
  rcases hc with hc | hc | hc
  · rw [if_neg (by omega : ¬ st.inrange ≠ -1)]
    constructor
    · by_cases hsv : st.scanVal ≠ -1
      · rw [if_pos hsv]
        exact separated_addList _ _ _ (by omega) hs (hl (by omega))
      · rw [if_neg hsv]
        exact hs
    · intro hn
      exact absurd hc (hne hn)
  · rw [if_pos (by omega : st.inrange ≠ -1), if_neg (by omega : ¬ st.inrange ≠ 0)]
    refine ⟨separated_addList _ _ _ (by omega) hs (hl (by omega)), ?_⟩
    intro _
    simp [IndexSet.addList, IndexSet.addSegmentList]
  · rw [if_pos (by omega : st.inrange ≠ -1), if_pos (by omega : st.inrange ≠ 0)]
    refine ⟨(separated_addRange _ _ _ hs).1, ?_⟩
    intro _
    simp [IndexSet.addRange, IndexSet.addSegmentRange]

theorem cost_ge_segments (segs : List Segment)
    (hall : ∀ seg ∈ segs, (seg.m_type = SegmentType._Range_ ∨ seg.m_type = SegmentType._List_)
      ∧ (seg.m_type = SegmentType._List_ → 1 ≤ seg.getLength)) :
    2 * (segs.length : Int)
      ≤ 2 * ((segs.filter (fun s => decide (s.m_type = SegmentType._Range_))).length : Int)
        + ((segs.filter (fun s => decide (s.m_type = SegmentType._List_))).map
            (fun s => 1 + s.getLength)).sum := by
  induction segs with
  | nil => simp
  | cons seg rest ih =>
    have hrest := ih (fun s hs => hall s (List.mem_cons_of_mem _ hs))
    obtain ⟨hty, hlen⟩ := hall seg (List.mem_cons_self _ _)
    rcases hty with hty | hty
    · have h1 : decide (seg.m_type = SegmentType._Range_) = true := by simp [hty]
      have h2 : decide (seg.m_type = SegmentType._List_) = false := by simp [hty]
      simp only [List.filter_cons, h1, h2, if_true, Bool.false_eq_true, if_false,
        List.length_cons]
      push_cast
      omega
    · have hl := hlen hty
      have h1 : decide (seg.m_type = SegmentType._Range_) = false := by simp [hty]
      have h2 : decide (seg.m_type = SegmentType._List_) = true := by simp [hty]
      simp only [List.filter_cons, h1, h2, if_true, Bool.false_eq_true, if_false,
        List.length_cons, List.map_cons, List.sum_cons]
      push_cast
      omega

theorem cutoff_lt (al n : Int) (hal : 1 ≤ al) (hn : 1 ≤ n) : (n * (al - 1)).tdiv al < n := by
  rw [Int.tdiv_eq_ediv (mul_nonneg (by omega) (by omega)) (by omega)]
  apply Int.ediv_lt_of_lt_mul (by omega)
  nlinarith

/-- What buildIndexSet appends for a length of at least 1: either the
segments of the emission scan, at least one and with cost below the cutoff, or
the single List of the whole input. -/
theorem buildIndexSet_emitted (al ml : Int) (hiset : IndexSet) (A : List Int) (n : Int)
    (hal : 1 ≤ al) (hn : 1 ≤ n) :
    ((buildIndexSet al ml hiset A n).m_segments
        = hiset.m_segments ++ (emitScan al IndexSet.empty A n).m_segments
      ∧ 2 ≤ n
      ∧ encodingCost (emitScan al IndexSet.empty A n) < (n * (al - 1)).tdiv al)
    ∨ (buildIndexSet al ml hiset A n).m_segments
        = hiset.m_segments
          ++ [Segment.ofList SegmentType._List_ (ListISet.mk3 A n IndexOwnership.Owned)] := by
  have h0 : ¬ n = 0 := by omega
  simp only [buildIndexSet, h0, if_false]
  by_cases hgt : n > ml
  · by_cases hcut : statScan al A n < (n * (al - 1)).tdiv al
    · left
      simp only [hgt, hcut, if_true]
      refine ⟨emitScan_frame al hiset A n, ?_, by rw [← statScan_eq_cost]; exact hcut⟩
      by_contra hlt
      have h1 : n = 1 := by omega
      subst h1
      have := statScan_one al A
      rw [cutoff_one al hal] at hcut
      omega
    · right
      simp only [hgt, hcut, if_true, if_false]
      simp [IndexSet.addList, IndexSet.addSegmentList]
  · right
    simp only [hgt, if_false]
    simp [IndexSet.addList, IndexSet.addSegmentList]

/-- C28. Bound on the number of segments: for every input and every length
n >= 1 with RANGE_ALIGN >= 1, the segments buildIndexSet appends to the target
are k in number with k = 1 or 2*k + 1 < n. -/
theorem segment_count_bound (RANGE_ALIGN RANGE_MIN_LENGTH : Int) (hiset : IndexSet)
    (A : List Int) (n : Int) (hal : 1 ≤ RANGE_ALIGN) (hn : 1 ≤ n) :
    ∃ emitted : List Segment,
      (buildIndexSet RANGE_ALIGN RANGE_MIN_LENGTH hiset A n).m_segments
        = hiset.m_segments ++ emitted
      ∧ (emitted.length = 1 ∨ 2 * (emitted.length : Int) + 1 < n) := by
  rcases buildIndexSet_emitted RANGE_ALIGN RANGE_MIN_LENGTH hiset A n hal hn with
    ⟨hseg, _, hcost⟩ | hseg
  · refine ⟨_, hseg, Or.inr ?_⟩
    have hsep := (emitScan_separated RANGE_ALIGN A n).1
    have hge := cost_ge_segments _ hsep.2
    have hlt := cutoff_lt RANGE_ALIGN n hal hn
    simp only [encodingCost, numRangeSegments, listCostSum] at hcost
    omega
  · exact ⟨_, hseg, Or.inl rfl⟩

theorem segment_count_bound_witness :
    (1 : Int) ≤ 4 ∧ (1 : Int) ≤ 14
    ∧ ∃ emitted : List Segment,
        (buildIndexSet 4 2 IndexSet.empty sampleInput 14).m_segments
          = IndexSet.empty.m_segments ++ emitted
        ∧ (emitted.length = 1 ∨ 2 * (emitted.length : Int) + 1 < 14) :=
  ⟨by decide, by decide,
    segment_count_bound 4 2 IndexSet.empty sampleInput 14 (by decide) (by decide)⟩

/-- C29. List runs are maximal: for RANGE_ALIGN >= 1 and a length of at least
1, the segments buildIndexSet appends are at least one, no two neighbouring
ones are both List segments, every List segment among them holds at least one
index, and if none of them is a Range they are a single List segment. -/
theorem list_runs_maximal (RANGE_ALIGN RANGE_MIN_LENGTH : Int) (hiset : IndexSet)
    (A : List Int) (n : Int) (hal : 1 ≤ RANGE_ALIGN) (hn : 1 ≤ n) :
    ∃ emitted : List Segment,
      (buildIndexSet RANGE_ALIGN RANGE_MIN_LENGTH hiset A n).m_segments
        = hiset.m_segments ++ emitted
      ∧ emitted ≠ []
      ∧ List.Chain' (fun a b =>
          ¬ (a.m_type = SegmentType._List_ ∧ b.m_type = SegmentType._List_)) emitted
      ∧ (∀ seg ∈ emitted, seg.m_type = SegmentType._List_ → 1 ≤ seg.getLength)
      ∧ ((∀ seg ∈ emitted, seg.m_type ≠ SegmentType._Range_) →
          ∃ seg, emitted = [seg] ∧ seg.m_type = SegmentType._List_) := by
  have hsingle : ∀ emitted : List Segment, ListsSeparated emitted → emitted ≠ [] →
      (∀ seg ∈ emitted, seg.m_type ≠ SegmentType._Range_) →
      ∃ seg, emitted = [seg] ∧ seg.m_type = SegmentType._List_ := by
    intro emitted hsep hne hnor
    have hlist : ∀ seg ∈ emitted, seg.m_type = SegmentType._List_ := by
      intro seg hseg
      rcases (hsep.2 seg hseg).1 with h | h
      · exact absurd h (hnor seg hseg)
      · exact h
    cases emitted with
    | nil => exact absurd rfl hne
    | cons a rest =>
      cases rest with
      | nil => exact ⟨a, rfl, hlist a (by simp)⟩
      | cons b rest2 =>
        have hch := hsep.1
        rw [List.chain'_cons] at hch
        exact absurd ⟨hlist a (by simp), hlist b (by simp)⟩ hch.1
  rcases buildIndexSet_emitted RANGE_ALIGN RANGE_MIN_LENGTH hiset A n hal hn with
    ⟨hseg, h2, _⟩ | hseg
  · have hsep := emitScan_separated RANGE_ALIGN A n
    exact ⟨_, hseg, hsep.2 h2, hsep.1.1, fun seg hs => (hsep.1.2 seg hs).2,
      hsingle _ hsep.1 (hsep.2 h2)⟩
  · have hnn : ¬ n ≤ 0 := by omega
    have hsep : ListsSeparated
        [Segment.ofList SegmentType._List_ (ListISet.mk3 A n IndexOwnership.Owned)] := by
      refine ⟨List.chain'_singleton _, ?_⟩
      intro seg hs
      simp only [List.mem_singleton] at hs
      subst hs
      simp [Segment.ofList, Segment.getLength, ListISet.mk3, ListISet.initIndexData, hnn,
        ListISet.getLength]
      omega
    exact ⟨_, hseg, by simp, hsep.1, fun seg hs => (hsep.2 seg hs).2,
      hsingle _ hsep (by simp)⟩

theorem list_runs_maximal_witness :
    (1 : Int) ≤ 4 ∧ (1 : Int) ≤ 14
    ∧ ∃ emitted : List Segment,
        (buildIndexSet 4 2 IndexSet.empty sampleInput 14).m_segments
          = IndexSet.empty.m_segments ++ emitted
        ∧ emitted ≠ []
        ∧ List.Chain' (fun a b =>
            ¬ (a.m_type = SegmentType._List_ ∧ b.m_type = SegmentType._List_)) emitted
        ∧ (∀ seg ∈ emitted, seg.m_type = SegmentType._List_ → 1 ≤ seg.getLength)
        ∧ ((∀ seg ∈ emitted, seg.m_type ≠ SegmentType._Range_) →
            ∃ seg, emitted = [seg] ∧ seg.m_type = SegmentType._List_) :=
  ⟨by decide, by decide,
    list_runs_maximal 4 2 IndexSet.empty sampleInput 14 (by decide) (by decide)⟩

/-! ## Graph-coloring partitioner: the inverse permutation -/

theorem rd_set_eq (l : List Int) (i : Nat) (v : Int) (h : i < l.length) :
    rd (l.set i v) i = v := by
  simp [rd, List.getD_eq_getElem?_getD, List.getElem?_set, h]

theorem rd_set_ne (l : List Int) (i j : Nat) (v : Int) (h : i ≠ j) :
    rd (l.set i v) j = rd l j := by
  simp [rd, List.getD_eq_getElem?_getD, List.getElem?_set, h]

theorem rdN_inj_of_nodup (l : List Nat) (hnd : l.Nodup) (i j : Nat) (hi : i < l.length)
    (hj : j < l.length) (h : rdN l i = rdN l j) : i = j := by
  simp only [rdN, List.getD_eq_getElem?_getD, List.getElem?_eq_getElem hi,
    List.getElem?_eq_getElem hj, Option.getD_some] at h
  exact (List.Nodup.getElem_inj_iff hnd).1 h

theorem rdN_mem (l : List Nat) (i : Nat) (hi : i < l.length) : rdN l i ∈ l := by
  simp only [rdN, List.getD_eq_getElem?_getD, List.getElem?_eq_getElem hi, Option.getD_some]
  exact List.getElem_mem hi

/-- The loop `ielemPermutation[elemPermutation[i]] = i` over a duplicate-free
workset whose entries are positions of the array. -/
theorem inverseLoop_spec (ws : List Nat) (ibuf : List Int) (hnd : ws.Nodup)
    (hb : ∀ w ∈ ws, w < ibuf.length) :
    (forLoop (fun i (b : List Int) => b.set (rdN ws i) (i : Int)) ws.length 0 ibuf).length
        = ibuf.length
    ∧ (∀ i, i < ws.length →
        rd (forLoop (fun i (b : List Int) => b.set (rdN ws i) (i : Int)) ws.length 0 ibuf)
          (rdN ws i) = (i : Int))
    ∧ (∀ p, p ∉ ws →
        rd (forLoop (fun i (b : List Int) => b.set (rdN ws i) (i : Int)) ws.length 0 ibuf) p
          = rd ibuf p) := by
  have h := forLoop_induct (fun i (b : List Int) => b.set (rdN ws i) (i : Int))
    (fun ii b => b.length = ibuf.length
      ∧ (∀ i, i < ii → rd b (rdN ws i) = (i : Int))
      ∧ (∀ p, p ∉ ws → rd b p = rd ibuf p)) ws.length
    (fun ii b hii hp => by
      obtain ⟨hl, hw, hu⟩ := hp
      refine ⟨by simp [hl], ?_, ?_⟩
      · intro i hi
        by_cases he : i = ii
        · subst he
          exact rd_set_eq _ _ _ (by rw [hl]; exact hb _ (rdN_mem ws i hii))
        · have hne : rdN ws ii ≠ rdN ws i := by
            intro heq
            exact he (rdN_inj_of_nodup ws hnd i ii (by omega) hii heq.symm)
          rw [rd_set_ne _ _ _ _ hne]
          exact hw i (by omega)
      · intro p hp
        have hne : rdN ws ii ≠ p := by
          intro heq
          exact hp (heq ▸ rdN_mem ws ii hii)
        rw [rd_set_ne _ _ _ _ hne]
        exact hu p hp)
    ws.length 0 ibuf (by omega) ⟨rfl, fun i hi => by omega, fun p _ => rfl⟩
  exact h

/-- What a completed call with both permutation arrays returns. -/
theorem color_call_inverse (retVal : IndexSet) (d2r : List Nat) (nE n nER : Nat)
    (buf ibuf : List Int) (r : ColorResult)
    (hdone : CreateLockFreeColorIndexset retVal d2r nE n nER (some buf) (some ibuf)
      = ColorOutcome.done r) :
    ∃ m s, inverseMap d2r nE n nER = some m ∧ peel m d2r nE n = PeelResult.finished s
      ∧ s.workset.length = nE
      ∧ r.elemPermutation = some (s.workset.map Int.ofNat ++ buf.drop nE)
      ∧ r.ielemPermutation
          = some (forLoop (fun i (b : List Int) => b.set (rdN s.workset i) (i : Int))
              nE 0 ibuf) := by
  unfold CreateLockFreeColorIndexset at hdone
  cases hm : inverseMap d2r nE n nER with
  | none => rw [hm] at hdone; exact absurd hdone (by simp)
  | some m =>
    rw [hm] at hdone
    cases hp : peel m d2r nE n with
    | exited => simp [hp] at hdone
    | outOfFuel => simp [hp] at hdone
    | finished s =>
      simp only [hp] at hdone
      by_cases hsz : s.worksetSize ≠ nE
      · simp [hsz] at hdone
      · simp only [hsz, if_false, ColorOutcome.done.injEq] at hdone
        subst hdone
        refine ⟨m, s, rfl, hp, ?_, rfl, rfl⟩
        simpa [PeelState.worksetSize] using hsz

/-- C22. Inverse permutation: when a completed call was given both
elemPermutation and ielemPermutation (with room for numEntity entries), then
for every i and e in [0, numEntity) the entries elemPermutation[i] and
ielemPermutation[e] lie in [0, numEntity),
ielemPermutation[elemPermutation[i]] = i and
elemPermutation[ielemPermutation[e]] = e; every position e below numEntity of
ielemPermutation is written by exactly one iteration of the loop, and the
entries from numEntity on are left as they were. -/
theorem inverse_permutation (retVal : IndexSet) (d2r : List Nat) (nE n nER : Nat)
    (buf ibuf : List Int) (r : ColorResult)
    (hwf : WellFormed d2r nE n nER) (hroom : nE ≤ ibuf.length)
    (hdone : CreateLockFreeColorIndexset retVal d2r nE n nER (some buf) (some ibuf)
      = ColorOutcome.done r) :
    ∃ m s perm iperm, inverseMap d2r nE n nER = some m
      ∧ peel m d2r nE n = PeelResult.finished s
      ∧ r.elemPermutation = some perm ∧ r.ielemPermutation = some iperm
      ∧ iperm.length = ibuf.length
      ∧ (∀ i : Nat, i < nE →
          0 ≤ rd perm i ∧ rd perm i < (nE : Int) ∧ rd iperm (rd perm i).toNat = (i : Int))
      ∧ (∀ e : Nat, e < nE →
          0 ≤ rd iperm e ∧ rd iperm e < (nE : Int) ∧ rd perm (rd iperm e).toNat = (e : Int))
      ∧ (∀ e : Nat, e < nE → ∃ i, (i < nE ∧ rdN s.workset i = e)
          ∧ ∀ j, j < nE ∧ rdN s.workset j = e → j = i)
      ∧ (∀ k : Nat, nE ≤ k → rd iperm k = rd ibuf k) := by
  obtain ⟨m, s, hm, hp, hsz, hperm, hiperm⟩ := color_call_inverse _ _ _ _ _ _ _ _ hdone
  obtain ⟨s1, hp1, hinv, hd⟩ := peel_spec m d2r nE n (inverseMap_ok _ _ _ _ hwf m hm)
  rw [hp] at hp1
  injection hp1 with hp1
  subst hp1
  obtain ⟨_, hnd, hb, _, _, _, _, hall⟩ := hinv
  have hloop := inverseLoop_spec s.workset ibuf hnd (fun w hw => by have := hb w hw; omega)
  rw [hsz] at hloop
  obtain ⟨hl, hw, hu⟩ := hloop
  have hpi : ∀ i : Nat, i < nE →
      rd (s.workset.map Int.ofNat ++ buf.drop nE) i = (rdN s.workset i : Int) := by
    intro i hi
    have hi' : i < s.workset.length := by omega
    rw [rd, List.getD_eq_getElem?_getD, List.getElem?_append_left (by simpa using hi')]
    simp [rdN, List.getD_eq_getElem?_getD, List.getElem?_eq_getElem hi']
  have hidx : ∀ e : Nat, e < nE → ∃ i, i < nE ∧ rdN s.workset i = e := by
    intro e he
    obtain ⟨i, hi, hie⟩ := List.getElem_of_mem (hall hd e he)
    refine ⟨i, by omega, ?_⟩
    simp [rdN, List.getD_eq_getElem?_getD, List.getElem?_eq_getElem hi, hie]
  refine ⟨m, s, _, _, hm, hp, hperm, hiperm, hl, ?_, ?_, ?_, ?_⟩
  · intro i hi
    have hlt := hb _ (rdN_mem s.workset i (by omega))
    rw [hpi i hi]
    refine ⟨by omega, by omega, ?_⟩
    rw [Int.toNat_ofNat]
    exact hw i hi
  · intro e he
    obtain ⟨i, hi, hie⟩ := hidx e he
    have h1 := hw i hi
    rw [hie] at h1
    rw [h1]
    refine ⟨by omega, by omega, ?_⟩
    rw [Int.toNat_ofNat, hpi i hi, hie]
  · intro e he
    obtain ⟨i, hi, hie⟩ := hidx e he
    refine ⟨i, ⟨hi, hie⟩, ?_⟩
    rintro j ⟨hj, hje⟩
    exact rdN_inj_of_nodup s.workset hnd j i (by omega) (by omega) (by rw [hje, hie])
  · intro k hk
    apply hu
    intro hmem
    have := hb k hmem
    omega

theorem inverse_permutation_witness :
    WellFormed cycleIncidence 6 2 6 ∧ 6 ≤ [(0 : Int), 0, 0, 0, 0, 0].length
    ∧ CreateLockFreeColorIndexset IndexSet.empty cycleIncidence 6 2 6
        (some [0, 0, 0, 0, 0, 0]) (some [0, 0, 0, 0, 0, 0])
        = ColorOutcome.done
            { retVal := (IndexSet.empty.addRange 0 3).addRange 3 6,
              elemPermutation := some [0, 2, 4, 1, 3, 5],
              ielemPermutation := some [0, 3, 1, 4, 2, 5] }
    ∧ ∃ (perm iperm : List Int),
        some [0, 2, 4, 1, 3, 5] = some perm ∧ some [0, 3, 1, 4, 2, 5] = some iperm
        ∧ (∀ i : Nat, i < 6 →
            0 ≤ rd perm i ∧ rd perm i < ((6 : Nat) : Int)
            ∧ rd iperm (rd perm i).toNat = (i : Int))
        ∧ (∀ e : Nat, e < 6 →
            0 ≤ rd iperm e ∧ rd iperm e < ((6 : Nat) : Int)
            ∧ rd perm (rd iperm e).toNat = (e : Int)) := by
  refine ⟨by unfold WellFormed; decide, by decide, by decide, ?_⟩
  obtain ⟨_, _, perm, iperm, _, _, h3, h4, _, h6, h7, _, _⟩ :=
    inverse_permutation IndexSet.empty cycleIncidence 6 2 6 [0, 0, 0, 0, 0, 0]
      [0, 0, 0, 0, 0, 0]
      { retVal := (IndexSet.empty.addRange 0 3).addRange 3 6,
        elemPermutation := some [0, 2, 4, 1, 3, 5],
        ielemPermutation := some [0, 3, 1, 4, 2, 5] }
      (by unfold WellFormed; decide) (by decide) (by decide)
  exact ⟨perm, iperm, h3, h4, h6, h7⟩

/-! ## Graph-coloring partitioner: where the marks of a scan come from -/

/-- The marks set by the loop over one range element name domain elements the
inverse map lists for it. -/
theorem markLoop_origin (m : InvMap) (nE n id : Nat) (mk mk1 : List Bool)
    (hlen : mk.length = nE)
    (h : forLoop (markBody m nE n id) (rdN m.rangeToDomainCount id) 0 (some mk) = some mk1) :
    mk1.length = nE ∧ ∀ x, Marked mk1 x → Marked mk x ∨ x ∈ domsOf m n id := by
  have hinv := forLoop_option_inv (markBody m nE n id)
    (fun k mkk => mkk.length = nE
      ∧ ∀ x, Marked mkk x → Marked mk x ∨ ∃ k1, k1 < k ∧ x = rdN m.rangeToDomain (id * n + k1))
    (rdN m.rangeToDomainCount id) (fun _ => rfl)
    (fun k s s1 hk hp hb => by
      obtain ⟨hl, ho⟩ := hp
      simp only [markBody, Option.some_bind] at hb
      split_ifs at hb with hge
      injection hb with hb
      subst hb
      refine ⟨by simp [hl], ?_⟩
      intro x hx
      rw [marked_set_true _ _ _ (by omega)] at hx
      rcases hx with hx | hx
      · exact Or.inr ⟨k, by omega, hx⟩
      · rcases ho x hx with h1 | ⟨k1, hk1, hx1⟩
        · exact Or.inl h1
        · exact Or.inr ⟨k1, by omega, hx1⟩)
    (rdN m.rangeToDomainCount id) 0 mk mk1 (by omega)
    ⟨hlen, fun x hx => Or.inl hx⟩ h
  refine ⟨hinv.1, ?_⟩
  intro x hx
  rcases hinv.2 x hx with h1 | ⟨k1, hk1, hx1⟩
  · exact Or.inl h1
  · right
    simp only [domsOf, List.mem_map, List.mem_range]
    exact ⟨k1, hk1, hx1.symm⟩

/-- The marks set for domain element `i` name domain elements listed under a
range element that `i` references. -/
theorem markConflicts_origin (m : InvMap) (d2r : List Nat) (nE n i : Nat) (mk mk1 : List Bool)
    (hlen : mk.length = nE) (h : markConflicts m d2r nE n i mk = some mk1) :
    mk1.length = nE
    ∧ ∀ x, Marked mk1 x → Marked mk x ∨ ∃ id ∈ refsOf d2r n i, x ∈ domsOf m n id := by
  have hinv := forLoop_option_inv
    (fun j st =>
      forLoop (markBody m nE n (rdN d2r (i * n + j)))
        (rdN m.rangeToDomainCount (rdN d2r (i * n + j))) 0 st)
    (fun j mkj => mkj.length = nE
      ∧ ∀ x, Marked mkj x → Marked mk x
          ∨ ∃ j1, j1 < j ∧ x ∈ domsOf m n (rdN d2r (i * n + j1)))
    n (fun j => forLoop_none _ (fun _ => rfl) _ _)
    (fun j s s1 hj hp hb => by
      obtain ⟨hl, ho⟩ := hp
      obtain ⟨hl1, ho1⟩ := markLoop_origin m nE n _ s s1 hl hb
      refine ⟨hl1, ?_⟩
      intro x hx
      rcases ho1 x hx with h1 | h1
      · rcases ho x h1 with h2 | ⟨j1, hj1, hx1⟩
        · exact Or.inl h2
        · exact Or.inr ⟨j1, by omega, hx1⟩
      · exact Or.inr ⟨j, by omega, h1⟩)
    n 0 mk mk1 (by omega) ⟨hlen, fun x hx => Or.inl hx⟩ h
  refine ⟨hinv.1, ?_⟩
  intro x hx
  rcases hinv.2 x hx with h1 | ⟨j1, hj1, hx1⟩
  · exact Or.inl h1
  · right
    refine ⟨rdN d2r (i * n + j1), ?_, hx1⟩
    simp only [refsOf, List.mem_map, List.mem_range]
    exact ⟨j1, hj1, rfl⟩

/-- One scan of the peeling loop: a domain element that is in the workset
neither before nor after the scan shares a range element with a smaller element
that the scan added. -/
theorem peelPass_origin (m : InvMap) (d2r : List Nat) (nE n : Nat)
    (hex : ∀ id x, x ∈ domsOf m n id → id ∈ refsOf d2r n x)
    (s s1 : PeelState) (hlen : s.isMarked.length = nE) (hb : ∀ w ∈ s.workset, w < nE)
    (hrun : peelPass m d2r nE n s = some s1) :
    ∃ new, s1.workset = s.workset ++ new
      ∧ ∀ x, x < nE → x ∉ s1.workset → ∃ w ∈ new, w < x ∧ Conflict d2r n w x := by
  obtain ⟨hcl1, hcl2⟩ := clearLoop_spec nE s.isMarked hlen
  obtain ⟨hmk1, hmk2⟩ := markWorkset_spec nE s.workset _ hcl1 hcl2 hb
  simp only [peelPass, PeelState.worksetSize, Option.map_eq_some'] at hrun
  obtain ⟨s2, hscan, hs2⟩ := hrun
  have hinv := forLoop_option_inv (scanBody m d2r nE n)
    (fun i st => st.isMarked.length = nE
      ∧ ∃ new, st.workset = s.workset ++ new
        ∧ (∀ w ∈ new, w < i)
        ∧ (∀ x, Marked st.isMarked x → x ∈ s.workset ∨ ∃ w ∈ new, Conflict d2r n w x)
        ∧ (∀ x, x < i → x ∉ st.workset → ∃ w ∈ new, w < x ∧ Conflict d2r n w x))
    nE (fun _ => rfl)
    (fun i st st1 hi hp hbody => by
      obtain ⟨hl, new, hws, hlt, horig, hleft⟩ := hp
      by_cases hmi : Marked st.isMarked i
      · have hm' : st.isMarked.getD i false = true := hmi
        simp only [scanBody, Option.some_bind, hm'] at hbody
        simp only [Bool.true_eq_false, if_false, Option.some.injEq] at hbody
        subst hbody
        refine ⟨hl, new, hws, fun w hw => by have := hlt w hw; omega, horig, ?_⟩
        intro x hx hxn
        by_cases hxi : x = i
        · subst hxi
          rcases horig x hmi with h1 | ⟨w, hw, hc⟩
          · exact absurd (by rw [hws]; exact List.mem_append_left _ h1) hxn
          · exact ⟨w, hw, hlt w hw, hc⟩
        · exact hleft x (by omega) hxn
      · have hm' : st.isMarked.getD i false = false := by
          unfold Marked at hmi
          cases hv : st.isMarked.getD i false with
          | false => rfl
          | true => exact absurd hv hmi
        simp only [scanBody, Option.some_bind, hm', if_true] at hbody
        split_ifs at hbody with hfull
        simp only [Option.map_eq_some'] at hbody
        obtain ⟨mk1, hmark, hst1⟩ := hbody
        subst hst1
        obtain ⟨hl1, ho1⟩ := markConflicts_origin m d2r nE n i st.isMarked mk1 hl hmark
        refine ⟨hl1, new ++ [i], by simp [hws], ?_, ?_, ?_⟩
        · intro w hw
          rw [List.mem_append, List.mem_singleton] at hw
          rcases hw with hw | hw
          · have := hlt w hw; omega
          · omega
        · intro x hx
          rcases ho1 x hx with h1 | ⟨id, hid, hxd⟩
          · rcases horig x h1 with h2 | ⟨w, hw, hc⟩
            · exact Or.inl h2
            · exact Or.inr ⟨w, List.mem_append_left _ hw, hc⟩
          · exact Or.inr ⟨i, by simp, id, hid, hex id x hxd⟩
        · intro x hx hxn
          simp only [List.mem_append, List.mem_singleton, not_or] at hxn
          obtain ⟨w, hw, hwx, hc⟩ := hleft x (by omega) hxn.1
          exact ⟨w, List.mem_append_left _ hw, hwx, hc⟩)
    nE 0 _ s2 (by omega)
    ⟨hmk1, [], by simp, by simp, fun x hx => Or.inl ((hmk2 x).1 hx), fun x hx => by omega⟩
    hscan
  obtain ⟨_, new, hws, _, _, hleft⟩ := hinv
  have hw12 : s1.workset = s2.workset := by
    rw [← hs2]
    split_ifs <;> rfl
  refine ⟨new, by rw [hw12, hws], ?_⟩
  intro x hx hxn
  rw [hw12] at hxn
  exact hleft x hx hxn

/-! ## Graph-coloring partitioner: scans of the peeling loop -/

theorem peelInv_init (d2r : List Nat) (nE n : Nat) : PeelInv d2r nE n (peelInit nE) :=
  ⟨by simp [peelInit], List.nodup_nil, by simp [peelInit], by simp [peelInit],
    by simp [peelInit], by simp [peelInit, sliceColors, sliceColorsFrom],
    by simp [peelInit, sliceColors, sliceColorsFrom], by simp [peelInit]⟩

theorem peel_eq_init (m : InvMap) (d2r : List Nat) (nE n : Nat) :
    peel m d2r nE n = peelLoop m d2r nE n (nE + 2) (peelInit nE) := rfl

/-- A property kept by every scan is kept by the peeling loop. -/
theorem peelLoop_invariant (m : InvMap) (d2r : List Nat) (nE n : Nat)
    (hok : InvOK m d2r nE n) (Q : PeelState → Prop)
    (hstep : ∀ s s1, PeelInv d2r nE n s → Q s → peelPass m d2r nE n s = some s1 → Q s1) :
    ∀ (fuel : Nat) (s s1 : PeelState), PeelInv d2r nE n s → Q s →
      peelLoop m d2r nE n fuel s = PeelResult.finished s1 → Q s1 := by
  intro fuel
  induction fuel with
  | zero => intro s s1 _ _ h; simp [peelLoop] at h
  | succ fuel ih =>
    intro s s1 hinv hq h
    by_cases hd : s.done = true
    · simp only [peelLoop, hd, if_true, PeelResult.finished.injEq] at h
      subst h
      exact hq
    · obtain ⟨s2, hrun, hinv2, _⟩ := peelInv_pass m d2r nE n hok s hinv
      simp only [peelLoop, hd, hrun] at h
      exact ih s2 s1 hinv2 (hstep s s2 hinv hq hrun) (by simpa using h)

/-- What one scan does to workset and delimiters. -/
theorem peelPass_shape (m : InvMap) (d2r : List Nat) (nE n : Nat) (hok : InvOK m d2r nE n)
    (s s1 : PeelState) (hinv : PeelInv d2r nE n s) (hrun : peelPass m d2r nE n s = some s1) :
    ∃ new, s1.workset = s.workset ++ new
      ∧ (∀ w ∈ new, w ∉ s.workset)
      ∧ (new = [] → s1.done = true ∧ s1.worksetDelim = s.worksetDelim)
      ∧ (new ≠ [] → s1.done = false
          ∧ s1.worksetDelim = s.worksetDelim ++ [s.workset.length + new.length]
          ∧ sliceColors s1.workset s1.worksetDelim
              = sliceColors s.workset s.worksetDelim ++ [new]) := by
  obtain ⟨hlen, hnd, hb, hdle, hlast, _, _, _⟩ := hinv
  obtain ⟨s2, new, hrun2, _, hws, _, _, _, hdisj, hnil, hcons⟩ :=
    peelPass_spec m d2r nE n hok s hlen hnd hb
  rw [hrun] at hrun2
  injection hrun2 with hrun2
  subst hrun2
  refine ⟨new, hws, hdisj, fun h => ⟨(hnil h).1, (hnil h).2.1⟩, ?_⟩
  intro hne
  obtain ⟨hd, hD⟩ := hcons hne
  have hD' : s1.worksetDelim = s.worksetDelim ++ [s.workset.length + new.length] := by
    rw [hD, hws, List.length_append]
  refine ⟨hd, hD', ?_⟩
  rw [hD', hws]
  exact sliceColorsFrom_append s.workset new s.worksetDelim 0 hdle hlast

/-- The delimiters ascend strictly from 0. -/
theorem peel_delims_strict (m : InvMap) (d2r : List Nat) (nE n : Nat) (hok : InvOK m d2r nE n)
    (s : PeelState) (h : peel m d2r nE n = PeelResult.finished s) :
    List.Chain' (fun a b => a < b) (0 :: s.worksetDelim) := by
  refine peelLoop_invariant m d2r nE n hok
    (fun s => List.Chain' (fun a b => a < b) (0 :: s.worksetDelim)) ?_ (nE + 2) (peelInit nE) s
    (peelInv_init d2r nE n) (by simp [peelInit]) h
  intro s0 s1 hinv hq hrun
  obtain ⟨new, _, _, hnil, hcons⟩ := peelPass_shape m d2r nE n hok s0 s1 hinv hrun
  by_cases hnew : new = []
  · rw [(hnil hnew).2]; exact hq
  · rw [(hcons hnew).2.1, ← List.cons_append]
    refine List.Chain'.append hq (List.chain'_singleton _) ?_
    intro x hx y hy
    simp only [List.head?_cons, Option.mem_def, Option.some.injEq] at hy
    subst hy
    have hlast := hinv.2.2.2.2.1
    have hpos : 0 < new.length := List.length_pos.mpr hnew
    have hx' : x = s0.worksetDelim.getLast?.getD 0 := by
      cases hD : s0.worksetDelim with
      | nil => simp [hD] at hx; simp [hx]
      | cons d rest =>
        rw [hD, List.getLast?_cons_cons] at hx
        simp only [Option.mem_def] at hx
        rw [hx]; rfl
    rw [hx', hlast]
    omega

/-- The peeling loop as a count of scans: it ends after `k` scans, the states
before each of them are not done, and every scan but the last adds elements
that were not in the workset. -/
theorem peelLoop_count (m : InvMap) (d2r : List Nat) (nE n : Nat) (hok : InvOK m d2r nE n) :
    ∀ (fuel : Nat) (s : PeelState), PeelInv d2r nE n s →
      ((s.done = true ∧ 1 ≤ fuel) ∨ nE - s.workset.length + 2 ≤ fuel) →
      ∃ k s1, peelLoop m d2r nE n fuel s = PeelResult.finished s1
        ∧ peelPasses m d2r nE n k s = some s1
        ∧ s1.done = true
        ∧ (s.done = true → k = 0)
        ∧ k ≤ nE - s.workset.length + 1
        ∧ ∀ j, j < k → ∃ sj sj1, peelPasses m d2r nE n j s = some sj ∧ sj.done = false
            ∧ peelPass m d2r nE n sj = some sj1
            ∧ (sj1.done = false → ∃ new, new ≠ [] ∧ sj1.workset = sj.workset ++ new
                ∧ ∀ w ∈ new, w ∉ sj.workset) := by
  intro fuel
  induction fuel with
  | zero => intro s _ h; omega
  | succ fuel ih =>
    intro s hinv hfuel
    by_cases hd : s.done = true
    · exact ⟨0, s, by simp [peelLoop, hd], rfl, hd, fun _ => rfl, by omega,
        fun j hj => by omega⟩
    · have hfuel' : nE - s.workset.length + 2 ≤ fuel + 1 := by
        rcases hfuel with h | h
        · exact absurd h.1 hd
        · exact h
      obtain ⟨s1, hrun, hinv1, hprog⟩ := peelInv_pass m d2r nE n hok s hinv
      obtain ⟨new, hws, hdisj, hnil, hcons⟩ := peelPass_shape m d2r nE n hok s s1 hinv hrun
      have hle1 : s1.workset.length ≤ nE := by
        have := (List.subperm_of_subset hinv1.2.1
          (fun x hx => List.mem_range.mpr (hinv1.2.2.1 x hx))).length_le
        simpa using this
      obtain ⟨k, s2, hloop, hpass, hd2, hk0, hkb, htrace⟩ := ih s1 hinv1 (by
        rcases hprog with h | h
        · exact Or.inl ⟨h, by omega⟩
        · exact Or.inr (by omega))
      refine ⟨k + 1, s2, ?_, ?_, hd2, fun h => absurd h hd, ?_, ?_⟩
      · simp only [peelLoop, hd, hrun]
        simpa using hloop
      · simp [peelPasses, hrun, hpass]
      · rcases hprog with h | h
        · have := hk0 h
          omega
        · omega
      · intro j hj
        cases j with
        | zero =>
          refine ⟨s, s1, rfl, by simpa using hd, hrun, ?_⟩
          intro hd1
          have hne : new ≠ [] := by
            intro h0
            have := (hnil h0).1
            rw [this] at hd1
            exact absurd hd1 (by simp)
          exact ⟨new, hne, hws, hdisj⟩
        | succ j =>
          obtain ⟨sj, sj1, h1, h2, h3, h4⟩ := htrace j (by omega)
          exact ⟨sj, sj1, by simp [peelPasses, hrun, h1], h2, h3, h4⟩

/-! ## Graph-coloring partitioner: output without permutation -/

theorem emitColorSegments_loop (ws pre : List Nat) :
    ∀ (suf : List Nat) (b : Nat) (rv : IndexSet),
      (forLoop (fun i (st : Nat × IndexSet) =>
          let begin_ := st.1
          let end_ := rdN (pre ++ suf) i
          if isRangeSlice ws begin_ end_ then
            (end_, st.2.addRange (rdN ws begin_ : Int) ((rdN ws (end_ - 1) : Int) + 1))
          else
            (end_, st.2.addList ((ws.drop begin_).map Int.ofNat) ((end_ : Int) - (begin_ : Int))
                    IndexOwnership.Owned))
        suf.length pre.length (b, rv)).2.m_segments
        = rv.m_segments ++ colorSegmentsFrom ws b suf
      ∧ (forLoop (fun i (st : Nat × IndexSet) =>
          let begin_ := st.1
          let end_ := rdN (pre ++ suf) i
          if isRangeSlice ws begin_ end_ then
            (end_, st.2.addRange (rdN ws begin_ : Int) ((rdN ws (end_ - 1) : Int) + 1))
          else
            (end_, st.2.addList ((ws.drop begin_).map Int.ofNat) ((end_ : Int) - (begin_ : Int))
                    IndexOwnership.Owned))
        suf.length pre.length (b, rv)).2.m_len
        = rv.m_len + ((colorSegmentsFrom ws b suf).map Segment.getLength).sum := by
  intro suf
  induction suf generalizing pre with
  | nil => intro b rv; simp [forLoop, colorSegmentsFrom]
  | cons e rest ih =>
    intro b rv
    simp only [List.length_cons, forLoop]
    have he : rdN (pre ++ e :: rest) pre.length = e := by
      rw [rdN, List.getD_eq_getElem?_getD, List.getElem?_append_right (le_refl _)]
      simp
    rw [he]
    cases hr : isRangeSlice ws b e with
    | true =>
      simp only [if_true]
      have hih := ih (pre ++ [e]) e
        (rv.addRange (rdN ws b : Int) ((rdN ws (e - 1) : Int) + 1))
      simp only [List.append_assoc, List.singleton_append, List.length_append,
        List.length_singleton] at hih
      rw [hih.1, hih.2]
      simp only [colorSegmentsFrom, colorSegment, hr, if_true, List.map_cons, List.sum_cons]
      constructor
      · simp [IndexSet.addRange, IndexSet.addSegmentRange, rangeSeg]
      · simp only [IndexSet.addRange, IndexSet.addSegmentRange, rangeSeg, Segment.getLength,
          Segment.ofRange]
        ring
    | false =>
      simp only [Bool.false_eq_true, if_false]
      have hih := ih (pre ++ [e]) e
        (rv.addList ((ws.drop b).map Int.ofNat) ((e : Int) - (b : Int)) IndexOwnership.Owned)
      simp only [List.append_assoc, List.singleton_append, List.length_append,
        List.length_singleton] at hih
      rw [hih.1, hih.2]
      simp only [colorSegmentsFrom, colorSegment, hr, Bool.false_eq_true, if_false,
        List.map_cons, List.sum_cons]
      constructor
      · simp [IndexSet.addList, IndexSet.addSegmentList]
      · simp only [IndexSet.addList, IndexSet.addSegmentList, Segment.getLength,
          Segment.ofList]
        ring

theorem emitColorSegments_segments (ws D : List Nat) (retVal : IndexSet) :
    (emitColorSegments ws D retVal).m_segments = retVal.m_segments ++ colorSegmentsFrom ws 0 D
    ∧ (emitColorSegments ws D retVal).m_len
        = retVal.m_len + ((colorSegmentsFrom ws 0 D).map Segment.getLength).sum := by
  have h := emitColorSegments_loop ws [] D 0 retVal
  simpa [emitColorSegments] using h

/-- The `isRange` test of a slice: every element after the first is its
predecessor plus 1. -/
theorem isRangeSlice_iff (ws : List Nat) (b e : Nat) :
    isRangeSlice ws b e = true
      ↔ ∀ j, b + 1 ≤ j → j < e → rdN ws (j - 1) + 1 = rdN ws j := by
  have hloop : ∀ (k j0 : Nat) (r : Bool),
      forLoop (fun j (isRange : Bool) =>
          isRange && decide (rdN ws (j - 1) + 1 = rdN ws j)) k j0 r = true
        ↔ r = true ∧ ∀ j, j0 ≤ j → j < j0 + k → rdN ws (j - 1) + 1 = rdN ws j := by
    intro k
    induction k with
    | zero =>
      intro j0 r
      simp only [forLoop]
      constructor
      · intro h; exact ⟨h, fun j h1 h2 => by omega⟩
      · intro h; exact h.1
    | succ k ih =>
      intro j0 r
      simp only [forLoop]
      rw [ih]
      simp only [Bool.and_eq_true, decide_eq_true_eq]
      constructor
      · rintro ⟨⟨hr, h0⟩, hrest⟩
        refine ⟨hr, ?_⟩
        intro j h1 h2
        by_cases hj : j = j0
        · subst hj; exact h0
        · exact hrest j (by omega) (by omega)
      · rintro ⟨hr, hall⟩
        exact ⟨⟨hr, hall j0 (le_refl _) (by omega)⟩, fun j h1 h2 => hall j (by omega) (by omega)⟩
  simp only [isRangeSlice]
  rw [hloop]
  constructor
  · rintro ⟨_, h⟩ j h1 h2
    exact h j h1 (by omega)
  · intro h
    exact ⟨rfl, fun j h1 h2 => h j h1 (by omega)⟩

theorem rdN_slice (ws : List Nat) (lo hi k : Nat) (hk : k < hi - lo) (_hhi : hi ≤ ws.length) :
    rdN ((ws.drop lo).take (hi - lo)) k = rdN ws (lo + k) := by
  simp only [rdN, List.getD_eq_getElem?_getD, List.getElem?_take, hk, if_true,
    List.getElem?_drop]

theorem slice_length (ws : List Nat) (lo hi : Nat) (hhi : hi ≤ ws.length) :
    ((ws.drop lo).take (hi - lo)).length = hi - lo := by
  simp only [List.length_take, List.length_drop]
  omega

theorem run_values (l : List Nat) (h : IsAscendingRun l) :
    ∀ k, k < l.length → rdN l k = rdN l 0 + k := by
  intro k
  induction k with
  | zero => intro _; rfl
  | succ k ih =>
    intro hk
    have := h k hk
    have := ih (by omega)
    omega

theorem run_forallRange (l : List Nat) (h : IsAscendingRun l) (hne : 0 < l.length) :
    forallRange (rdN l 0 : Int) ((rdN l (l.length - 1) : Int) + 1) = l.map Int.ofNat := by
  have hlast := run_values l h (l.length - 1) (by omega)
  have hn : (((rdN l (l.length - 1) : Int) + 1) - (rdN l 0 : Int)).toNat = l.length := by
    omega
  apply List.ext_getElem
  · simp [forallRange, hn]
  · intro k h1 h2
    simp only [forallRange, hn, List.length_map, List.length_range] at h1
    simp only [forallRange, List.getElem_map, List.getElem_range]
    have hv := run_values l h k h1
    simp only [rdN, List.getD_eq_getElem?_getD, List.getElem?_eq_getElem h1,
      Option.getD_some] at hv
    rw [hv]
    simp [rdN, List.getD_eq_getElem?_getD]

/-- The segment appended for the non-empty slice `workset[lo, hi)`. -/
theorem colorSegment_spec (ws : List Nat) (lo hi : Nat) (h1 : lo < hi) (h2 : hi ≤ ws.length) :
    (IsAscendingRun ((ws.drop lo).take (hi - lo)) →
        colorSegment ws lo hi
          = rangeSeg (rdN ((ws.drop lo).take (hi - lo)) 0 : Int)
              ((rdN ((ws.drop lo).take (hi - lo))
                (((ws.drop lo).take (hi - lo)).length - 1) : Int) + 1))
    ∧ (¬ IsAscendingRun ((ws.drop lo).take (hi - lo)) →
        colorSegment ws lo hi = listSeg (((ws.drop lo).take (hi - lo)).map Int.ofNat))
    ∧ forallSegment (colorSegment ws lo hi) = ((ws.drop lo).take (hi - lo)).map Int.ofNat
    ∧ (colorSegment ws lo hi).getLength = (((ws.drop lo).take (hi - lo)).length : Int) := by
  have hlen := slice_length ws lo hi h2
  have hiff : isRangeSlice ws lo hi = true ↔ IsAscendingRun ((ws.drop lo).take (hi - lo)) := by
    rw [isRangeSlice_iff]
    unfold IsAscendingRun
    rw [hlen]
    constructor
    · intro h k hk
      rw [rdN_slice ws lo hi k (by omega) h2, rdN_slice ws lo hi (k + 1) hk h2]
      have := h (lo + k + 1) (by omega) (by omega)
      simpa [Nat.add_assoc] using this
    · intro h j hj1 hj2
      have := h (j - lo - 1) (by omega)
      rw [rdN_slice ws lo hi _ (by omega) h2, rdN_slice ws lo hi _ (by omega) h2] at this
      rw [show lo + (j - lo - 1) = j - 1 by omega, show lo + (j - lo - 1 + 1) = j by omega]
        at this
      exact this
  have hfirst : rdN ((ws.drop lo).take (hi - lo)) 0 = rdN ws lo := by
    rw [rdN_slice ws lo hi 0 (by omega) h2]; rfl
  have hlastv : rdN ((ws.drop lo).take (hi - lo)) (((ws.drop lo).take (hi - lo)).length - 1)
      = rdN ws (hi - 1) := by
    rw [hlen, rdN_slice ws lo hi _ (by omega) h2]
    congr 1
    omega
  have hrange : IsAscendingRun ((ws.drop lo).take (hi - lo)) →
      colorSegment ws lo hi
        = rangeSeg (rdN ((ws.drop lo).take (hi - lo)) 0 : Int)
            ((rdN ((ws.drop lo).take (hi - lo))
              (((ws.drop lo).take (hi - lo)).length - 1) : Int) + 1) := by
    intro hrun
    rw [hfirst, hlastv]
    simp only [colorSegment, hiff.2 hrun, if_true]
  have hlist : ¬ IsAscendingRun ((ws.drop lo).take (hi - lo)) →
      colorSegment ws lo hi = listSeg (((ws.drop lo).take (hi - lo)).map Int.ofNat) := by
    intro hrun
    have hf : isRangeSlice ws lo hi = false := by
      cases hv : isRangeSlice ws lo hi with
      | false => rfl
      | true => exact absurd (hiff.1 hv) hrun
    simp only [colorSegment, hf, Bool.false_eq_true, if_false]
    rw [mk3_owned_eq _ _ (by omega) (by simp; omega), ← List.map_take]
    congr 3
    omega
  refine ⟨hrange, hlist, ?_, ?_⟩
  · by_cases hrun : IsAscendingRun ((ws.drop lo).take (hi - lo))
    · rw [hrange hrun]
      have hseg : ∀ b e : Int, forallSegment (rangeSeg b e) = forallRange b e := by
        intro b e
        simp [rangeSeg, Segment.ofRange, forallSegment, RangeISet.getBegin, RangeISet.getEnd]
      rw [hseg]
      exact run_forallRange _ hrun (by omega)
    · rw [hlist hrun]
      exact forallSegment_listSeg _
  · by_cases hrun : IsAscendingRun ((ws.drop lo).take (hi - lo))
    · rw [hrange hrun]
      have hlast := run_values _ hrun (((ws.drop lo).take (hi - lo)).length - 1) (by omega)
      simp only [rangeSeg, Segment.ofRange, Segment.getLength, RangeISet.getLength]
      omega
    · rw [hlist hrun]
      simp [listSeg, Segment.ofList, Segment.getLength, ListISet.getLength]

/-- Segment by segment description of the output without permutation, for
delimiters that ascend strictly from `b` within the workset. -/
theorem colorSegments_forall₂ (ws : List Nat) :
    ∀ (D : List Nat) (b : Nat), List.Chain' (fun x y => x < y) (b :: D) →
      (∀ d ∈ D, d ≤ ws.length) →
      List.Forall₂ (fun seg col =>
          col ≠ []
          ∧ (IsAscendingRun col →
              seg = rangeSeg (rdN col 0 : Int) ((rdN col (col.length - 1) : Int) + 1))
          ∧ (¬ IsAscendingRun col → seg = listSeg (col.map Int.ofNat))
          ∧ forallSegment seg = col.map Int.ofNat
          ∧ seg.getLength = (col.length : Int))
        (colorSegmentsFrom ws b D) (sliceColorsFrom ws b D) := by
  intro D
  induction D with
  | nil => intro b _ _; exact List.Forall₂.nil
  | cons d rest ih =>
    intro b hch hle
    have hbd : b < d := (List.chain'_cons.1 hch).1
    have hd : d ≤ ws.length := hle d (by simp)
    obtain ⟨h1, h2, h3, h4⟩ := colorSegment_spec ws b d hbd hd
    have hlen := slice_length ws b d hd
    simp only [colorSegmentsFrom, sliceColorsFrom]
    refine List.Forall₂.cons ⟨?_, h1, h2, h3, h4⟩
      (ih d (List.chain'_cons.1 hch).2 (fun x hx => hle x (by simp [hx])))
    intro h0
    rw [h0] at hlen
    simp at hlen
    omega

theorem forall₂_flatMap (segs : List Segment) (colors : List (List Nat))
    (h : List.Forall₂ (fun seg col => forallSegment seg = col.map Int.ofNat
      ∧ seg.getLength = (col.length : Int)) segs colors) :
    segs.flatMap forallSegment = colors.flatten.map Int.ofNat
    ∧ (segs.map Segment.getLength).sum = (colors.flatten.length : Int) := by
  induction h with
  | nil => simp
  | cons hab _ ih =>
    simp only [List.flatMap_cons, List.flatten_cons, List.map_append, List.map_cons,
      List.sum_cons, List.length_append, hab.1, hab.2, ih.1, ih.2]
    push_cast
    trivial

/-- What a completed call without a permutation array returns. -/
theorem color_call_plain (retVal : IndexSet) (d2r : List Nat) (nE n nER : Nat)
    (iep : Option (List Int)) (r : ColorResult)
    (hdone : CreateLockFreeColorIndexset retVal d2r nE n nER none iep = ColorOutcome.done r) :
    ∃ m s, inverseMap d2r nE n nER = some m ∧ peel m d2r nE n = PeelResult.finished s
      ∧ s.workset.length = nE
      ∧ r.retVal = emitColorSegments s.workset s.worksetDelim retVal
      ∧ r.elemPermutation = none ∧ r.ielemPermutation = iep := by
  unfold CreateLockFreeColorIndexset at hdone
  cases hm : inverseMap d2r nE n nER with
  | none => rw [hm] at hdone; exact absurd hdone (by simp)
  | some m =>
    rw [hm] at hdone
    cases hp : peel m d2r nE n with
    | exited => simp [hp] at hdone
    | outOfFuel => simp [hp] at hdone
    | finished s =>
      simp only [hp] at hdone
      by_cases hsz : s.worksetSize ≠ nE
      · simp [hsz] at hdone
      · simp only [hsz, if_false, ColorOutcome.done.injEq] at hdone
        subst hdone
        refine ⟨m, s, rfl, hp, ?_, rfl, rfl, rfl⟩
        simpa [PeelState.worksetSize] using hsz

/-- C21. Non-permuted output of the coloring partitioner: when a completed
call was given no permutation array, one segment is appended per color, no
color is empty, and the segment of a color is the Range `[first, last+1)` if
the members of the color in workset order are consecutive ascending integers
(a single member counts) and otherwise the List of the members in workset order
with their original numbering; the traversal of the appended segments is the
workset, and the length of the index set grows by numEntity. -/
theorem plain_output (retVal : IndexSet) (d2r : List Nat) (nE n nER : Nat)
    (iep : Option (List Int)) (r : ColorResult) (hwf : WellFormed d2r nE n nER)
    (hdone : CreateLockFreeColorIndexset retVal d2r nE n nER none iep = ColorOutcome.done r) :
    ∃ m s colors emitted, inverseMap d2r nE n nER = some m
      ∧ peel m d2r nE n = PeelResult.finished s
      ∧ colors = sliceColors s.workset s.worksetDelim
      ∧ s.workset.length = nE
      ∧ r.retVal.m_segments = retVal.m_segments ++ emitted
      ∧ List.Forall₂ (fun seg col =>
          col ≠ []
          ∧ (IsAscendingRun col →
              seg = rangeSeg (rdN col 0 : Int) ((rdN col (col.length - 1) : Int) + 1))
          ∧ (¬ IsAscendingRun col → seg = listSeg (col.map Int.ofNat))
          ∧ forallSegment seg = col.map Int.ofNat
          ∧ seg.getLength = (col.length : Int)) emitted colors
      ∧ emitted.flatMap forallSegment = s.workset.map Int.ofNat
      ∧ r.retVal.getLength = retVal.getLength + (nE : Int) := by
  obtain ⟨m, s, hm, hp, hsz, hret, _, _⟩ := color_call_plain _ _ _ _ _ _ _ hdone
  have hok := inverseMap_ok _ _ _ _ hwf m hm
  obtain ⟨s1, hp1, hinv, _⟩ := peel_spec m d2r nE n hok
  rw [hp] at hp1
  injection hp1 with hp1
  subst hp1
  obtain ⟨_, _, _, hdle, _, _, hflat, _⟩ := hinv
  have hstrict := peel_delims_strict m d2r nE n hok s hp
  have hsegs := emitColorSegments_segments s.workset s.worksetDelim retVal
  have hall := colorSegments_forall₂ s.workset s.worksetDelim 0 hstrict hdle
  have hsum := forall₂_flatMap _ _ (hall.imp (fun _ _ h => ⟨h.2.2.2.1, h.2.2.2.2⟩))
  rw [show sliceColorsFrom s.workset 0 s.worksetDelim = sliceColors s.workset s.worksetDelim
    from rfl] at hall hsum
  rw [hflat] at hsum
  refine ⟨m, s, _, colorSegmentsFrom s.workset 0 s.worksetDelim, hm, hp, rfl, hsz, ?_, hall,
    hsum.1, ?_⟩
  · rw [hret, hsegs.1]
  · rw [hret]
    simp only [IndexSet.getLength]
    rw [hsegs.2, hsum.2, hsz]

theorem plain_output_witness :
    WellFormed cycleIncidence 6 2 6
    ∧ CreateLockFreeColorIndexset IndexSet.empty cycleIncidence 6 2 6 none none
        = ColorOutcome.done
            { retVal := (IndexSet.empty.addList [0, 2, 4] 3 IndexOwnership.Owned).addList
                          [1, 3, 5] 3 IndexOwnership.Owned,
              elemPermutation := none, ielemPermutation := none }
    ∧ ∃ (s : PeelState) (emitted : List Segment),
        ((IndexSet.empty.addList [0, 2, 4] 3 IndexOwnership.Owned).addList
            [1, 3, 5] 3 IndexOwnership.Owned).m_segments
          = IndexSet.empty.m_segments ++ emitted
        ∧ emitted.flatMap forallSegment = s.workset.map Int.ofNat
        ∧ ((IndexSet.empty.addList [0, 2, 4] 3 IndexOwnership.Owned).addList
            [1, 3, 5] 3 IndexOwnership.Owned).getLength
          = IndexSet.empty.getLength + ((6 : Nat) : Int) := by
  refine ⟨by unfold WellFormed; decide, by decide, ?_⟩
  obtain ⟨_, s, _, emitted, _, _, _, _, h5, _, h7, h8⟩ :=
    plain_output IndexSet.empty cycleIncidence 6 2 6 none
      { retVal := (IndexSet.empty.addList [0, 2, 4] 3 IndexOwnership.Owned).addList
                    [1, 3, 5] 3 IndexOwnership.Owned,
        elemPermutation := none, ielemPermutation := none }
      (by unfold WellFormed; decide) (by decide)
  exact ⟨s, emitted, h5, h7, h8⟩

/-! ## Graph-coloring partitioner: termination of the peeling loop -/

theorem strict_delims_length :
    ∀ (D : List Nat) (b N : Nat), List.Chain' (fun x y => x < y) (b :: D) →
      (∀ d ∈ D, d ≤ N) → b ≤ N → b + D.length ≤ N := by
  intro D
  induction D with
  | nil => intro b N _ _ hb; simpa using hb
  | cons d rest ih =>
    intro b N hch hle hb
    have hbd : b < d := (List.chain'_cons.1 hch).1
    have := ih d N (List.chain'_cons.1 hch).2 (fun x hx => hle x (by simp [hx]))
      (hle d (by simp))
    simp only [List.length_cons]
    omega

theorem colorRangesFrom_length :
    ∀ (D : List Nat) (b : Nat), (colorRangesFrom b D).length = D.length := by
  intro D
  induction D with
  | nil => intro b; rfl
  | cons d rest ih => intro b; simp [colorRangesFrom, ih]

theorem colorSegmentsFrom_length (ws : List Nat) :
    ∀ (D : List Nat) (b : Nat), (colorSegmentsFrom ws b D).length = D.length := by
  intro D
  induction D with
  | nil => intro b; rfl
  | cons d rest ih => intro b; simp [colorSegmentsFrom, ih]

/-- C25. The peeling loop terminates: for every incidence array that passes
the inverse-map check the loop ends after k <= numEntity + 1 scans; the state
before each of the k scans is not done, and every scan that does not end the
loop (leaves done false) appends to the workset at least one element that was
not in it; at most numEntity colors are delimited and every completed call
appends exactly that many segments; with numEntity = 0 there is no color and
the index set is returned as it was. -/
theorem peeling_terminates (retVal : IndexSet) (d2r : List Nat) (nE n nER : Nat) (m : InvMap)
    (hwf : WellFormed d2r nE n nER) (hm : inverseMap d2r nE n nER = some m) :
    ∃ k s, k ≤ nE + 1
      ∧ peelPasses m d2r nE n k (peelInit nE) = some s
      ∧ s.done = true
      ∧ peel m d2r nE n = PeelResult.finished s
      ∧ (∀ j, j < k → ∃ sj sj1, peelPasses m d2r nE n j (peelInit nE) = some sj
          ∧ sj.done = false
          ∧ peelPass m d2r nE n sj = some sj1
          ∧ (sj1.done = false → ∃ new, new ≠ [] ∧ sj1.workset = sj.workset ++ new
              ∧ ∀ w ∈ new, w ∉ sj.workset))
      ∧ s.worksetDelim.length ≤ nE
      ∧ (sliceColors s.workset s.worksetDelim).length = s.worksetDelim.length
      ∧ (∀ ep iep, ∃ r, CreateLockFreeColorIndexset retVal d2r nE n nER ep iep
            = ColorOutcome.done r
          ∧ r.retVal.m_segments.length = retVal.m_segments.length + s.worksetDelim.length)
      ∧ (nE = 0 → s.worksetDelim = []
          ∧ ∀ ep iep, ∃ r, CreateLockFreeColorIndexset retVal d2r nE n nER ep iep
              = ColorOutcome.done r ∧ r.retVal = retVal) := by
  have hok := inverseMap_ok _ _ _ _ hwf m hm
  obtain ⟨k, s, hloop, hpass, hd, _, hkb, htrace⟩ :=
    peelLoop_count m d2r nE n hok (nE + 2) (peelInit nE) (peelInv_init d2r nE n)
      (Or.inr (by simp [peelInit]))
  have hp : peel m d2r nE n = PeelResult.finished s := hloop
  obtain ⟨s1, hp1, hinv, _⟩ := peel_spec m d2r nE n hok
  rw [hp] at hp1
  injection hp1 with hp1
  subst hp1
  obtain ⟨_, hnd, hb, hdle, _, _, _, hall⟩ := hinv
  have hsize : s.worksetSize = nE := by
    have hperm : s.workset.Perm (List.range nE) := by
      rw [List.perm_ext_iff_of_nodup hnd (List.nodup_range nE)]
      intro a
      rw [List.mem_range]
      exact ⟨hb a, hall hd a⟩
    have := hperm.length_eq
    simpa [PeelState.worksetSize] using this
  have hstrict := peel_delims_strict m d2r nE n hok s hp
  have hDlen : s.worksetDelim.length ≤ nE := by
    have := strict_delims_length s.worksetDelim 0 nE hstrict
      (fun d hd' => by
        have := hdle d hd'
        simp only [PeelState.worksetSize] at hsize
        omega)
      (Nat.zero_le _)
    omega
  have hcall : ∀ ep iep, ∃ r, CreateLockFreeColorIndexset retVal d2r nE n nER ep iep
        = ColorOutcome.done r
      ∧ r.retVal.m_segments.length = retVal.m_segments.length + s.worksetDelim.length
      ∧ (s.worksetDelim = [] → r.retVal = retVal) := by
    intro ep iep
    unfold CreateLockFreeColorIndexset
    rw [hm]
    simp only [hp, hsize, ne_eq, not_true_eq_false, if_false]
    cases ep with
    | none =>
      refine ⟨_, rfl, ?_, ?_⟩
      · simp only
        rw [(emitColorSegments_segments _ _ _).1, List.length_append, colorSegmentsFrom_length]
      · intro h0
        simp [h0, emitColorSegments, forLoop]
    | some buf =>
      refine ⟨_, rfl, ?_, ?_⟩
      · simp only
        rw [emitColorRanges_segments, List.length_append, colorRangesFrom_length]
      · intro h0
        simp [h0, emitColorRanges, forLoop]
  refine ⟨k, s, by simp [peelInit] at hkb; omega, hpass, hd, hp, htrace, hDlen,
    sliceColorsFrom_length _ _ _, fun ep iep => ?_, ?_⟩
  · obtain ⟨r, h1, h2, _⟩ := hcall ep iep
    exact ⟨r, h1, h2⟩
  · intro h0
    have hD : s.worksetDelim = [] := by
      apply List.eq_nil_of_length_eq_zero
      omega
    refine ⟨hD, fun ep iep => ?_⟩
    obtain ⟨r, h1, _, h3⟩ := hcall ep iep
    exact ⟨r, h1, h3 hD⟩

theorem peeling_terminates_witness :
    WellFormed cycleIncidence 6 2 6 ∧ inverseMap cycleIncidence 6 2 6 = some cycleInvMap
    ∧ ∃ k s, k ≤ 6 + 1
        ∧ peelPasses cycleInvMap cycleIncidence 6 2 k (peelInit 6) = some s
        ∧ s.done = true
        ∧ peel cycleInvMap cycleIncidence 6 2 = PeelResult.finished s
        ∧ s.worksetDelim.length ≤ 6 := by
  refine ⟨by unfold WellFormed; decide, by decide, ?_⟩
  obtain ⟨k, s, h1, h2, h3, h4, _, h6, _⟩ :=
    peeling_terminates IndexSet.empty cycleIncidence 6 2 6 cycleInvMap
      (by unfold WellFormed; decide) (by decide)
  exact ⟨k, s, h1, h2, h3, h4, h6⟩

/-! ## Graph-coloring partitioner: maximality of the colors -/

/-- The inverse map lists a domain element under a range element only if the
element references it. -/
theorem inverseMap_sound (d2r : List Nat) (nE n nER : Nat) (hwf : WellFormed d2r nE n nER)
    (m : InvMap) (hm : inverseMap d2r nE n nER = some m) :
    ∀ id x, x ∈ domsOf m n id → id ∈ refsOf d2r n x := by
  intro id x hx
  obtain ⟨_, _, _, _, hdoms⟩ := inverseMap_exact d2r nE n nER hwf m hm
  rw [hdoms] at hx
  simp only [List.mem_map, List.mem_filter, List.mem_range, decide_eq_true_eq] at hx
  obtain ⟨q, ⟨hq, hqid⟩, rfl⟩ := hx
  have hn : 0 < n := by
    rcases Nat.eq_zero_or_pos n with h0 | h0
    · subst h0; simp at hq
    · exact h0
  simp only [refsOf, List.mem_map, List.mem_range]
  refine ⟨q % n, Nat.mod_lt _ hn, ?_⟩
  rw [show q / n * n + q % n = q by rw [Nat.mul_comm]; exact Nat.div_add_mod q n]
  exact hqid

/-- Every element outside the workset, and every member of a later color,
shares a range element with a smaller member of each color delimited so far. -/
theorem peel_maximal (m : InvMap) (d2r : List Nat) (nE n : Nat) (hok : InvOK m d2r nE n)
    (hex : ∀ id x, x ∈ domsOf m n id → id ∈ refsOf d2r n x)
    (s : PeelState) (h : peel m d2r nE n = PeelResult.finished s) :
    List.Pairwise (fun c1 c2 => ∀ x ∈ c2, ∃ y ∈ c1, y < x ∧ Conflict d2r n y x)
        (sliceColors s.workset s.worksetDelim)
    ∧ ∀ c ∈ sliceColors s.workset s.worksetDelim, ∀ x, x < nE → x ∉ s.workset →
        ∃ y ∈ c, y < x ∧ Conflict d2r n y x := by
  refine peelLoop_invariant m d2r nE n hok
    (fun s => List.Pairwise (fun c1 c2 => ∀ x ∈ c2, ∃ y ∈ c1, y < x ∧ Conflict d2r n y x)
        (sliceColors s.workset s.worksetDelim)
      ∧ ∀ c ∈ sliceColors s.workset s.worksetDelim, ∀ x, x < nE → x ∉ s.workset →
          ∃ y ∈ c, y < x ∧ Conflict d2r n y x) ?_ (nE + 2) (peelInit nE) s
    (peelInv_init d2r nE n) (by simp [peelInit, sliceColors, sliceColorsFrom]) h
  intro s0 s1 hinv hq hrun
  obtain ⟨hpw, hout⟩ := hq
  obtain ⟨new, hws, hdisj, hnil, hcons⟩ := peelPass_shape m d2r nE n hok s0 s1 hinv hrun
  obtain ⟨new2, hws2, hleft⟩ := peelPass_origin m d2r nE n hex s0 s1 hinv.1 hinv.2.2.1 hrun
  have hnn : new2 = new := by
    rw [hws] at hws2
    exact (List.append_cancel_left hws2).symm
  subst hnn
  by_cases hnew : new2 = []
  · have hw : s1.workset = s0.workset := by rw [hws, hnew, List.append_nil]
    rw [(hnil hnew).2, hw]
    exact ⟨hpw, hout⟩
  · rw [(hcons hnew).2.2]
    refine ⟨?_, ?_⟩
    · rw [List.pairwise_append]
      refine ⟨hpw, List.pairwise_singleton _ _, ?_⟩
      intro c1 hc1 c2 hc2 x hx
      rw [List.mem_singleton] at hc2
      subst hc2
      have hxb : x < nE := by
        have hb1 : ∀ w ∈ s1.workset, w < nE := by
          obtain ⟨s2, hr2, hinv2, _⟩ := peelInv_pass m d2r nE n hok s0 hinv
          rw [hrun] at hr2
          injection hr2 with hr2
          subst hr2
          exact hinv2.2.2.1
        exact hb1 x (by rw [hws]; exact List.mem_append_right _ hx)
      exact hout c1 hc1 x hxb (hdisj x hx)
    · intro c hc x hx hxn
      rw [List.mem_append, List.mem_singleton] at hc
      rcases hc with hc | hc
      · exact hout c hc x hx (fun hmem => hxn (by rw [hws]; exact List.mem_append_left _ hmem))
      · subst hc
        exact hleft x hx hxn

/-- C24. Colors are maximal: in the output of a completed call every domain
element assigned to color c shares at least one range element with some
(smaller) member of every earlier color c' < c; and color 0 contains domain
element 0 when numEntity >= 1. -/
theorem colors_maximal (retVal : IndexSet) (d2r : List Nat) (nE n nER : Nat)
    (ep iep : Option (List Int)) (r : ColorResult) (hwf : WellFormed d2r nE n nER)
    (hdone : CreateLockFreeColorIndexset retVal d2r nE n nER ep iep = ColorOutcome.done r) :
    ∃ m s colors, inverseMap d2r nE n nER = some m
      ∧ peel m d2r nE n = PeelResult.finished s
      ∧ colors = sliceColors s.workset s.worksetDelim
      ∧ colors.flatten = s.workset
      ∧ (∀ c1 c : Nat, c1 < c → c < colors.length → ∀ x ∈ colors.getD c [],
          ∃ y ∈ colors.getD c1 [], y < x ∧ ∃ j j1, j < n ∧ j1 < n
            ∧ rdN d2r (y * n + j) = rdN d2r (x * n + j1))
      ∧ (1 ≤ nE → 0 ∈ colors.getD 0 []) := by
  obtain ⟨m, s, hm, hp⟩ := color_call_stages _ _ _ _ _ _ _ _ hdone
  have hok := inverseMap_ok _ _ _ _ hwf m hm
  obtain ⟨s1, hp1, hinv, hd⟩ := peel_spec m d2r nE n hok
  rw [hp] at hp1
  injection hp1 with hp1
  subst hp1
  obtain ⟨hpw, _⟩ := peel_maximal m d2r nE n hok (inverseMap_sound d2r nE n nER hwf m hm) s hp
  obtain ⟨_, _, _, _, _, _, hflat, hall⟩ := hinv
  have hget : ∀ c1 c : Nat, c1 < c → c < (sliceColors s.workset s.worksetDelim).length →
      ∀ x ∈ (sliceColors s.workset s.worksetDelim).getD c [],
        ∃ y ∈ (sliceColors s.workset s.worksetDelim).getD c1 [], y < x ∧ Conflict d2r n y x := by
    intro c1 c hlt hc x hx
    have hc1 : c1 < (sliceColors s.workset s.worksetDelim).length := by omega
    rw [List.pairwise_iff_getElem] at hpw
    have := hpw c1 c hc1 hc hlt
    simp only [List.getD_eq_getElem?_getD, List.getElem?_eq_getElem hc,
      List.getElem?_eq_getElem hc1, Option.getD_some] at hx ⊢
    exact this x hx
  refine ⟨m, s, _, hm, hp, rfl, hflat, ?_, ?_⟩
  · intro c1 c hlt hc x hx
    obtain ⟨y, hy, hyx, id, h1, h2⟩ := hget c1 c hlt hc x hx
    simp only [refsOf, List.mem_map, List.mem_range] at h1 h2
    obtain ⟨j, hj, hj'⟩ := h1
    obtain ⟨j1, hj1, hj1'⟩ := h2
    exact ⟨y, hy, hyx, j, j1, hj, hj1, by rw [hj', hj1']⟩
  · intro hnE
    have h0 : 0 ∈ (sliceColors s.workset s.worksetDelim).flatten := by
      rw [hflat]; exact hall hd 0 (by omega)
    rw [List.mem_flatten] at h0
    obtain ⟨col, hcol, h0c⟩ := h0
    obtain ⟨c, hc, hcc⟩ := List.getElem_of_mem hcol
    cases c with
    | zero =>
      simp only [List.getD_eq_getElem?_getD, List.getElem?_eq_getElem hc, Option.getD_some]
      rw [hcc]; exact h0c
    | succ c =>
      have hx : 0 ∈ (sliceColors s.workset s.worksetDelim).getD (c + 1) [] := by
        simp only [List.getD_eq_getElem?_getD, List.getElem?_eq_getElem hc, Option.getD_some]
        rw [hcc]; exact h0c
      obtain ⟨y, _, hy0, _⟩ := hget 0 (c + 1) (by omega) hc 0 hx
      omega

theorem colors_maximal_witness :
    WellFormed cycleIncidence 6 2 6
    ∧ CreateLockFreeColorIndexset IndexSet.empty cycleIncidence 6 2 6 none none
        = ColorOutcome.done
            { retVal := (IndexSet.empty.addList [0, 2, 4] 3 IndexOwnership.Owned).addList
                          [1, 3, 5] 3 IndexOwnership.Owned,
              elemPermutation := none, ielemPermutation := none }
    ∧ ∃ (colors : List (List Nat)),
        (∀ c1 c : Nat, c1 < c → c < colors.length → ∀ x ∈ colors.getD c [],
          ∃ y ∈ colors.getD c1 [], y < x ∧ ∃ j j1, j < 2 ∧ j1 < 2
            ∧ rdN cycleIncidence (y * 2 + j) = rdN cycleIncidence (x * 2 + j1))
        ∧ (1 ≤ 6 → 0 ∈ colors.getD 0 []) := by
  refine ⟨by unfold WellFormed; decide, by decide, ?_⟩
  obtain ⟨_, _, colors, _, _, _, _, h5, h6⟩ :=
    colors_maximal IndexSet.empty cycleIncidence 6 2 6 none none
      { retVal := (IndexSet.empty.addList [0, 2, 4] 3 IndexOwnership.Owned).addList
                    [1, 3, 5] 3 IndexOwnership.Owned,
        elemPermutation := none, ielemPermutation := none }
      (by unfold WellFormed; decide) (by decide)
  exact ⟨colors, h5, h6⟩

/-! ## Thread-parallel segment loop over the 3-D dependency graph -/

theorem setSemaphoreValue_getElem? (s : IndexSet) (i v : Int) (j : Nat) :
    (s.setSemaphoreValue i v).m_segments[j]?
      = (s.m_segments[j]?).map (fun a => if j = i.toNat then a.withValue v else a) := by
  simp only [IndexSet.setSemaphoreValue, modifyAt_getElem?]
  rfl

theorem setSemaphoreValue_length (s : IndexSet) (i v : Int) :
    (s.setSemaphoreValue i v).m_segments.length = s.m_segments.length := by
  simp only [IndexSet.setSemaphoreValue, modifyAt_length]

theorem wired_fields (W j : Nat) (b e : Int) :
    (1 ≤ j ∧ j < W →
      (wiredSegment W W j (rangeSeg b e)).semaphore_reload = 1
      ∧ (wiredSegment W W j (rangeSeg b e)).num_semaphore_notify = 1
      ∧ rd (wiredSegment W W j (rangeSeg b e)).semaphore_notify 0 = (W : Int) + (j : Int) - 1)
    ∧ (W ≤ j ∧ j + 1 < W + W →
      (wiredSegment W W j (rangeSeg b e)).semaphore_reload = 1
      ∧ (wiredSegment W W j (rangeSeg b e)).num_semaphore_notify = 1
      ∧ rd (wiredSegment W W j (rangeSeg b e)).semaphore_notify 0 = (j : Int) - (W : Int) + 1)
    ∧ (¬ (1 ≤ j ∧ j < W) → ¬ (W ≤ j ∧ j + 1 < W + W) →
      (wiredSegment W W j (rangeSeg b e)).semaphore_reload = 0
      ∧ (wiredSegment W W j (rangeSeg b e)).num_semaphore_notify = 0) := by
  refine ⟨?_, ?_, ?_⟩
  · intro h
    rw [wired_low W W j _ h]
    simp [rangeSeg, Segment.ofRange, rd]
  · intro h
    rw [wired_high W W j _ (by omega) h]
    simp [rangeSeg, Segment.ofRange, rd]
  · intro h1 h2
    rw [wired_none W W j _ h1 h2]
    simp [rangeSeg, Segment.ofRange]

/-- An iteration whose segment has no reload value and no dependent task
leaves the index set as it is. -/
theorem segmentComplete_plain (iss : IndexSet) (x : Nat) (seg : Segment)
    (hx : iss.m_segments[x]? = some seg) (hr : seg.semaphore_reload = 0)
    (hn : seg.num_semaphore_notify = 0) : segmentComplete iss x = iss := by
  simp [segmentComplete, IndexSet.segmentSemaphoreReloadValue,
    IndexSet.segmentSemaphoreNumDepTasks, hx, hr, hn, forLoop]

/-- An iteration whose segment has reload value `R` and the one dependent
task `d`. -/
theorem segmentComplete_pair (iss : IndexSet) (x : Nat) (seg : Segment) (R d : Int)
    (hx : iss.m_segments[x]? = some seg) (hr : seg.semaphore_reload = R) (hR : R ≠ 0)
    (hn : seg.num_semaphore_notify = 1) (hd : rd seg.semaphore_notify 0 = d) :
    segmentComplete iss x
      = (iss.setSemaphoreValue (x : Int) R).setSemaphoreValue d
          (((iss.setSemaphoreValue (x : Int) R).segmentSemaphoreValue d.toNat).getD 0 - 1) := by
  have h1 : (iss.setSemaphoreValue (x : Int) R).m_segments[x]? = some (seg.withValue R) := by
    rw [setSemaphoreValue_getElem?, hx]
    simp
  simp only [segmentComplete, IndexSet.segmentSemaphoreReloadValue, hx, Option.map_some',
    Option.getD_some, hr, ne_eq, hR, not_false_eq_true, if_true,
    IndexSet.segmentSemaphoreNumDepTasks, h1, Segment.withValue, hn]
  simp only [show (1 : Int).toNat = 1 from rfl, forLoop, IndexSet.segmentSemaphoreDepTask, h1,
    Option.map_some', Option.getD_some, Segment.withValue, hd]

theorem passValue_other (W : Nat) (ran : List Nat) (x j : Nat) (hjx : j ≠ x)
    (h1 : 1 ≤ j ∧ j < W → W + j - 1 ≠ x) (h2 : W ≤ j ∧ j + 1 < W + W → j - W + 1 ≠ x) :
    passValue W (x :: ran) j = passValue W ran j := by
  unfold passValue
  by_cases hl : 1 ≤ j ∧ j < W
  · have hp := h1 hl
    simp only [hl, and_self, if_true, List.mem_cons, hjx, hp, false_or]
  · by_cases hh : W ≤ j ∧ j + 1 < W + W
    · have hp := h2 hh
      simp only [hl, hh, and_self, if_true, if_false, List.mem_cons, hjx, hp, false_or]
    · simp only [hl, hh, if_false]

theorem passValue_low_run (W : Nat) (ran : List Nat) (x : Nat) (hl : 1 ≤ x ∧ x < W)
    (hx : x ∉ ran) (hord : W + x - 1 ∈ ran → x ∈ ran) :
    passValue W ran x = 0
    ∧ passValue W (x :: ran) x = 1
    ∧ passValue W ran (W + x - 1) = 1
    ∧ passValue W (x :: ran) (W + x - 1) = 0 := by
  have hp : W + x - 1 ∉ ran := fun h => hx (hord h)
  have hne : W + x - 1 ≠ x := by omega
  have hnl : ¬ (1 ≤ W + x - 1 ∧ W + x - 1 < W) := by omega
  have hh : W ≤ W + x - 1 ∧ W + x - 1 + 1 < W + W := by omega
  have hi : W + x - 1 - W + 1 = x := by omega
  refine ⟨?_, ?_, ?_, ?_⟩
  · simp [passValue, hl, hx]
  · simp [passValue, hl, hp, hne]
  · simp [passValue, hnl, hh, hi, hx]
  · simp [passValue, hnl, hh, hi, hp, hne]

theorem passValue_high_run (W : Nat) (ran : List Nat) (x : Nat)
    (hh : W ≤ x ∧ x + 1 < W + W) (hx : x ∉ ran) (hready : passValue W ran x = 0) :
    x - W + 1 ∈ ran
    ∧ passValue W (x :: ran) x = 1
    ∧ passValue W ran (x - W + 1) = 1
    ∧ passValue W (x :: ran) (x - W + 1) = 0 := by
  have hnl : ¬ (1 ≤ x ∧ x < W) := by omega
  have hi : x - W + 1 ∈ ran := by
    by_contra hcon
    simp [passValue, hnl, hh, hx, hcon] at hready
  have hil : 1 ≤ x - W + 1 ∧ x - W + 1 < W := by omega
  have hp : W + (x - W + 1) - 1 = x := by omega
  have hne : x - W + 1 ≠ x := by omega
  refine ⟨hi, ?_, ?_, ?_⟩
  · simp [passValue, hnl, hh]
  · simp [passValue, hil, hp, hi, hx]
  · simp [passValue, hil, hp, hi]

/-- One iteration keeps the invariant of the pass. -/
theorem passInv_step (W : Nat) (st st1 : PassState) (x : Nat) (hinv : PassInv W st)
    (hrun : runSegment st x = some st1) :
    PassInv W st1 ∧ st1.ran = x :: st.ran ∧ x < 2 * W ∧ x ∉ st.ran
      ∧ passValue W st.ran x = 0 := by
  obtain ⟨hlen, hord, hsegs⟩ := hinv
  simp only [runSegment] at hrun
  split_ifs at hrun with hc
  obtain ⟨hxl, hxn, hready⟩ := hc
  injection hrun with hrun
  subst hrun
  rw [hlen] at hxl
  obtain ⟨b, e, hxseg⟩ := hsegs x hxl
  have hpv : passValue W st.ran x = 0 := by
    simp only [segmentReady, IndexSet.segmentSemaphoreValue, hxseg, Option.map_some',
      decide_eq_true_eq, Option.some.injEq, Segment.withValue] at hready
    exact hready
  obtain ⟨hfl, hfh, hfp⟩ := wired_fields W x b e
  refine ⟨?_, rfl, hxl, hxn, hpv⟩
  by_cases hl : 1 ≤ x ∧ x < W
  · obtain ⟨hr, hn, hd⟩ := hfl hl
    obtain ⟨_, hv1, hv2, hv3⟩ := passValue_low_run W st.ran x hl hxn (hord x hl.1 hl.2)
    have hdn : ((W : Int) + (x : Int) - 1).toNat = W + x - 1 := by omega
    have hcomp := segmentComplete_pair st.iset x _ 1 ((W : Int) + (x : Int) - 1) hxseg hr
      (by decide) hn hd
    obtain ⟨b2, e2, hpseg⟩ := hsegs (W + x - 1) (by omega)
    have hval : ((st.iset.setSemaphoreValue (x : Int) 1).segmentSemaphoreValue
        (W + x - 1)).getD 0 = 1 := by
      simp only [IndexSet.segmentSemaphoreValue, setSemaphoreValue_getElem?, hpseg,
        Option.map_some', Int.toNat_ofNat, show ¬ W + x - 1 = x by omega, if_false,
        Segment.withValue, Option.getD_some, hv2]
    simp only at hcomp ⊢
    rw [hdn, hval] at hcomp
    refine ⟨?_, ?_, ?_⟩
    · rw [hcomp, setSemaphoreValue_length, setSemaphoreValue_length, hlen]
    · intro i hi1 hi2 hmem
      simp only [List.mem_cons] at hmem ⊢
      rcases hmem with hmem | hmem
      · omega
      · exact Or.inr (hord i hi1 hi2 hmem)
    · intro j hj
      obtain ⟨bj, ej, hjseg⟩ := hsegs j hj
      refine ⟨bj, ej, ?_⟩
      rw [hcomp, setSemaphoreValue_getElem?, setSemaphoreValue_getElem?, hjseg, hdn]
      simp only [Option.map_some', Int.toNat_ofNat, Option.some.injEq]
      by_cases hjx : j = x
      · subst hjx
        simp only [show ¬ j = W + j - 1 by omega, if_false, if_true, hv1]
        rfl
      · by_cases hjp : j = W + x - 1
        · subst hjp
          simp only [hjx, if_false, if_true, hv3]
          rfl
        · simp only [hjx, hjp, if_false]
          rw [passValue_other W st.ran x j hjx (by omega) (by omega)]
  · by_cases hh : W ≤ x ∧ x + 1 < W + W
    · obtain ⟨hr, hn, hd⟩ := hfh hh
      obtain ⟨hi, hv1, hv2, hv3⟩ := passValue_high_run W st.ran x hh hxn hpv
      have hdn : ((x : Int) - (W : Int) + 1).toNat = x - W + 1 := by omega
      have hcomp := segmentComplete_pair st.iset x _ 1 ((x : Int) - (W : Int) + 1) hxseg hr
        (by decide) hn hd
      obtain ⟨b2, e2, hpseg⟩ := hsegs (x - W + 1) (by omega)
      have hval : ((st.iset.setSemaphoreValue (x : Int) 1).segmentSemaphoreValue
          (x - W + 1)).getD 0 = 1 := by
        simp only [IndexSet.segmentSemaphoreValue, setSemaphoreValue_getElem?, hpseg,
          Option.map_some', Int.toNat_ofNat, show ¬ x - W + 1 = x by omega, if_false,
          Segment.withValue, Option.getD_some, hv2]
      simp only at hcomp ⊢
      rw [hdn, hval] at hcomp
      refine ⟨?_, ?_, ?_⟩
      · rw [hcomp, setSemaphoreValue_length, setSemaphoreValue_length, hlen]
      · intro i hi1 hi2 hmem
        simp only [List.mem_cons] at hmem ⊢
        rcases hmem with hmem | hmem
        · have : i = x - W + 1 := by omega
          subst this
          exact Or.inr hi
        · exact Or.inr (hord i hi1 hi2 hmem)
      · intro j hj
        obtain ⟨bj, ej, hjseg⟩ := hsegs j hj
        refine ⟨bj, ej, ?_⟩
        rw [hcomp, setSemaphoreValue_getElem?, setSemaphoreValue_getElem?, hjseg, hdn]
        simp only [Option.map_some', Int.toNat_ofNat, Option.some.injEq]
        by_cases hjx : j = x
        · subst hjx
          simp only [show ¬ j = j - W + 1 by omega, if_false, if_true, hv1]
          rfl
        · by_cases hjp : j = x - W + 1
          · subst hjp
            simp only [hjx, if_false, if_true, hv3]
            rfl
          · simp only [hjx, hjp, if_false]
            rw [passValue_other W st.ran x j hjx (by omega) (by omega)]
    · obtain ⟨hr, hn⟩ := hfp hl hh
      have hcomp := segmentComplete_plain st.iset x _ hxseg hr hn
      simp only at hcomp ⊢
      refine ⟨by rw [hcomp]; exact hlen, ?_, ?_⟩
      · intro i hi1 hi2 hmem
        simp only [List.mem_cons] at hmem ⊢
        rcases hmem with hmem | hmem
        · omega
        · exact Or.inr (hord i hi1 hi2 hmem)
      · intro j hj
        obtain ⟨bj, ej, hjseg⟩ := hsegs j hj
        refine ⟨bj, ej, ?_⟩
        rw [hcomp, hjseg]
        by_cases hjx : j = x
        · subst hjx
          have : passValue W (j :: st.ran) j = 0 := by simp [passValue, hl, hh]
          rw [this, hpv]
        · rw [passValue_other W st.ran x j hjx (by omega) (by omega)]

theorem passValue_nil (W j : Nat) (b e : Int) :
    (wiredSegment W W j (rangeSeg b e)).withValue (passValue W [] j)
      = wiredSegment W W j (rangeSeg b e) := by
  by_cases hl : 1 ≤ j ∧ j < W
  · rw [wired_low W W j _ hl]
    simp [passValue, hl, Segment.withValue, rangeSeg, Segment.ofRange]
  · by_cases hh : W ≤ j ∧ j + 1 < W + W
    · rw [wired_high W W j _ (by omega) hh]
      simp [passValue, hl, hh, Segment.withValue]
    · rw [wired_none W W j _ (by omega) hh]
      simp [passValue, hl, hh, Segment.withValue, rangeSeg, Segment.ofRange]

theorem passValue_full (W : Nat) (ran : List Nat) (j : Nat) (hj : j < 2 * W)
    (hall : ∀ i, i < 2 * W → i ∈ ran) : passValue W ran j = passValue W [] j := by
  by_cases hl : 1 ≤ j ∧ j < W
  · have hp := hall (W + j - 1) (by omega)
    simp [passValue, hl, hp]
  · by_cases hh : W ≤ j ∧ j + 1 < W + W
    · have hp := hall j hj
      simp [passValue, hl, hh, hp]
    · simp [passValue, hl, hh]

/-- The index set of a completed 3-D call satisfies the invariant at the start
of a pass. -/
theorem passInv_start (W : Nat) (fastDim midDim slowDim : Int) (rv : IndexSet)
    (hW : 1 ≤ W) (hm : 0 ≤ midDim) (hs : 0 < slowDim)
    (hdone : CreateLockFreeBlockIndexset (W : Int) IndexSet.empty fastDim midDim slowDim
      = Outcome.done rv) :
    PassInv W { iset := rv, ran := [] } := by
  obtain ⟨hlen, hget⟩ := block3D_result W fastDim midDim slowDim rv hW hm hs hdone
  refine ⟨hlen, fun i _ _ h => by simp at h, ?_⟩
  intro j hj
  obtain ⟨b, e, hseg⟩ := hget j hj
  exact ⟨b, e, by rw [passValue_nil]; exact hseg⟩

/-- Once every iteration has completed the segments are those at the start of
the pass. -/
theorem passInv_restart (W : Nat) (st : PassState) (hinv : PassInv W st)
    (hall : ∀ i, i < 2 * W → i ∈ st.ran) :
    PassInv W { iset := st.iset, ran := [] } := by
  obtain ⟨hlen, _, hsegs⟩ := hinv
  refine ⟨hlen, fun i _ _ h => by simp at h, ?_⟩
  intro j hj
  obtain ⟨b, e, hseg⟩ := hsegs j hj
  exact ⟨b, e, by rw [hseg, passValue_full W st.ran j hj hall]⟩

theorem runOrder_inv (W : Nat) :
    ∀ (order : List Nat) (st st1 : PassState), PassInv W st →
      runOrder order st = some st1 →
      PassInv W st1 ∧ st1.ran = order.reverse ++ st.ran := by
  intro order
  induction order with
  | nil =>
    intro st st1 hinv h
    simp only [runOrder, Option.some.injEq] at h
    subst h
    exact ⟨hinv, by simp⟩
  | cons x rest ih =>
    intro st st1 hinv h
    simp only [runOrder] at h
    cases hx : runSegment st x with
    | none => simp [hx] at h
    | some st2 =>
      rw [hx, Option.some_bind] at h
      obtain ⟨hinv2, hran2, _⟩ := passInv_step W st st2 x hinv hx
      obtain ⟨hinv1, hran1⟩ := ih st2 st1 hinv2 h
      exact ⟨hinv1, by rw [hran1, hran2]; simp⟩

theorem segmentComplete_len (iss : IndexSet) (x : Nat) :
    (segmentComplete iss x).m_len = iss.m_len := by
  simp only [segmentComplete]
  apply forLoop_preserves _ (fun (s : IndexSet) => s.m_len = iss.m_len)
  · intro i s hs
    simpa [IndexSet.setSemaphoreValue] using hs
  · split_ifs
    · rfl
    · simp [IndexSet.setSemaphoreValue]

theorem runOrder_len :
    ∀ (order : List Nat) (st st1 : PassState), runOrder order st = some st1 →
      st1.iset.m_len = st.iset.m_len := by
  intro order
  induction order with
  | nil =>
    intro st st1 h
    simp only [runOrder, Option.some.injEq] at h
    subst h
    rfl
  | cons x rest ih =>
    intro st st1 h
    simp only [runOrder] at h
    cases hx : runSegment st x with
    | none => simp [hx] at h
    | some st2 =>
      rw [hx, Option.some_bind] at h
      rw [ih st2 st1 h]
      simp only [runSegment] at hx
      split_ifs at hx
      injection hx with hx
      subst hx
      exact segmentComplete_len _ _

theorem segmentComplete_shape (iss : IndexSet) (x : Nat) :
    (segmentComplete iss x).m_segments.map Segment.shape = iss.m_segments.map Segment.shape := by
  simp only [segmentComplete]
  rw [forLoop_shape _ (fun i s => (setters_shape s _ _ 0).1)]
  split_ifs
  · exact (setters_shape iss _ _ 0).1
  · rfl

theorem runOrder_shape :
    ∀ (order : List Nat) (st st1 : PassState), runOrder order st = some st1 →
      st1.iset.m_segments.map Segment.shape = st.iset.m_segments.map Segment.shape := by
  intro order
  induction order with
  | nil =>
    intro st st1 h
    simp only [runOrder, Option.some.injEq] at h
    subst h
    rfl
  | cons x rest ih =>
    intro st st1 h
    simp only [runOrder] at h
    cases hx : runSegment st x with
    | none => simp [hx] at h
    | some st2 =>
      rw [hx, Option.some_bind] at h
      rw [ih st2 st1 h]
      simp only [runSegment] at hx
      split_ifs at hx
      injection hx with hx
      subst hx
      exact segmentComplete_shape _ _

theorem wired_shape (W j : Nat) (b e v : Int) :
    ((wiredSegment W W j (rangeSeg b e)).withValue v).shape
      = (SegmentType._Range_, ISetPtr.range { m_begin := b, m_end := e }) := by
  by_cases hl : 1 ≤ j ∧ j < W
  · rw [wired_low W W j _ hl]
    simp [Segment.withValue, Segment.shape, rangeSeg, Segment.ofRange]
  · by_cases hh : W ≤ j ∧ j + 1 < W + W
    · rw [wired_high W W j _ (by omega) hh]
      simp [Segment.withValue, Segment.shape, rangeSeg, Segment.ofRange]
    · rw [wired_none W W j _ (by omega) hh]
      simp [Segment.withValue, Segment.shape, rangeSeg, Segment.ofRange]

/-- The iterations can run in the order 0, 1, ..., 2W-1. -/
theorem runOrder_ascending (W : Nat) :
    ∀ (n k : Nat) (st : PassState), PassInv W st → (∀ j, j ∈ st.ran ↔ j < k) →
      k + n = 2 * W → ∃ st1, runOrder (List.range' k n) st = some st1 := by
  intro n
  induction n with
  | zero => intro k st _ _ _; exact ⟨st, rfl⟩
  | succ n ih =>
    intro k st hinv hran hk
    obtain ⟨hlen, hord, hsegs⟩ := hinv
    obtain ⟨b, e, hseg⟩ := hsegs k (by omega)
    have hkn : k ∉ st.ran := by rw [hran]; omega
    have hpv : passValue W st.ran k = 0 := by
      by_cases hl : 1 ≤ k ∧ k < W
      · simp [passValue, hl, hkn]
      · by_cases hh : W ≤ k ∧ k + 1 < W + W
        · have hi : k - W + 1 ∈ st.ran := by rw [hran]; omega
          simp [passValue, hl, hh, hkn, hi]
        · simp [passValue, hl, hh]
    have hready : segmentReady st.iset k = true := by
      simp [segmentReady, IndexSet.segmentSemaphoreValue, hseg, Segment.withValue, hpv]
    have hrun : runSegment st k
        = some { iset := segmentComplete st.iset k, ran := k :: st.ran } := by
      simp only [runSegment]
      rw [if_pos ⟨by omega, hkn, hready⟩]
    obtain ⟨hinv2, _⟩ := passInv_step W st _ k ⟨hlen, hord, hsegs⟩ hrun
    obtain ⟨st1, h1⟩ := ih (k + 1) _ hinv2 (fun j => by
      simp only [List.mem_cons, hran]
      omega) (by omega)
    exact ⟨st1, by simp only [List.range'_succ, runOrder, hrun, Option.some_bind]; exact h1⟩

/-- C23. Semaphores are restored by a full pass: for the index set of a
completed 3-D call with W >= 1 workers (on an empty index set), the iterations
of the thread-parallel segment loop can run in the order 0, 1, ..., 2W-1, and
whenever all 2W iterations have run once each, in any order in which each one
finds its semaphore at 0 when it runs, the index set is again the one the pass
started from: every segment's semaphore has its initial value. -/
theorem semaphores_restored (W : Nat) (fastDim midDim slowDim : Int) (rv : IndexSet)
    (hW : 1 ≤ W) (hm : 0 ≤ midDim) (hs : 0 < slowDim)
    (hdone : CreateLockFreeBlockIndexset (W : Int) IndexSet.empty fastDim midDim slowDim
      = Outcome.done rv) :
    (∃ st1, runOrder (List.range (2 * W)) { iset := rv, ran := [] } = some st1)
    ∧ ∀ (order : List Nat) (st1 : PassState), order.Perm (List.range (2 * W)) →
        runOrder order { iset := rv, ran := [] } = some st1 →
        st1.iset = rv
        ∧ ∀ j, st1.iset.segmentSemaphoreValue j = rv.segmentSemaphoreValue j := by
  have hstart := passInv_start W fastDim midDim slowDim rv hW hm hs hdone
  refine ⟨?_, ?_⟩
  · have h := runOrder_ascending W (2 * W) 0 _ hstart (fun j => by simp) (by omega)
    rw [List.range_eq_range']
    exact h
  · intro order st1 hperm hrun
    obtain ⟨hinv1, hran1⟩ := runOrder_inv W order _ st1 hstart hrun
    have hlen1 := runOrder_len order _ st1 hrun
    simp only [List.append_nil] at hran1
    have hall : ∀ i, i < 2 * W → i ∈ st1.ran := by
      intro i hi
      rw [hran1, List.mem_reverse, hperm.mem_iff, List.mem_range]
      exact hi
    have hrestart := passInv_restart W st1 hinv1 hall
    have hsegs : st1.iset.m_segments = rv.m_segments := by
      apply List.ext_getElem?
      intro j
      by_cases hj : j < 2 * W
      · obtain ⟨b2, e2, h2⟩ := hstart.2.2 j hj
        simp only at h2
        obtain ⟨b3, e3, h3⟩ := hinv1.2.2 j hj
        rw [passValue_full W st1.ran j hj hall] at h3
        have hshape := runOrder_shape order _ st1 hrun
        have hsj := congrArg (fun l => l[j]?) hshape
        simp only [List.getElem?_map, h3, h2, Option.map_some', wired_shape,
          Option.some.injEq, Prod.mk.injEq, ISetPtr.range.injEq, RangeISet.mk.injEq,
          true_and] at hsj
        rw [h3, h2, hsj.1, hsj.2]
      · rw [List.getElem?_eq_none (by rw [hinv1.1]; omega),
          List.getElem?_eq_none (by rw [hstart.1]; omega)]
    have heq : st1.iset = rv := by
      cases hst : st1.iset with
      | mk l segs =>
        cases hrv : rv with
        | mk l2 segs2 =>
          rw [hst] at hsegs hlen1
          rw [hrv] at hsegs
          simp only [hrv] at hlen1
          simp only at hsegs hlen1
          rw [hsegs, hlen1]
    exact ⟨heq, fun j => by rw [heq]⟩

theorem semaphores_restored_witness :
    1 ≤ 2 ∧ (0 : Int) ≤ 1 ∧ (0 : Int) < 4
    ∧ CreateLockFreeBlockIndexset ((2 : Nat) : Int) IndexSet.empty 1 1 4
        = Outcome.done (blockDependencies 2 (blockLanes3D 2 1 1 4 IndexSet.empty))
    ∧ [1, 0, 2, 3].Perm (List.range (2 * 2))
    ∧ runOrder [1, 0, 2, 3]
        { iset := blockDependencies 2 (blockLanes3D 2 1 1 4 IndexSet.empty), ran := [] }
        = some { iset := blockDependencies 2 (blockLanes3D 2 1 1 4 IndexSet.empty),
                 ran := [3, 2, 0, 1] }
    ∧ ∀ j, (blockDependencies 2 (blockLanes3D 2 1 1 4 IndexSet.empty)).segmentSemaphoreValue j
        = (blockDependencies 2 (blockLanes3D 2 1 1 4 IndexSet.empty)).segmentSemaphoreValue j :=
  ⟨by decide, by decide, by decide, by decide, by decide, by decide,
    ((semaphores_restored 2 1 1 4 (blockDependencies 2 (blockLanes3D 2 1 1 4 IndexSet.empty))
      (by decide) (by decide) (by decide) (by decide)).2 [1, 0, 2, 3]
      { iset := blockDependencies 2 (blockLanes3D 2 1 1 4 IndexSet.empty),
        ran := [3, 2, 0, 1] } (by decide) (by decide)).2⟩

/-! ## No deadlock under the round-robin schedule -/

theorem workerNext_cases (W : Nat) (ran : List Nat) (w isi : Nat)
    (h : workerNext W ran w = some isi) :
    (isi = w ∧ w ∉ ran) ∨ (isi = W + w ∧ w ∈ ran ∧ W + w ∉ ran) := by
  simp only [workerNext] at h
  by_cases h1 : w ∉ ran
  · rw [if_pos h1] at h
    left
    exact ⟨by injection h with h; exact h.symm, h1⟩
  · rw [if_neg h1] at h
    by_cases h2 : W + w ∉ ran
    · rw [if_pos h2] at h
      right
      exact ⟨by injection h with h; exact h.symm, by simpa using h1, h2⟩
    · rw [if_neg h2] at h
      exact absurd h (by simp)

theorem workerNext_none (W : Nat) (ran : List Nat) (w : Nat)
    (h : workerNext W ran w = none) : w ∈ ran ∧ W + w ∈ ran := by
  simp only [workerNext] at h
  by_cases h1 : w ∉ ran
  · rw [if_pos h1] at h
    exact absurd h (by simp)
  · rw [if_neg h1] at h
    by_cases h2 : W + w ∉ ran
    · rw [if_pos h2] at h
      exact absurd h (by simp)
    · exact ⟨by simpa using h1, by simpa using h2⟩

/-- Every state the workers reach satisfies the invariant of the pass, and
iteration `W + w` has completed only after iteration `w`. -/
theorem reachable_inv (W : Nat) (rv : IndexSet)
    (hstart : PassInv W { iset := rv, ran := [] }) :
    ∀ st, ScheduleReachable W rv st →
      PassInv W st ∧ ∀ w, w < W → W + w ∈ st.ran → w ∈ st.ran := by
  intro st hreach
  induction hreach with
  | start => exact ⟨hstart, fun w _ h => by simp at h⟩
  | step st0 st1 w isi _ hw hnext hrun ih =>
    obtain ⟨hinv, hrr⟩ := ih
    obtain ⟨hinv1, hran1, _, _, _⟩ := passInv_step W st0 st1 isi hinv hrun
    refine ⟨hinv1, ?_⟩
    intro w1 hw1 hmem
    rw [hran1] at hmem ⊢
    simp only [List.mem_cons] at hmem ⊢
    rcases hmem with hmem | hmem
    · rcases workerNext_cases W st0.ran w isi hnext with ⟨h1, _⟩ | ⟨h1, h2, _⟩
      · omega
      · have : w1 = w := by omega
        subst this
        exact Or.inr h2
    · exact Or.inr (hrr w1 hw1 hmem)
  | nextPass st0 _ hnone ih =>
    obtain ⟨hinv, _⟩ := ih
    refine ⟨passInv_restart W st0 hinv ?_, fun w _ h => by simp at h⟩
    intro i hi
    by_cases hiw : i < W
    · exact (workerNext_none W st0.ran i (hnone i hiw)).1
    · have h2 := (workerNext_none W st0.ran (i - W) (hnone (i - W) (by omega))).2
      rw [show W + (i - W) = i by omega] at h2
      exact h2

/-- C27. No deadlock under the assumed schedule: for the index set of a
completed 3-D call with W >= 1 workers, in every state the workers can reach
under the round-robin assignment (worker w runs iteration w and then iteration
W + w, each only when its semaphore is 0; when all are through, the next pass
starts on the index set as it is), if some iteration has not run in the
current pass then some worker's next iteration has semaphore 0 and can run; and
when every iteration has run, every worker is through, so the next pass starts. -/
theorem no_deadlock (W : Nat) (fastDim midDim slowDim : Int) (rv : IndexSet)
    (hW : 1 ≤ W) (hm : 0 ≤ midDim) (hs : 0 < slowDim)
    (hdone : CreateLockFreeBlockIndexset (W : Int) IndexSet.empty fastDim midDim slowDim
      = Outcome.done rv)
    (st : PassState) (hreach : ScheduleReachable W rv st) :
    ((∃ j, j < 2 * W ∧ j ∉ st.ran) →
      ∃ w isi st1, w < W ∧ workerNext W st.ran w = some isi
        ∧ st.iset.segmentSemaphoreValue isi = some 0
        ∧ runSegment st isi = some st1 ∧ ScheduleReachable W rv st1)
    ∧ ((∀ j, j < 2 * W → j ∈ st.ran) →
      (∀ w, w < W → workerNext W st.ran w = none)
      ∧ ScheduleReachable W rv { iset := st.iset, ran := [] }) := by
  have hstart := passInv_start W fastDim midDim slowDim rv hW hm hs hdone
  obtain ⟨⟨hlen, hord, hsegs⟩, hrr⟩ := reachable_inv W rv hstart st hreach
  have hgo : ∀ w isi, w < W → isi < 2 * W → workerNext W st.ran w = some isi →
      isi ∉ st.ran → passValue W st.ran isi = 0 →
      ∃ w isi st1, w < W ∧ workerNext W st.ran w = some isi
        ∧ st.iset.segmentSemaphoreValue isi = some 0
        ∧ runSegment st isi = some st1 ∧ ScheduleReachable W rv st1 := by
    intro w isi hw hisi hnext hnot hpv
    obtain ⟨b, e, hseg⟩ := hsegs isi hisi
    have hval : st.iset.segmentSemaphoreValue isi = some 0 := by
      simp [IndexSet.segmentSemaphoreValue, hseg, Segment.withValue, hpv]
    have hrun : runSegment st isi
        = some { iset := segmentComplete st.iset isi, ran := isi :: st.ran } := by
      simp only [runSegment]
      rw [if_pos ⟨by omega, hnot, by simp [segmentReady, hval]⟩]
    exact ⟨w, isi, _, hw, hnext, hval, hrun,
      ScheduleReachable.step st _ w isi hreach hw hnext hrun⟩
  refine ⟨?_, ?_⟩
  · rintro ⟨j, hj, hjn⟩
    by_cases hfirst : ∃ w, w < W ∧ w ∉ st.ran
    · obtain ⟨w, hw, hwn⟩ := hfirst
      refine hgo w w hw (by omega) (by simp [workerNext, hwn]) hwn ?_
      by_cases hl : 1 ≤ w ∧ w < W
      · simp [passValue, hl, hwn]
      · have hh : ¬ (W ≤ w ∧ w + 1 < W + W) := by omega
        simp [passValue, hl, hh]
    · push_neg at hfirst
      have hjW : W ≤ j := by
        by_contra hcon
        exact hjn (hfirst j (by omega))
      have hw : j - W < W := by omega
      have hwj : W + (j - W) = j := by omega
      refine hgo (j - W) j hw hj ?_ hjn ?_
      · simp [workerNext, hfirst (j - W) hw, hwj, hjn]
      · have hl : ¬ (1 ≤ j ∧ j < W) := by omega
        by_cases hh : W ≤ j ∧ j + 1 < W + W
        · have hi : j - W + 1 ∈ st.ran := hfirst (j - W + 1) (by omega)
          simp [passValue, hl, hh, hjn, hi]
        · simp [passValue, hl, hh]
  · intro hall
    have hnone : ∀ w, w < W → workerNext W st.ran w = none := by
      intro w hw
      simp [workerNext, hall w (by omega), hall (W + w) (by omega)]
    exact ⟨hnone, ScheduleReachable.nextPass st hreach hnone⟩

theorem no_deadlock_witness :
    1 ≤ 2 ∧ (0 : Int) ≤ 1 ∧ (0 : Int) < 4
    ∧ CreateLockFreeBlockIndexset ((2 : Nat) : Int) IndexSet.empty 1 1 4
        = Outcome.done (blockDependencies 2 (blockLanes3D 2 1 1 4 IndexSet.empty))
    ∧ ((∃ j, j < 2 * 2 ∧ j ∉ ([] : List Nat)) →
        ∃ w isi st1, w < 2 ∧ workerNext 2 [] w = some isi
          ∧ (blockDependencies 2 (blockLanes3D 2 1 1 4 IndexSet.empty)).segmentSemaphoreValue isi
              = some 0
          ∧ runSegment
              { iset := blockDependencies 2 (blockLanes3D 2 1 1 4 IndexSet.empty), ran := [] }
              isi = some st1
          ∧ ScheduleReachable 2 (blockDependencies 2 (blockLanes3D 2 1 1 4 IndexSet.empty))
              st1) :=
  ⟨by decide, by decide, by decide, by decide,
    (no_deadlock 2 1 1 4 (blockDependencies 2 (blockLanes3D 2 1 1 4 IndexSet.empty))
      (by decide) (by decide) (by decide) (by decide)
      { iset := blockDependencies 2 (blockLanes3D 2 1 1 4 IndexSet.empty), ran := [] }
      ScheduleReachable.start).1⟩

end RAJA
